import Mathlib

/-!
# LL(1) analysis of `cpp-syntax-analyzer`

A shallow embedding of `src/src/BaseType.h` and `src/src/LL1Analyzer.cpp`, and of the
function `StreamToFile` of `src/tool/CppSyntaxAnalyzer.cpp`.

* A `SymbolPtr` is the address of a `Symbol` object; the objects themselves live in the
  memory `SymbolTable.mem`, which the symbol table owns.
* A `SymbolSet` (`std::set<SymbolPtr>`) is the strictly increasing list of its elements,
  which is also the order in which the C++ code iterates over it.
* The three `do { ... } while (hasChange)` loops are run by `doWhile`, which takes the
  number of passes it may make; it answers `none` when that number is used up.  The
  analyzer supplies a number computed from the grammar, and `parse_terminates` shows that
  it is never used up.
* The first inner loop of `buildFollowSet` forms `end() - 1` on the right-hand side of a
  production, which is undefined when that right-hand side has no symbol.
  `buildFollowSetForward` and the functions built on it (`buildFollowSet`, `analyze`,
  `parse`) give the state unchanged in that case; `buildFollowSetForwardChecked` and the
  functions built on it (`buildFollowSetChecked`, `analyzeChecked`, `parseChecked`) answer
  `none` there.  The two families agree on the grammar contexts each of whose productions
  has a right-hand symbol (`parseChecked_eq_parse`), and where the second gives `none` the
  code has no defined behaviour.  What is stated of a state that `parse` has left holds of
  the code whenever the code returns; that `parse` or the FOLLOW loop does return is stated
  of the checked functions.
* A `std::map` of the LL(1) table builder is the list of its entries in the order of their
  keys, which is the order in which the C++ code iterates over it; `m[k]` is `mapIndex`,
  which adds an entry for a key that is not there.
-/

namespace csa

/-! ## Symbols and symbol sets -/

/-- Address of a `Symbol` object (`using SymbolPtr = Symbol *`). -/
abbrev SymbolPtr := Nat

/-- Ordered insertion into a strictly increasing list; an element that is already there is
not inserted a second time. -/
def insertSorted (x : SymbolPtr) : List SymbolPtr → List SymbolPtr
  | [] => [x]
  | y :: ys => if x < y then x :: y :: ys else if x = y then y :: ys else y :: insertSorted x ys

theorem mem_insertSorted {x y : SymbolPtr} {l : List SymbolPtr} :
    y ∈ insertSorted x l ↔ y = x ∨ y ∈ l := by
  induction l with
  | nil => simp [insertSorted]
  | cons z zs ih =>
    unfold insertSorted
    split_ifs with h1 h2
    · simp
    · subst h2; simp
    · simp only [List.mem_cons, ih]; tauto

theorem pairwise_insertSorted {x : SymbolPtr} {l : List SymbolPtr}
    (h : l.Pairwise (· < ·)) : (insertSorted x l).Pairwise (· < ·) := by
  induction l with
  | nil => simp [insertSorted]
  | cons z zs ih =>
    unfold insertSorted
    split_ifs with h1 h2
    · refine List.Pairwise.cons ?_ h
      intro a ha
      rcases List.mem_cons.1 ha with rfl | ha
      · exact h1
      · exact lt_trans h1 (List.rel_of_pairwise_cons h ha)
    · exact h
    · refine List.Pairwise.cons ?_ (ih (List.Pairwise.of_cons h))
      intro a ha
      rcases mem_insertSorted.1 ha with hax | ha
      · rw [hax]
        exact lt_of_le_of_ne (not_lt.1 h1) (Ne.symm h2)
      · exact List.rel_of_pairwise_cons h ha

theorem pairwise_erase {x : SymbolPtr} {l : List SymbolPtr}
    (h : l.Pairwise (· < ·)) : (l.erase x).Pairwise (· < ·) :=
  h.sublist (List.erase_sublist x l)

/-- The type `std::set<SymbolPtr>`: its elements in increasing order of address. -/
structure SymbolSet where
  elems : List SymbolPtr
  sorted : elems.Pairwise (· < ·)

namespace SymbolSet

instance : DecidableEq SymbolSet := fun a b =>
  decidable_of_iff (a.elems = b.elems) (by cases a; cases b; simp)

instance : Membership SymbolPtr SymbolSet := ⟨fun s x => x ∈ s.elems⟩

instance (x : SymbolPtr) (s : SymbolSet) : Decidable (x ∈ s) :=
  inferInstanceAs (Decidable (x ∈ s.elems))

/-- A default-constructed set. -/
def empty : SymbolSet := ⟨[], List.Pairwise.nil⟩

instance : EmptyCollection SymbolSet := ⟨empty⟩

instance : Inhabited SymbolSet := ⟨empty⟩

/-- The call `set.insert(x)`: the new set and the member `.second` of the returned pair,
which tells whether the element was really added. -/
def insert (s : SymbolSet) (x : SymbolPtr) : SymbolSet × Bool :=
  (⟨insertSorted x s.elems, pairwise_insertSorted s.sorted⟩, !decide (x ∈ s))

/-- The call `set.erase(set.find(x))` for an element that was found. -/
def erase (s : SymbolSet) (x : SymbolPtr) : SymbolSet :=
  ⟨s.elems.erase x, pairwise_erase s.sorted⟩

/-- The call `set.clear()`. -/
def clear (_ : SymbolSet) : SymbolSet := empty

/-- The elements as a finite set, for stating properties. -/
def toFinset (s : SymbolSet) : Finset SymbolPtr := s.elems.toFinset

end SymbolSet

/-- The enumeration `Symbol::Type`; the order of the constructors is the order of the
enumerators (`unknown = 0`). -/
inductive SymbolType where
  | unknown
  | nonterminal
  | terminal
  | terminalIsEof
  | terminalIsEpsilon
  deriving DecidableEq

/-- The integer value of an enumerator, `static_cast<int>(type_)`. -/
def SymbolType.toInt : SymbolType → Int
  | .unknown => 0
  | .nonterminal => 1
  | .terminal => 2
  | .terminalIsEof => 3
  | .terminalIsEpsilon => 4

/-- The class `Symbol`. -/
structure Symbol where
  name : String
  type : SymbolType
  isNillable : Bool
  firstSet : SymbolSet
  followSet : SymbolSet

namespace Symbol

/-- The constructor `Symbol(std::string name)`. -/
def new (name : String) : Symbol :=
  { name := name, type := .unknown, isNillable := false, firstSet := ∅, followSet := ∅ }

def isTerminal (s : Symbol) : Bool := decide (s.type.toInt > SymbolType.nonterminal.toInt)

def isTerminalEof (s : Symbol) : Bool := decide (s.type = .terminalIsEof)

def isTerminalEpsilon (s : Symbol) : Bool := decide (s.type = .terminalIsEpsilon)

def isNonterminal (s : Symbol) : Bool := !s.isTerminal

end Symbol

namespace config.keyword

def start : String := "Start"

def epsilon : String := "epsilon"

def eof : String := "$"

def alien : String := "<- alien ->"

end config.keyword

/-! ## Symbol table, productions, grammar context -/

/-- Insertion of a new key into `std::map<std::string, SymbolPtr>`, kept in key order (names
are compared character by character). -/
def insertEntry (name : String) (symbol : SymbolPtr) :
    List (String × SymbolPtr) → List (String × SymbolPtr)
  | [] => [(name, symbol)]
  | e :: es =>
    if name.data < e.1.data then (name, symbol) :: e :: es
    else if name = e.1 then (name, symbol) :: es
    else e :: insertEntry name symbol es

/-- The class `SymbolTable`, together with the memory that holds the `Symbol` objects.
`mem p` is the object at address `p`; `brk` is the address that the next `new Symbol` returns
(addresses below `brk` are in use). -/
structure SymbolTable where
  table_ : List (String × SymbolPtr)
  alien_ : SymbolPtr
  mem : SymbolPtr → Symbol
  brk : SymbolPtr

namespace SymbolTable

/-- Replaces the object at address `p` by `f` of it. -/
def modify (st : SymbolTable) (p : SymbolPtr) (f : Symbol → Symbol) : SymbolTable :=
  { st with mem := Function.update st.mem p (f (st.mem p)) }

/-- The call `p->setNillable(value)`. -/
def setNillable (st : SymbolTable) (p : SymbolPtr) (value : Bool) : SymbolTable :=
  st.modify p (fun s => { s with isNillable := value })

/-- The call `p->setType(type)`. -/
def setType (st : SymbolTable) (p : SymbolPtr) (type : SymbolType) : SymbolTable :=
  st.modify p (fun s => { s with type := type })

/-- Assignment to `p->firstSet()`. -/
def setFirstSet (st : SymbolTable) (p : SymbolPtr) (set : SymbolSet) : SymbolTable :=
  st.modify p (fun s => { s with firstSet := set })

/-- Assignment to `p->followSet()`. -/
def setFollowSet (st : SymbolTable) (p : SymbolPtr) (set : SymbolSet) : SymbolTable :=
  st.modify p (fun s => { s with followSet := set })

/-- The constructor `SymbolTable()`: an empty table and the alien symbol, a terminal whose
FIRST set is itself. -/
def new : SymbolTable :=
  { table_ := []
    alien_ := 0
    mem := fun _ =>
      { name := config.keyword.alien, type := .terminal, isNillable := false,
        firstSet := (SymbolSet.empty.insert 0).1, followSet := ∅ }
    brk := 1 }

/-- The function `SymbolTable::findSymbol` (for a name that is not empty, which the function
asserts): the symbol found and the table after the call. -/
def findSymbol (st : SymbolTable) (name : String) : SymbolPtr × SymbolTable :=
  match st.table_.lookup name with
  | some symbol => (symbol, st)
  | none =>
    (st.brk,
      { st with
        table_ := insertEntry name st.brk st.table_
        mem := Function.update st.mem st.brk (Symbol.new name)
        brk := st.brk + 1 })

end SymbolTable

/-- The struct `Production::LeftHandSide`. -/
structure LeftHandSide where
  symbol : SymbolPtr

/-- The struct `Production::RightHandSide`. -/
structure RightHandSide where
  symbolList : List SymbolPtr
  firstSet : SymbolSet
  predictSet : SymbolSet
  isNillable : Bool

/-- The struct `Production`. -/
structure Production where
  id : Int
  lhs : LeftHandSide
  rhs : RightHandSide

abbrev ProductionList := List Production

/-- The struct `GrammarContext`; `pl` is the list `pl->table()`. -/
structure GrammarContext where
  pl : ProductionList
  st : SymbolTable

/-! ## Set algebra -/

/-- The function `LL1Analyzer::setUnion`: the new value of `set1` and the returned flag. -/
def setUnion (set1 set2 : SymbolSet) : SymbolSet × Bool :=
  set2.elems.foldl
    (fun (acc : SymbolSet × Bool) symbol =>
      ((acc.1.insert symbol).1, if (acc.1.insert symbol).2 then true else acc.2))
    (set1, false)

/-- The function `LL1Analyzer::setRemove`: the new value of `set` and the returned flag. -/
def setRemove (set : SymbolSet) (symbol : SymbolPtr) : SymbolSet × Bool :=
  if symbol ∈ set then (set.erase symbol, true) else (set, false)

/-! ## Loops -/

/-- The loop `do { body } while (hasChange)`, where `body` returns the new state and the value
of `hasChange` at the end of the pass.  At most `fuel` passes are made; `none` means that the
last of them still reported a change. -/
def doWhile {σ : Type} (body : σ → σ × Bool) : Nat → σ → Option σ
  | 0, _ => none
  | fuel + 1, s => if (body s).2 then doWhile body fuel (body s).1 else some (body s).1

/-- Every symbol occurrence of the production list: each left-hand side followed by its
right-hand side. -/
def symbolOccurrences (pl : ProductionList) : List SymbolPtr :=
  (pl.map (fun p => p.lhs.symbol :: p.rhs.symbolList)).flatten

/-! ## Nullability -/

/-- The function `LL1Analyzer::isEPS`. -/
def isEPS (st : SymbolTable) (symbolList : List SymbolPtr) : Bool :=
  let counts := symbolList.foldl
    (fun (c : Nat × Nat) symbol =>
      (c.1 + 1,
        if (st.mem symbol).isNillable || (st.mem symbol).isTerminalEpsilon then c.2 + 1 else c.2))
    (0, 0)
  counts.1 == counts.2

/-- The `for` loop of `initEPS` over the productions not yet visited: the productions as it
leaves them, the memory, the local set `eps` and `hasChange`. -/
def initEPSFor : ProductionList → SymbolTable → SymbolSet →
    ProductionList × SymbolTable × SymbolSet × Bool
  | [], st, eps => ([], st, eps, false)
  | p :: ps, st, eps =>
    if isEPS st p.rhs.symbolList then
      let r := initEPSFor ps (st.setNillable p.lhs.symbol true) (eps.insert p.lhs.symbol).1
      ({ p with rhs := { p.rhs with isNillable := true } } :: r.1, r.2.1, r.2.2.1,
        (eps.insert p.lhs.symbol).2 || r.2.2.2)
    else
      let r := initEPSFor ps st eps
      (p :: r.1, r.2.1, r.2.2.1, r.2.2.2)

/-- One pass of the `do` loop of `initEPS`. -/
def initEPSBody (s : GrammarContext × SymbolSet) : (GrammarContext × SymbolSet) × Bool :=
  let r := initEPSFor s.1.pl s.1.st s.2
  (({ pl := r.1, st := r.2.1 }, r.2.2.1), r.2.2.2)

/-- The function `LL1Analyzer::initEPS`. -/
def initEPS (gc : GrammarContext) : Option GrammarContext :=
  (doWhile initEPSBody (gc.pl.length + 1) (gc, ∅)).map Prod.fst

/-! ## FIRST -/

/-- The function `LL1Analyzer::calculateFirstSet`, started with the local `set` as given. -/
def calculateFirstSetFrom (st : SymbolTable) : List SymbolPtr → SymbolSet → SymbolSet
  | [], set => set
  | symbol :: rest, set =>
    if !(st.mem symbol).isNillable then (setUnion set (st.mem symbol).firstSet).1
    else calculateFirstSetFrom st rest (setUnion set (st.mem symbol).firstSet).1

/-- The function `LL1Analyzer::calculateFirstSet`. -/
def calculateFirstSet (st : SymbolTable) (symbolList : List SymbolPtr) : SymbolSet :=
  calculateFirstSetFrom st symbolList ∅

/-- The first loop of `buildFirstSet`, over the entries of the symbol table. -/
def buildFirstSetInit : List (String × SymbolPtr) → SymbolTable → SymbolTable
  | [], st => st
  | item :: rest, st =>
    let st1 := st.setFirstSet item.2 ((st.mem item.2).firstSet.clear)
    if (st1.mem item.2).isTerminal then
      buildFirstSetInit rest (st1.setFirstSet item.2 ((st1.mem item.2).firstSet.insert item.2).1)
    else buildFirstSetInit rest st1

/-- The `for` loop of the `do` loop of `buildFirstSet`: the memory and `hasChange`. -/
def buildFirstSetFor : ProductionList → SymbolTable → SymbolTable × Bool
  | [], st => (st, false)
  | p :: ps, st =>
    let tempSet := calculateFirstSet st p.rhs.symbolList
    let u := setUnion (st.mem p.lhs.symbol).firstSet tempSet
    let r := buildFirstSetFor ps (st.setFirstSet p.lhs.symbol u.1)
    (r.1, u.2 || r.2)

/-- Number of passes allowed to the loop of `buildFirstSet`. -/
def firstFuel (pl : ProductionList) (st : SymbolTable) : Nat :=
  (symbolOccurrences pl).length
    * ((symbolOccurrences pl).map (fun x => (st.mem x).firstSet.elems.length)).sum + 1

/-- The function `LL1Analyzer::buildFirstSet`. -/
def buildFirstSet (gc : GrammarContext) : Option GrammarContext :=
  let st0 := buildFirstSetInit gc.st.table_ gc.st
  (doWhile (buildFirstSetFor gc.pl) (firstFuel gc.pl st0) st0).map
    (fun st => { gc with st := st })

/-! ## FOLLOW -/

/-- The statement `if (setUnion(x->followSet(), set)) { hasChange = true; }`, on the memory
and `hasChange`. -/
def unionIntoFollowSet (acc : SymbolTable × Bool) (x : SymbolPtr) (set : SymbolSet) :
    SymbolTable × Bool :=
  (acc.1.setFollowSet x (setUnion (acc.1.mem x).followSet set).1,
    if (setUnion (acc.1.mem x).followSet set).2 then true else acc.2)

/-- The first inner loop of `buildFollowSet`, `for (beg = ...; beg < end - 1; ++beg)`, over the
part of the right-hand side that starts at `beg`.  The last symbol is not visited.  For a
right-hand side without symbols the code forms `end() - 1` on an empty vector, which is
undefined; this function gives the state unchanged there, and `buildFollowSetForwardChecked`
gives `none`. -/
def buildFollowSetForward : List SymbolPtr → SymbolTable × Bool → SymbolTable × Bool
  | [], acc => acc
  | [_], acc => acc
  | beg :: next :: rest, acc =>
    if (acc.1.mem beg).isNonterminal then
      buildFollowSetForward (next :: rest)
        (unionIntoFollowSet acc beg (calculateFirstSet acc.1 (next :: rest)))
    else buildFollowSetForward (next :: rest) acc

/-- The second inner loop of `buildFollowSet`, from `rbegin()` to `rend()`, over the part of
the reversed right-hand side that starts at `rbeg`. -/
def buildFollowSetBackward (lhs : SymbolPtr) :
    List SymbolPtr → SymbolTable × Bool → SymbolTable × Bool
  | [], acc => acc
  | rbeg :: rest, acc =>
    let acc1 : SymbolTable × Bool :=
      if (acc.1.mem rbeg).isNonterminal then
        unionIntoFollowSet acc rbeg (acc.1.mem lhs).followSet
      else acc
    if !(acc1.1.mem rbeg).isNillable then acc1 else buildFollowSetBackward lhs rest acc1

/-- The `for` loop over the productions in the `do` loop of `buildFollowSet`. -/
def buildFollowSetFor : ProductionList → SymbolTable × Bool → SymbolTable × Bool
  | [], acc => acc
  | p :: ps, acc =>
    buildFollowSetFor ps
      (buildFollowSetBackward p.lhs.symbol p.rhs.symbolList.reverse
        (buildFollowSetForward p.rhs.symbolList acc))

/-- One pass of the `do` loop of `buildFollowSet`. -/
def buildFollowSetBody (pl : ProductionList) (st : SymbolTable) : SymbolTable × Bool :=
  buildFollowSetFor pl (st, false)

/-- Number of passes allowed to the loop of `buildFollowSet`. -/
def followFuel (pl : ProductionList) (st : SymbolTable) : Nat :=
  (symbolOccurrences pl).length
    * ((symbolOccurrences pl).map
        (fun x => (st.mem x).firstSet.elems.length + (st.mem x).followSet.elems.length)).sum + 1

/-- The function `LL1Analyzer::buildFollowSet`, where every right-hand side has a symbol. -/
def buildFollowSet (gc : GrammarContext) : Option GrammarContext :=
  (doWhile (buildFollowSetBody gc.pl) (followFuel gc.pl gc.st) gc.st).map
    (fun st => { gc with st := st })

/-! ### Right-hand sides without symbols

The first inner loop of `buildFollowSet` runs `for (beg = begin(); beg < end() - 1; ++beg)`.
For a right-hand side without symbols `end() - 1` is formed on an empty vector, which is
undefined behaviour: in practice the comparison succeeds and the loop reads through
`begin()`.  The functions below are the loop and `buildFollowSet` with that case marked:
their result is `none` where the code has no defined behaviour. -/

/-- Every production has a symbol in its right-hand side. -/
def GrammarContext.NonEmptyRhs (gc : GrammarContext) : Prop :=
  ∀ p ∈ gc.pl, p.rhs.symbolList ≠ []

instance (gc : GrammarContext) : Decidable gc.NonEmptyRhs :=
  inferInstanceAs (Decidable (∀ p ∈ gc.pl, p.rhs.symbolList ≠ []))

/-- The first inner loop of `buildFollowSet` on a whole right-hand side, as the code runs it:
`none` for a right-hand side without symbols, where `end() - 1` is undefined. -/
def buildFollowSetForwardChecked (symbolList : List SymbolPtr) (acc : SymbolTable × Bool) :
    Option (SymbolTable × Bool) :=
  match symbolList with
  | [] => none
  | _ :: _ => some (buildFollowSetForward symbolList acc)

/-- The `for` loop over the productions in the `do` loop of `buildFollowSet`, as the code
runs it: the pass stops at the first production without right-hand symbols. -/
def buildFollowSetForChecked :
    ProductionList → SymbolTable × Bool → Option (SymbolTable × Bool)
  | [], acc => some acc
  | p :: ps, acc =>
    match buildFollowSetForwardChecked p.rhs.symbolList acc with
    | none => none
    | some acc1 =>
      buildFollowSetForChecked ps
        (buildFollowSetBackward p.lhs.symbol p.rhs.symbolList.reverse acc1)

/-- One pass of the `do` loop of `buildFollowSet`, as the code runs it. -/
def buildFollowSetBodyChecked (pl : ProductionList) (st : SymbolTable) :
    Option (SymbolTable × Bool) :=
  buildFollowSetForChecked pl (st, false)

/-- The loop `do { body } while (hasChange)` for a body that may be undefined: `none` when a
pass is undefined, or when `fuel` passes have been made and the last still reported a
change. -/
def doWhileChecked {σ : Type} (body : σ → Option (σ × Bool)) : Nat → σ → Option σ
  | 0, _ => none
  | fuel + 1, s =>
    match body s with
    | none => none
    | some r => if r.2 then doWhileChecked body fuel r.1 else some r.1

/-- The function `LL1Analyzer::buildFollowSet`, as the code runs it. -/
def buildFollowSetChecked (gc : GrammarContext) : Option GrammarContext :=
  (doWhileChecked (buildFollowSetBodyChecked gc.pl) (followFuel gc.pl gc.st) gc.st).map
    (fun st => { gc with st := st })

/-! ## PREDICT and the final purge -/

/-- The body of the loop of `buildPredictSet` for one production. -/
def buildPredictSetOne (st : SymbolTable) (p : Production) : Production :=
  let firstSet := calculateFirstSet st p.rhs.symbolList
  { p with
    rhs :=
      { p.rhs with
        firstSet := firstSet
        predictSet :=
          if p.rhs.isNillable then (setUnion firstSet (st.mem p.lhs.symbol).followSet).1
          else firstSet } }

/-- The function `LL1Analyzer::buildPredictSet`. -/
def buildPredictSet (gc : GrammarContext) : GrammarContext :=
  { gc with pl := gc.pl.map (buildPredictSetOne gc.st) }

/-- The loop of the lambda `removeAllEpsilon` of `parse` over the productions not yet
visited. -/
def removeAllEpsilonFor : ProductionList → SymbolTable → ProductionList × SymbolTable
  | [], st => ([], st)
  | p :: ps, st =>
    let f := st.findSymbol config.keyword.epsilon
    let epsilon := f.1
    let st1 := f.2
    let st2 := st1.setFirstSet p.lhs.symbol (setRemove (st1.mem p.lhs.symbol).firstSet epsilon).1
    let st3 := st2.setFollowSet p.lhs.symbol (setRemove (st2.mem p.lhs.symbol).followSet epsilon).1
    let p1 : Production :=
      { p with
        rhs :=
          { p.rhs with
            firstSet := (setRemove p.rhs.firstSet epsilon).1
            predictSet := (setRemove p.rhs.predictSet epsilon).1 } }
    let r := removeAllEpsilonFor ps st3
    (p1 :: r.1, r.2)

/-- The lambda `removeAllEpsilon` of `parse`. -/
def removeAllEpsilon (gc : GrammarContext) : GrammarContext :=
  let r := removeAllEpsilonFor gc.pl gc.st
  { pl := r.1, st := r.2 }

/-! ## The analyzer -/

/-- The class `LL1Analyzer`; `gc_ = none` is the null grammar context. -/
structure LL1Analyzer where
  gc_ : Option GrammarContext
  isParsed_ : Bool

namespace LL1Analyzer

/-- The constructor `LL1Analyzer(GrammarContextPtr gc)`. -/
def new (gc : Option GrammarContext) : LL1Analyzer := { gc_ := gc, isParsed_ := false }

/-- The five stages of `parse` on a grammar context, where every right-hand side has a
symbol. -/
def analyze (gc : GrammarContext) : Option GrammarContext :=
  (((initEPS gc).bind buildFirstSet).bind buildFollowSet).map
    (fun g => removeAllEpsilon (buildPredictSet g))

/-- The function `LL1Analyzer::parse`: the returned status and the analyzer after the call;
`none` if a loop did not finish in the passes allowed to it.  The code behaves so where
every right-hand side has a symbol; `parseChecked` is the call on every grammar context. -/
def parse (a : LL1Analyzer) : Option (Int × LL1Analyzer) :=
  match a.gc_ with
  | none => some (1, a)
  | some gc =>
    if a.isParsed_ then some (0, a)
    else (analyze gc).map (fun g => (0, { gc_ := some g, isParsed_ := true }))

/-- The five stages of `parse` on a grammar context, as the code runs them. -/
def analyzeChecked (gc : GrammarContext) : Option GrammarContext :=
  (((initEPS gc).bind buildFirstSet).bind buildFollowSetChecked).map
    (fun g => removeAllEpsilon (buildPredictSet g))

/-- The function `LL1Analyzer::parse`, as the code runs it: the returned status and the
analyzer after the call, or `none` where the call has no defined behaviour (or a loop did
not finish in the passes allowed to it). -/
def parseChecked (a : LL1Analyzer) : Option (Int × LL1Analyzer) :=
  match a.gc_ with
  | none => some (1, a)
  | some gc =>
    if a.isParsed_ then some (0, a)
    else (analyzeChecked gc).map (fun g => (0, { gc_ := some g, isParsed_ := true }))

/-- The lambda `hasIntersection` of `isValidLL1`. -/
def hasIntersection (set1 set2 : SymbolSet) : Bool :=
  set2.elems.any (fun symbol => decide (symbol ∈ set1))

/-- The loop of `isValidLL1` over the productions not yet visited; `symbolAndSet` is the map
of that name, an absent key standing for the empty set that `operator[]` creates.  The result
is the production at which the loop breaks, if it does. -/
def isValidLL1For : ProductionList → (SymbolPtr → SymbolSet) → Option Production
  | [], _ => none
  | p :: ps, symbolAndSet =>
    if hasIntersection (symbolAndSet p.lhs.symbol) p.rhs.predictSet then some p
    else
      isValidLL1For ps
        (Function.update symbolAndSet p.lhs.symbol
          (setUnion (symbolAndSet p.lhs.symbol) p.rhs.predictSet).1)

/-- The production whose id `isValidLL1` prints, if it prints one. -/
def conflict (a : LL1Analyzer) : Option Production :=
  match a.gc_ with
  | none => none
  | some gc => if a.isParsed_ then isValidLL1For gc.pl (fun _ => ∅) else none

/-- The function `LL1Analyzer::isValidLL1`. -/
def isValidLL1 (a : LL1Analyzer) : Bool :=
  if !a.isParsed_ then false
  else
    match a.gc_ with
    | none => true
    | some gc => (isValidLL1For gc.pl (fun _ => ∅)).isNone

end LL1Analyzer

/-! ## Grammar contexts for the scenarios -/

namespace frontend

/-- Modelled from the spec: the lexer, which is not in src/.  It interns a name and gives the
reserved names `epsilon` and `$` their terminal kinds (section 3, "promoted to a terminal
variant by the lexer"). -/
def lexSymbol (st : SymbolTable) (name : String) : SymbolPtr × SymbolTable :=
  let f := st.findSymbol name
  if name = config.keyword.epsilon then (f.1, f.2.setType f.1 .terminalIsEpsilon)
  else if name = config.keyword.eof then (f.1, f.2.setType f.1 .terminalIsEof)
  else f

/-- Modelled from the spec: the lexer on the names of one right-hand side. -/
def lexSymbols : List String → SymbolTable → List SymbolPtr × SymbolTable
  | [], st => ([], st)
  | name :: rest, st =>
    let r := lexSymbols rest (lexSymbol st name).2
    ((lexSymbol st name).1 :: r.1, r.2)

/-- Modelled from the spec: the parser, which is not in src/.  Productions get their ids in
declaration order from `id` on, and every left-hand side becomes a nonterminal (section 3). -/
def ingest : List (String × List String) → Int → SymbolTable → ProductionList × SymbolTable
  | [], _, st => ([], st)
  | rule :: rest, id, st =>
    let l := lexSymbol st rule.1
    let rs := lexSymbols rule.2 (l.2.setType l.1 .nonterminal)
    let r := ingest rest (id + 1) rs.2
    ({ id := id, lhs := { symbol := l.1 },
       rhs := { symbolList := rs.1, firstSet := ∅, predictSet := ∅, isNillable := false } }
      :: r.1, r.2)

/-- Modelled from the spec: the end of ingestion, where every symbol that is still of unknown
kind becomes a terminal (section 3). -/
def classifyRest : List (String × SymbolPtr) → SymbolTable → SymbolTable
  | [], st => st
  | item :: rest, st =>
    if (st.mem item.2).type = .unknown then classifyRest rest (st.setType item.2 .terminal)
    else classifyRest rest st

/-- Modelled from the spec: the grammar context that the front end builds from a list of
rules, each a left-hand name and the names of its right-hand side. -/
def buildContext (rules : List (String × List String)) : GrammarContext :=
  let r := ingest rules 0 SymbolTable.new
  { pl := r.1, st := classifyRest r.2.table_ r.2 }

end frontend

/-- Scenario S1 and the grammar of `test04_LL1Analyzer.cpp`. -/
def grammarS1 : GrammarContext :=
  frontend.buildContext [("S", ["(", "S", ")", "S"]), ("S", ["epsilon"])]

/-- Scenario S3. -/
def grammarS3 : GrammarContext :=
  frontend.buildContext [("S", ["a", "B"]), ("B", ["b"]), ("B", ["b", "c"])]

/-- Scenario S4. -/
def grammarS4 : GrammarContext :=
  frontend.buildContext
    [("A", ["B", "C", "D"]), ("B", ["epsilon"]), ("C", ["epsilon"]), ("D", ["epsilon"])]

/-! ## Symbol sets: membership -/

namespace SymbolSet

theorem ext {s t : SymbolSet} (h : ∀ x, x ∈ s ↔ x ∈ t) : s = t := by
  cases s with
  | mk l hl =>
  cases t with
  | mk m hm =>
  have hp : l.Perm m := (List.perm_ext_iff_of_nodup (List.Sorted.nodup hl) (List.Sorted.nodup hm)).2 h
  have : l = m := List.eq_of_perm_of_sorted hp hl hm
  subst this
  rfl

@[simp] theorem not_mem_empty (x : SymbolPtr) : ¬ x ∈ (∅ : SymbolSet) := by
  intro h
  cases h

@[simp] theorem mem_insert {s : SymbolSet} {x y : SymbolPtr} :
    y ∈ (s.insert x).1 ↔ y = x ∨ y ∈ s :=
  mem_insertSorted

@[simp] theorem insert_snd {s : SymbolSet} {x : SymbolPtr} :
    (s.insert x).2 = true ↔ ¬ x ∈ s := by
  simp [insert]

@[simp] theorem mem_erase {s : SymbolSet} {x y : SymbolPtr} :
    y ∈ s.erase x ↔ y ≠ x ∧ y ∈ s :=
  List.Nodup.mem_erase_iff (List.Sorted.nodup s.sorted)

@[simp] theorem mem_toFinset {s : SymbolSet} {x : SymbolPtr} : x ∈ s.toFinset ↔ x ∈ s :=
  List.mem_toFinset

theorem card_toFinset (s : SymbolSet) : s.toFinset.card = s.elems.length :=
  List.toFinset_card_of_nodup (List.Sorted.nodup s.sorted)

end SymbolSet

theorem setUnion_foldl_mem (l : List SymbolPtr) (acc : SymbolSet × Bool) (x : SymbolPtr) :
    x ∈ (l.foldl (fun (acc : SymbolSet × Bool) symbol =>
      ((acc.1.insert symbol).1, if (acc.1.insert symbol).2 then true else acc.2)) acc).1
      ↔ x ∈ acc.1 ∨ x ∈ l := by
  induction l generalizing acc with
  | nil => simp
  | cons y ys ih =>
    rw [List.foldl_cons, ih]
    simp only [SymbolSet.mem_insert, List.mem_cons]
    tauto

theorem setUnion_foldl_snd (l : List SymbolPtr) (acc : SymbolSet × Bool) :
    (l.foldl (fun (acc : SymbolSet × Bool) symbol =>
      ((acc.1.insert symbol).1, if (acc.1.insert symbol).2 then true else acc.2)) acc).2 = true
      ↔ acc.2 = true ∨ ∃ x ∈ l, ¬ x ∈ acc.1 := by
  induction l generalizing acc with
  | nil => simp
  | cons y ys ih =>
    rw [List.foldl_cons, ih]
    simp only [SymbolSet.mem_insert, List.mem_cons, SymbolSet.insert_snd]
    constructor
    · rintro (h | ⟨x, hx, hn⟩)
      · split_ifs at h with hy
        · exact Or.inl h
        · exact Or.inr ⟨y, Or.inl rfl, hy⟩
      · exact Or.inr ⟨x, Or.inr hx, fun h => hn (Or.inr h)⟩
    · rintro (h | ⟨x, hx | hx, hn⟩)
      · left; simp [h]
      · subst hx; left; simp [hn]
      · by_cases hy : y ∈ acc.1
        · by_cases hxy : x = y
          · subst hxy; exact absurd hy hn
          · right; exact ⟨x, hx, by simp [hxy, hn]⟩
        · left; simp [hy]

@[simp] theorem mem_setUnion {a b : SymbolSet} {x : SymbolPtr} :
    x ∈ (setUnion a b).1 ↔ x ∈ a ∨ x ∈ b := by
  unfold setUnion
  rw [setUnion_foldl_mem]
  rfl

theorem setUnion_snd {a b : SymbolSet} :
    (setUnion a b).2 = true ↔ ∃ x, x ∈ b ∧ ¬ x ∈ a := by
  unfold setUnion
  rw [setUnion_foldl_snd]
  simp
  rfl

theorem setUnion_snd_false {a b : SymbolSet} :
    (setUnion a b).2 = false ↔ ∀ x, x ∈ b → x ∈ a := by
  rw [← Bool.not_eq_true, setUnion_snd]
  push_neg
  rfl

theorem setUnion_eq_self {a b : SymbolSet} (h : (setUnion a b).2 = false) :
    (setUnion a b).1 = a := by
  apply SymbolSet.ext
  intro x
  rw [mem_setUnion]
  have := setUnion_snd_false.1 h x
  tauto

@[simp] theorem mem_setRemove {s : SymbolSet} {e x : SymbolPtr} :
    x ∈ (setRemove s e).1 ↔ x ≠ e ∧ x ∈ s := by
  unfold setRemove
  split_ifs with h
  · simp
  · simp only [ne_eq, iff_and_self]
    intro hx hxe
    exact h (hxe ▸ hx)


/-! ## The loop combinator -/

theorem doWhile_some {σ : Type} {body : σ → σ × Bool} {I : σ → Prop}
    (hI : ∀ s, I s → I (body s).1) :
    ∀ (fuel : Nat) (s r : σ), I s → doWhile body fuel s = some r →
      ∃ s', I s' ∧ (body s').2 = false ∧ (body s').1 = r := by
  intro fuel
  induction fuel with
  | zero => intro s r _ h; simp [doWhile] at h
  | succ n ih =>
    intro s r hs h
    rw [doWhile] at h
    split_ifs at h with hc
    · exact ih _ _ (hI s hs) h
    · exact ⟨s, hs, by simpa using hc, by simpa using h⟩

theorem doWhile_terminates {σ : Type} {body : σ → σ × Bool} {I : σ → Prop} (μ : σ → Nat)
    (hI : ∀ s, I s → I (body s).1)
    (hμ : ∀ s, I s → (body s).2 = true → μ (body s).1 < μ s) :
    ∀ (fuel : Nat) (s : σ), I s → μ s < fuel → ∃ r, doWhile body fuel s = some r := by
  intro fuel
  induction fuel with
  | zero => intro s _ h; omega
  | succ n ih =>
    intro s hs h
    rw [doWhile]
    split_ifs with hc
    · exact ih _ (hI s hs) (by have := hμ s hs hc; omega)
    · exact ⟨_, rfl⟩


/-! ## Memory updates -/

namespace SymbolTable

@[simp] theorem modify_table (st : SymbolTable) (p : SymbolPtr) (f : Symbol → Symbol) :
    (st.modify p f).table_ = st.table_ := rfl

@[simp] theorem modify_alien (st : SymbolTable) (p : SymbolPtr) (f : Symbol → Symbol) :
    (st.modify p f).alien_ = st.alien_ := rfl

@[simp] theorem modify_brk (st : SymbolTable) (p : SymbolPtr) (f : Symbol → Symbol) :
    (st.modify p f).brk = st.brk := rfl

theorem modify_mem (st : SymbolTable) (p q : SymbolPtr) (f : Symbol → Symbol) :
    (st.modify p f).mem q = if q = p then f (st.mem p) else st.mem q := by
  simp only [modify, Function.update_apply]

theorem modify_eq_self (st : SymbolTable) (p : SymbolPtr) (f : Symbol → Symbol)
    (h : f (st.mem p) = st.mem p) : st.modify p f = st := by
  cases st
  simp only [modify] at h ⊢
  rw [h, Function.update_eq_self]

end SymbolTable

/-- The condition that `isEPS` counts: the nullable flag is set or the symbol is the epsilon
terminal. -/
def countsAsEmpty (st : SymbolTable) (symbol : SymbolPtr) : Bool :=
  (st.mem symbol).isNillable || (st.mem symbol).isTerminalEpsilon

theorem isEPS_foldl (st : SymbolTable) (l : List SymbolPtr) (c : Nat × Nat) :
    l.foldl (fun (c : Nat × Nat) symbol =>
      (c.1 + 1,
        if (st.mem symbol).isNillable || (st.mem symbol).isTerminalEpsilon then c.2 + 1 else c.2))
      c = (c.1 + l.length, c.2 + l.countP (countsAsEmpty st)) := by
  induction l generalizing c with
  | nil => simp
  | cons y ys ih =>
    rw [List.foldl_cons, ih, List.countP_cons]
    simp only [countsAsEmpty, List.length_cons]
    split_ifs <;> simp <;> omega

theorem isEPS_iff (st : SymbolTable) (l : List SymbolPtr) :
    isEPS st l = true ↔ ∀ x ∈ l, countsAsEmpty st x = true := by
  unfold isEPS
  rw [isEPS_foldl]
  simp only [zero_add, beq_iff_eq]
  rw [eq_comm, List.countP_eq_length]


/-! ## Nullability: the loop of `initEPS` -/

/-- Memory `st'` is memory `st` with some more nullable flags set and nothing else changed. -/
def FlagsGrow (st st' : SymbolTable) : Prop :=
  st'.table_ = st.table_ ∧ st'.alien_ = st.alien_ ∧ st'.brk = st.brk ∧
    ∀ X, ∃ b, st'.mem X = { st.mem X with isNillable := b } ∧
      ((st.mem X).isNillable = true → b = true)

theorem FlagsGrow.flags_refl (st : SymbolTable) : FlagsGrow st st :=
  ⟨rfl, rfl, rfl, fun X => ⟨(st.mem X).isNillable, rfl, id⟩⟩

theorem FlagsGrow.flags_trans {a b c : SymbolTable} (h1 : FlagsGrow a b) (h2 : FlagsGrow b c) :
    FlagsGrow a c := by
  obtain ⟨t1, a1, b1, m1⟩ := h1
  obtain ⟨t2, a2, b2, m2⟩ := h2
  refine ⟨t2.trans t1, a2.trans a1, b2.trans b1, fun X => ?_⟩
  obtain ⟨x, hx, hx'⟩ := m1 X
  obtain ⟨y, hy, hy'⟩ := m2 X
  refine ⟨y, ?_, fun h => hy' ?_⟩
  · rw [hy, hx]
  · rw [hx]; exact hx' h

theorem FlagsGrow.setNillable (st : SymbolTable) (p : SymbolPtr) :
    FlagsGrow st (st.setNillable p true) := by
  refine ⟨rfl, rfl, rfl, fun X => ?_⟩
  rw [SymbolTable.setNillable, SymbolTable.modify_mem]
  split_ifs with h
  · subst h; exact ⟨true, rfl, fun _ => rfl⟩
  · exact ⟨(st.mem X).isNillable, rfl, id⟩

theorem FlagsGrow.flags_type {st st' : SymbolTable} (h : FlagsGrow st st') (X : SymbolPtr) :
    (st'.mem X).type = (st.mem X).type := by
  obtain ⟨b, hb, _⟩ := h.2.2.2 X
  rw [hb]

theorem FlagsGrow.flags_name {st st' : SymbolTable} (h : FlagsGrow st st') (X : SymbolPtr) :
    (st'.mem X).name = (st.mem X).name := by
  obtain ⟨b, hb, _⟩ := h.2.2.2 X
  rw [hb]

theorem FlagsGrow.flags_firstSet {st st' : SymbolTable} (h : FlagsGrow st st') (X : SymbolPtr) :
    (st'.mem X).firstSet = (st.mem X).firstSet := by
  obtain ⟨b, hb, _⟩ := h.2.2.2 X
  rw [hb]

theorem FlagsGrow.flags_followSet {st st' : SymbolTable} (h : FlagsGrow st st') (X : SymbolPtr) :
    (st'.mem X).followSet = (st.mem X).followSet := by
  obtain ⟨b, hb, _⟩ := h.2.2.2 X
  rw [hb]

theorem FlagsGrow.flags_mono {st st' : SymbolTable} (h : FlagsGrow st st') (X : SymbolPtr)
    (hX : (st.mem X).isNillable = true) : (st'.mem X).isNillable = true := by
  obtain ⟨b, hb, hb'⟩ := h.2.2.2 X
  rw [hb]; exact hb' hX

theorem FlagsGrow.countsAsEmpty {st st' : SymbolTable} (h : FlagsGrow st st') (X : SymbolPtr)
    (hX : countsAsEmpty st X = true) : countsAsEmpty st' X = true := by
  simp only [csa.countsAsEmpty, Bool.or_eq_true, Symbol.isTerminalEpsilon] at hX ⊢
  rw [h.flags_type]
  exact hX.imp (h.flags_mono X) id

theorem FlagsGrow.isEPS {st st' : SymbolTable} (h : FlagsGrow st st') (l : List SymbolPtr)
    (hl : isEPS st l = true) : isEPS st' l = true := by
  rw [isEPS_iff] at hl ⊢
  exact fun x hx => h.countsAsEmpty x (hl x hx)

theorem initEPSFor_grow (ps : ProductionList) (st : SymbolTable) (eps : SymbolSet) :
    FlagsGrow st (initEPSFor ps st eps).2.1 := by
  induction ps generalizing st eps with
  | nil => exact FlagsGrow.flags_refl st
  | cons p ps ih =>
    rw [initEPSFor]
    split_ifs with h
    · exact (FlagsGrow.setNillable st _).flags_trans (ih _ _)
    · exact ih _ _

/-- What a pass of `initEPS` may change in a production: only the flag `rhs.isNillable`, which
it sets only when the right-hand side passes `isEPS`. -/
def FlagStep (st : SymbolTable) (p q : Production) : Prop :=
  q.id = p.id ∧ q.lhs = p.lhs ∧ q.rhs.symbolList = p.rhs.symbolList ∧
    q.rhs.firstSet = p.rhs.firstSet ∧ q.rhs.predictSet = p.rhs.predictSet ∧
    (p.rhs.isNillable = true → q.rhs.isNillable = true) ∧
    (q.rhs.isNillable = true → p.rhs.isNillable = true ∨ isEPS st p.rhs.symbolList = true)

theorem initEPSFor_pl (ps : ProductionList) (st : SymbolTable) (eps : SymbolSet) :
    List.Forall₂ (FlagStep (initEPSFor ps st eps).2.1) ps (initEPSFor ps st eps).1 := by
  induction ps generalizing st eps with
  | nil => exact List.Forall₂.nil
  | cons p ps ih =>
    rw [initEPSFor]
    split_ifs with h
    · refine List.Forall₂.cons ⟨rfl, rfl, rfl, rfl, rfl, fun _ => rfl, fun _ => Or.inr ?_⟩ (ih _ _)
      exact ((FlagsGrow.setNillable st _).flags_trans (initEPSFor_grow _ _ _)).isEPS _ h
    · exact List.Forall₂.cons ⟨rfl, rfl, rfl, rfl, rfl, id, Or.inl⟩ (ih _ _)

theorem initEPSFor_eps (ps : ProductionList) (st : SymbolTable) (eps : SymbolSet) (X : SymbolPtr) :
    (X ∈ eps → X ∈ (initEPSFor ps st eps).2.2.1) ∧
    (X ∈ (initEPSFor ps st eps).2.2.1 → X ∈ eps ∨ X ∈ ps.map (fun p => p.lhs.symbol)) := by
  induction ps generalizing st eps with
  | nil => exact ⟨id, Or.inl⟩
  | cons p ps ih =>
    rw [initEPSFor]
    split_ifs with h
    · obtain ⟨h1, h2⟩ := ih (st.setNillable p.lhs.symbol true) (eps.insert p.lhs.symbol).1
      refine ⟨fun hX => h1 (SymbolSet.mem_insert.2 (Or.inr hX)), fun hX => ?_⟩
      rcases h2 hX with h3 | h3
      · rcases SymbolSet.mem_insert.1 h3 with h4 | h4
        · right; simp [h4]
        · exact Or.inl h4
      · right; simp only [List.map_cons, List.mem_cons]; exact Or.inr h3
    · obtain ⟨h1, h2⟩ := ih st eps
      refine ⟨h1, fun hX => (h2 hX).imp id ?_⟩
      intro h3; simp only [List.map_cons, List.mem_cons]; exact Or.inr h3

theorem initEPSFor_eps_flag (ps : ProductionList) (st : SymbolTable) (eps : SymbolSet)
    (h : ∀ X, X ∈ eps → (st.mem X).isNillable = true) :
    ∀ X, X ∈ (initEPSFor ps st eps).2.2.1 → ((initEPSFor ps st eps).2.1.mem X).isNillable = true := by
  induction ps generalizing st eps with
  | nil => exact h
  | cons p ps ih =>
    rw [initEPSFor]
    split_ifs with hp
    · apply ih
      intro X hX
      rcases SymbolSet.mem_insert.1 hX with h4 | h4
      · subst h4; simp [SymbolTable.setNillable, SymbolTable.modify_mem]
      · exact (FlagsGrow.setNillable st _).flags_mono X (h X h4)
    · exact ih _ _ h

/-- The set `N` is closed under the nullability rule for the productions `ps`: if every symbol
of a right-hand side is in `N` or is the epsilon terminal, the left-hand side is in `N`. -/
def NullableClosed (st : SymbolTable) (ps : ProductionList) (N : SymbolPtr → Prop) : Prop :=
  ∀ p ∈ ps, (∀ Y ∈ p.rhs.symbolList, N Y ∨ (st.mem Y).isTerminalEpsilon = true) →
    N p.lhs.symbol

theorem NullableClosed.of_grow {st st' : SymbolTable} (h : FlagsGrow st st')
    {ps : ProductionList} {N : SymbolPtr → Prop} (hN : NullableClosed st ps N) :
    NullableClosed st' ps N := by
  intro p hp hY
  apply hN p hp
  intro Y hYm
  have := hY Y hYm
  simp only [Symbol.isTerminalEpsilon, h.flags_type] at this
  exact this

theorem initEPSFor_least (ps : ProductionList) (st : SymbolTable) (eps : SymbolSet)
    (N : SymbolPtr → Prop) (hN : NullableClosed st ps N)
    (h0 : ∀ X, (st.mem X).isNillable = true → N X) :
    ∀ X, ((initEPSFor ps st eps).2.1.mem X).isNillable = true → N X := by
  induction ps generalizing st eps with
  | nil => exact h0
  | cons p ps ih =>
    rw [initEPSFor]
    have hN' : NullableClosed st ps N := fun q hq => hN q (List.mem_cons_of_mem _ hq)
    split_ifs with hp
    · apply ih _ _ (hN'.of_grow (FlagsGrow.setNillable st _))
      intro X hX
      simp only [SymbolTable.setNillable, SymbolTable.modify_mem] at hX
      split_ifs at hX with hXp
      · subst hXp
        apply hN p (List.mem_cons_self _ _)
        intro Y hY
        have := (isEPS_iff st _).1 hp Y hY
        simp only [countsAsEmpty, Bool.or_eq_true] at this
        exact this.imp (h0 Y) id
      · exact h0 X hX
    · exact ih _ _ hN' h0

theorem initEPSFor_change (ps : ProductionList) (st : SymbolTable) (eps : SymbolSet)
    (h : (initEPSFor ps st eps).2.2.2 = true) :
    ∃ X, X ∈ (initEPSFor ps st eps).2.2.1 ∧ ¬ X ∈ eps := by
  induction ps generalizing st eps with
  | nil => simp [initEPSFor] at h
  | cons p ps ih =>
    rw [initEPSFor] at h ⊢
    split_ifs at h ⊢ with hp
    · simp only [Bool.or_eq_true, SymbolSet.insert_snd] at h
      rcases h with h | h
      · exact ⟨p.lhs.symbol, (initEPSFor_eps _ _ _ _).1 (SymbolSet.mem_insert.2 (Or.inl rfl)), h⟩
      · obtain ⟨X, hX, hn⟩ := ih _ _ h
        exact ⟨X, hX, fun hc => hn (SymbolSet.mem_insert.2 (Or.inr hc))⟩
    · exact ih _ _ h

theorem SymbolSet.insert_eq_self {s : SymbolSet} {x : SymbolPtr} (h : x ∈ s) :
    (s.insert x).1 = s := by
  apply SymbolSet.ext
  intro y
  rw [SymbolSet.mem_insert]
  constructor
  · rintro (rfl | h') <;> assumption
  · exact Or.inr

theorem initEPSFor_stable (ps : ProductionList) (st : SymbolTable) (eps : SymbolSet)
    (hinv : ∀ X, X ∈ eps → (st.mem X).isNillable = true)
    (h : (initEPSFor ps st eps).2.2.2 = false) :
    (initEPSFor ps st eps).2.1 = st ∧ (initEPSFor ps st eps).2.2.1 = eps ∧
      (∀ p ∈ ps, isEPS st p.rhs.symbolList = true → (st.mem p.lhs.symbol).isNillable = true) ∧
      List.Forall₂ (fun p q => q.rhs.isNillable = true ↔
        (p.rhs.isNillable = true ∨ isEPS st p.rhs.symbolList = true)) ps (initEPSFor ps st eps).1 := by
  induction ps generalizing st eps with
  | nil => exact ⟨rfl, rfl, by simp, List.Forall₂.nil⟩
  | cons p ps ih =>
    rw [initEPSFor] at h ⊢
    split_ifs at h ⊢ with hp
    · simp only [Bool.or_eq_false_iff] at h
      have hmem : p.lhs.symbol ∈ eps := by
        by_contra hc
        have := SymbolSet.insert_snd.2 hc
        rw [h.1] at this
        cases this
      have hst : st.setNillable p.lhs.symbol true = st := by
        apply SymbolTable.modify_eq_self
        have := hinv _ hmem
        cases hs : st.mem p.lhs.symbol
        rw [hs] at this
        simp only at this ⊢
        rw [this]
      have heps : (eps.insert p.lhs.symbol).1 = eps := SymbolSet.insert_eq_self hmem
      simp only [hst, heps] at h ⊢
      obtain ⟨h1, h2, h3, h4⟩ := ih st eps hinv h.2
      refine ⟨h1, h2, ?_, List.Forall₂.cons (by simp [hp]) h4⟩
      intro q hq hq'
      rcases List.mem_cons.1 hq with rfl | hq
      · exact hinv _ hmem
      · exact h3 q hq hq'
    · obtain ⟨h1, h2, h3, h4⟩ := ih st eps hinv h
      refine ⟨h1, h2, ?_, List.Forall₂.cons (by simp [hp]) h4⟩
      intro q hq hq'
      rcases List.mem_cons.1 hq with rfl | hq
      · exact absurd hq' hp
      · exact h3 q hq hq'


theorem forall₂_compose {α β γ : Type} {R : α → β → Prop} {S : β → γ → Prop}
    {T : α → γ → Prop} (h : ∀ a b c, R a b → S b c → T a c) :
    ∀ {l1 : List α} {l2 : List β} {l3 : List γ},
      List.Forall₂ R l1 l2 → List.Forall₂ S l2 l3 → List.Forall₂ T l1 l3 := by
  intro l1 l2 l3 h1
  induction h1 generalizing l3 with
  | nil => intro h2; cases h2; exact List.Forall₂.nil
  | cons hab _ ih =>
    intro h2
    cases h2 with
    | cons hbc h2' => exact List.Forall₂.cons (h _ _ _ hab hbc) (ih h2')

theorem forall₂_map_eq {α β γ : Type} {R : α → β → Prop} (f : α → γ) (g : β → γ)
    (h : ∀ a b, R a b → g b = f a) :
    ∀ {l1 : List α} {l2 : List β}, List.Forall₂ R l1 l2 → l2.map g = l1.map f := by
  intro l1 l2 h1
  induction h1 with
  | nil => rfl
  | cons hab _ ih => simp [h _ _ hab, ih]

theorem forall₂_mem_right {α β : Type} {R : α → β → Prop} :
    ∀ {l1 : List α} {l2 : List β}, List.Forall₂ R l1 l2 → ∀ b ∈ l2, ∃ a ∈ l1, R a b := by
  intro l1 l2 h
  induction h with
  | nil => intro b hb; cases hb
  | cons hab _ ih =>
    intro b hb
    rcases List.mem_cons.1 hb with rfl | hb
    · exact ⟨_, List.mem_cons_self _ _, hab⟩
    · obtain ⟨a, ha, hab'⟩ := ih b hb
      exact ⟨a, List.mem_cons_of_mem _ ha, hab'⟩

theorem forall₂_mem_left {α β : Type} {R : α → β → Prop} :
    ∀ {l1 : List α} {l2 : List β}, List.Forall₂ R l1 l2 → ∀ a ∈ l1, ∃ b ∈ l2, R a b := by
  intro l1 l2 h
  induction h with
  | nil => intro a ha; cases ha
  | cons hab _ ih =>
    intro a ha
    rcases List.mem_cons.1 ha with rfl | ha
    · exact ⟨_, List.mem_cons_self _ _, hab⟩
    · obtain ⟨b, hb, hab'⟩ := ih a ha
      exact ⟨b, List.mem_cons_of_mem _ hb, hab'⟩

theorem forall₂_and {α β : Type} {R S : α → β → Prop} :
    ∀ {l1 : List α} {l2 : List β}, List.Forall₂ R l1 l2 → List.Forall₂ S l1 l2 →
      List.Forall₂ (fun a b => R a b ∧ S a b) l1 l2 := by
  intro l1 l2 h
  induction h with
  | nil => intro _; exact List.Forall₂.nil
  | cons hab _ ih =>
    intro h2
    cases h2 with
    | cons hab' h2' => exact List.Forall₂.cons ⟨hab, hab'⟩ (ih h2')

theorem FlagStep.lhs_map {st : SymbolTable} {ps qs : ProductionList}
    (h : List.Forall₂ (FlagStep st) ps qs) :
    qs.map (fun p => p.lhs.symbol) = ps.map (fun p => p.lhs.symbol) :=
  forall₂_map_eq _ _ (fun _ _ hab => by rw [hab.2.1]) h

theorem FlagStep.length {st : SymbolTable} {ps qs : ProductionList}
    (h : List.Forall₂ (FlagStep st) ps qs) : qs.length = ps.length :=
  h.length_eq.symm

/-- The invariant of the loop of `initEPS` started on `gc`. -/
structure InitEPSInv (gc : GrammarContext) (s : GrammarContext × SymbolSet) : Prop where
  grow : FlagsGrow gc.st s.1.st
  pl : List.Forall₂ (FlagStep s.1.st) gc.pl s.1.pl
  eps_flag : ∀ X, X ∈ s.2 → (s.1.st.mem X).isNillable = true
  eps_lhs : ∀ X, X ∈ s.2 → X ∈ gc.pl.map (fun p => p.lhs.symbol)
  least : ∀ N : SymbolPtr → Prop, NullableClosed gc.st gc.pl N →
    (∀ X, (gc.st.mem X).isNillable = true → N X) →
    ∀ X, (s.1.st.mem X).isNillable = true → N X

theorem InitEPSInv.eps_init (gc : GrammarContext) : InitEPSInv gc (gc, ∅) where
  grow := FlagsGrow.flags_refl _
  pl := by
    have : ∀ l : ProductionList, List.Forall₂ (FlagStep gc.st) l l := by
      intro l
      induction l with
      | nil => exact List.Forall₂.nil
      | cons p ps ih => exact List.Forall₂.cons ⟨rfl, rfl, rfl, rfl, rfl, id, Or.inl⟩ ih
    exact this _
  eps_flag := fun X hX => absurd hX (SymbolSet.not_mem_empty X)
  eps_lhs := fun X hX => absurd hX (SymbolSet.not_mem_empty X)
  least := fun _ _ h0 => h0

theorem FlagStep.compose {st1 st2 : SymbolTable} (hg : FlagsGrow st1 st2) {a b c : Production}
    (h1 : FlagStep st1 a b) (h2 : FlagStep st2 b c) : FlagStep st2 a c := by
  obtain ⟨i1, l1, s1, f1, p1, m1, j1⟩ := h1
  obtain ⟨i2, l2, s2, f2, p2, m2, j2⟩ := h2
  refine ⟨i2.trans i1, l2.trans l1, s2.trans s1, f2.trans f1, p2.trans p1,
    fun h => m2 (m1 h), fun h => ?_⟩
  rcases j2 h with h' | h'
  · exact (j1 h').imp id (hg.isEPS _)
  · right; rw [← s1]; exact h'

theorem InitEPSInv.eps_step {gc : GrammarContext} {s : GrammarContext × SymbolSet}
    (h : InitEPSInv gc s) : InitEPSInv gc (initEPSBody s).1 := by
  have hlhs := FlagStep.lhs_map h.pl
  have hg := initEPSFor_grow s.1.pl s.1.st s.2
  refine ⟨h.grow.flags_trans hg, ?_, ?_, ?_, ?_⟩
  · exact forall₂_compose (R := FlagStep s.1.st)
      (S := FlagStep (initEPSFor s.1.pl s.1.st s.2).2.1)
      (T := FlagStep (initEPSFor s.1.pl s.1.st s.2).2.1)
      (fun a b c hab hbc => FlagStep.compose hg hab hbc) h.pl
      (initEPSFor_pl s.1.pl s.1.st s.2)
  · exact initEPSFor_eps_flag _ _ _ h.eps_flag
  · intro X hX
    rcases (initEPSFor_eps s.1.pl s.1.st s.2 X).2 hX with h1 | h1
    · exact h.eps_lhs X h1
    · rw [← hlhs]; exact h1
  · intro N hN h0
    apply initEPSFor_least s.1.pl s.1.st s.2 N
    · intro p hp hY
      obtain ⟨q, hq, hqp⟩ := forall₂_mem_right h.pl p hp
      rw [hqp.2.1]
      apply hN q hq
      intro Y hYm
      rw [← hqp.2.2.1] at hYm
      have := hY Y hYm
      simp only [Symbol.isTerminalEpsilon, h.grow.flags_type] at this
      exact this
    · exact h.least N hN h0

/-- The number of left-hand sides that are not yet in the local set `eps`. -/
def initEPSMeasure (gc : GrammarContext) (s : GrammarContext × SymbolSet) : Nat :=
  (gc.pl.map (fun p => p.lhs.symbol)).toFinset.card - s.2.toFinset.card

theorem InitEPSInv.eps_subset {gc : GrammarContext} {s : GrammarContext × SymbolSet}
    (h : InitEPSInv gc s) : s.2.toFinset ⊆ (gc.pl.map (fun p => p.lhs.symbol)).toFinset := by
  intro X hX
  rw [List.mem_toFinset]
  exact h.eps_lhs X (SymbolSet.mem_toFinset.1 hX)

theorem InitEPSInv.eps_decreases {gc : GrammarContext} {s : GrammarContext × SymbolSet}
    (h : InitEPSInv gc s) (hc : (initEPSBody s).2 = true) :
    initEPSMeasure gc (initEPSBody s).1 < initEPSMeasure gc s := by
  have h' := h.eps_step
  obtain ⟨X, hX, hn⟩ := initEPSFor_change s.1.pl s.1.st s.2 hc
  have hss : s.2.toFinset ⊂ (initEPSBody s).1.2.toFinset := by
    refine Finset.ssubset_iff_of_subset ?_ |>.2 ⟨X, SymbolSet.mem_toFinset.2 hX, fun hc => hn (SymbolSet.mem_toFinset.1 hc)⟩
    intro Y hY
    exact SymbolSet.mem_toFinset.2 ((initEPSFor_eps s.1.pl s.1.st s.2 Y).1 (SymbolSet.mem_toFinset.1 hY))
  have h1 := Finset.card_lt_card hss
  have h2 := Finset.card_le_card h'.eps_subset
  unfold initEPSMeasure
  omega

/-- What `initEPS` leaves: the result exists; only nullable flags have changed; the flag of a
production is set exactly if it was set before or the right-hand side passes `isEPS`; the
flags are closed under the nullability rule and lie in every closed set that contains the
flags set at entry. -/
theorem initEPS_spec (gc : GrammarContext) :
    ∃ g, initEPS gc = some g ∧ FlagsGrow gc.st g.st ∧
      List.Forall₂ (fun p q => FlagStep g.st p q ∧
        (q.rhs.isNillable = true ↔
          (p.rhs.isNillable = true ∨ isEPS g.st p.rhs.symbolList = true))) gc.pl g.pl ∧
      (∀ p ∈ gc.pl, isEPS g.st p.rhs.symbolList = true →
        (g.st.mem p.lhs.symbol).isNillable = true) ∧
      (∀ N : SymbolPtr → Prop, NullableClosed gc.st gc.pl N →
        (∀ X, (gc.st.mem X).isNillable = true → N X) →
        ∀ X, (g.st.mem X).isNillable = true → N X) := by
  have hI : ∀ s, InitEPSInv gc s → InitEPSInv gc (initEPSBody s).1 := fun s h => h.eps_step
  obtain ⟨r, hr⟩ := doWhile_terminates (initEPSMeasure gc) hI
    (fun s h hc => h.eps_decreases hc) (gc.pl.length + 1) (gc, ∅) (InitEPSInv.eps_init gc) (by
      unfold initEPSMeasure
      have h1 := List.toFinset_card_le (gc.pl.map (fun p => p.lhs.symbol))
      rw [List.length_map] at h1
      omega)
  obtain ⟨s, hs, hc, hsr⟩ := doWhile_some hI _ _ _ (InitEPSInv.eps_init gc) hr
  obtain ⟨e1, e2, e3, e4⟩ := initEPSFor_stable s.1.pl s.1.st s.2 hs.eps_flag hc
  have hst : r.1.st = s.1.st := by rw [← hsr]; exact e1
  have hpl : r.1.pl = (initEPSFor s.1.pl s.1.st s.2).1 := by rw [← hsr]; rfl
  refine ⟨r.1, by simp [initEPS, hr], hst ▸ hs.grow, ?_, ?_, ?_⟩
  · rw [hst, hpl]
    have hstep := hs.eps_step.pl
    have hst' : (initEPSBody s).1.1.st = s.1.st := e1
    rw [hst'] at hstep
    have key : List.Forall₂ (fun (p : Production) (q : Production) =>
        (q.rhs.isNillable = true ↔
          (p.rhs.isNillable = true ∨ isEPS s.1.st p.rhs.symbolList = true)))
        gc.pl (initEPSFor s.1.pl s.1.st s.2).1 := by
      refine forall₂_compose ?_ hs.pl e4
      intro a b c hab hbc
      rw [hbc, hab.2.2.1]
      constructor
      · rintro (h | h)
        · exact hab.2.2.2.2.2.2 h
        · exact Or.inr h
      · rintro (h | h)
        · exact Or.inl (hab.2.2.2.2.2.1 h)
        · exact Or.inr h
    exact forall₂_and hstep key
  · intro p hp hep
    rw [hst] at hep ⊢
    obtain ⟨q, hq, hqp⟩ := forall₂_mem_left hs.pl p hp
    have := e3 q hq (by rw [hqp.2.2.1]; exact hep)
    rw [hqp.2.1] at this
    exact this
  · rw [hst]; exact hs.least


/-! ## FIRST: the loops of `buildFirstSet` -/

/-- The rule that `calculateFirstSet` follows, for a relation `J` in place of the FIRST sets:
`t` is related to a symbol of the list before which all symbols have the nullable flag. -/
def RuleFirst (st : SymbolTable) (J : SymbolPtr → SymbolPtr → Prop) (t : SymbolPtr) :
    List SymbolPtr → Prop
  | [] => False
  | Y :: rest => J Y t ∨ ((st.mem Y).isNillable = true ∧ RuleFirst st J t rest)

/-- Membership in the FIRST set of a sequence of symbols. -/
def InFirstOf (st : SymbolTable) (t : SymbolPtr) (l : List SymbolPtr) : Prop :=
  RuleFirst st (fun Y t => t ∈ (st.mem Y).firstSet) t l

theorem RuleFirst.rule_mono {st : SymbolTable} {J K : SymbolPtr → SymbolPtr → Prop}
    (h : ∀ Y t, J Y t → K Y t) {t : SymbolPtr} {l : List SymbolPtr}
    (hl : RuleFirst st J t l) : RuleFirst st K t l := by
  induction l with
  | nil => exact hl
  | cons Y rest ih =>
    rcases hl with h1 | ⟨h1, h2⟩
    · exact Or.inl (h _ _ h1)
    · exact Or.inr ⟨h1, ih h2⟩

theorem RuleFirst.exists_mem {st : SymbolTable} {J : SymbolPtr → SymbolPtr → Prop}
    {t : SymbolPtr} {l : List SymbolPtr} (hl : RuleFirst st J t l) : ∃ Y ∈ l, J Y t := by
  induction l with
  | nil => exact hl.elim
  | cons Y rest ih =>
    rcases hl with h1 | ⟨_, h2⟩
    · exact ⟨Y, List.mem_cons_self _ _, h1⟩
    · obtain ⟨Z, hZ, hJ⟩ := ih h2
      exact ⟨Z, List.mem_cons_of_mem _ hZ, hJ⟩

theorem mem_calculateFirstSetFrom (st : SymbolTable) (l : List SymbolPtr) (set : SymbolSet)
    (t : SymbolPtr) :
    t ∈ calculateFirstSetFrom st l set ↔ t ∈ set ∨ InFirstOf st t l := by
  induction l generalizing set with
  | nil => simp [calculateFirstSetFrom, InFirstOf, RuleFirst]
  | cons Y rest ih =>
    rw [calculateFirstSetFrom]
    unfold InFirstOf at ih ⊢
    simp only [RuleFirst]
    split_ifs with h
    · rw [mem_setUnion]
      simp only [Bool.not_eq_true', Bool.not_eq_eq_eq_not, Bool.not_true] at h
      simp [h]
    · rw [ih, mem_setUnion]
      simp only [Bool.not_eq_true', Bool.not_eq_false] at h
      simp only [h, true_and]
      tauto

theorem mem_calculateFirstSet (st : SymbolTable) (l : List SymbolPtr) (t : SymbolPtr) :
    t ∈ calculateFirstSet st l ↔ InFirstOf st t l := by
  rw [calculateFirstSet, mem_calculateFirstSetFrom]
  simp

/-- Memory `st'` is memory `st` with some FIRST sets replaced. -/
def FirstOnly (st st' : SymbolTable) : Prop :=
  st'.table_ = st.table_ ∧ st'.alien_ = st.alien_ ∧ st'.brk = st.brk ∧
    ∀ X, ∃ s, st'.mem X = { st.mem X with firstSet := s }

theorem FirstOnly.first_refl (st : SymbolTable) : FirstOnly st st :=
  ⟨rfl, rfl, rfl, fun X => ⟨(st.mem X).firstSet, rfl⟩⟩

theorem FirstOnly.first_trans {a b c : SymbolTable} (h1 : FirstOnly a b) (h2 : FirstOnly b c) :
    FirstOnly a c := by
  obtain ⟨t1, a1, b1, m1⟩ := h1
  obtain ⟨t2, a2, b2, m2⟩ := h2
  refine ⟨t2.trans t1, a2.trans a1, b2.trans b1, fun X => ?_⟩
  obtain ⟨x, hx⟩ := m1 X
  obtain ⟨y, hy⟩ := m2 X
  exact ⟨y, by rw [hy, hx]⟩

theorem FirstOnly.setFirstSet (st : SymbolTable) (p : SymbolPtr) (s : SymbolSet) :
    FirstOnly st (st.setFirstSet p s) := by
  refine ⟨rfl, rfl, rfl, fun X => ?_⟩
  rw [SymbolTable.setFirstSet, SymbolTable.modify_mem]
  split_ifs with h
  · subst h; exact ⟨s, rfl⟩
  · exact ⟨(st.mem X).firstSet, rfl⟩

theorem FirstOnly.first_type {st st' : SymbolTable} (h : FirstOnly st st') (X : SymbolPtr) :
    (st'.mem X).type = (st.mem X).type := by
  obtain ⟨b, hb⟩ := h.2.2.2 X
  rw [hb]

theorem FirstOnly.first_name {st st' : SymbolTable} (h : FirstOnly st st') (X : SymbolPtr) :
    (st'.mem X).name = (st.mem X).name := by
  obtain ⟨b, hb⟩ := h.2.2.2 X
  rw [hb]

theorem FirstOnly.first_isNillable {st st' : SymbolTable} (h : FirstOnly st st') (X : SymbolPtr) :
    (st'.mem X).isNillable = (st.mem X).isNillable := by
  obtain ⟨b, hb⟩ := h.2.2.2 X
  rw [hb]

theorem FirstOnly.first_followSet {st st' : SymbolTable} (h : FirstOnly st st') (X : SymbolPtr) :
    (st'.mem X).followSet = (st.mem X).followSet := by
  obtain ⟨b, hb⟩ := h.2.2.2 X
  rw [hb]

theorem FirstOnly.ruleFirst {st st' : SymbolTable} (h : FirstOnly st st')
    (J : SymbolPtr → SymbolPtr → Prop) (t : SymbolPtr) (l : List SymbolPtr) :
    RuleFirst st' J t l ↔ RuleFirst st J t l := by
  induction l with
  | nil => exact Iff.rfl
  | cons Y rest ih => simp only [RuleFirst, h.first_isNillable, ih]

@[simp] theorem setFirstSet_firstSet (st : SymbolTable) (p q : SymbolPtr) (s : SymbolSet) :
    ((st.setFirstSet p s).mem q).firstSet = if q = p then s else (st.mem q).firstSet := by
  rw [SymbolTable.setFirstSet, SymbolTable.modify_mem]
  split_ifs <;> rfl

theorem setFirstSet_self (st : SymbolTable) (p : SymbolPtr) (s : SymbolSet)
    (h : s = (st.mem p).firstSet) : st.setFirstSet p s = st := by
  apply SymbolTable.modify_eq_self
  subst h
  rfl

theorem buildFirstSetFor_only (ps : ProductionList) (st : SymbolTable) :
    FirstOnly st (buildFirstSetFor ps st).1 := by
  induction ps generalizing st with
  | nil => exact FirstOnly.first_refl st
  | cons p ps ih =>
    rw [buildFirstSetFor]
    exact (FirstOnly.setFirstSet st _ _).first_trans (ih _)

theorem buildFirstSetFor_mono (ps : ProductionList) (st : SymbolTable) (X t : SymbolPtr)
    (h : t ∈ (st.mem X).firstSet) : t ∈ ((buildFirstSetFor ps st).1.mem X).firstSet := by
  induction ps generalizing st with
  | nil => exact h
  | cons p ps ih =>
    rw [buildFirstSetFor]
    apply ih
    rw [setFirstSet_firstSet]
    split_ifs with hX
    · subst hX; exact mem_setUnion.2 (Or.inl h)
    · exact h

/-- The relation `J` is closed under the FIRST rule for the productions `ps`. -/
def FirstClosed (st : SymbolTable) (ps : ProductionList) (J : SymbolPtr → SymbolPtr → Prop) :
    Prop :=
  ∀ p ∈ ps, ∀ t, RuleFirst st J t p.rhs.symbolList → J p.lhs.symbol t

theorem buildFirstSetFor_least (ps : ProductionList) (st : SymbolTable)
    (J : SymbolPtr → SymbolPtr → Prop) (hJ : FirstClosed st ps J)
    (h0 : ∀ X t, t ∈ (st.mem X).firstSet → J X t) :
    ∀ X t, t ∈ ((buildFirstSetFor ps st).1.mem X).firstSet → J X t := by
  induction ps generalizing st with
  | nil => exact h0
  | cons p ps ih =>
    rw [buildFirstSetFor]
    have hF := FirstOnly.setFirstSet st p.lhs.symbol
      (setUnion (st.mem p.lhs.symbol).firstSet (calculateFirstSet st p.rhs.symbolList)).1
    apply ih
    · intro q hq t ht
      exact hJ q (List.mem_cons_of_mem _ hq) t ((hF.ruleFirst J t _).1 ht)
    · intro X t ht
      rw [setFirstSet_firstSet] at ht
      split_ifs at ht with hX
      · subst hX
        rcases mem_setUnion.1 ht with h1 | h1
        · exact h0 _ _ h1
        · exact hJ p (List.mem_cons_self _ _) t
            (((mem_calculateFirstSet st _ t).1 h1).rule_mono h0)
      · exact h0 _ _ ht

theorem buildFirstSetFor_change (ps : ProductionList) (st : SymbolTable)
    (h : (buildFirstSetFor ps st).2 = true) :
    ∃ X ∈ ps.map (fun p => p.lhs.symbol), ∃ t,
      t ∈ ((buildFirstSetFor ps st).1.mem X).firstSet ∧ ¬ t ∈ (st.mem X).firstSet := by
  induction ps generalizing st with
  | nil => simp [buildFirstSetFor] at h
  | cons p ps ih =>
    rw [buildFirstSetFor] at h ⊢
    simp only [Bool.or_eq_true] at h
    by_cases hu : (setUnion (st.mem p.lhs.symbol).firstSet
        (calculateFirstSet st p.rhs.symbolList)).2 = true
    · obtain ⟨t, ht, hn⟩ := setUnion_snd.1 hu
      refine ⟨p.lhs.symbol, by simp, t, ?_, hn⟩
      apply buildFirstSetFor_mono
      rw [setFirstSet_firstSet, if_pos rfl]
      exact mem_setUnion.2 (Or.inr ht)
    · have hu' := setUnion_eq_self (by simpa using hu)
      rcases h with h | h
      · exact absurd h hu
      · obtain ⟨X, hX, t, ht, hn⟩ := ih _ h
        rw [hu', setFirstSet_self st _ _ rfl] at ht hn
        refine ⟨X, ?_, t, ?_, hn⟩
        · simp only [List.map_cons, List.mem_cons]; exact Or.inr hX
        · simp only [hu', setFirstSet_self st _ _ rfl]; exact ht

theorem buildFirstSetFor_stable (ps : ProductionList) (st : SymbolTable)
    (h : (buildFirstSetFor ps st).2 = false) :
    (buildFirstSetFor ps st).1 = st ∧
      ∀ p ∈ ps, ∀ t, InFirstOf st t p.rhs.symbolList → t ∈ (st.mem p.lhs.symbol).firstSet := by
  induction ps generalizing st with
  | nil => exact ⟨rfl, by simp⟩
  | cons p ps ih =>
    rw [buildFirstSetFor] at h ⊢
    simp only [Bool.or_eq_false_iff] at h
    have hu' := setUnion_eq_self h.1
    have hst := setFirstSet_self st p.lhs.symbol _ hu'
    simp only [hst] at h ⊢
    obtain ⟨h1, h2⟩ := ih st h.2
    refine ⟨h1, ?_⟩
    intro q hq t ht
    rcases List.mem_cons.1 hq with rfl | hq
    · exact setUnion_snd_false.1 h.1 t ((mem_calculateFirstSet st _ t).2 ht)
    · exact h2 q hq t ht


/-! ### A measure for loops that enlarge sets within a finite universe -/

theorem sum_card_lt {D U : Finset SymbolPtr} {f g : SymbolPtr → Finset SymbolPtr}
    (hmono : ∀ X ∈ D, f X ⊆ g X) (hbound : ∀ X ∈ D, g X ⊆ U)
    (hstrict : ∃ X ∈ D, ∃ t, t ∈ g X ∧ ¬ t ∈ f X) :
    ∑ X ∈ D, (U.card - (g X).card) < ∑ X ∈ D, (U.card - (f X).card) := by
  apply Finset.sum_lt_sum
  · intro X hX
    have := Finset.card_le_card (hmono X hX)
    omega
  · obtain ⟨X, hX, t, ht, hn⟩ := hstrict
    refine ⟨X, hX, ?_⟩
    have h1 : f X ⊂ g X :=
      (Finset.ssubset_iff_of_subset (hmono X hX)).2 ⟨t, ht, hn⟩
    have h2 := Finset.card_lt_card h1
    have h3 := Finset.card_le_card (hbound X hX)
    omega

theorem sum_card_le (D U : Finset SymbolPtr) (f : SymbolPtr → Finset SymbolPtr) :
    ∑ X ∈ D, (U.card - (f X).card) ≤ D.card * U.card := by
  have := Finset.sum_le_card_nsmul D (fun X => U.card - (f X).card) U.card
    (fun X _ => Nat.sub_le _ _)
  simpa using this

theorem lhs_mem_symbolOccurrences {pl : ProductionList} {p : Production} (hp : p ∈ pl) :
    p.lhs.symbol ∈ symbolOccurrences pl := by
  unfold symbolOccurrences
  rw [List.mem_flatten]
  exact ⟨_, List.mem_map.2 ⟨p, hp, rfl⟩, List.mem_cons_self _ _⟩

theorem rhs_mem_symbolOccurrences {pl : ProductionList} {p : Production} (hp : p ∈ pl)
    {Y : SymbolPtr} (hY : Y ∈ p.rhs.symbolList) : Y ∈ symbolOccurrences pl := by
  unfold symbolOccurrences
  rw [List.mem_flatten]
  exact ⟨_, List.mem_map.2 ⟨p, hp, rfl⟩, List.mem_cons_of_mem _ hY⟩

theorem length_le_symbolOccurrences (pl : ProductionList) :
    pl.length ≤ (symbolOccurrences pl).length := by
  unfold symbolOccurrences
  induction pl with
  | nil => simp
  | cons p ps ih =>
    simp only [List.map_cons, List.flatten_cons, List.length_append, List.length_cons]
    omega

/-- Every element of the sets `f Y` of the symbols `Y` of a list. -/
def unionOver (f : SymbolPtr → SymbolSet) (l : List SymbolPtr) : Finset SymbolPtr :=
  ((l.map (fun Y => (f Y).elems)).flatten).toFinset

theorem mem_unionOver {f : SymbolPtr → SymbolSet} {l : List SymbolPtr} {t : SymbolPtr} :
    t ∈ unionOver f l ↔ ∃ Y ∈ l, t ∈ f Y := by
  unfold unionOver
  rw [List.mem_toFinset, List.mem_flatten]
  constructor
  · rintro ⟨m, hm, ht⟩
    obtain ⟨Y, hY, rfl⟩ := List.mem_map.1 hm
    exact ⟨Y, hY, ht⟩
  · rintro ⟨Y, hY, ht⟩
    exact ⟨_, List.mem_map.2 ⟨Y, hY, rfl⟩, ht⟩

theorem card_unionOver_le (f : SymbolPtr → SymbolSet) (l : List SymbolPtr) :
    (unionOver f l).card ≤ (l.map (fun Y => (f Y).elems.length)).sum := by
  unfold unionOver
  refine (List.toFinset_card_le _).trans ?_
  rw [List.length_flatten, List.map_map]
  rfl


/-- The FIRST set that the first loop of `buildFirstSet` gives a symbol of the table: the
symbol itself for a terminal, nothing otherwise. -/
def firstSeed (st : SymbolTable) (X : SymbolPtr) : SymbolSet :=
  if (st.mem X).isTerminal then (SymbolSet.empty.insert X).1 else ∅

theorem buildFirstSetInit_cons (item : String × SymbolPtr) (rest : List (String × SymbolPtr))
    (st : SymbolTable) :
    ∃ st2, buildFirstSetInit (item :: rest) st = buildFirstSetInit rest st2 ∧ FirstOnly st st2 ∧
      ∀ X, (st2.mem X).firstSet = if X = item.2 then firstSeed st item.2 else (st.mem X).firstSet := by
  rw [buildFirstSetInit]
  have hty : ((st.setFirstSet item.2 ((st.mem item.2).firstSet.clear)).mem item.2).isTerminal
      = (st.mem item.2).isTerminal := by
    simp only [Symbol.isTerminal, (FirstOnly.setFirstSet st _ _).first_type]
  rw [hty]
  split_ifs with h1
  · refine ⟨_, rfl, (FirstOnly.setFirstSet _ _ _).first_trans (FirstOnly.setFirstSet _ _ _), ?_⟩
    intro X
    simp only [setFirstSet_firstSet, firstSeed, h1, if_true]
    split_ifs <;> rfl
  · refine ⟨_, rfl, FirstOnly.setFirstSet _ _ _, ?_⟩
    intro X
    simp only [setFirstSet_firstSet, firstSeed, h1]
    by_cases hX : X = item.2
    · simp only [hX, if_true]; rfl
    · simp only [hX, if_false]

theorem buildFirstSetInit_only (table : List (String × SymbolPtr)) (st : SymbolTable) :
    FirstOnly st (buildFirstSetInit table st) := by
  induction table generalizing st with
  | nil => exact FirstOnly.first_refl st
  | cons item rest ih =>
    obtain ⟨st2, h1, h2, _⟩ := buildFirstSetInit_cons item rest st
    rw [h1]
    exact h2.first_trans (ih _)

theorem buildFirstSetInit_firstSet (table : List (String × SymbolPtr)) (st : SymbolTable)
    (X : SymbolPtr) :
    ((buildFirstSetInit table st).mem X).firstSet =
      if X ∈ table.map Prod.snd then firstSeed st X else (st.mem X).firstSet := by
  induction table generalizing st with
  | nil => simp [buildFirstSetInit]
  | cons item rest ih =>
    obtain ⟨st2, h1, h2, h3⟩ := buildFirstSetInit_cons item rest st
    rw [h1, ih, h3]
    have hseed : firstSeed st2 X = firstSeed st X := by
      simp only [firstSeed, Symbol.isTerminal, h2.first_type]
    rw [hseed]
    simp only [List.map_cons, List.mem_cons]
    by_cases hX : X = item.2
    · subst hX; simp
    · simp only [hX, false_or, if_false]

/-- The invariant of the `do` loop of `buildFirstSet` started in memory `st0`. -/
structure FirstInv (pl : ProductionList) (st0 st : SymbolTable) : Prop where
  only : FirstOnly st0 st
  mono : ∀ X t, t ∈ (st0.mem X).firstSet → t ∈ (st.mem X).firstSet
  least : ∀ J : SymbolPtr → SymbolPtr → Prop, FirstClosed st0 pl J →
    (∀ X t, t ∈ (st0.mem X).firstSet → J X t) →
    ∀ X t, t ∈ (st.mem X).firstSet → J X t

theorem FirstInv.first_init (pl : ProductionList) (st0 : SymbolTable) : FirstInv pl st0 st0 :=
  ⟨FirstOnly.first_refl _, fun _ _ h => h, fun _ _ h0 => h0⟩

theorem FirstInv.first_step {pl : ProductionList} {st0 st : SymbolTable} (h : FirstInv pl st0 st) :
    FirstInv pl st0 (buildFirstSetFor pl st).1 := by
  refine ⟨h.only.first_trans (buildFirstSetFor_only pl st),
    fun X t ht => buildFirstSetFor_mono pl st X t (h.mono X t ht), ?_⟩
  intro J hJ h0
  apply buildFirstSetFor_least pl st J
  · intro p hp t ht
    exact hJ p hp t ((h.only.ruleFirst J t _).1 ht)
  · exact h.least J hJ h0

theorem FirstInv.first_bounded {pl : ProductionList} {st0 st : SymbolTable} (h : FirstInv pl st0 st)
    {X : SymbolPtr} (hX : X ∈ symbolOccurrences pl) :
    (st.mem X).firstSet.toFinset ⊆
      unionOver (fun Y => (st0.mem Y).firstSet) (symbolOccurrences pl) := by
  intro t ht
  have key := h.least
    (fun X t => X ∈ symbolOccurrences pl →
      t ∈ unionOver (fun Y => (st0.mem Y).firstSet) (symbolOccurrences pl)) ?_ ?_ X t
    (SymbolSet.mem_toFinset.1 ht) hX
  · exact key
  · intro p hp t ht _
    obtain ⟨Y, hY, hJ⟩ := ht.exists_mem
    exact hJ (rhs_mem_symbolOccurrences hp hY)
  · intro X t ht hX
    exact mem_unionOver.2 ⟨X, hX, ht⟩

/-- The measure of the loop of `buildFirstSet`: the room left in the FIRST sets of the
left-hand sides. -/
def firstMeasure (pl : ProductionList) (st0 st : SymbolTable) : Nat :=
  ∑ X ∈ (pl.map (fun p => p.lhs.symbol)).toFinset,
    ((unionOver (fun Y => (st0.mem Y).firstSet) (symbolOccurrences pl)).card
      - (st.mem X).firstSet.toFinset.card)

theorem FirstInv.first_decreases {pl : ProductionList} {st0 st : SymbolTable}
    (h : FirstInv pl st0 st) (hc : (buildFirstSetFor pl st).2 = true) :
    firstMeasure pl st0 (buildFirstSetFor pl st).1 < firstMeasure pl st0 st := by
  unfold firstMeasure
  apply sum_card_lt
  · intro X _ t ht
    exact SymbolSet.mem_toFinset.2
      (buildFirstSetFor_mono pl st X t (SymbolSet.mem_toFinset.1 ht))
  · intro X hX
    obtain ⟨p, hp, rfl⟩ := List.mem_map.1 (List.mem_toFinset.1 hX)
    exact h.first_step.first_bounded (lhs_mem_symbolOccurrences hp)
  · obtain ⟨X, hX, t, ht, hn⟩ := buildFirstSetFor_change pl st hc
    exact ⟨X, List.mem_toFinset.2 hX, t, SymbolSet.mem_toFinset.2 ht,
      fun hc => hn (SymbolSet.mem_toFinset.1 hc)⟩

theorem firstMeasure_lt_fuel (pl : ProductionList) (st0 : SymbolTable) :
    firstMeasure pl st0 st0 < firstFuel pl st0 := by
  unfold firstMeasure firstFuel
  refine Nat.lt_succ_of_le ((sum_card_le _ _ _).trans ?_)
  apply Nat.mul_le_mul
  · refine (List.toFinset_card_le _).trans ?_
    rw [List.length_map]
    exact length_le_symbolOccurrences pl
  · exact card_unionOver_le _ _

/-- What `buildFirstSet` leaves: the result exists; only FIRST sets have changed; they contain
what the first loop put there, are closed under the FIRST rule and lie in every closed
relation that contains what the first loop put there. -/
theorem buildFirstSet_spec (gc : GrammarContext) :
    ∃ g, buildFirstSet gc = some g ∧ g.pl = gc.pl ∧ FirstOnly gc.st g.st ∧
      FirstInv gc.pl (buildFirstSetInit gc.st.table_ gc.st) g.st ∧
      (∀ p ∈ gc.pl, ∀ t, InFirstOf g.st t p.rhs.symbolList →
        t ∈ (g.st.mem p.lhs.symbol).firstSet) := by
  have hI : ∀ s, FirstInv gc.pl (buildFirstSetInit gc.st.table_ gc.st) s →
      FirstInv gc.pl (buildFirstSetInit gc.st.table_ gc.st) (buildFirstSetFor gc.pl s).1 :=
    fun s h => h.first_step
  obtain ⟨r, hr⟩ := doWhile_terminates
    (firstMeasure gc.pl (buildFirstSetInit gc.st.table_ gc.st)) hI
    (fun s h hc => h.first_decreases hc) _ _ (FirstInv.first_init gc.pl _) (firstMeasure_lt_fuel gc.pl _)
  obtain ⟨s, hs, hc, hsr⟩ := doWhile_some hI _ _ _ (FirstInv.first_init gc.pl _) hr
  obtain ⟨e1, e2⟩ := buildFirstSetFor_stable gc.pl s hc
  have hrs : r = s := by rw [← hsr]; exact e1
  subst hrs
  exact ⟨{ gc with st := r }, by simp [buildFirstSet, hr], rfl,
    (buildFirstSetInit_only _ _).first_trans hs.only, hs, e2⟩


/-! ## FOLLOW: the loop of `buildFollowSet` -/

/-- Memory `st'` is memory `st` with some FOLLOW sets replaced. -/
def FollowOnly (st st' : SymbolTable) : Prop :=
  st'.table_ = st.table_ ∧ st'.alien_ = st.alien_ ∧ st'.brk = st.brk ∧
    ∀ X, ∃ s, st'.mem X = { st.mem X with followSet := s }

theorem FollowOnly.follow_refl (st : SymbolTable) : FollowOnly st st :=
  ⟨rfl, rfl, rfl, fun X => ⟨(st.mem X).followSet, rfl⟩⟩

theorem FollowOnly.follow_trans {a b c : SymbolTable} (h1 : FollowOnly a b) (h2 : FollowOnly b c) :
    FollowOnly a c := by
  obtain ⟨t1, a1, b1, m1⟩ := h1
  obtain ⟨t2, a2, b2, m2⟩ := h2
  refine ⟨t2.trans t1, a2.trans a1, b2.trans b1, fun X => ?_⟩
  obtain ⟨x, hx⟩ := m1 X
  obtain ⟨y, hy⟩ := m2 X
  exact ⟨y, by rw [hy, hx]⟩

theorem FollowOnly.setFollowSet (st : SymbolTable) (p : SymbolPtr) (s : SymbolSet) :
    FollowOnly st (st.setFollowSet p s) := by
  refine ⟨rfl, rfl, rfl, fun X => ?_⟩
  rw [SymbolTable.setFollowSet, SymbolTable.modify_mem]
  split_ifs with h
  · subst h; exact ⟨s, rfl⟩
  · exact ⟨(st.mem X).followSet, rfl⟩

theorem FollowOnly.follow_type {st st' : SymbolTable} (h : FollowOnly st st') (X : SymbolPtr) :
    (st'.mem X).type = (st.mem X).type := by
  obtain ⟨b, hb⟩ := h.2.2.2 X
  rw [hb]

theorem FollowOnly.follow_name {st st' : SymbolTable} (h : FollowOnly st st') (X : SymbolPtr) :
    (st'.mem X).name = (st.mem X).name := by
  obtain ⟨b, hb⟩ := h.2.2.2 X
  rw [hb]

theorem FollowOnly.follow_isNillable {st st' : SymbolTable} (h : FollowOnly st st') (X : SymbolPtr) :
    (st'.mem X).isNillable = (st.mem X).isNillable := by
  obtain ⟨b, hb⟩ := h.2.2.2 X
  rw [hb]

theorem FollowOnly.follow_firstSet {st st' : SymbolTable} (h : FollowOnly st st') (X : SymbolPtr) :
    (st'.mem X).firstSet = (st.mem X).firstSet := by
  obtain ⟨b, hb⟩ := h.2.2.2 X
  rw [hb]

theorem FollowOnly.isNonterminal {st st' : SymbolTable} (h : FollowOnly st st') (X : SymbolPtr) :
    (st'.mem X).isNonterminal = (st.mem X).isNonterminal := by
  simp only [Symbol.isNonterminal, Symbol.isTerminal, h.follow_type]

theorem FollowOnly.inFirstOf {st st' : SymbolTable} (h : FollowOnly st st')
    (t : SymbolPtr) (l : List SymbolPtr) : InFirstOf st' t l ↔ InFirstOf st t l := by
  unfold InFirstOf
  have hJ : (fun Y t => t ∈ (st'.mem Y).firstSet) = (fun Y t => t ∈ (st.mem Y).firstSet) := by
    funext Y t
    rw [h.follow_firstSet]
  rw [hJ]
  induction l with
  | nil => exact Iff.rfl
  | cons Y rest ih => simp only [RuleFirst, h.follow_isNillable, ih]

@[simp] theorem setFollowSet_followSet (st : SymbolTable) (p q : SymbolPtr) (s : SymbolSet) :
    ((st.setFollowSet p s).mem q).followSet = if q = p then s else (st.mem q).followSet := by
  rw [SymbolTable.setFollowSet, SymbolTable.modify_mem]
  split_ifs <;> rfl

theorem setFollowSet_self (st : SymbolTable) (p : SymbolPtr) (s : SymbolSet)
    (h : s = (st.mem p).followSet) : st.setFollowSet p s = st := by
  apply SymbolTable.modify_eq_self
  subst h
  rfl

/-! ### The single statement -/

theorem unionIntoFollowSet_only (acc : SymbolTable × Bool) (x : SymbolPtr) (set : SymbolSet) :
    FollowOnly acc.1 (unionIntoFollowSet acc x set).1 :=
  FollowOnly.setFollowSet _ _ _

theorem mem_unionIntoFollowSet (acc : SymbolTable × Bool) (x : SymbolPtr) (set : SymbolSet)
    (X t : SymbolPtr) :
    t ∈ ((unionIntoFollowSet acc x set).1.mem X).followSet ↔
      t ∈ (acc.1.mem X).followSet ∨ (X = x ∧ t ∈ set) := by
  simp only [unionIntoFollowSet, setFollowSet_followSet]
  split_ifs with h
  · subst h; simp
  · simp [h]

theorem unionIntoFollowSet_flag (acc : SymbolTable × Bool) (x : SymbolPtr) (set : SymbolSet) :
    (unionIntoFollowSet acc x set).2 = true ↔
      acc.2 = true ∨ ∃ t, t ∈ set ∧ ¬ t ∈ (acc.1.mem x).followSet := by
  simp only [unionIntoFollowSet]
  rw [← setUnion_snd]
  split_ifs with h <;> simp [h]

theorem unionIntoFollowSet_stable (acc : SymbolTable × Bool) (x : SymbolPtr) (set : SymbolSet)
    (h : (unionIntoFollowSet acc x set).2 = false) :
    unionIntoFollowSet acc x set = acc ∧ ∀ t, t ∈ set → t ∈ (acc.1.mem x).followSet := by
  have h1 : ¬ (acc.2 = true ∨ ∃ t, t ∈ set ∧ ¬ t ∈ (acc.1.mem x).followSet) := by
    rw [← unionIntoFollowSet_flag]; simp [h]
  push_neg at h1
  have h2 : (setUnion (acc.1.mem x).followSet set).2 = false := setUnion_snd_false.2 h1.2
  refine ⟨?_, h1.2⟩
  simp only [unionIntoFollowSet, h2, setUnion_eq_self h2, setFollowSet_self acc.1 x _ rfl]
  simp

/-! ### The closure rules -/

/-- The relation `J` is closed under the first FOLLOW rule on the list `l`: a nonterminal of
the list is related to the FIRST set of what comes after it. -/
def FollowFwdClosed (st : SymbolTable) (J : SymbolPtr → SymbolPtr → Prop)
    (l : List SymbolPtr) : Prop :=
  ∀ pre X suf, l = pre ++ X :: suf → (st.mem X).isNonterminal = true →
    ∀ t, InFirstOf st t suf → J X t

/-- The relation `J` is closed under the second FOLLOW rule on the reversed list `rl`: a
nonterminal that is reached through symbols with the nullable flag is related to whatever
the left-hand side is related to. -/
def FollowBwdClosed (st : SymbolTable) (J : SymbolPtr → SymbolPtr → Prop) (lhs : SymbolPtr)
    (rl : List SymbolPtr) : Prop :=
  ∀ rpre X rsuf, rl = rpre ++ X :: rsuf → (∀ Z ∈ rpre, (st.mem Z).isNillable = true) →
    (st.mem X).isNonterminal = true → ∀ t, J lhs t → J X t

/-- The relation `J` is closed under both FOLLOW rules for the productions `ps`. -/
def FollowClosed (st : SymbolTable) (ps : ProductionList) (J : SymbolPtr → SymbolPtr → Prop) :
    Prop :=
  ∀ p ∈ ps, FollowFwdClosed st J p.rhs.symbolList ∧
    FollowBwdClosed st J p.lhs.symbol p.rhs.symbolList.reverse

theorem FollowFwdClosed.fwd_tail {st : SymbolTable} {J : SymbolPtr → SymbolPtr → Prop}
    {x : SymbolPtr} {l : List SymbolPtr} (h : FollowFwdClosed st J (x :: l)) :
    FollowFwdClosed st J l := by
  intro pre X suf hl
  exact h (x :: pre) X suf (by rw [hl]; rfl)

theorem FollowBwdClosed.bwd_tail {st : SymbolTable} {J : SymbolPtr → SymbolPtr → Prop}
    {lhs x : SymbolPtr} {l : List SymbolPtr} (h : FollowBwdClosed st J lhs (x :: l))
    (hx : (st.mem x).isNillable = true) : FollowBwdClosed st J lhs l := by
  intro rpre X rsuf hl hn
  refine h (x :: rpre) X rsuf (by rw [hl]; rfl) ?_
  intro Z hZ
  rcases List.mem_cons.1 hZ with rfl | hZ
  · exact hx
  · exact hn Z hZ

theorem FollowFwdClosed.fwd_of_only {st st' : SymbolTable} (h : FollowOnly st st')
    {J : SymbolPtr → SymbolPtr → Prop} {l : List SymbolPtr} (hJ : FollowFwdClosed st J l) :
    FollowFwdClosed st' J l := by
  intro pre X suf hl hX t ht
  exact hJ pre X suf hl (by rw [← h.isNonterminal]; exact hX) t ((h.inFirstOf t suf).1 ht)

theorem FollowBwdClosed.bwd_of_only {st st' : SymbolTable} (h : FollowOnly st st')
    {J : SymbolPtr → SymbolPtr → Prop} {lhs : SymbolPtr} {l : List SymbolPtr}
    (hJ : FollowBwdClosed st J lhs l) : FollowBwdClosed st' J lhs l := by
  intro rpre X rsuf hl hn hX
  exact hJ rpre X rsuf hl (fun Z hZ => by rw [← h.follow_isNillable]; exact hn Z hZ)
    (by rw [← h.isNonterminal]; exact hX)

theorem FollowClosed.closed_of_only {st st' : SymbolTable} (h : FollowOnly st st')
    {J : SymbolPtr → SymbolPtr → Prop} {ps : ProductionList} (hJ : FollowClosed st ps J) :
    FollowClosed st' ps J :=
  fun p hp => ⟨(hJ p hp).1.fwd_of_only h, (hJ p hp).2.bwd_of_only h⟩

/-! ### The first inner loop -/

theorem buildFollowSetForward_only (l : List SymbolPtr) (acc : SymbolTable × Bool) :
    FollowOnly acc.1 (buildFollowSetForward l acc).1 := by
  induction l generalizing acc with
  | nil => exact FollowOnly.follow_refl _
  | cons x l ih =>
    cases l with
    | nil => exact FollowOnly.follow_refl _
    | cons y rest =>
      rw [buildFollowSetForward]
      split_ifs
      · exact (unionIntoFollowSet_only _ _ _).follow_trans (ih _)
      · exact ih _

theorem buildFollowSetForward_mono (l : List SymbolPtr) (acc : SymbolTable × Bool)
    (X t : SymbolPtr) (h : t ∈ (acc.1.mem X).followSet) :
    t ∈ ((buildFollowSetForward l acc).1.mem X).followSet := by
  induction l generalizing acc with
  | nil => exact h
  | cons x l ih =>
    cases l with
    | nil => exact h
    | cons y rest =>
      rw [buildFollowSetForward]
      split_ifs
      · exact ih _ ((mem_unionIntoFollowSet _ _ _ _ _).2 (Or.inl h))
      · exact ih _ h

theorem buildFollowSetForward_least (l : List SymbolPtr) (acc : SymbolTable × Bool)
    (J : SymbolPtr → SymbolPtr → Prop) (hJ : FollowFwdClosed acc.1 J l)
    (h0 : ∀ X t, t ∈ (acc.1.mem X).followSet → J X t) :
    ∀ X t, t ∈ ((buildFollowSetForward l acc).1.mem X).followSet → J X t := by
  induction l generalizing acc with
  | nil => exact h0
  | cons x l ih =>
    cases l with
    | nil => exact h0
    | cons y rest =>
      rw [buildFollowSetForward]
      split_ifs with hx
      · apply ih _ (hJ.fwd_tail.fwd_of_only (unionIntoFollowSet_only _ _ _))
        intro X t ht
        rcases (mem_unionIntoFollowSet _ _ _ _ _).1 ht with h1 | ⟨rfl, h1⟩
        · exact h0 X t h1
        · exact hJ [] X (y :: rest) rfl hx t ((mem_calculateFirstSet _ _ _).1 h1)
      · exact ih _ hJ.fwd_tail h0

theorem buildFollowSetForward_change (l : List SymbolPtr) (acc : SymbolTable × Bool)
    (h : (buildFollowSetForward l acc).2 = true) :
    acc.2 = true ∨ ∃ X ∈ l, ∃ t,
      t ∈ ((buildFollowSetForward l acc).1.mem X).followSet ∧ ¬ t ∈ (acc.1.mem X).followSet := by
  induction l generalizing acc with
  | nil => exact Or.inl h
  | cons x l ih =>
    cases l with
    | nil => exact Or.inl h
    | cons y rest =>
      rw [buildFollowSetForward] at h ⊢
      split_ifs at h ⊢ with hx
      · rcases ih _ h with h1 | ⟨X, hX, t, ht, hn⟩
        · rcases (unionIntoFollowSet_flag _ _ _).1 h1 with h2 | ⟨t, ht, hn⟩
          · exact Or.inl h2
          · refine Or.inr ⟨x, List.mem_cons_self _ _, t, ?_, hn⟩
            apply buildFollowSetForward_mono
            exact (mem_unionIntoFollowSet _ _ _ _ _).2 (Or.inr ⟨rfl, ht⟩)
        · refine Or.inr ⟨X, List.mem_cons_of_mem _ hX, t, ht, fun hc => hn ?_⟩
          exact (mem_unionIntoFollowSet _ _ _ _ _).2 (Or.inl hc)
      · rcases ih _ h with h1 | ⟨X, hX, t, ht, hn⟩
        · exact Or.inl h1
        · exact Or.inr ⟨X, List.mem_cons_of_mem _ hX, t, ht, hn⟩

theorem buildFollowSetForward_stable (l : List SymbolPtr) (acc : SymbolTable × Bool)
    (h : (buildFollowSetForward l acc).2 = false) :
    buildFollowSetForward l acc = acc ∧
      FollowFwdClosed acc.1 (fun X t => t ∈ (acc.1.mem X).followSet) l := by
  induction l generalizing acc with
  | nil =>
    refine ⟨rfl, ?_⟩
    intro pre X suf hl
    simp at hl
  | cons x l ih =>
    cases l with
    | nil =>
      refine ⟨rfl, ?_⟩
      intro pre X suf hl _ t ht
      rcases pre with _ | ⟨z, pre⟩
      · simp only [List.nil_append, List.cons.injEq] at hl
        rw [← hl.2] at ht
        exact ht.elim
      · simp at hl
    | cons y rest =>
      rw [buildFollowSetForward] at h ⊢
      split_ifs at h ⊢ with hx
      · obtain ⟨e1, e2⟩ := ih _ h
        rw [e1] at h
        obtain ⟨e3, e4⟩ := unionIntoFollowSet_stable _ _ _ h
        rw [e3] at e2
        refine ⟨e1.trans e3, ?_⟩
        intro pre X suf hl hX t ht
        rcases pre with _ | ⟨z, pre⟩
        · simp only [List.nil_append, List.cons.injEq] at hl
          obtain ⟨rfl, rfl⟩ := hl
          exact e4 t ((mem_calculateFirstSet _ _ _).2 ht)
        · simp only [List.cons_append, List.cons.injEq] at hl
          exact e2 pre X suf hl.2 hX t ht
      · obtain ⟨e1, e2⟩ := ih _ h
        refine ⟨e1, ?_⟩
        intro pre X suf hl hX t ht
        rcases pre with _ | ⟨z, pre⟩
        · simp only [List.nil_append, List.cons.injEq] at hl
          obtain ⟨rfl, rfl⟩ := hl
          exact absurd hX hx
        · simp only [List.cons_append, List.cons.injEq] at hl
          exact e2 pre X suf hl.2 hX t ht

/-! ### The second inner loop -/

/-- The state after the `if` of the second inner loop at `rbeg`. -/
def backwardVisit (lhs rbeg : SymbolPtr) (acc : SymbolTable × Bool) : SymbolTable × Bool :=
  if (acc.1.mem rbeg).isNonterminal then unionIntoFollowSet acc rbeg (acc.1.mem lhs).followSet
  else acc

theorem buildFollowSetBackward_cons (lhs x : SymbolPtr) (l : List SymbolPtr)
    (acc : SymbolTable × Bool) :
    buildFollowSetBackward lhs (x :: l) acc =
      if (acc.1.mem x).isNillable = true then
        buildFollowSetBackward lhs l (backwardVisit lhs x acc)
      else backwardVisit lhs x acc := by
  rw [buildFollowSetBackward]
  have hn : ((backwardVisit lhs x acc).1.mem x).isNillable = (acc.1.mem x).isNillable := by
    unfold backwardVisit
    split_ifs
    · exact (unionIntoFollowSet_only _ _ _).follow_isNillable x
    · rfl
  show (if (!((backwardVisit lhs x acc).1.mem x).isNillable) = true then
      backwardVisit lhs x acc else buildFollowSetBackward lhs l (backwardVisit lhs x acc)) = _
  rw [hn]
  cases (acc.1.mem x).isNillable <;> simp

theorem backwardVisit_only (lhs x : SymbolPtr) (acc : SymbolTable × Bool) :
    FollowOnly acc.1 (backwardVisit lhs x acc).1 := by
  unfold backwardVisit
  split_ifs
  · exact unionIntoFollowSet_only _ _ _
  · exact FollowOnly.follow_refl _

theorem backwardVisit_mono (lhs x : SymbolPtr) (acc : SymbolTable × Bool) (X t : SymbolPtr)
    (ht : t ∈ (acc.1.mem X).followSet) : t ∈ ((backwardVisit lhs x acc).1.mem X).followSet := by
  unfold backwardVisit
  split_ifs
  · exact (mem_unionIntoFollowSet _ _ _ _ _).2 (Or.inl ht)
  · exact ht

theorem buildFollowSetBackward_only (lhs : SymbolPtr) (l : List SymbolPtr)
    (acc : SymbolTable × Bool) : FollowOnly acc.1 (buildFollowSetBackward lhs l acc).1 := by
  induction l generalizing acc with
  | nil => exact FollowOnly.follow_refl _
  | cons x l ih =>
    rw [buildFollowSetBackward_cons]
    split_ifs
    · exact (backwardVisit_only _ _ _).follow_trans (ih _)
    · exact backwardVisit_only _ _ _

theorem buildFollowSetBackward_mono (lhs : SymbolPtr) (l : List SymbolPtr)
    (acc : SymbolTable × Bool) (X t : SymbolPtr) (h : t ∈ (acc.1.mem X).followSet) :
    t ∈ ((buildFollowSetBackward lhs l acc).1.mem X).followSet := by
  induction l generalizing acc with
  | nil => exact h
  | cons x l ih =>
    rw [buildFollowSetBackward_cons]
    split_ifs
    · exact ih _ (backwardVisit_mono _ _ _ _ _ h)
    · exact backwardVisit_mono _ _ _ _ _ h

theorem buildFollowSetBackward_least (lhs : SymbolPtr) (l : List SymbolPtr)
    (acc : SymbolTable × Bool) (J : SymbolPtr → SymbolPtr → Prop)
    (hJ : FollowBwdClosed acc.1 J lhs l)
    (h0 : ∀ X t, t ∈ (acc.1.mem X).followSet → J X t) :
    ∀ X t, t ∈ ((buildFollowSetBackward lhs l acc).1.mem X).followSet → J X t := by
  induction l generalizing acc with
  | nil => exact h0
  | cons x l ih =>
    rw [buildFollowSetBackward_cons]
    have hv : ∀ X t, t ∈ ((backwardVisit lhs x acc).1.mem X).followSet → J X t := by
      intro X t ht
      unfold backwardVisit at ht
      split_ifs at ht with hx
      · rcases (mem_unionIntoFollowSet _ _ _ _ _).1 ht with h1 | ⟨rfl, h1⟩
        · exact h0 X t h1
        · exact hJ [] X l rfl (by simp) hx t (h0 lhs t h1)
      · exact h0 X t ht
    split_ifs with hn
    · exact ih _ ((hJ.bwd_tail hn).bwd_of_only (backwardVisit_only _ _ _)) hv
    · exact hv

theorem buildFollowSetBackward_change (lhs : SymbolPtr) (l : List SymbolPtr)
    (acc : SymbolTable × Bool) (h : (buildFollowSetBackward lhs l acc).2 = true) :
    acc.2 = true ∨ ∃ X ∈ l, ∃ t,
      t ∈ ((buildFollowSetBackward lhs l acc).1.mem X).followSet ∧
        ¬ t ∈ (acc.1.mem X).followSet := by
  induction l generalizing acc with
  | nil => exact Or.inl h
  | cons x l ih =>
    rw [buildFollowSetBackward_cons] at h ⊢
    have hv : (backwardVisit lhs x acc).2 = true → acc.2 = true ∨
        ∃ t, t ∈ ((backwardVisit lhs x acc).1.mem x).followSet ∧
          ¬ t ∈ (acc.1.mem x).followSet := by
      intro hb
      unfold backwardVisit at hb ⊢
      split_ifs at hb ⊢ with hx
      · rcases (unionIntoFollowSet_flag _ _ _).1 hb with h2 | ⟨t, ht, hn⟩
        · exact Or.inl h2
        · exact Or.inr ⟨t, (mem_unionIntoFollowSet _ _ _ _ _).2 (Or.inr ⟨rfl, ht⟩), hn⟩
      · exact Or.inl hb
    have hm : ∀ X t, t ∈ (acc.1.mem X).followSet →
        t ∈ ((backwardVisit lhs x acc).1.mem X).followSet := by
      intro X t ht
      unfold backwardVisit
      split_ifs
      · exact (mem_unionIntoFollowSet _ _ _ _ _).2 (Or.inl ht)
      · exact ht
    split_ifs at h ⊢ with hn
    · rcases ih _ h with h1 | ⟨X, hX, t, ht, hnot⟩
      · rcases hv h1 with h2 | ⟨t, ht, hnot⟩
        · exact Or.inl h2
        · exact Or.inr ⟨x, List.mem_cons_self _ _, t,
            buildFollowSetBackward_mono _ _ _ _ _ ht, hnot⟩
      · exact Or.inr ⟨X, List.mem_cons_of_mem _ hX, t, ht, fun hc => hnot (hm X t hc)⟩
    · rcases hv h with h2 | ⟨t, ht, hnot⟩
      · exact Or.inl h2
      · exact Or.inr ⟨x, List.mem_cons_self _ _, t, ht, hnot⟩

theorem backwardVisit_stable (lhs x : SymbolPtr) (acc : SymbolTable × Bool)
    (h : (backwardVisit lhs x acc).2 = false) :
    backwardVisit lhs x acc = acc ∧ ((acc.1.mem x).isNonterminal = true →
      ∀ t, t ∈ (acc.1.mem lhs).followSet → t ∈ (acc.1.mem x).followSet) := by
  unfold backwardVisit at h ⊢
  split_ifs at h ⊢ with hx
  · obtain ⟨e1, e2⟩ := unionIntoFollowSet_stable _ _ _ h
    exact ⟨e1, fun _ => e2⟩
  · exact ⟨rfl, fun hc => absurd hc hx⟩

theorem buildFollowSetBackward_stable (lhs : SymbolPtr) (l : List SymbolPtr)
    (acc : SymbolTable × Bool) (h : (buildFollowSetBackward lhs l acc).2 = false) :
    buildFollowSetBackward lhs l acc = acc ∧
      FollowBwdClosed acc.1 (fun X t => t ∈ (acc.1.mem X).followSet) lhs l := by
  induction l generalizing acc with
  | nil =>
    refine ⟨rfl, ?_⟩
    intro rpre X rsuf hl
    simp at hl
  | cons x l ih =>
    rw [buildFollowSetBackward_cons] at h ⊢
    split_ifs at h ⊢ with hn
    · obtain ⟨e1, e2⟩ := ih _ h
      rw [e1] at h
      obtain ⟨e3, e4⟩ := backwardVisit_stable _ _ _ h
      rw [e3] at e2
      refine ⟨e1.trans e3, ?_⟩
      intro rpre X rsuf hl hnil hX t ht
      rcases rpre with _ | ⟨z, rpre⟩
      · simp only [List.nil_append, List.cons.injEq] at hl
        obtain ⟨rfl, rfl⟩ := hl
        exact e4 hX t ht
      · simp only [List.cons_append, List.cons.injEq] at hl
        exact e2 rpre X rsuf hl.2 (fun Z hZ => hnil Z (List.mem_cons_of_mem _ hZ)) hX t ht
    · obtain ⟨e3, e4⟩ := backwardVisit_stable _ _ _ h
      refine ⟨e3, ?_⟩
      intro rpre X rsuf hl hnil hX t ht
      rcases rpre with _ | ⟨z, rpre⟩
      · simp only [List.nil_append, List.cons.injEq] at hl
        obtain ⟨rfl, rfl⟩ := hl
        exact e4 hX t ht
      · simp only [List.cons_append, List.cons.injEq] at hl
        obtain ⟨rfl, _⟩ := hl
        exact absurd (hnil _ (List.mem_cons_self _ _)) hn

/-! ### The loop over the productions -/

theorem buildFollowSetFor_only (ps : ProductionList) (acc : SymbolTable × Bool) :
    FollowOnly acc.1 (buildFollowSetFor ps acc).1 := by
  induction ps generalizing acc with
  | nil => exact FollowOnly.follow_refl _
  | cons p ps ih =>
    rw [buildFollowSetFor]
    exact ((buildFollowSetForward_only _ _).follow_trans (buildFollowSetBackward_only _ _ _)).follow_trans
      (ih _)

theorem buildFollowSetFor_mono (ps : ProductionList) (acc : SymbolTable × Bool)
    (X t : SymbolPtr) (h : t ∈ (acc.1.mem X).followSet) :
    t ∈ ((buildFollowSetFor ps acc).1.mem X).followSet := by
  induction ps generalizing acc with
  | nil => exact h
  | cons p ps ih =>
    rw [buildFollowSetFor]
    exact ih _ (buildFollowSetBackward_mono _ _ _ _ _ (buildFollowSetForward_mono _ _ _ _ h))

theorem buildFollowSetFor_least (ps : ProductionList) (acc : SymbolTable × Bool)
    (J : SymbolPtr → SymbolPtr → Prop) (hJ : FollowClosed acc.1 ps J)
    (h0 : ∀ X t, t ∈ (acc.1.mem X).followSet → J X t) :
    ∀ X t, t ∈ ((buildFollowSetFor ps acc).1.mem X).followSet → J X t := by
  induction ps generalizing acc with
  | nil => exact h0
  | cons p ps ih =>
    rw [buildFollowSetFor]
    have hp := hJ p (List.mem_cons_self _ _)
    have o1 := buildFollowSetForward_only p.rhs.symbolList acc
    have o2 := buildFollowSetBackward_only p.lhs.symbol p.rhs.symbolList.reverse
      (buildFollowSetForward p.rhs.symbolList acc)
    refine ih _ (FollowClosed.closed_of_only (o1.follow_trans o2) fun q hq => hJ q (List.mem_cons_of_mem _ hq))
      ?_
    exact buildFollowSetBackward_least _ _ _ J (hp.2.bwd_of_only o1)
      (buildFollowSetForward_least _ _ J hp.1 h0)

theorem buildFollowSetFor_change (ps : ProductionList) (acc : SymbolTable × Bool)
    (h : (buildFollowSetFor ps acc).2 = true) :
    acc.2 = true ∨ ∃ X ∈ symbolOccurrences ps, ∃ t,
      t ∈ ((buildFollowSetFor ps acc).1.mem X).followSet ∧ ¬ t ∈ (acc.1.mem X).followSet := by
  induction ps generalizing acc with
  | nil => exact Or.inl h
  | cons p ps ih =>
    rw [buildFollowSetFor] at h ⊢
    have hocc : ∀ X, X ∈ p.rhs.symbolList ∨ X ∈ symbolOccurrences ps →
        X ∈ symbolOccurrences (p :: ps) := by
      intro X hX
      unfold symbolOccurrences at hX ⊢
      simp only [List.map_cons, List.flatten_cons, List.mem_append, List.mem_cons]
      tauto
    rcases ih _ h with h1 | ⟨X, hX, t, ht, hn⟩
    · rcases buildFollowSetBackward_change _ _ _ h1 with h2 | ⟨X, hX, t, ht, hn⟩
      · rcases buildFollowSetForward_change _ _ h2 with h3 | ⟨X, hX, t, ht, hn⟩
        · exact Or.inl h3
        · refine Or.inr ⟨X, hocc X (Or.inl hX), t, ?_, hn⟩
          exact buildFollowSetFor_mono _ _ _ _ (buildFollowSetBackward_mono _ _ _ _ _ ht)
      · refine Or.inr ⟨X, hocc X (Or.inl (List.mem_reverse.1 hX)), t,
          buildFollowSetFor_mono _ _ _ _ ht, fun hc => hn ?_⟩
        exact buildFollowSetForward_mono _ _ _ _ hc
    · refine Or.inr ⟨X, hocc X (Or.inr hX), t, ht, fun hc => hn ?_⟩
      exact buildFollowSetBackward_mono _ _ _ _ _ (buildFollowSetForward_mono _ _ _ _ hc)

theorem buildFollowSetFor_stable (ps : ProductionList) (acc : SymbolTable × Bool)
    (h : (buildFollowSetFor ps acc).2 = false) :
    buildFollowSetFor ps acc = acc ∧
      FollowClosed acc.1 ps (fun X t => t ∈ (acc.1.mem X).followSet) := by
  induction ps generalizing acc with
  | nil =>
    refine ⟨rfl, ?_⟩
    intro p hp
    cases hp
  | cons p ps ih =>
    rw [buildFollowSetFor] at h ⊢
    obtain ⟨e1, e2⟩ := ih _ h
    rw [e1] at h
    obtain ⟨e3, e4⟩ := buildFollowSetBackward_stable _ _ _ h
    rw [e3] at h e2
    obtain ⟨e5, e6⟩ := buildFollowSetForward_stable _ _ h
    rw [e5] at e2 e4
    refine ⟨e1.trans (e3.trans e5), ?_⟩
    intro q hq
    rcases List.mem_cons.1 hq with rfl | hq
    · exact ⟨e6, e4⟩
    · exact e2 q hq

/-- The invariant of the `do` loop of `buildFollowSet` started in memory `st0`. -/
structure FollowInv (pl : ProductionList) (st0 st : SymbolTable) : Prop where
  only : FollowOnly st0 st
  mono : ∀ X t, t ∈ (st0.mem X).followSet → t ∈ (st.mem X).followSet
  least : ∀ J : SymbolPtr → SymbolPtr → Prop, FollowClosed st0 pl J →
    (∀ X t, t ∈ (st0.mem X).followSet → J X t) →
    ∀ X t, t ∈ (st.mem X).followSet → J X t

theorem FollowInv.follow_init (pl : ProductionList) (st0 : SymbolTable) : FollowInv pl st0 st0 :=
  ⟨FollowOnly.follow_refl _, fun _ _ h => h, fun _ _ h0 => h0⟩

theorem FollowInv.follow_step {pl : ProductionList} {st0 st : SymbolTable} (h : FollowInv pl st0 st) :
    FollowInv pl st0 (buildFollowSetBody pl st).1 := by
  refine ⟨h.only.follow_trans (buildFollowSetFor_only pl (st, false)),
    fun X t ht => buildFollowSetFor_mono pl (st, false) X t (h.mono X t ht), ?_⟩
  intro J hJ h0
  exact buildFollowSetFor_least pl (st, false) J (hJ.closed_of_only h.only) (h.least J hJ h0)

/-- The universe of the loop of `buildFollowSet`: what the FIRST and FOLLOW sets of the
symbols of the productions hold when the loop starts. -/
def followUniverse (pl : ProductionList) (st0 : SymbolTable) : Finset SymbolPtr :=
  unionOver (fun Y => (st0.mem Y).firstSet) (symbolOccurrences pl) ∪
    unionOver (fun Y => (st0.mem Y).followSet) (symbolOccurrences pl)

theorem FollowInv.follow_bounded {pl : ProductionList} {st0 st : SymbolTable}
    (h : FollowInv pl st0 st) {X : SymbolPtr} (hX : X ∈ symbolOccurrences pl) :
    (st.mem X).followSet.toFinset ⊆ followUniverse pl st0 := by
  intro t ht
  have key := h.least
    (fun X t => X ∈ symbolOccurrences pl → t ∈ followUniverse pl st0) ?_ ?_ X t
    (SymbolSet.mem_toFinset.1 ht) hX
  · exact key
  · intro p hp
    constructor
    · intro pre X suf hl _ t ht _
      obtain ⟨Y, hY, hJ⟩ := RuleFirst.exists_mem ht
      refine Finset.mem_union_left _ (mem_unionOver.2 ⟨Y, ?_, hJ⟩)
      exact rhs_mem_symbolOccurrences hp (by rw [hl]; simp [hY])
    · intro rpre X rsuf _ _ _ t ht _
      exact ht (lhs_mem_symbolOccurrences hp)
  · intro X t ht hX
    exact Finset.mem_union_right _ (mem_unionOver.2 ⟨X, hX, ht⟩)

/-- The measure of the loop of `buildFollowSet`: the room left in the FOLLOW sets of the
symbols of the productions. -/
def followMeasure (pl : ProductionList) (st0 st : SymbolTable) : Nat :=
  ∑ X ∈ (symbolOccurrences pl).toFinset,
    ((followUniverse pl st0).card - (st.mem X).followSet.toFinset.card)

theorem FollowInv.follow_decreases {pl : ProductionList} {st0 st : SymbolTable}
    (h : FollowInv pl st0 st) (hc : (buildFollowSetBody pl st).2 = true) :
    followMeasure pl st0 (buildFollowSetBody pl st).1 < followMeasure pl st0 st := by
  unfold followMeasure
  apply sum_card_lt
  · intro X _ t ht
    exact SymbolSet.mem_toFinset.2
      (buildFollowSetFor_mono pl (st, false) X t (SymbolSet.mem_toFinset.1 ht))
  · intro X hX
    exact h.follow_step.follow_bounded (List.mem_toFinset.1 hX)
  · rcases buildFollowSetFor_change pl (st, false) hc with h1 | ⟨X, hX, t, ht, hn⟩
    · cases h1
    · exact ⟨X, List.mem_toFinset.2 hX, t, SymbolSet.mem_toFinset.2 ht,
        fun hc => hn (SymbolSet.mem_toFinset.1 hc)⟩

theorem followMeasure_lt_fuel (pl : ProductionList) (st0 : SymbolTable) :
    followMeasure pl st0 st0 < followFuel pl st0 := by
  unfold followMeasure followFuel
  refine Nat.lt_succ_of_le ((sum_card_le _ _ _).trans ?_)
  apply Nat.mul_le_mul
  · exact List.toFinset_card_le _
  · unfold followUniverse
    refine (Finset.card_union_le _ _).trans ?_
    refine (Nat.add_le_add (card_unionOver_le _ _) (card_unionOver_le _ _)).trans ?_
    rw [← List.sum_map_add]

/-- What `buildFollowSet` leaves: the result exists; only FOLLOW sets have changed; they
contain what they held before, are closed under both FOLLOW rules and lie in every closed
relation that contains what they held before. -/
theorem buildFollowSet_spec (gc : GrammarContext) :
    ∃ g, buildFollowSet gc = some g ∧ g.pl = gc.pl ∧ FollowInv gc.pl gc.st g.st ∧
      FollowClosed g.st gc.pl (fun X t => t ∈ (g.st.mem X).followSet) := by
  have hI : ∀ s, FollowInv gc.pl gc.st s → FollowInv gc.pl gc.st (buildFollowSetBody gc.pl s).1 :=
    fun s h => h.follow_step
  obtain ⟨r, hr⟩ := doWhile_terminates (followMeasure gc.pl gc.st) hI
    (fun s h hc => h.follow_decreases hc) _ _ (FollowInv.follow_init gc.pl _) (followMeasure_lt_fuel gc.pl _)
  obtain ⟨s, hs, hc, hsr⟩ := doWhile_some hI _ _ _ (FollowInv.follow_init gc.pl _) hr
  obtain ⟨e1, e2⟩ := buildFollowSetFor_stable gc.pl (s, false) hc
  have hrs : r = s := by
    rw [← hsr]
    show (buildFollowSetFor gc.pl (s, false)).1 = s
    rw [e1]
  subst hrs
  exact ⟨{ gc with st := r }, by simp [buildFollowSet, hr], rfl, hs, e2⟩

/-! ## The symbol table: `findSymbol` -/

theorem lookup_insertEntry (name : String) (symbol : SymbolPtr)
    (table : List (String × SymbolPtr)) :
    (insertEntry name symbol table).lookup name = some symbol := by
  induction table with
  | nil => simp [insertEntry, List.lookup]
  | cons e es ih =>
    rw [insertEntry]
    split_ifs with h1 h2
    · simp [List.lookup]
    · simp [List.lookup]
    · rw [List.lookup]
      have : (name == e.1) = false := by simpa using h2
      rw [this]
      exact ih

theorem findSymbol_lookup (st : SymbolTable) (name : String) :
    (st.findSymbol name).2.table_.lookup name = some (st.findSymbol name).1 := by
  unfold SymbolTable.findSymbol
  cases h : st.table_.lookup name with
  | some symbol => exact h
  | none => exact lookup_insertEntry _ _ _

theorem findSymbol_of_lookup {st : SymbolTable} {name : String} {e : SymbolPtr}
    (h : st.table_.lookup name = some e) : st.findSymbol name = (e, st) := by
  unfold SymbolTable.findSymbol
  rw [h]

/-! ## The final purge -/

/-- The loop of `removeAllEpsilon` once the symbol `epsilon` is known. -/
def purgeFor (epsilon : SymbolPtr) : ProductionList → SymbolTable → ProductionList × SymbolTable
  | [], st => ([], st)
  | p :: ps, st =>
    let st2 := st.setFirstSet p.lhs.symbol (setRemove (st.mem p.lhs.symbol).firstSet epsilon).1
    let st3 := st2.setFollowSet p.lhs.symbol (setRemove (st2.mem p.lhs.symbol).followSet epsilon).1
    let p1 : Production :=
      { p with
        rhs :=
          { p.rhs with
            firstSet := (setRemove p.rhs.firstSet epsilon).1
            predictSet := (setRemove p.rhs.predictSet epsilon).1 } }
    (p1 :: (purgeFor epsilon ps st3).1, (purgeFor epsilon ps st3).2)

theorem removeAllEpsilonFor_eq_purgeFor (ps : ProductionList) (st : SymbolTable) (e : SymbolPtr)
    (h : st.table_.lookup config.keyword.epsilon = some e) :
    removeAllEpsilonFor ps st = purgeFor e ps st := by
  induction ps generalizing st with
  | nil => rfl
  | cons p ps ih =>
    rw [removeAllEpsilonFor, purgeFor]
    simp only [findSymbol_of_lookup h]
    rw [ih _ (by exact h)]

theorem removeAllEpsilonFor_cons (p : Production) (ps : ProductionList) (st : SymbolTable) :
    removeAllEpsilonFor (p :: ps) st =
      purgeFor (st.findSymbol config.keyword.epsilon).1 (p :: ps)
        (st.findSymbol config.keyword.epsilon).2 := by
  have h := findSymbol_lookup st config.keyword.epsilon
  rw [← removeAllEpsilonFor_eq_purgeFor _ _ _ h]
  rw [removeAllEpsilonFor, removeAllEpsilonFor]
  simp only [findSymbol_of_lookup h]

/-- What the purge does to a production: the symbol `e` leaves its two sets. -/
def Purged (e : SymbolPtr) (p q : Production) : Prop :=
  q.id = p.id ∧ q.lhs = p.lhs ∧ q.rhs.symbolList = p.rhs.symbolList ∧
    q.rhs.isNillable = p.rhs.isNillable ∧
    (∀ t, t ∈ q.rhs.firstSet ↔ t ∈ p.rhs.firstSet ∧ t ≠ e) ∧
    (∀ t, t ∈ q.rhs.predictSet ↔ t ∈ p.rhs.predictSet ∧ t ≠ e)

theorem purgeFor_pl (e : SymbolPtr) (ps : ProductionList) (st : SymbolTable) :
    List.Forall₂ (Purged e) ps (purgeFor e ps st).1 := by
  induction ps generalizing st with
  | nil => exact List.Forall₂.nil
  | cons p ps ih =>
    rw [purgeFor]
    refine List.Forall₂.cons ⟨rfl, rfl, rfl, rfl, ?_, ?_⟩ (ih _)
    · intro t; simp only [mem_setRemove]; tauto
    · intro t; simp only [mem_setRemove]; tauto

/-- What the purge does to the memory: the symbol `e` leaves the FIRST and FOLLOW sets of the
left-hand sides of `ps`, and nothing else changes. -/
def PurgedMem (e : SymbolPtr) (ps : ProductionList) (st st' : SymbolTable) : Prop :=
  st'.table_ = st.table_ ∧ st'.alien_ = st.alien_ ∧ st'.brk = st.brk ∧
    ∀ X, (st'.mem X).name = (st.mem X).name ∧ (st'.mem X).type = (st.mem X).type ∧
      (st'.mem X).isNillable = (st.mem X).isNillable ∧
      (∀ t, t ∈ (st'.mem X).firstSet ↔
        t ∈ (st.mem X).firstSet ∧ (X ∈ ps.map (fun p => p.lhs.symbol) → t ≠ e)) ∧
      (∀ t, t ∈ (st'.mem X).followSet ↔
        t ∈ (st.mem X).followSet ∧ (X ∈ ps.map (fun p => p.lhs.symbol) → t ≠ e))

theorem purgeFor_mem (e : SymbolPtr) (ps : ProductionList) (st : SymbolTable) :
    PurgedMem e ps st (purgeFor e ps st).2 := by
  induction ps generalizing st with
  | nil =>
    refine ⟨rfl, rfl, rfl, fun X => ⟨rfl, rfl, rfl, ?_, ?_⟩⟩ <;> intro t <;> simp [purgeFor]
  | cons p ps ih =>
    rw [purgeFor]
    obtain ⟨h1, h2, h3, h4⟩ := ih ((st.setFirstSet p.lhs.symbol
      (setRemove (st.mem p.lhs.symbol).firstSet e).1).setFollowSet p.lhs.symbol
        (setRemove ((st.setFirstSet p.lhs.symbol
          (setRemove (st.mem p.lhs.symbol).firstSet e).1).mem p.lhs.symbol).followSet e).1)
    refine ⟨h1, h2, h3, fun X => ?_⟩
    obtain ⟨n, ty, nl, fi, fo⟩ := h4 X
    have o1 := FirstOnly.setFirstSet st p.lhs.symbol
      (setRemove (st.mem p.lhs.symbol).firstSet e).1
    have o2 := FollowOnly.setFollowSet (st.setFirstSet p.lhs.symbol
      (setRemove (st.mem p.lhs.symbol).firstSet e).1) p.lhs.symbol
        (setRemove ((st.setFirstSet p.lhs.symbol
          (setRemove (st.mem p.lhs.symbol).firstSet e).1).mem p.lhs.symbol).followSet e).1
    refine ⟨?_, ?_, ?_, ?_, ?_⟩
    · rw [n, o2.follow_name, o1.first_name]
    · rw [ty, o2.follow_type, o1.first_type]
    · rw [nl, o2.follow_isNillable, o1.first_isNillable]
    · intro t
      rw [fi, o2.follow_firstSet, setFirstSet_firstSet]
      simp only [List.map_cons, List.mem_cons]
      split_ifs with hX
      · subst hX; simp only [mem_setRemove]; tauto
      · simp only [hX, false_or]
    · intro t
      rw [fo, setFollowSet_followSet]
      simp only [List.map_cons, List.mem_cons]
      split_ifs with hX
      · subst hX
        rw [mem_setRemove, o1.first_followSet]
        tauto
      · rw [o1.first_followSet]; simp only [hX, false_or]

/-! ## PREDICT -/

theorem mem_buildPredictSetOne_predictSet (st : SymbolTable) (p : Production) (t : SymbolPtr) :
    t ∈ (buildPredictSetOne st p).rhs.predictSet ↔
      t ∈ (buildPredictSetOne st p).rhs.firstSet ∨
        (p.rhs.isNillable = true ∧ t ∈ (st.mem p.lhs.symbol).followSet) := by
  unfold buildPredictSetOne
  simp only
  split_ifs with h
  · rw [mem_setUnion]; simp [h]
  · simp [h]

theorem mem_buildPredictSetOne_firstSet (st : SymbolTable) (p : Production) (t : SymbolPtr) :
    t ∈ (buildPredictSetOne st p).rhs.firstSet ↔ InFirstOf st t p.rhs.symbolList :=
  mem_calculateFirstSet st _ t

/-! ## The whole of `parse` -/

/-- The grammar context `g` is what `parse` leaves, with status 0, when it is called on a new
analyzer for the grammar context `gc`. -/
def Parsed (gc g : GrammarContext) : Prop :=
  (LL1Analyzer.new (some gc)).parse = some (0, { gc_ := some g, isParsed_ := true })

/-- Every symbol of a grammar context: those interned in the table and those that the
productions mention. -/
def GrammarContext.symbols (gc : GrammarContext) : List SymbolPtr :=
  gc.st.table_.map Prod.snd ++ symbolOccurrences gc.pl

/-- Every symbol of the grammar context lies at an address in use, so that the next
`new Symbol` returns the address of none of them.  This holds of every grammar context of
the program. -/
def GrammarContext.Allocated (gc : GrammarContext) : Prop :=
  ∀ X ∈ gc.symbols, X < gc.st.brk

instance (gc : GrammarContext) : Decidable gc.Allocated :=
  inferInstanceAs (Decidable (∀ X ∈ gc.symbols, X < gc.st.brk))

/-- The states between the stages of `parse` on `gc`, with what each stage guarantees. -/
structure Trace (gc g1 g2 g3 : GrammarContext) : Prop where
  run1 : initEPS gc = some g1
  run2 : buildFirstSet g1 = some g2
  run3 : buildFollowSet g2 = some g3
  flags : FlagsGrow gc.st g1.st
  pl1 : List.Forall₂ (fun p q => FlagStep g1.st p q ∧
    (q.rhs.isNillable = true ↔
      (p.rhs.isNillable = true ∨ isEPS g1.st p.rhs.symbolList = true))) gc.pl g1.pl
  closed1 : ∀ p ∈ gc.pl, isEPS g1.st p.rhs.symbolList = true →
    (g1.st.mem p.lhs.symbol).isNillable = true
  least1 : ∀ N : SymbolPtr → Prop, NullableClosed gc.st gc.pl N →
    (∀ X, (gc.st.mem X).isNillable = true → N X) →
    ∀ X, (g1.st.mem X).isNillable = true → N X
  pl2 : g2.pl = g1.pl
  only2 : FirstOnly g1.st g2.st
  inv2 : FirstInv g1.pl (buildFirstSetInit g1.st.table_ g1.st) g2.st
  closed2 : ∀ p ∈ g1.pl, ∀ t, InFirstOf g2.st t p.rhs.symbolList →
    t ∈ (g2.st.mem p.lhs.symbol).firstSet
  pl3 : g3.pl = g2.pl
  inv3 : FollowInv g2.pl g2.st g3.st
  closed3 : FollowClosed g3.st g2.pl (fun X t => t ∈ (g3.st.mem X).followSet)

theorem trace_exists (gc : GrammarContext) : ∃ g1 g2 g3, Trace gc g1 g2 g3 := by
  obtain ⟨g1, r1, a1, a2, a3, a4⟩ := initEPS_spec gc
  obtain ⟨g2, r2, b1, b2, b3, b4⟩ := buildFirstSet_spec g1
  obtain ⟨g3, r3, c1, c2, c3⟩ := buildFollowSet_spec g2
  exact ⟨g1, g2, g3, r1, r2, r3, a1, a2, a3, a4, b1, b2, b3, b4, c1, c2, c3⟩

theorem Trace.parsed {gc g1 g2 g3 : GrammarContext} (h : Trace gc g1 g2 g3) :
    Parsed gc (removeAllEpsilon (buildPredictSet g3)) := by
  simp [Parsed, LL1Analyzer.parse, LL1Analyzer.new, LL1Analyzer.analyze, h.run1, h.run2, h.run3]

/-- The function `parse` on a new analyzer for a grammar context gives a result: none of its
loops uses up the passes allowed to it.  For the call as the code runs it, `parseChecked`,
this is so exactly when every right-hand side has a symbol (`parseChecked_eq_parse`,
`parseChecked_undefined`). -/
theorem parse_terminates (gc : GrammarContext) : ∃ g, Parsed gc g := by
  obtain ⟨g1, g2, g3, h⟩ := trace_exists gc
  exact ⟨_, h.parsed⟩

theorem Parsed.unique {gc g g' : GrammarContext} (h : Parsed gc g) (h' : Parsed gc g') :
    g = g' := by
  unfold Parsed at h h'
  rw [h] at h'
  simpa using h'

/-- The grammar context that `parse` leaves when it is called on a new analyzer for `gc`
(`gc` itself if the call gives none). -/
def parsedContext (gc : GrammarContext) : GrammarContext :=
  ((LL1Analyzer.new (some gc)).parse.bind (fun r => r.2.gc_)).getD gc

theorem Parsed.parsedContext_eq {gc g : GrammarContext} (h : Parsed gc g) :
    parsedContext gc = g := by
  unfold Parsed at h
  unfold parsedContext
  rw [h]
  rfl

theorem parsed_parsedContext (gc : GrammarContext) : Parsed gc (parsedContext gc) := by
  obtain ⟨g, hg⟩ := parse_terminates gc
  rw [hg.parsedContext_eq]
  exact hg

/-! ### What the stages keep -/

theorem Trace.lhs1 {gc g1 g2 g3 : GrammarContext} (h : Trace gc g1 g2 g3) :
    g1.pl.map (fun p => p.lhs.symbol) = gc.pl.map (fun p => p.lhs.symbol) :=
  forall₂_map_eq _ _ (fun _ _ hab => by rw [hab.1.2.1]) h.pl1

theorem Trace.rhs1 {gc g1 g2 g3 : GrammarContext} (h : Trace gc g1 g2 g3) :
    g1.pl.map (fun p => p.rhs.symbolList) = gc.pl.map (fun p => p.rhs.symbolList) :=
  forall₂_map_eq _ _ (fun _ _ hab => by rw [hab.1.2.2.1]) h.pl1

theorem Trace.occ1 {gc g1 g2 g3 : GrammarContext} (h : Trace gc g1 g2 g3) :
    symbolOccurrences g1.pl = symbolOccurrences gc.pl := by
  unfold symbolOccurrences
  congr 1
  exact forall₂_map_eq _ _ (fun _ _ hab => by rw [hab.1.2.1, hab.1.2.2.1]) h.pl1

theorem Trace.pl3_eq {gc g1 g2 g3 : GrammarContext} (h : Trace gc g1 g2 g3) : g3.pl = g1.pl :=
  h.pl3.trans h.pl2

theorem Trace.table3 {gc g1 g2 g3 : GrammarContext} (h : Trace gc g1 g2 g3) :
    g3.st.table_ = gc.st.table_ := by
  rw [h.inv3.only.1, h.only2.1, h.flags.1]

theorem Trace.brk3 {gc g1 g2 g3 : GrammarContext} (h : Trace gc g1 g2 g3) :
    g3.st.brk = gc.st.brk := by
  rw [h.inv3.only.2.2.1, h.only2.2.2.1, h.flags.2.2.1]

theorem Trace.type3 {gc g1 g2 g3 : GrammarContext} (h : Trace gc g1 g2 g3) (X : SymbolPtr) :
    (g3.st.mem X).type = (gc.st.mem X).type := by
  rw [h.inv3.only.follow_type, h.only2.first_type, h.flags.flags_type]

theorem Trace.name3 {gc g1 g2 g3 : GrammarContext} (h : Trace gc g1 g2 g3) (X : SymbolPtr) :
    (g3.st.mem X).name = (gc.st.mem X).name := by
  rw [h.inv3.only.follow_name, h.only2.first_name, h.flags.flags_name]

theorem Trace.isNillable3 {gc g1 g2 g3 : GrammarContext} (h : Trace gc g1 g2 g3)
    (X : SymbolPtr) : (g3.st.mem X).isNillable = (g1.st.mem X).isNillable := by
  rw [h.inv3.only.follow_isNillable, h.only2.first_isNillable]

theorem Trace.firstSet3 {gc g1 g2 g3 : GrammarContext} (h : Trace gc g1 g2 g3)
    (X : SymbolPtr) : (g3.st.mem X).firstSet = (g2.st.mem X).firstSet :=
  h.inv3.only.follow_firstSet X

/-! ### The last two stages -/

/-- The symbol that `removeAllEpsilon` removes when it runs in memory `st`. -/
def epsilonOf (st : SymbolTable) : SymbolPtr := (st.findSymbol config.keyword.epsilon).1

theorem findSymbol_mem_of_lt (st : SymbolTable) (name : String) {X : SymbolPtr}
    (hX : X < st.brk) : ((st.findSymbol name).2.mem X) = st.mem X := by
  unfold SymbolTable.findSymbol
  cases h : st.table_.lookup name with
  | some symbol => rfl
  | none =>
    show Function.update st.mem st.brk (Symbol.new name) X = st.mem X
    rw [Function.update_noteq (Nat.ne_of_lt hX)]

theorem findSymbol_mem_of_lookup (st : SymbolTable) {name : String} {e : SymbolPtr}
    (h : st.table_.lookup name = some e) (X : SymbolPtr) :
    ((st.findSymbol name).2.mem X) = st.mem X := by
  rw [findSymbol_of_lookup h]

theorem removeAllEpsilon_pl (g : GrammarContext) :
    List.Forall₂ (Purged (epsilonOf g.st)) g.pl (removeAllEpsilon g).pl := by
  unfold removeAllEpsilon
  cases hpl : g.pl with
  | nil => exact List.Forall₂.nil
  | cons p ps =>
    simp only [removeAllEpsilonFor_cons]
    exact purgeFor_pl _ _ _

theorem removeAllEpsilon_mem (g : GrammarContext) (hne : g.pl ≠ []) :
    PurgedMem (epsilonOf g.st) g.pl (g.st.findSymbol config.keyword.epsilon).2
      (removeAllEpsilon g).st := by
  unfold removeAllEpsilon
  cases hpl : g.pl with
  | nil => exact absurd hpl hne
  | cons p ps =>
    simp only [removeAllEpsilonFor_cons]
    exact purgeFor_mem _ _ _

theorem removeAllEpsilon_nil (g : GrammarContext) (h : g.pl = []) : removeAllEpsilon g = g := by
  cases g with
  | mk pl st =>
    simp only at h
    subst h
    rfl

theorem mem_buildPredictSet_pl {g : GrammarContext} {q : Production}
    (hq : q ∈ (buildPredictSet g).pl) : ∃ p ∈ g.pl, q = buildPredictSetOne g.st p := by
  obtain ⟨p, hp, rfl⟩ := List.mem_map.1 hq
  exact ⟨p, hp, rfl⟩

/-! ## The state after `parse` -/

/-- The symbols of the productions are kept by every stage of `parse`. -/
theorem Trace.occ4 {gc g1 g2 g3 : GrammarContext} (h : Trace gc g1 g2 g3) :
    symbolOccurrences (buildPredictSet g3).pl = symbolOccurrences gc.pl := by
  rw [← h.occ1, ← h.pl3_eq]
  unfold symbolOccurrences buildPredictSet
  simp only [List.map_map]
  rfl

theorem Trace.allocated3 {gc g1 g2 g3 : GrammarContext} (h : Trace gc g1 g2 g3)
    (hA : gc.Allocated) {X : SymbolPtr} (hX : X ∈ symbolOccurrences g3.pl) :
    X < g3.st.brk := by
  rw [h.brk3]
  apply hA
  rw [h.pl3_eq, h.occ1] at hX
  exact List.mem_append_right _ hX

/-- The memory after `parse`, at a symbol `X` that `removeAllEpsilon` does not create: name,
kind and nullable flag are as `buildFollowSet` left them, and the FIRST and FOLLOW sets have
lost the symbol named `epsilon` if `X` is a left-hand side. -/
theorem final_mem (g3 : GrammarContext) (hne : g3.pl ≠ []) {X : SymbolPtr}
    (hX : X < g3.st.brk ∨ ∃ e, g3.st.table_.lookup config.keyword.epsilon = some e) :
    ((removeAllEpsilon (buildPredictSet g3)).st.mem X).name = (g3.st.mem X).name ∧
    ((removeAllEpsilon (buildPredictSet g3)).st.mem X).type = (g3.st.mem X).type ∧
    ((removeAllEpsilon (buildPredictSet g3)).st.mem X).isNillable = (g3.st.mem X).isNillable ∧
    (∀ t, t ∈ ((removeAllEpsilon (buildPredictSet g3)).st.mem X).firstSet ↔
      t ∈ (g3.st.mem X).firstSet ∧
        (X ∈ g3.pl.map (fun p => p.lhs.symbol) → t ≠ epsilonOf g3.st)) ∧
    (∀ t, t ∈ ((removeAllEpsilon (buildPredictSet g3)).st.mem X).followSet ↔
      t ∈ (g3.st.mem X).followSet ∧
        (X ∈ g3.pl.map (fun p => p.lhs.symbol) → t ≠ epsilonOf g3.st)) := by
  have hne4 : (buildPredictSet g3).pl ≠ [] := by
    simpa [buildPredictSet] using hne
  obtain ⟨-, -, -, hm⟩ := removeAllEpsilon_mem (buildPredictSet g3) hne4
  obtain ⟨n, ty, nl, fi, fo⟩ := hm X
  have hmem : ((g3.st.findSymbol config.keyword.epsilon).2.mem X) = g3.st.mem X := by
    rcases hX with hX | ⟨e, he⟩
    · exact findSymbol_mem_of_lt _ _ hX
    · exact findSymbol_mem_of_lookup _ he X
  have hlhs : (buildPredictSet g3).pl.map (fun p => p.lhs.symbol)
      = g3.pl.map (fun p => p.lhs.symbol) := by
    simp only [buildPredictSet, List.map_map]
    rfl
  have hst : (buildPredictSet g3).st = g3.st := rfl
  rw [hst, hmem] at n ty nl fi fo
  rw [hlhs] at fi fo
  exact ⟨n, ty, nl, fi, fo⟩

/-- A production after `parse` comes from a production `p3` as `buildFollowSet` left it:
`buildPredictSet` fills in the two sets and `removeAllEpsilon` removes the symbol named
`epsilon` from them. -/
theorem final_pl (g3 : GrammarContext) {p : Production}
    (hp : p ∈ (removeAllEpsilon (buildPredictSet g3)).pl) :
    ∃ p3 ∈ g3.pl, Purged (epsilonOf g3.st) (buildPredictSetOne g3.st p3) p := by
  obtain ⟨p4, hp4, hpur⟩ := forall₂_mem_right (removeAllEpsilon_pl (buildPredictSet g3)) p hp
  obtain ⟨p3, hp3, rfl⟩ := mem_buildPredictSet_pl hp4
  exact ⟨p3, hp3, hpur⟩

theorem final_pl_left (g3 : GrammarContext) {p3 : Production} (hp : p3 ∈ g3.pl) :
    ∃ p ∈ (removeAllEpsilon (buildPredictSet g3)).pl,
      Purged (epsilonOf g3.st) (buildPredictSetOne g3.st p3) p := by
  have hp4 : buildPredictSetOne g3.st p3 ∈ (buildPredictSet g3).pl :=
    List.mem_map.2 ⟨p3, hp, rfl⟩
  exact forall₂_mem_left (removeAllEpsilon_pl (buildPredictSet g3)) _ hp4

/-! ## Claims -/

/-- Claim C1: after `parse` on a grammar context, the PREDICT set of every production is its
FIRST set, united with the FOLLOW set of the left-hand side when the flag `rhs.isNillable`
is set; so it includes the FIRST set, and the FOLLOW set when the flag is set.  The three
sets are those of the final state. -/
theorem predict_eq_first_union_follow (gc : GrammarContext) (hA : gc.Allocated) :
    ∃ g, Parsed gc g ∧ ∀ p ∈ g.pl,
      p.rhs.predictSet.toFinset = p.rhs.firstSet.toFinset ∪
        (if p.rhs.isNillable = true then (g.st.mem p.lhs.symbol).followSet.toFinset else ∅) ∧
      p.rhs.firstSet.toFinset ⊆ p.rhs.predictSet.toFinset ∧
      (p.rhs.isNillable = true →
        (g.st.mem p.lhs.symbol).followSet.toFinset ⊆ p.rhs.predictSet.toFinset) := by
  obtain ⟨g1, g2, g3, h⟩ := trace_exists gc
  refine ⟨_, h.parsed, ?_⟩
  intro p hp
  obtain ⟨p3, hp3, -, hl, -, hn, hf, hpr⟩ := final_pl g3 hp
  have hne : g3.pl ≠ [] := List.ne_nil_of_mem hp3
  have hlhs : p3.lhs.symbol ∈ g3.pl.map (fun p => p.lhs.symbol) :=
    List.mem_map.2 ⟨p3, hp3, rfl⟩
  obtain ⟨-, -, -, -, fo⟩ := final_mem g3 hne
    (Or.inl (h.allocated3 hA (lhs_mem_symbolOccurrences hp3)))
  have hl' : p.lhs.symbol = p3.lhs.symbol := by rw [hl]; rfl
  have hn' : p.rhs.isNillable = p3.rhs.isNillable := hn
  have key : ∀ t, t ∈ p.rhs.predictSet ↔ (t ∈ p.rhs.firstSet ∨ (p.rhs.isNillable = true ∧
      t ∈ ((removeAllEpsilon (buildPredictSet g3)).st.mem p.lhs.symbol).followSet)) := by
    intro t
    rw [hpr, hf, hl', fo, mem_buildPredictSetOne_predictSet, hn']
    have := hlhs
    tauto
  refine ⟨?_, ?_, ?_⟩
  · ext t
    rw [SymbolSet.mem_toFinset, key, Finset.mem_union, SymbolSet.mem_toFinset]
    split_ifs with hnil
    · simp [hnil]
    · simp [hnil]
  · intro t ht
    rw [SymbolSet.mem_toFinset] at ht ⊢
    exact (key t).2 (Or.inl ht)
  · intro hnil t ht
    rw [SymbolSet.mem_toFinset] at ht ⊢
    exact (key t).2 (Or.inr ⟨hnil, ht⟩)

theorem predict_eq_first_union_follow_witness :
    grammarS1.Allocated ∧ ∃ g, Parsed grammarS1 g ∧ ∀ p ∈ g.pl,
      p.rhs.predictSet.toFinset = p.rhs.firstSet.toFinset ∪
        (if p.rhs.isNillable = true then (g.st.mem p.lhs.symbol).followSet.toFinset else ∅) ∧
      p.rhs.firstSet.toFinset ⊆ p.rhs.predictSet.toFinset ∧
      (p.rhs.isNillable = true →
        (g.st.mem p.lhs.symbol).followSet.toFinset ⊆ p.rhs.predictSet.toFinset) :=
  ⟨by decide, predict_eq_first_union_follow grammarS1 (by decide)⟩

/-- Claim C10: after `parse` on a grammar context whose epsilon terminal `e` is the symbol
named `epsilon`, no production has `e` in its FIRST set or its PREDICT set, nor in the FIRST
set or the FOLLOW set of its left-hand side. -/
theorem epsilon_in_no_set (gc : GrammarContext) (e : SymbolPtr)
    (hname : gc.st.table_.lookup config.keyword.epsilon = some e)
    (hkind : (gc.st.mem e).isTerminalEpsilon = true) :
    ∃ g, Parsed gc g ∧ (g.st.mem e).isTerminalEpsilon = true ∧ ∀ p ∈ g.pl,
      ¬ e ∈ p.rhs.firstSet ∧ ¬ e ∈ p.rhs.predictSet ∧
      ¬ e ∈ (g.st.mem p.lhs.symbol).firstSet ∧ ¬ e ∈ (g.st.mem p.lhs.symbol).followSet := by
  obtain ⟨g1, g2, g3, h⟩ := trace_exists gc
  refine ⟨_, h.parsed, ?_⟩
  have hname3 : g3.st.table_.lookup config.keyword.epsilon = some e := by
    rw [h.table3]; exact hname
  have he : epsilonOf g3.st = e := by
    unfold epsilonOf
    rw [findSymbol_of_lookup hname3]
  by_cases hne : g3.pl = []
  · have hnil : (buildPredictSet g3).pl = [] := by simp [buildPredictSet, hne]
    rw [removeAllEpsilon_nil _ hnil]
    refine ⟨?_, ?_⟩
    · show (g3.st.mem e).isTerminalEpsilon = true
      simp only [Symbol.isTerminalEpsilon, h.type3] at hkind ⊢
      exact hkind
    · intro p hp
      rw [hnil] at hp
      cases hp
  refine ⟨?_, ?_⟩
  · obtain ⟨-, ty, -⟩ := final_mem g3 hne (X := e) (Or.inr ⟨e, hname3⟩)
    simp only [Symbol.isTerminalEpsilon, ty, h.type3] at hkind ⊢
    exact hkind
  intro p hp
  obtain ⟨p3, hp3, -, hl, -, -, hf, hpr⟩ := final_pl g3 hp
  have hlhs : p3.lhs.symbol ∈ g3.pl.map (fun p => p.lhs.symbol) :=
    List.mem_map.2 ⟨p3, hp3, rfl⟩
  obtain ⟨-, -, -, fi, fo⟩ := final_mem g3 hne (X := p3.lhs.symbol) (Or.inr ⟨e, hname3⟩)
  have hl' : p.lhs.symbol = p3.lhs.symbol := by rw [hl]; rfl
  rw [hl']
  refine ⟨?_, ?_, ?_, ?_⟩
  · intro hc; exact ((hf e).1 hc).2 he.symm
  · intro hc; exact ((hpr e).1 hc).2 he.symm
  · intro hc; exact ((fi e).1 hc).2 hlhs he.symm
  · intro hc; exact ((fo e).1 hc).2 hlhs he.symm

theorem epsilon_in_no_set_witness :
    grammarS1.st.table_.lookup config.keyword.epsilon = some 4 ∧
    (grammarS1.st.mem 4).isTerminalEpsilon = true ∧
    ∃ g, Parsed grammarS1 g ∧ (g.st.mem 4).isTerminalEpsilon = true ∧ ∀ p ∈ g.pl,
      ¬ 4 ∈ p.rhs.firstSet ∧ ¬ 4 ∈ p.rhs.predictSet ∧
      ¬ 4 ∈ (g.st.mem p.lhs.symbol).firstSet ∧ ¬ 4 ∈ (g.st.mem p.lhs.symbol).followSet :=
  ⟨by decide, by decide, epsilon_in_no_set grammarS1 4 (by decide) (by decide)⟩

/-! ## The LL(1) test -/

theorem hasIntersection_iff (set1 set2 : SymbolSet) :
    LL1Analyzer.hasIntersection set1 set2 = true ↔ ∃ t, t ∈ set2 ∧ t ∈ set1 := by
  unfold LL1Analyzer.hasIntersection
  rw [List.any_eq_true]
  constructor
  · rintro ⟨t, ht, h⟩
    exact ⟨t, ht, by simpa using h⟩
  · rintro ⟨t, ht, h⟩
    exact ⟨t, ht, by simpa using h⟩

/-- Two productions with the same left-hand side have no PREDICT element in common. -/
def NoConflict (p q : Production) : Prop :=
  p.lhs.symbol = q.lhs.symbol → ∀ t, ¬ (t ∈ p.rhs.predictSet ∧ t ∈ q.rhs.predictSet)

theorem isValidLL1For_none (ps : ProductionList) (acc : SymbolPtr → SymbolSet) :
    LL1Analyzer.isValidLL1For ps acc = none ↔
      (∀ p ∈ ps, ∀ t, t ∈ p.rhs.predictSet → ¬ t ∈ acc p.lhs.symbol) ∧
        ps.Pairwise NoConflict := by
  induction ps generalizing acc with
  | nil => simp [LL1Analyzer.isValidLL1For]
  | cons p ps ih =>
    rw [LL1Analyzer.isValidLL1For]
    split_ifs with h
    · rw [hasIntersection_iff] at h
      obtain ⟨t, ht, hacc⟩ := h
      simp only [reduceCtorEq, false_iff, not_and]
      intro hc
      exact absurd hacc (hc p (List.mem_cons_self _ _) t ht)
    · rw [ih, List.pairwise_cons]
      have hno : ∀ t, t ∈ p.rhs.predictSet → ¬ t ∈ acc p.lhs.symbol := by
        intro t ht hc
        exact h ((hasIntersection_iff _ _).2 ⟨t, ht, hc⟩)
      have hupd : ∀ q : Production, ∀ t,
          t ∈ Function.update acc p.lhs.symbol
            (setUnion (acc p.lhs.symbol) p.rhs.predictSet).1 q.lhs.symbol ↔
          t ∈ acc q.lhs.symbol ∨ (p.lhs.symbol = q.lhs.symbol ∧ t ∈ p.rhs.predictSet) := by
        intro q t
        by_cases hq : q.lhs.symbol = p.lhs.symbol
        · rw [hq, Function.update_same, mem_setUnion]; simp
        · rw [Function.update_noteq hq]
          simp [Ne.symm hq]
      constructor
      · rintro ⟨h1, h2⟩
        refine ⟨?_, ?_, h2⟩
        · intro q hq t ht
          rcases List.mem_cons.1 hq with rfl | hq
          · exact hno t ht
          · exact fun hc => h1 q hq t ht ((hupd q t).2 (Or.inl hc))
        · intro q hq hl t ht
          exact h1 q hq t ht.2 ((hupd q t).2 (Or.inr ⟨hl, ht.1⟩))
      · rintro ⟨h1, h2, h3⟩
        refine ⟨?_, h3⟩
        intro q hq t ht hc
        rcases (hupd q t).1 hc with hc | ⟨hl, hc⟩
        · exact h1 q (List.mem_cons_of_mem _ hq) t ht hc
        · exact h2 q hq hl t ⟨hc, ht⟩

theorem NoConflict.symm_conflict {p q : Production} (h : NoConflict p q) : NoConflict q p :=
  fun hl t ht => h hl.symm t ⟨ht.2, ht.1⟩

theorem isValidLL1_iff (g : GrammarContext) :
    (LL1Analyzer.mk (some g) true).isValidLL1 = true ↔
      ∀ (i j : Nat) (hi : i < g.pl.length) (hj : j < g.pl.length), i ≠ j →
        g.pl[i].lhs.symbol = g.pl[j].lhs.symbol →
        Disjoint g.pl[i].rhs.predictSet.toFinset g.pl[j].rhs.predictSet.toFinset := by
  have hd : ∀ p q : Production, NoConflict p q ↔ (p.lhs.symbol = q.lhs.symbol →
      Disjoint p.rhs.predictSet.toFinset q.rhs.predictSet.toFinset) := by
    intro p q
    unfold NoConflict
    refine imp_congr_right fun _ => ?_
    rw [Finset.disjoint_left]
    simp only [SymbolSet.mem_toFinset, not_and]
  simp only [LL1Analyzer.isValidLL1, Bool.not_true, Bool.false_eq_true, if_false,
    Option.isNone_iff_eq_none]
  rw [isValidLL1For_none, List.pairwise_iff_getElem]
  constructor
  · rintro ⟨-, h⟩ i j hi hj hij
    rcases Nat.lt_or_gt_of_ne hij with hlt | hlt
    · exact (hd _ _).1 (h i j hi hj hlt)
    · exact (hd _ _).1 (h j i hj hi hlt).symm_conflict
  · intro h
    refine ⟨fun p _ t _ hc => absurd hc (SymbolSet.not_mem_empty t), ?_⟩
    intro i j hi hj hlt
    exact (hd _ _).2 (h i j hi hj (Nat.ne_of_lt hlt))

/-- Claim C2: after `parse`, `isValidLL1` returns true exactly if any two productions at
different positions of the list that have the same left-hand side have disjoint PREDICT
sets.  In scenario S3 (`S -> a B`, `B -> b`, `B -> b c`, where `B` is the symbol 3 and `b`
the symbol 4) both productions of `B` have the PREDICT set `[b]`, `isValidLL1` returns false
and the production it reports is the one with id 2. -/
theorem isValidLL1_iff_predict_disjoint :
    (∀ gc : GrammarContext, ∃ g, Parsed gc g ∧
      ((LL1Analyzer.mk (some g) true).isValidLL1 = true ↔
        ∀ (i j : Nat) (hi : i < g.pl.length) (hj : j < g.pl.length), i ≠ j →
          g.pl[i].lhs.symbol = g.pl[j].lhs.symbol →
          Disjoint g.pl[i].rhs.predictSet.toFinset g.pl[j].rhs.predictSet.toFinset)) ∧
    grammarS3.st.table_.lookup "B" = some 3 ∧ grammarS3.st.table_.lookup "b" = some 4 ∧
    (LL1Analyzer.new (some grammarS3)).parse.map
        (fun r => r.2.gc_.map (fun g => g.pl.map (fun p => (p.lhs.symbol, p.rhs.predictSet.elems))))
      = some (some [(1, [2]), (3, [4]), (3, [4])]) ∧
    (LL1Analyzer.new (some grammarS3)).parse.map
        (fun r => (r.2.isValidLL1, r.2.conflict.map (fun p => p.id)))
      = some (false, some 2) := by
  refine ⟨fun gc => ?_, by decide, by decide, by decide, by decide⟩
  obtain ⟨g, hg⟩ := parse_terminates gc
  exact ⟨g, hg, isValidLL1_iff g⟩

/-- A grammar that mentions `$`, but not after its start symbol: `S -> A $`, `A -> a`. -/
def grammarEof : GrammarContext :=
  frontend.buildContext [("S", ["A", "$"]), ("A", ["a"])]

/-- Every symbol of the table is stored under its own name.  This holds of every symbol table
of the program, where `findSymbol` alone adds entries. -/
def GrammarContext.Named (gc : GrammarContext) : Prop :=
  ∀ entry ∈ gc.st.table_, (gc.st.mem entry.2).name = entry.1

instance (gc : GrammarContext) : Decidable gc.Named :=
  inferInstanceAs (Decidable (∀ entry ∈ gc.st.table_, (gc.st.mem entry.2).name = entry.1))

theorem mem_of_lookup {table : List (String × SymbolPtr)} {name : String} {X : SymbolPtr}
    (h : table.lookup name = some X) : (name, X) ∈ table := by
  induction table with
  | nil => simp [List.lookup] at h
  | cons e es ih =>
    rw [List.lookup] at h
    split at h
    · rename_i heq
      have : name = e.1 := by simpa using heq
      simp only [Option.some.injEq] at h
      rw [this, ← h]
      exact List.mem_cons_self _ _
    · exact List.mem_cons_of_mem _ (ih h)

/-- The first symbol of a list of symbols is in the FIRST set of the list if it is in its own
FIRST set. -/
theorem inFirstOf_head {st : SymbolTable} {t : SymbolPtr} {l : List SymbolPtr}
    (h : t ∈ (st.mem t).firstSet) : InFirstOf st t (t :: l) :=
  Or.inl h

/-- After `buildFirstSet`, a terminal of the table is in its own FIRST set. -/
theorem Trace.terminal_mem_first {gc g1 g2 g3 : GrammarContext} (h : Trace gc g1 g2 g3)
    {t : SymbolPtr} (ht : t ∈ gc.st.table_.map Prod.snd)
    (hterm : (gc.st.mem t).isTerminal = true) : t ∈ (g2.st.mem t).firstSet := by
  apply h.inv2.mono
  rw [buildFirstSetInit_firstSet, h.flags.1, if_pos ht]
  unfold firstSeed
  have : (g1.st.mem t).isTerminal = true := by
    simp only [Symbol.isTerminal, h.flags.flags_type] at hterm ⊢
    exact hterm
  rw [if_pos this]
  exact SymbolSet.mem_insert.2 (Or.inl rfl)

theorem Trace.isNonterminal3 {gc g1 g2 g3 : GrammarContext} (h : Trace gc g1 g2 g3)
    (X : SymbolPtr) : (g3.st.mem X).isNonterminal = (gc.st.mem X).isNonterminal := by
  simp only [Symbol.isNonterminal, Symbol.isTerminal, h.type3]

/-- The symbol that `removeAllEpsilon` removes is the one stored under the name `epsilon`, or
else the one that `findSymbol` creates at the address `brk`. -/
theorem epsilonOf_cases (st : SymbolTable) :
    st.table_.lookup config.keyword.epsilon = some (epsilonOf st) ∨
      (st.table_.lookup config.keyword.epsilon = none ∧ epsilonOf st = st.brk) := by
  unfold epsilonOf SymbolTable.findSymbol
  cases h : st.table_.lookup config.keyword.epsilon with
  | some e => exact Or.inl rfl
  | none => exact Or.inr ⟨rfl, rfl⟩

/-- Counterexample to claim C7.  For `S -> A $`, `A -> a` the symbol `$` (address 3, of kind
`terminalIsEof`) is in the table, the start symbol is `S` (address 1), and after `parse` the
FOLLOW set of `S` is empty.  For the grammar of scenario S1 the FOLLOW set of `S` holds the
symbol `)` (address 3) alone, and the table has no symbol `$`. -/
theorem follow_start_without_eof :
    grammarEof.pl.map (fun p => p.lhs.symbol) = [1, 2] ∧
    grammarEof.st.table_.lookup config.keyword.eof = some 3 ∧
    (grammarEof.st.mem 3).isTerminalEof = true ∧
    (LL1Analyzer.new (some grammarEof)).parse.map
        (fun r => (r.1, r.2.gc_.map (fun g => (g.st.mem 1).followSet.elems)))
      = some (0, some []) ∧
    grammarS1.pl.map (fun p => p.lhs.symbol) = [1, 1] ∧
    grammarS1.st.table_.lookup ")" = some 3 ∧
    (LL1Analyzer.new (some grammarS1)).parse.map
        (fun r => (r.1, r.2.gc_.map (fun g =>
          ((g.st.mem 1).followSet.elems, g.st.table_.lookup config.keyword.eof))))
      = some (0, some ([3], none)) := by
  refine ⟨by decide, by decide, by decide, by decide, by decide, by decide, by decide⟩

/-- Claim C7, amended: `parse` puts `$` into no FOLLOW set by itself, but after `parse` on a
grammar context in which some right-hand side has the start symbol (the left-hand side of
the first production, not of terminal kind) immediately followed by the terminal `$`, the
FOLLOW set of the start symbol contains `$`. -/
theorem follow_start_contains_explicit_eof (gc : GrammarContext) (hA : gc.Allocated)
    (hN : gc.Named) (start eof : SymbolPtr)
    (hstart : gc.pl.head?.map (fun p => p.lhs.symbol) = some start)
    (hnt : (gc.st.mem start).isNonterminal = true)
    (heof : gc.st.table_.lookup config.keyword.eof = some eof)
    (hterm : (gc.st.mem eof).isTerminal = true)
    (hocc : ∃ p ∈ gc.pl, ∃ pre suf, p.rhs.symbolList = pre ++ start :: eof :: suf) :
    ∃ g, Parsed gc g ∧ eof ∈ (g.st.mem start).followSet := by
  obtain ⟨g1, g2, g3, h⟩ := trace_exists gc
  refine ⟨_, h.parsed, ?_⟩
  obtain ⟨p, hp, pre, suf, hrhs⟩ := hocc
  obtain ⟨p1, hp1, hstep, -⟩ := forall₂_mem_left h.pl1 p hp
  have hp3 : p1 ∈ g3.pl := by rw [h.pl3_eq]; exact hp1
  have hne : g3.pl ≠ [] := List.ne_nil_of_mem hp3
  have heofT : eof ∈ gc.st.table_.map Prod.snd :=
    List.mem_map.2 ⟨_, mem_of_lookup heof, rfl⟩
  have hfirst : eof ∈ (g3.st.mem eof).firstSet := by
    rw [h.firstSet3]; exact h.terminal_mem_first heofT hterm
  have hfollow3 : eof ∈ (g3.st.mem start).followSet := by
    have hcl := (h.closed3 p1 (by rw [h.pl2]; exact hp1)).1
    refine hcl pre start (eof :: suf) (by rw [hstep.2.2.1]; exact hrhs) ?_ eof
      (inFirstOf_head hfirst)
    rw [h.isNonterminal3]; exact hnt
  have hstartOcc : start ∈ symbolOccurrences gc.pl :=
    rhs_mem_symbolOccurrences hp (by rw [hrhs]; simp)
  have hlt : start < g3.st.brk := by
    rw [h.brk3]; exact hA _ (List.mem_append_right _ hstartOcc)
  obtain ⟨-, -, -, -, fo⟩ := final_mem g3 hne (Or.inl hlt)
  rw [fo]
  refine ⟨hfollow3, fun _ => ?_⟩
  rcases epsilonOf_cases g3.st with he | ⟨-, he⟩
  · intro hc
    rw [← hc, h.table3] at he
    have n1 := hN _ (mem_of_lookup he)
    have n2 := hN _ (mem_of_lookup heof)
    simp only at n1 n2
    rw [n1] at n2
    revert n2
    decide
  · rw [he, h.brk3]
    exact Nat.ne_of_lt (hA _ (List.mem_append_left _ heofT))

/-- A grammar that has `$` after its start symbol: `S -> A`, `A -> S $`, `A -> a`. -/
def grammarExplicitEof : GrammarContext :=
  frontend.buildContext [("S", ["A"]), ("A", ["S", "$"]), ("A", ["a"])]

theorem follow_start_contains_explicit_eof_witness :
    grammarExplicitEof.Allocated ∧ grammarExplicitEof.Named ∧
    ∃ g, Parsed grammarExplicitEof g ∧ 3 ∈ (g.st.mem 1).followSet :=
  ⟨by decide, by decide,
    follow_start_contains_explicit_eof grammarExplicitEof (by decide) (by decide) 1 3
      (by decide) (by decide) (by decide) (by decide)
      ⟨grammarExplicitEof.pl.get ⟨1, by decide⟩, List.get_mem _ _ _, [], [], by decide⟩⟩

/-! ### The symbol that `findSymbol` may create -/

theorem findSymbol_mem_cases (st : SymbolTable) (name : String) (X : SymbolPtr) :
    (st.findSymbol name).2.mem X = st.mem X ∨
      (st.table_.lookup name = none ∧ X = st.brk ∧
        (st.findSymbol name).2.mem X = Symbol.new name) := by
  unfold SymbolTable.findSymbol
  cases h : st.table_.lookup name with
  | some symbol => exact Or.inl rfl
  | none =>
    by_cases hX : X = st.brk
    · subst hX
      exact Or.inr ⟨rfl, rfl, Function.update_same _ _ _⟩
    · exact Or.inl (Function.update_noteq hX _ _)

theorem mem_insertEntry {name : String} {symbol : SymbolPtr} {table : List (String × SymbolPtr)}
    {entry : String × SymbolPtr} (h : entry ∈ insertEntry name symbol table) :
    entry = (name, symbol) ∨ entry ∈ table := by
  induction table with
  | nil =>
    simp only [insertEntry, List.mem_singleton] at h
    exact Or.inl h
  | cons e es ih =>
    rw [insertEntry] at h
    split_ifs at h with h1 h2
    · rcases List.mem_cons.1 h with h | h
      · exact Or.inl h
      · exact Or.inr h
    · rcases List.mem_cons.1 h with h | h
      · exact Or.inl h
      · exact Or.inr (List.mem_cons_of_mem _ h)
    · rcases List.mem_cons.1 h with h | h
      · exact Or.inr (h ▸ List.mem_cons_self _ _)
      · exact (ih h).imp id (List.mem_cons_of_mem _)

theorem mem_findSymbol_table (st : SymbolTable) (name : String) {entry : String × SymbolPtr}
    (h : entry ∈ (st.findSymbol name).2.table_) :
    entry ∈ st.table_ ∨ (st.table_.lookup name = none ∧ entry = (name, st.brk)) := by
  unfold SymbolTable.findSymbol at h
  cases hl : st.table_.lookup name with
  | some symbol =>
    rw [hl] at h
    exact Or.inl h
  | none =>
    rw [hl] at h
    rcases mem_insertEntry h with h | h
    · exact Or.inr ⟨rfl, h⟩
    · exact Or.inl h

/-- The memory after `parse` against the memory in which the symbol `epsilon` has been looked
up: `removeAllEpsilon` changes the FIRST and FOLLOW sets of the left-hand sides only. -/
theorem final_mem_raw (g3 : GrammarContext) (hne : g3.pl ≠ []) (X : SymbolPtr) :
    ((removeAllEpsilon (buildPredictSet g3)).st.mem X).type
      = ((g3.st.findSymbol config.keyword.epsilon).2.mem X).type ∧
    ((removeAllEpsilon (buildPredictSet g3)).st.mem X).isNillable
      = ((g3.st.findSymbol config.keyword.epsilon).2.mem X).isNillable ∧
    (∀ t, t ∈ ((removeAllEpsilon (buildPredictSet g3)).st.mem X).firstSet ↔
      t ∈ ((g3.st.findSymbol config.keyword.epsilon).2.mem X).firstSet ∧
        (X ∈ g3.pl.map (fun p => p.lhs.symbol) → t ≠ epsilonOf g3.st)) := by
  have hne4 : (buildPredictSet g3).pl ≠ [] := by
    simpa [buildPredictSet] using hne
  obtain ⟨-, -, -, hm⟩ := removeAllEpsilon_mem (buildPredictSet g3) hne4
  obtain ⟨-, ty, nl, fi, -⟩ := hm X
  have hlhs : (buildPredictSet g3).pl.map (fun p => p.lhs.symbol)
      = g3.pl.map (fun p => p.lhs.symbol) := by
    simp only [buildPredictSet, List.map_map]
    rfl
  rw [hlhs] at fi
  exact ⟨ty, nl, fi⟩

theorem final_table (g3 : GrammarContext) (hne : g3.pl ≠ []) :
    (removeAllEpsilon (buildPredictSet g3)).st.table_
      = (g3.st.findSymbol config.keyword.epsilon).2.table_ := by
  have hne4 : (buildPredictSet g3).pl ≠ [] := by
    simpa [buildPredictSet] using hne
  exact (removeAllEpsilon_mem (buildPredictSet g3) hne4).1

theorem final_of_nil (g3 : GrammarContext) (h : g3.pl = []) :
    removeAllEpsilon (buildPredictSet g3) = g3 := by
  have hnil : (buildPredictSet g3).pl = [] := by simp [buildPredictSet, h]
  rw [removeAllEpsilon_nil _ hnil]
  cases g3 with
  | mk pl st =>
    simp only at h
    subst h
    rfl

/-- After `buildFirstSet`, the FIRST set of a symbol of the table that is a terminal and is
not a left-hand side holds the symbol alone. -/
theorem Trace.terminal_first {gc g1 g2 g3 : GrammarContext} (h : Trace gc g1 g2 g3)
    {t : SymbolPtr} (ht : t ∈ gc.st.table_.map Prod.snd)
    (hterm : (gc.st.mem t).isTerminal = true)
    (hlhs : ¬ t ∈ gc.pl.map (fun p => p.lhs.symbol)) (x : SymbolPtr) :
    x ∈ (g2.st.mem t).firstSet ↔ x = t := by
  constructor
  · intro hx
    have key := h.inv2.least
      (fun X x => X ∈ gc.pl.map (fun p => p.lhs.symbol) ∨
        x ∈ ((buildFirstSetInit g1.st.table_ g1.st).mem X).firstSet) ?_ ?_ t x hx
    · rcases key with key | key
      · exact absurd key hlhs
      · rw [buildFirstSetInit_firstSet, h.flags.1, if_pos ht] at key
        unfold firstSeed at key
        split_ifs at key
        · rcases SymbolSet.mem_insert.1 key with h1 | h1
          · exact h1
          · exact absurd h1 (SymbolSet.not_mem_empty x)
        · exact absurd key (SymbolSet.not_mem_empty x)
    · intro p hp x _
      left
      rw [← h.lhs1]
      exact List.mem_map.2 ⟨p, hp, rfl⟩
    · intro X x hx
      exact Or.inr hx
  · rintro rfl
    exact h.terminal_mem_first ht hterm

/-- Claim C6: after `parse` on a grammar context in which no symbol of terminal kind is the
left-hand side of a production, the FIRST set of every symbol of terminal kind that is
stored in the symbol table (`$` and `epsilon` among them) holds that symbol alone. -/
theorem terminal_first_is_itself (gc : GrammarContext)
    (hlhs : ∀ p ∈ gc.pl, (gc.st.mem p.lhs.symbol).isTerminal = false) :
    ∃ g, Parsed gc g ∧ ∀ entry ∈ g.st.table_, (g.st.mem entry.2).isTerminal = true →
      (g.st.mem entry.2).firstSet.toFinset = {entry.2} := by
  obtain ⟨g1, g2, g3, h⟩ := trace_exists gc
  refine ⟨_, h.parsed, ?_⟩
  have hnotlhs : ∀ t, (gc.st.mem t).isTerminal = true →
      ¬ t ∈ gc.pl.map (fun p => p.lhs.symbol) := by
    intro t ht hc
    obtain ⟨p, hp, rfl⟩ := List.mem_map.1 hc
    rw [hlhs p hp] at ht
    cases ht
  have hterm3 : ∀ t, (g3.st.mem t).isTerminal = (gc.st.mem t).isTerminal := by
    intro t
    simp only [Symbol.isTerminal, h.type3]
  by_cases hne : g3.pl = []
  · rw [final_of_nil g3 hne]
    intro entry he hterm
    rw [h.table3] at he
    rw [hterm3] at hterm
    ext x
    rw [SymbolSet.mem_toFinset, h.firstSet3, Finset.mem_singleton]
    exact h.terminal_first (List.mem_map.2 ⟨entry, he, rfl⟩) hterm (hnotlhs _ hterm) x
  · intro entry he hterm
    rw [final_table g3 hne] at he
    obtain ⟨ty, -, fi⟩ := final_mem_raw g3 hne entry.2
    have hterm' : ((g3.st.findSymbol config.keyword.epsilon).2.mem entry.2).isTerminal = true := by
      simp only [Symbol.isTerminal, ty] at hterm ⊢
      exact hterm
    rcases findSymbol_mem_cases g3.st config.keyword.epsilon entry.2 with hm | ⟨-, -, hm⟩
    · rw [hm] at fi hterm'
      rw [hterm3] at hterm'
      have hentry : entry ∈ gc.st.table_ := by
        rcases mem_findSymbol_table g3.st _ he with h1 | ⟨h1, h2⟩
        · rw [← h.table3]; exact h1
        · exfalso
          have hb : (g3.st.findSymbol config.keyword.epsilon).2.mem g3.st.brk
              = Symbol.new config.keyword.epsilon := by
            unfold SymbolTable.findSymbol
            rw [h1]
            exact Function.update_same _ _ _
          have hx : ((g3.st.findSymbol config.keyword.epsilon).2.mem entry.2).isTerminal
              = true := by
            rw [hm, hterm3]
            exact hterm'
          rw [h2] at hx
          simp only at hx
          rw [hb] at hx
          exact absurd hx (by decide)
      ext x
      rw [SymbolSet.mem_toFinset, fi, h.firstSet3, Finset.mem_singleton,
        h.terminal_first (List.mem_map.2 ⟨entry, hentry, rfl⟩) hterm' (hnotlhs _ hterm') x]
      constructor
      · exact fun hx => hx.1
      · intro hx
        refine ⟨hx, fun hc => ?_⟩
        rw [h.pl3_eq, h.lhs1] at hc
        exact absurd hc (hnotlhs _ hterm')
    · rw [hm] at hterm'
      exact absurd hterm' (by decide)

theorem terminal_first_is_itself_witness :
    (∀ p ∈ grammarS1.pl, (grammarS1.st.mem p.lhs.symbol).isTerminal = false) ∧
    ∃ g, Parsed grammarS1 g ∧ ∀ entry ∈ g.st.table_, (g.st.mem entry.2).isTerminal = true →
      (g.st.mem entry.2).firstSet.toFinset = {entry.2} :=
  ⟨by decide, terminal_first_is_itself grammarS1 (by decide)⟩

/-- The FIRST set of a list of symbols in the final memory lies in the one computed when
`buildFollowSet` ended, if the symbols of the list are not created by `removeAllEpsilon`. -/
theorem inFirstOf_of_final (g3 : GrammarContext) (hne : g3.pl ≠ []) {l : List SymbolPtr}
    (hl : ∀ Y ∈ l, Y < g3.st.brk) {t : SymbolPtr}
    (h : InFirstOf (removeAllEpsilon (buildPredictSet g3)).st t l) : InFirstOf g3.st t l := by
  unfold InFirstOf at h ⊢
  induction l with
  | nil => exact h
  | cons Y rest ih =>
    obtain ⟨-, -, nl, fi, -⟩ := final_mem g3 hne (Or.inl (hl Y (List.mem_cons_self _ _)))
    rcases h with h1 | ⟨h1, h2⟩
    · exact Or.inl ((fi t).1 h1).1
    · exact Or.inr ⟨by rw [← nl]; exact h1,
        ih (fun Z hZ => hl Z (List.mem_cons_of_mem _ hZ)) h2⟩

theorem final_lookup_epsilon (g3 : GrammarContext) (hne : g3.pl ≠ []) :
    (removeAllEpsilon (buildPredictSet g3)).st.table_.lookup config.keyword.epsilon
      = some (epsilonOf g3.st) := by
  rw [final_table g3 hne]
  exact findSymbol_lookup _ _

/-- Claim C8: after `parse`, the FOLLOW sets are closed under both propagation rules.  For a
production with right-hand side `pre ++ X :: suf` where `X` is a nonterminal, (a) what
`calculateFirstSet` gives for `suf`, apart from the symbol named `epsilon`, lies in the
FOLLOW set of `X`, and (b) if every symbol of `suf` has its nullable flag set (as when `suf`
is empty) the FOLLOW set of the left-hand side lies in the FOLLOW set of `X`. -/
theorem follow_closed_under_rules (gc : GrammarContext) (hA : gc.Allocated) :
    ∃ g, Parsed gc g ∧ ∀ p ∈ g.pl, ∀ pre X suf, p.rhs.symbolList = pre ++ X :: suf →
      (g.st.mem X).isNonterminal = true →
      (∀ t, t ∈ calculateFirstSet g.st suf →
        g.st.table_.lookup config.keyword.epsilon ≠ some t → t ∈ (g.st.mem X).followSet) ∧
      ((∀ Z ∈ suf, (g.st.mem Z).isNillable = true) →
        ∀ t, t ∈ (g.st.mem p.lhs.symbol).followSet → t ∈ (g.st.mem X).followSet) := by
  obtain ⟨g1, g2, g3, h⟩ := trace_exists gc
  refine ⟨_, h.parsed, ?_⟩
  intro p hp pre X suf hrhs hX
  obtain ⟨p3, hp3, -, hl, hs, -, -, -⟩ := final_pl g3 hp
  have hne : g3.pl ≠ [] := List.ne_nil_of_mem hp3
  have hl' : p.lhs.symbol = p3.lhs.symbol := by rw [hl]; rfl
  have hs' : p3.rhs.symbolList = pre ++ X :: suf := by rw [← hrhs, hs]; rfl
  have hlt : ∀ Y ∈ p3.rhs.symbolList, Y < g3.st.brk :=
    fun Y hY => h.allocated3 hA (rhs_mem_symbolOccurrences hp3 hY)
  have hXlt : X < g3.st.brk := hlt X (by rw [hs']; simp)
  have hsuf : ∀ Y ∈ suf, Y < g3.st.brk := fun Y hY => hlt Y (by rw [hs']; simp [hY])
  obtain ⟨-, tyX, -, -, foX⟩ := final_mem g3 hne (Or.inl hXlt)
  obtain ⟨-, -, -, -, foL⟩ := final_mem g3 hne
    (Or.inl (h.allocated3 hA (lhs_mem_symbolOccurrences hp3)))
  have hX3 : (g3.st.mem X).isNonterminal = true := by
    simp only [Symbol.isNonterminal, Symbol.isTerminal, tyX] at hX ⊢
    exact hX
  have hcl := h.closed3 p3 (by rw [← h.pl3]; exact hp3)
  refine ⟨?_, ?_⟩
  · intro t ht hte
    rw [foX]
    refine ⟨hcl.1 pre X suf hs' hX3 t ?_, fun _ hc => hte ?_⟩
    · exact inFirstOf_of_final g3 hne hsuf ((mem_calculateFirstSet _ _ _).1 ht)
    · rw [final_lookup_epsilon g3 hne, hc]
  · intro hnil t ht
    rw [hl', foL] at ht
    rw [foX]
    have hlhs : p3.lhs.symbol ∈ g3.pl.map (fun p => p.lhs.symbol) :=
      List.mem_map.2 ⟨p3, hp3, rfl⟩
    refine ⟨hcl.2 suf.reverse X pre.reverse ?_ ?_ hX3 t ht.1, fun _ => ht.2 hlhs⟩
    · rw [hs']; simp
    · intro Z hZ
      obtain ⟨-, -, nl, -, -⟩ := final_mem g3 hne (Or.inl (hsuf Z (List.mem_reverse.1 hZ)))
      rw [← nl]
      exact hnil Z (List.mem_reverse.1 hZ)

theorem follow_closed_under_rules_witness :
    grammarS1.Allocated ∧
    ∃ g, Parsed grammarS1 g ∧ ∀ p ∈ g.pl, ∀ pre X suf, p.rhs.symbolList = pre ++ X :: suf →
      (g.st.mem X).isNonterminal = true →
      (∀ t, t ∈ calculateFirstSet g.st suf →
        g.st.table_.lookup config.keyword.epsilon ≠ some t → t ∈ (g.st.mem X).followSet) ∧
      ((∀ Z ∈ suf, (g.st.mem Z).isNillable = true) →
        ∀ t, t ∈ (g.st.mem p.lhs.symbol).followSet → t ∈ (g.st.mem X).followSet) :=
  ⟨by decide, follow_closed_under_rules grammarS1 (by decide)⟩

/-! ### Nullability after `parse` -/

/-- No symbol of the grammar context has its nullable flag set. -/
def GrammarContext.FlagsClear (gc : GrammarContext) : Prop :=
  ∀ X ∈ gc.symbols, (gc.st.mem X).isNillable = false

instance (gc : GrammarContext) : Decidable gc.FlagsClear :=
  inferInstanceAs (Decidable (∀ X ∈ gc.symbols, (gc.st.mem X).isNillable = false))

/-- Scenario S4 is about the nullable flags of the four left-hand sides; the grammar `A -> A`
alone is the other example of claim C4. -/
def grammarLoop : GrammarContext :=
  frontend.buildContext [("A", ["A"])]

/-- The kind and the nullable flag, after `parse`, of a symbol at an address that was in use
at entry: the kind is the one at entry, the flag the one that `initEPS` left. -/
theorem Trace.final_kind_flag {gc g1 g2 g3 : GrammarContext} (h : Trace gc g1 g2 g3)
    {X : SymbolPtr} (hX : X < gc.st.brk) :
    ((removeAllEpsilon (buildPredictSet g3)).st.mem X).isNillable = (g1.st.mem X).isNillable ∧
    ((removeAllEpsilon (buildPredictSet g3)).st.mem X).type = (gc.st.mem X).type := by
  by_cases hne : g3.pl = []
  · rw [final_of_nil g3 hne]
    exact ⟨h.isNillable3 X, h.type3 X⟩
  · obtain ⟨-, ty, nl, -, -⟩ := final_mem g3 hne (X := X) (Or.inl (by rw [h.brk3]; exact hX))
    exact ⟨by rw [nl, h.isNillable3], by rw [ty, h.type3]⟩

/-- An entry of the symbol table after `parse` is an entry of the table at entry, or it is
the entry that `removeAllEpsilon` creates, whose symbol does not have the nullable flag. -/
theorem Trace.final_table_cases {gc g1 g2 g3 : GrammarContext} (h : Trace gc g1 g2 g3)
    {entry : String × SymbolPtr}
    (he : entry ∈ (removeAllEpsilon (buildPredictSet g3)).st.table_) :
    entry ∈ gc.st.table_ ∨
      ((removeAllEpsilon (buildPredictSet g3)).st.mem entry.2).isNillable = false := by
  by_cases hne : g3.pl = []
  · rw [final_of_nil g3 hne, h.table3] at he
    exact Or.inl he
  · rw [final_table g3 hne] at he
    rcases mem_findSymbol_table g3.st _ he with h1 | ⟨h1, h2⟩
    · rw [h.table3] at h1
      exact Or.inl h1
    · right
      obtain ⟨-, nl, -⟩ := final_mem_raw g3 hne entry.2
      rw [nl, h2]
      show ((g3.st.findSymbol config.keyword.epsilon).2.mem g3.st.brk).isNillable = false
      unfold SymbolTable.findSymbol
      rw [h1]
      show (Function.update g3.st.mem g3.st.brk (Symbol.new config.keyword.epsilon)
        g3.st.brk).isNillable = false
      rw [Function.update_same]
      rfl

theorem Trace.final_occ {gc g1 g2 g3 : GrammarContext} (h : Trace gc g1 g2 g3) :
    symbolOccurrences (removeAllEpsilon (buildPredictSet g3)).pl = symbolOccurrences gc.pl := by
  rw [← h.occ4]
  unfold symbolOccurrences
  congr 1
  exact forall₂_map_eq _ _ (fun _ _ hab => by rw [hab.2.1, hab.2.2.1])
    (removeAllEpsilon_pl (buildPredictSet g3))

/-- The production `q` has the left-hand side and the right-hand symbols of `p`. -/
def SameRule (p q : Production) : Prop :=
  q.lhs = p.lhs ∧ q.rhs.symbolList = p.rhs.symbolList

theorem sameRule_compose {l1 l2 l3 : ProductionList} (h1 : List.Forall₂ SameRule l1 l2)
    (h2 : List.Forall₂ SameRule l2 l3) : List.Forall₂ SameRule l1 l3 :=
  forall₂_compose (R := SameRule) (S := SameRule) (T := SameRule)
    (fun _ _ _ hab hbc => ⟨hbc.1.trans hab.1, hbc.2.trans hab.2⟩) h1 h2

/-- A production after `parse` has the left-hand side and the symbols of a production at
entry, and conversely. -/
theorem Trace.final_pl_entry {gc g1 g2 g3 : GrammarContext} (h : Trace gc g1 g2 g3) :
    List.Forall₂ SameRule gc.pl (removeAllEpsilon (buildPredictSet g3)).pl := by
  have h1 : List.Forall₂ SameRule gc.pl g3.pl := by
    rw [h.pl3_eq]
    exact List.Forall₂.imp (fun _ _ hab => ⟨hab.1.2.1, hab.1.2.2.1⟩) h.pl1
  have h2 : List.Forall₂ SameRule g3.pl (buildPredictSet g3).pl := by
    unfold buildPredictSet
    simp only
    rw [List.forall₂_map_right_iff]
    exact List.forall₂_same.2 (fun _ _ => ⟨rfl, rfl⟩)
  have h3 : List.Forall₂ SameRule (buildPredictSet g3).pl
      (removeAllEpsilon (buildPredictSet g3)).pl :=
    List.Forall₂.imp (fun _ _ hab => ⟨hab.2.1, hab.2.2.1⟩)
      (removeAllEpsilon_pl (buildPredictSet g3))
  exact sameRule_compose (sameRule_compose h1 h2) h3

/-- Claim C4: after `parse` on a grammar context none of whose symbols has the nullable flag
set at entry, the symbols with the flag set form the least set `N` that contains the
left-hand side of every production each of whose right-hand symbols is in `N` or is the
epsilon terminal.  In scenario S4 (`A -> B C D`, `B`, `C`, `D -> epsilon`) all four
left-hand sides have the flag, though the production of `A` is visited first; for `A -> A`
alone, `A` does not have it. -/
theorem nullable_is_least_closed_set (gc : GrammarContext) (hA : gc.Allocated)
    (hF : gc.FlagsClear) :
    (∃ g, Parsed gc g ∧
      NullableClosed g.st g.pl (fun X => X ∈ g.symbols ∧ (g.st.mem X).isNillable = true) ∧
      ∀ N : SymbolPtr → Prop, NullableClosed g.st g.pl N →
        ∀ X ∈ g.symbols, (g.st.mem X).isNillable = true → N X) ∧
    (LL1Analyzer.new (some grammarS4)).parse.map
        (fun r => r.2.gc_.map (fun g =>
          g.pl.map (fun p => (p.lhs.symbol, (g.st.mem p.lhs.symbol).isNillable))))
      = some (some [(1, true), (2, true), (3, true), (4, true)]) ∧
    (LL1Analyzer.new (some grammarLoop)).parse.map
        (fun r => r.2.gc_.map (fun g =>
          g.pl.map (fun p => (p.lhs.symbol, (g.st.mem p.lhs.symbol).isNillable))))
      = some (some [(1, false)]) := by
  refine ⟨?_, by decide, by decide⟩
  obtain ⟨g1, g2, g3, h⟩ := trace_exists gc
  refine ⟨_, h.parsed, ?_, ?_⟩
  · intro pf hpf hY
    obtain ⟨p, hp, hpl, hps⟩ := forall₂_mem_right h.final_pl_entry pf hpf
    have hlocc : pf.lhs.symbol ∈ symbolOccurrences gc.pl := by
      rw [hpl]; exact lhs_mem_symbolOccurrences hp
    refine ⟨List.mem_append_right _ (by rw [h.final_occ]; exact hlocc), ?_⟩
    rw [(h.final_kind_flag (hA _ (List.mem_append_right _ hlocc))).1, hpl]
    apply h.closed1 p hp
    rw [isEPS_iff]
    intro Y hYm
    have hYocc : Y ∈ symbolOccurrences gc.pl := rhs_mem_symbolOccurrences hp hYm
    obtain ⟨nl, ty⟩ := h.final_kind_flag (hA _ (List.mem_append_right _ hYocc))
    simp only [countsAsEmpty, Bool.or_eq_true]
    rcases hY Y (by rw [hps]; exact hYm) with h1 | h1
    · left; rw [← nl]; exact h1.2
    · right
      simp only [Symbol.isTerminalEpsilon, ty, h.flags.flags_type] at h1 ⊢
      exact h1
  · intro N hN X hX hn
    have hXgc : X ∈ gc.symbols := by
      rcases List.mem_append.1 hX with h1 | h1
      · obtain ⟨entry, he, rfl⟩ := List.mem_map.1 h1
        rcases h.final_table_cases he with h2 | h2
        · exact List.mem_append_left _ (List.mem_map.2 ⟨entry, h2, rfl⟩)
        · rw [h2] at hn
          cases hn
      · rw [h.final_occ] at h1
        exact List.mem_append_right _ h1
    rw [(h.final_kind_flag (hA X hXgc)).1] at hn
    refine h.least1 (fun X => X ∈ gc.symbols → N X) ?_ ?_ X hn hXgc
    · intro p hp hY _
      obtain ⟨pf, hpf, hpl, hps⟩ := forall₂_mem_left h.final_pl_entry p hp
      have := hN pf hpf ?_
      · rw [hpl] at this
        exact this
      · intro Y hYm
        rw [hps] at hYm
        have hYocc : Y ∈ symbolOccurrences gc.pl := rhs_mem_symbolOccurrences hp hYm
        rcases hY Y hYm with h1 | h1
        · exact Or.inl (h1 (List.mem_append_right _ hYocc))
        · right
          obtain ⟨-, ty⟩ := h.final_kind_flag (hA _ (List.mem_append_right _ hYocc))
          simp only [Symbol.isTerminalEpsilon, ty] at h1 ⊢
          exact h1
    · intro Y hY hYs
      rw [hF Y hYs] at hY
      cases hY

theorem nullable_is_least_closed_set_witness :
    grammarS4.Allocated ∧ grammarS4.FlagsClear ∧
    ∃ g, Parsed grammarS4 g ∧
      NullableClosed g.st g.pl (fun X => X ∈ g.symbols ∧ (g.st.mem X).isNillable = true) ∧
      ∀ N : SymbolPtr → Prop, NullableClosed g.st g.pl N →
        ∀ X ∈ g.symbols, (g.st.mem X).isNillable = true → N X :=
  ⟨by decide, by decide, (nullable_is_least_closed_set grammarS4 (by decide) (by decide)).1⟩

/-! ## Derivations -/

/-- What a production puts in place of its left-hand side: its right-hand side, in which the
epsilon terminal stands for the empty string. -/
def ruleBody (st : SymbolTable) (p : Production) : List SymbolPtr :=
  p.rhs.symbolList.filter (fun Y => !(st.mem Y).isTerminalEpsilon)

/-- One derivation step: a left-hand side inside a sentential form is replaced by the body of
one of its productions. -/
inductive DerivesStep (gc : GrammarContext) : List SymbolPtr → List SymbolPtr → Prop
  | rewrite (p : Production) (hp : p ∈ gc.pl) (u v : List SymbolPtr) :
      DerivesStep gc (u ++ p.lhs.symbol :: v) (u ++ ruleBody gc.st p ++ v)

/-- Derivation in zero or more steps. -/
def Derives (gc : GrammarContext) : List SymbolPtr → List SymbolPtr → Prop :=
  Relation.ReflTransGen (DerivesStep gc)

theorem derives_refl (gc : GrammarContext) (a : List SymbolPtr) : Derives gc a a :=
  Relation.ReflTransGen.refl

theorem derives_trans {gc : GrammarContext} {a b c : List SymbolPtr} (h1 : Derives gc a b)
    (h2 : Derives gc b c) : Derives gc a c :=
  Relation.ReflTransGen.trans h1 h2

theorem derives_rule {gc : GrammarContext} {p : Production} (hp : p ∈ gc.pl)
    (u v : List SymbolPtr) :
    Derives gc (u ++ p.lhs.symbol :: v) (u ++ ruleBody gc.st p ++ v) :=
  Relation.ReflTransGen.single (DerivesStep.rewrite p hp u v)

theorem derivesStep_context {gc : GrammarContext} {a b : List SymbolPtr}
    (h : DerivesStep gc a b) (u v : List SymbolPtr) :
    DerivesStep gc (u ++ a ++ v) (u ++ b ++ v) := by
  cases h with
  | rewrite p hp u' v' =>
    have h1 : u ++ (u' ++ p.lhs.symbol :: v') ++ v = (u ++ u') ++ p.lhs.symbol :: (v' ++ v) := by
      simp
    have h2 : u ++ (u' ++ ruleBody gc.st p ++ v') ++ v
        = (u ++ u') ++ ruleBody gc.st p ++ (v' ++ v) := by
      simp
    rw [h1, h2]
    exact DerivesStep.rewrite p hp _ _

theorem derives_context {gc : GrammarContext} {a b : List SymbolPtr} (h : Derives gc a b)
    (u v : List SymbolPtr) : Derives gc (u ++ a ++ v) (u ++ b ++ v) := by
  induction h with
  | refl => exact derives_refl _ _
  | tail _ hstep ih => exact Relation.ReflTransGen.tail ih (derivesStep_context hstep u v)

theorem derives_append {gc : GrammarContext} {a b c d : List SymbolPtr} (h1 : Derives gc a b)
    (h2 : Derives gc c d) : Derives gc (a ++ c) (b ++ d) := by
  have e1 := derives_context h1 [] c
  have e2 := derives_context h2 b []
  simp only [List.nil_append, List.append_nil] at e1 e2
  exact derives_trans e1 e2

theorem derives_nil_of_forall {gc : GrammarContext} {l : List SymbolPtr}
    (h : ∀ Y ∈ l, Derives gc [Y] []) : Derives gc l [] := by
  induction l with
  | nil => exact derives_refl _ _
  | cons Y rest ih =>
    have := derives_append (h Y (List.mem_cons_self _ _))
      (ih (fun Z hZ => h Z (List.mem_cons_of_mem _ hZ)))
    simpa using this

/-! ### The conditions on a grammar context -/

/-- Every symbol of the productions is interned in the symbol table. -/
def GrammarContext.Interned (gc : GrammarContext) : Prop :=
  ∀ X ∈ symbolOccurrences gc.pl, X ∈ gc.st.table_.map Prod.snd

instance (gc : GrammarContext) : Decidable gc.Interned :=
  inferInstanceAs (Decidable (∀ X ∈ symbolOccurrences gc.pl, X ∈ gc.st.table_.map Prod.snd))

/-- The symbols have the kinds that the front end gives them: a left-hand side is a
nonterminal, every other symbol of the productions is of terminal kind, and the symbol
stored under the name `epsilon`, and no other, is the epsilon terminal. -/
def GrammarContext.Classified (gc : GrammarContext) : Prop :=
  (∀ p ∈ gc.pl, (gc.st.mem p.lhs.symbol).type = SymbolType.nonterminal) ∧
  (∀ X ∈ symbolOccurrences gc.pl,
    X ∈ gc.pl.map (fun p => p.lhs.symbol) ∨ (gc.st.mem X).isTerminal = true) ∧
  (∀ X ∈ gc.symbols, ((gc.st.mem X).isTerminalEpsilon = true ↔
    gc.st.table_.lookup config.keyword.epsilon = some X))

instance (gc : GrammarContext) : Decidable gc.Classified :=
  inferInstanceAs (Decidable (_ ∧ _ ∧ _))

/-- The epsilon terminal occurs in a right-hand side only as its sole symbol. -/
def GrammarContext.EpsilonAlone (gc : GrammarContext) : Prop :=
  ∀ p ∈ gc.pl, ∀ Y ∈ p.rhs.symbolList, (gc.st.mem Y).isTerminalEpsilon = true →
    p.rhs.symbolList = [Y]

instance (gc : GrammarContext) : Decidable gc.EpsilonAlone :=
  inferInstanceAs (Decidable (∀ p ∈ gc.pl, ∀ Y ∈ p.rhs.symbolList,
    (gc.st.mem Y).isTerminalEpsilon = true → p.rhs.symbolList = [Y]))

/-- No symbol of the grammar context has anything in its FOLLOW set. -/
def GrammarContext.FollowClear (gc : GrammarContext) : Prop :=
  ∀ X ∈ gc.symbols, (gc.st.mem X).followSet = ∅

instance (gc : GrammarContext) : Decidable gc.FollowClear :=
  inferInstanceAs (Decidable (∀ X ∈ gc.symbols, (gc.st.mem X).followSet = ∅))

/-! ### Nullable symbols derive the empty string -/

theorem Trace.nullable_derives {gc g1 g2 g3 : GrammarContext} (h : Trace gc g1 g2 g3)
    (hF : gc.FlagsClear) {X : SymbolPtr} (hX : X ∈ gc.symbols)
    (hn : (g1.st.mem X).isNillable = true) : Derives gc [X] [] := by
  refine h.least1 (fun X => X ∈ gc.symbols → Derives gc [X] []) ?_ ?_ X hn hX
  · intro p hp hY _
    have h1 := derives_rule hp [] []
    simp only [List.nil_append, List.append_nil] at h1
    refine derives_trans h1 (derives_nil_of_forall ?_)
    intro Y hYb
    obtain ⟨hYm, hYe⟩ := List.mem_filter.1 hYb
    rcases hY Y hYm with h2 | h2
    · exact h2 (List.mem_append_right _ (rhs_mem_symbolOccurrences hp hYm))
    · rw [h2] at hYe
      cases hYe
  · intro Y hY hYs
    rw [hF Y hYs] at hY
    cases hY

/-! ### FIRST sets and derivations -/

theorem ruleFirst_split {st : SymbolTable} {J : SymbolPtr → SymbolPtr → Prop} {t : SymbolPtr}
    {l : List SymbolPtr} (h : RuleFirst st J t l) :
    ∃ pre Y post, l = pre ++ Y :: post ∧ (∀ Z ∈ pre, (st.mem Z).isNillable = true) ∧ J Y t := by
  induction l with
  | nil => exact h.elim
  | cons X rest ih =>
    rcases h with h1 | ⟨h1, h2⟩
    · exact ⟨[], X, rest, rfl, by simp, h1⟩
    · obtain ⟨pre, Y, post, hl, hn, hJ⟩ := ih h2
      refine ⟨X :: pre, Y, post, by rw [hl]; rfl, ?_, hJ⟩
      intro Z hZ
      rcases List.mem_cons.1 hZ with rfl | hZ
      · exact h1
      · exact hn Z hZ

theorem inFirstOf_append {st : SymbolTable} {t : SymbolPtr} {a b : List SymbolPtr} :
    InFirstOf st t (a ++ b) ↔
      InFirstOf st t a ∨ ((∀ Z ∈ a, (st.mem Z).isNillable = true) ∧ InFirstOf st t b) := by
  unfold InFirstOf
  induction a with
  | nil => simp [RuleFirst]
  | cons X rest ih =>
    simp only [List.cons_append, RuleFirst, ih, List.mem_cons, forall_eq_or_imp]
    tauto

/-- The body of a production is its right-hand side, which then has no epsilon terminal, or
it is empty and the right-hand side is the epsilon terminal alone. -/
theorem ruleBody_cases {gc : GrammarContext} (hE : gc.EpsilonAlone) {p : Production}
    (hp : p ∈ gc.pl) :
    (ruleBody gc.st p = p.rhs.symbolList ∧
      ∀ Y ∈ p.rhs.symbolList, (gc.st.mem Y).isTerminalEpsilon = false) ∨
    (ruleBody gc.st p = [] ∧
      ∃ Y, p.rhs.symbolList = [Y] ∧ (gc.st.mem Y).isTerminalEpsilon = true) := by
  by_cases hex : ∃ Y ∈ p.rhs.symbolList, (gc.st.mem Y).isTerminalEpsilon = true
  · obtain ⟨Y, hY, hYe⟩ := hex
    right
    have hrhs := hE p hp Y hY hYe
    refine ⟨?_, Y, hrhs, hYe⟩
    unfold ruleBody
    rw [hrhs]
    simp [hYe]
  · left
    push_neg at hex
    have hall : ∀ Y ∈ p.rhs.symbolList, (gc.st.mem Y).isTerminalEpsilon = false := by
      intro Y hY
      simpa using hex Y hY
    refine ⟨?_, hall⟩
    unfold ruleBody
    rw [List.filter_eq_self]
    intro Y hY
    simp [hall Y hY]

theorem mem_symbols_of_rhs {gc : GrammarContext} {p : Production} (hp : p ∈ gc.pl)
    {Y : SymbolPtr} (hY : Y ∈ p.rhs.symbolList) : Y ∈ gc.symbols :=
  List.mem_append_right _ (rhs_mem_symbolOccurrences hp hY)

theorem mem_symbols_of_lhs {gc : GrammarContext} {p : Production} (hp : p ∈ gc.pl) :
    p.lhs.symbol ∈ gc.symbols :=
  List.mem_append_right _ (lhs_mem_symbolOccurrences hp)

theorem mem_table_of_symbols {gc : GrammarContext} (hI : gc.Interned) {X : SymbolPtr}
    (hX : X ∈ gc.symbols) : X ∈ gc.st.table_.map Prod.snd := by
  rcases List.mem_append.1 hX with h | h
  · exact h
  · exact hI X h

theorem isTerminal_of_epsilon {s : Symbol} (h : s.isTerminalEpsilon = true) :
    s.isTerminal = true := by
  simp only [Symbol.isTerminalEpsilon, decide_eq_true_eq] at h
  simp only [Symbol.isTerminal, h]
  decide

theorem not_isTerminal_of_nonterminal {s : Symbol} (h : s.type = SymbolType.nonterminal) :
    s.isTerminal = false := by
  simp only [Symbol.isTerminal, h]
  decide

/-- Soundness of FIRST: an element `t` of the FIRST set of a symbol `X` after `buildFirstSet`
is `X` itself if `X` is of terminal kind, and if `t` is not the epsilon terminal then `X`
derives a sentential form that begins with `t`. -/
theorem Trace.first_sound {gc g1 g2 g3 : GrammarContext} (h : Trace gc g1 g2 g3)
    (hI : gc.Interned) (hF : gc.FlagsClear) (hC : gc.Classified) (hE : gc.EpsilonAlone)
    {X t : SymbolPtr} (hX : X ∈ gc.symbols) (ht : t ∈ (g2.st.mem X).firstSet) :
    ((gc.st.mem X).isTerminal = true → t = X) ∧
    ((gc.st.mem t).isTerminalEpsilon = false → ∃ β, Derives gc [X] (t :: β)) := by
  refine h.inv2.least (fun X t => X ∈ gc.symbols →
    ((gc.st.mem X).isTerminal = true → t = X) ∧
    ((gc.st.mem t).isTerminalEpsilon = false → ∃ β, Derives gc [X] (t :: β))) ?_ ?_ X t ht hX
  · intro p1 hp1 t hrule _
    obtain ⟨p, hp, hstep, -⟩ := forall₂_mem_right h.pl1 p1 hp1
    rw [hstep.2.1]
    refine ⟨fun hc => ?_, fun hte => ?_⟩
    · rw [not_isTerminal_of_nonterminal (hC.1 p hp)] at hc
      cases hc
    · obtain ⟨pre, Y, post, hl, hn, hJ⟩ := ruleFirst_split hrule
      rw [hstep.2.2.1] at hl
      have hYm : Y ∈ p.rhs.symbolList := by rw [hl]; simp
      obtain ⟨hJ1, hJ2⟩ := hJ (mem_symbols_of_rhs hp hYm)
      rcases ruleBody_cases hE hp with ⟨hb, hne⟩ | ⟨hb, Y', hrhs, hYe⟩
      · obtain ⟨β, hβ⟩ := hJ2 hte
        have h1 := derives_rule hp [] []
        simp only [List.nil_append, List.append_nil, hb, hl] at h1
        have hpre : Derives gc pre [] := by
          apply derives_nil_of_forall
          intro Z hZ
          apply h.nullable_derives hF (mem_symbols_of_rhs hp (by rw [hl]; simp [hZ]))
          have := hn Z hZ
          rw [(buildFirstSetInit_only _ _).first_isNillable] at this
          exact this
        have h2 := derives_append hpre (derives_append hβ (derives_refl gc post))
        simp only [List.nil_append, List.singleton_append] at h2
        exact ⟨β ++ post, derives_trans h1 (by simpa using h2)⟩
      · exfalso
        rw [hrhs] at hYm
        have hYY : Y = Y' := by simpa using hYm
        subst hYY
        have := hJ1 (isTerminal_of_epsilon hYe)
        rw [this, hYe] at hte
        cases hte
  · intro X t ht hX
    rw [buildFirstSetInit_firstSet, h.flags.1, if_pos (mem_table_of_symbols hI hX)] at ht
    unfold firstSeed at ht
    split_ifs at ht with hterm
    · rcases SymbolSet.mem_insert.1 ht with h1 | h1
      · exact ⟨fun _ => h1, fun _ => ⟨[], by rw [h1]; exact derives_refl _ _⟩⟩
      · exact absurd h1 (SymbolSet.not_mem_empty t)
    · exact absurd ht (SymbolSet.not_mem_empty t)

/-- Replacing a left-hand side by the body of one of its productions does not enlarge the
FIRST set of a list of symbols. -/
theorem Trace.inFirstOf_rule {gc g1 g2 g3 : GrammarContext} (h : Trace gc g1 g2 g3)
    (hE : gc.EpsilonAlone) {p : Production} (hp : p ∈ gc.pl) {t : SymbolPtr}
    {v : List SymbolPtr} (ht : InFirstOf g2.st t (ruleBody gc.st p ++ v)) :
    InFirstOf g2.st t (p.lhs.symbol :: v) := by
  obtain ⟨p1, hp1, hstep, -⟩ := forall₂_mem_left h.pl1 p hp
  have hnil : isEPS g1.st p.rhs.symbolList = true → (g2.st.mem p.lhs.symbol).isNillable = true := by
    intro he
    rw [h.only2.first_isNillable]
    exact h.closed1 p hp he
  rcases ruleBody_cases hE hp with ⟨hb, -⟩ | ⟨hb, Y, hrhs, hYe⟩
  · rw [hb, inFirstOf_append] at ht
    rcases ht with h1 | ⟨h1, h2⟩
    · left
      have := h.closed2 p1 hp1 t (by rw [hstep.2.2.1]; exact h1)
      rw [hstep.2.1] at this
      exact this
    · right
      refine ⟨hnil ?_, h2⟩
      rw [isEPS_iff]
      intro Z hZ
      have := h1 Z hZ
      rw [h.only2.first_isNillable] at this
      simp [countsAsEmpty, this]
  · rw [hb] at ht
    right
    refine ⟨hnil ?_, ht⟩
    rw [isEPS_iff, hrhs]
    intro Z hZ
    have hZY : Z = Y := by simpa using hZ
    subst hZY
    have : (g1.st.mem Z).isTerminalEpsilon = true := by
      simp only [Symbol.isTerminalEpsilon, h.flags.flags_type] at hYe ⊢
      exact hYe
    simp [countsAsEmpty, this]

theorem derivesStep_symbols {gc : GrammarContext} {a b : List SymbolPtr}
    (h : DerivesStep gc a b) (ha : ∀ X ∈ a, X ∈ gc.symbols) : ∀ X ∈ b, X ∈ gc.symbols := by
  cases h with
  | rewrite p hp u v =>
    intro X hX
    simp only [List.mem_append] at hX
    rcases hX with (hX | hX) | hX
    · exact ha X (by simp [hX])
    · exact mem_symbols_of_rhs hp (List.mem_filter.1 hX).1
    · exact ha X (by simp [hX])

theorem derives_symbols {gc : GrammarContext} {a b : List SymbolPtr} (h : Derives gc a b)
    (ha : ∀ X ∈ a, X ∈ gc.symbols) : ∀ X ∈ b, X ∈ gc.symbols := by
  induction h with
  | refl => exact ha
  | tail _ hstep ih => exact derivesStep_symbols hstep ih

/-- Completeness of FIRST for lists of symbols: a terminal that begins a sentential form
derived from a list is in the FIRST set of the list. -/
theorem Trace.first_complete {gc g1 g2 g3 : GrammarContext} (h : Trace gc g1 g2 g3)
    (hI : gc.Interned) (hE : gc.EpsilonAlone) {t : SymbolPtr} {β : List SymbolPtr}
    (hterm : (gc.st.mem t).isTerminal = true) {α : List SymbolPtr}
    (hd : Derives gc α (t :: β)) (hα : ∀ X ∈ α, X ∈ gc.symbols) : InFirstOf g2.st t α := by
  revert hα
  refine Relation.ReflTransGen.head_induction_on hd ?_ ?_
  · intro hα
    refine inFirstOf_head (h.terminal_mem_first (mem_table_of_symbols hI ?_) hterm)
    exact hα t (List.mem_cons_self _ _)
  · intro a c hstep _ ih hα
    have hc := ih (derivesStep_symbols hstep hα)
    cases hstep with
    | rewrite p hp u v =>
      rw [List.append_assoc, inFirstOf_append] at hc
      rw [inFirstOf_append]
      exact hc.imp id (fun hh => ⟨hh.1, h.inFirstOf_rule hE hp hh.2⟩)

/-- The FIRST set after `parse` of a symbol at an address in use at entry: what
`buildFirstSet` left, without the symbol named `epsilon` if the symbol is a left-hand side. -/
theorem Trace.final_first {gc g1 g2 g3 : GrammarContext} (h : Trace gc g1 g2 g3)
    {X : SymbolPtr} (hX : X < gc.st.brk) (t : SymbolPtr) :
    t ∈ ((removeAllEpsilon (buildPredictSet g3)).st.mem X).firstSet ↔
      t ∈ (g2.st.mem X).firstSet ∧
        (X ∈ gc.pl.map (fun p => p.lhs.symbol) → t ≠ epsilonOf g3.st) := by
  by_cases hne : g3.pl = []
  · rw [final_of_nil g3 hne, h.firstSet3]
    have : gc.pl.map (fun p => p.lhs.symbol) = [] := by
      rw [← h.lhs1, ← h.pl3_eq, hne]; rfl
    rw [this]
    simp
  · obtain ⟨-, -, -, fi, -⟩ := final_mem g3 hne (X := X) (Or.inl (by rw [h.brk3]; exact hX))
    rw [fi, h.firstSet3, h.pl3_eq, h.lhs1]

/-- The FOLLOW set after `parse` of a symbol at an address in use at entry: what
`buildFollowSet` left, without the symbol named `epsilon` if the symbol is a left-hand
side. -/
theorem Trace.final_follow {gc g1 g2 g3 : GrammarContext} (h : Trace gc g1 g2 g3)
    {X : SymbolPtr} (hX : X < gc.st.brk) (t : SymbolPtr) :
    t ∈ ((removeAllEpsilon (buildPredictSet g3)).st.mem X).followSet ↔
      t ∈ (g3.st.mem X).followSet ∧
        (X ∈ gc.pl.map (fun p => p.lhs.symbol) → t ≠ epsilonOf g3.st) := by
  by_cases hne : g3.pl = []
  · rw [final_of_nil g3 hne]
    have : gc.pl.map (fun p => p.lhs.symbol) = [] := by
      rw [← h.lhs1, ← h.pl3_eq, hne]; rfl
    rw [this]
    simp
  · obtain ⟨-, -, -, -, fo⟩ := final_mem g3 hne (X := X) (Or.inl (by rw [h.brk3]; exact hX))
    rw [fo, h.pl3_eq, h.lhs1]

/-- A symbol of the context that is not the epsilon terminal is not the symbol that
`removeAllEpsilon` removes. -/
theorem Trace.ne_epsilonOf {gc g1 g2 g3 : GrammarContext} (h : Trace gc g1 g2 g3)
    (hA : gc.Allocated) (hC : gc.Classified) {t : SymbolPtr} (ht : t ∈ gc.symbols)
    (hte : (gc.st.mem t).isTerminalEpsilon = false) : t ≠ epsilonOf g3.st := by
  rcases epsilonOf_cases g3.st with he | ⟨-, he⟩
  · intro hc
    rw [h.table3, ← hc] at he
    rw [(hC.2.2 t ht).2 he] at hte
    cases hte
  · rw [he, h.brk3]
    exact Nat.ne_of_lt (hA t ht)

/-- Claim C5: after `parse` on a grammar context whose symbols are classified and have no
nullable flag set at entry, and in which the epsilon terminal occurs only as the sole symbol
of a right-hand side, a terminal `t` other than the epsilon terminal is in the FIRST set of
a nonterminal `A` exactly if `A` derives, in zero or more steps, a sentential form whose
first symbol is `t`. -/
theorem first_iff_derives (gc : GrammarContext) (hA : gc.Allocated) (hI : gc.Interned)
    (hF : gc.FlagsClear) (hC : gc.Classified) (hE : gc.EpsilonAlone) :
    ∃ g, Parsed gc g ∧ ∀ A ∈ gc.symbols, (gc.st.mem A).isNonterminal = true →
      ∀ t, (gc.st.mem t).isTerminal = true → (gc.st.mem t).isTerminalEpsilon = false →
        (t ∈ (g.st.mem A).firstSet ↔ ∃ β, Derives gc [A] (t :: β)) := by
  obtain ⟨g1, g2, g3, h⟩ := trace_exists gc
  refine ⟨_, h.parsed, ?_⟩
  intro A hAs _ t hterm hte
  rw [h.final_first (hA A hAs)]
  constructor
  · rintro ⟨h1, -⟩
    exact (h.first_sound hI hF hC hE hAs h1).2 hte
  · rintro ⟨β, hβ⟩
    have hsym : ∀ X ∈ [A], X ∈ gc.symbols := by
      intro X hX
      rw [List.mem_singleton.1 hX]
      exact hAs
    have h1 := h.first_complete hI hE hterm hβ hsym
    have ht : t ∈ gc.symbols := derives_symbols hβ hsym t (List.mem_cons_self _ _)
    refine ⟨?_, fun _ => h.ne_epsilonOf hA hC ht hte⟩
    rcases h1 with h1 | ⟨-, h1⟩
    · exact h1
    · exact h1.elim

theorem first_iff_derives_witness :
    grammarS1.Allocated ∧ grammarS1.Interned ∧ grammarS1.FlagsClear ∧ grammarS1.Classified ∧
    grammarS1.EpsilonAlone ∧
    ∃ g, Parsed grammarS1 g ∧ ∀ A ∈ grammarS1.symbols,
      (grammarS1.st.mem A).isNonterminal = true →
      ∀ t, (grammarS1.st.mem t).isTerminal = true →
        (grammarS1.st.mem t).isTerminalEpsilon = false →
        (t ∈ (g.st.mem A).firstSet ↔ ∃ β, Derives grammarS1 [A] (t :: β)) :=
  ⟨by decide, by decide, by decide, by decide, by decide,
    first_iff_derives grammarS1 (by decide) (by decide) (by decide) (by decide) (by decide)⟩

/-! ### FOLLOW sets and derivations -/

/-- Where a symbol `A` of the list `u ++ b ++ v` lies: in `u`, in `b` or in `v`. -/
theorem append3_eq_cons {u b v α rest : List SymbolPtr} {A : SymbolPtr}
    (h : u ++ b ++ v = α ++ A :: rest) :
    (∃ u2, u = α ++ A :: u2 ∧ rest = u2 ++ b ++ v) ∨
    (∃ b1 b2, b = b1 ++ A :: b2 ∧ α = u ++ b1 ∧ rest = b2 ++ v) ∨
    (∃ v1, v = v1 ++ A :: rest ∧ α = u ++ b ++ v1) := by
  rw [List.append_assoc, List.append_eq_append_iff] at h
  rcases h with ⟨a', h1, h2⟩ | ⟨c', h1, h2⟩
  · rw [List.append_eq_append_iff] at h2
    rcases h2 with ⟨a2, h3, h4⟩ | ⟨c2, h3, h4⟩
    · right; right
      exact ⟨a2, h4, by rw [h1, h3, List.append_assoc]⟩
    · rcases c2 with _ | ⟨x, c2⟩
      · right; right
        refine ⟨[], ?_, ?_⟩
        · simpa using h4.symm
        · rw [h1, h3]; simp
      · right; left
        simp only [List.cons_append, List.cons.injEq] at h4
        obtain ⟨rfl, h4⟩ := h4
        exact ⟨a', c2, h3, h1, h4⟩
  · rcases c' with _ | ⟨x, c'⟩
    · simp only [List.nil_append, List.append_nil] at h1 h2
      rcases b with _ | ⟨y, b2⟩
      · right; right
        refine ⟨[], ?_, ?_⟩
        · simpa using h2.symm
        · rw [h1]; simp
      · right; left
        simp only [List.cons_append, List.cons.injEq] at h2
        obtain ⟨rfl, h2⟩ := h2
        exact ⟨[], b2, rfl, by rw [h1]; simp, h2⟩
    · left
      simp only [List.cons_append, List.cons.injEq] at h2
      obtain ⟨rfl, h2⟩ := h2
      exact ⟨c', h1, by rw [h2, List.append_assoc]⟩

theorem Trace.first_mem_symbols {gc g1 g2 g3 : GrammarContext} (h : Trace gc g1 g2 g3)
    (hI : gc.Interned) {X t : SymbolPtr} (hX : X ∈ gc.symbols)
    (ht : t ∈ (g2.st.mem X).firstSet) : t ∈ gc.symbols := by
  refine h.inv2.least (fun X t => X ∈ gc.symbols → t ∈ gc.symbols) ?_ ?_ X t ht hX
  · intro p1 hp1 t hrule _
    obtain ⟨p, hp, hstep, -⟩ := forall₂_mem_right h.pl1 p1 hp1
    obtain ⟨Y, hY, hJ⟩ := hrule.exists_mem
    rw [hstep.2.2.1] at hY
    exact hJ (mem_symbols_of_rhs hp hY)
  · intro X t ht hX
    rw [buildFirstSetInit_firstSet, h.flags.1, if_pos (mem_table_of_symbols hI hX)] at ht
    unfold firstSeed at ht
    split_ifs at ht with hterm
    · rcases SymbolSet.mem_insert.1 ht with h1 | h1
      · rw [h1]; exact hX
      · exact absurd h1 (SymbolSet.not_mem_empty t)
    · exact absurd ht (SymbolSet.not_mem_empty t)

/-- A list of symbols derives a sentential form that begins with `t`, for `t` in its FIRST
set other than the epsilon terminal. -/
theorem Trace.inFirstOf_derives {gc g1 g2 g3 : GrammarContext} (h : Trace gc g1 g2 g3)
    (hI : gc.Interned) (hF : gc.FlagsClear) (hC : gc.Classified) (hE : gc.EpsilonAlone)
    {t : SymbolPtr} (hte : (gc.st.mem t).isTerminalEpsilon = false) {l : List SymbolPtr}
    (hl : ∀ Y ∈ l, Y ∈ gc.symbols) (ht : InFirstOf g2.st t l) :
    ∃ γ, Derives gc l (t :: γ) := by
  obtain ⟨pre, Y, post, hsplit, hn, hJ⟩ := ruleFirst_split ht
  obtain ⟨β, hβ⟩ := (h.first_sound hI hF hC hE (hl Y (by rw [hsplit]; simp)) hJ).2 hte
  have hpre : Derives gc pre [] := by
    apply derives_nil_of_forall
    intro Z hZ
    apply h.nullable_derives hF (hl Z (by rw [hsplit]; simp [hZ]))
    rw [← h.only2.first_isNillable]
    exact hn Z hZ
  have h2 := derives_append hpre (derives_append hβ (derives_refl gc post))
  simp only [List.nil_append, List.singleton_append] at h2
  exact ⟨β ++ post, by rw [hsplit]; simpa using h2⟩

theorem Trace.inFirstOf_mem_symbols {gc g1 g2 g3 : GrammarContext} (h : Trace gc g1 g2 g3)
    (hI : gc.Interned) {t : SymbolPtr} {l : List SymbolPtr}
    (hl : ∀ Y ∈ l, Y ∈ gc.symbols) (ht : InFirstOf g2.st t l) : t ∈ gc.symbols := by
  obtain ⟨Y, hY, hJ⟩ := RuleFirst.exists_mem ht
  exact h.first_mem_symbols hI (hl Y hY) hJ

/-- If every symbol of the body of a production has the nullable flag, so has the left-hand
side. -/
theorem Trace.nil_rule {gc g1 g2 g3 : GrammarContext} (h : Trace gc g1 g2 g3)
    {p : Production} (hp : p ∈ gc.pl)
    (hb : ∀ Z ∈ ruleBody gc.st p, (g1.st.mem Z).isNillable = true) :
    (g1.st.mem p.lhs.symbol).isNillable = true := by
  apply h.closed1 p hp
  rw [isEPS_iff]
  intro Z hZ
  by_cases hZe : (gc.st.mem Z).isTerminalEpsilon = true
  · have : (g1.st.mem Z).isTerminalEpsilon = true := by
      simp only [Symbol.isTerminalEpsilon, h.flags.flags_type] at hZe ⊢
      exact hZe
    simp [countsAsEmpty, this]
  · have := hb Z (List.mem_filter.2 ⟨hZ, by simpa using hZe⟩)
    simp [countsAsEmpty, this]

/-- A right-hand side that has a symbol not of terminal kind is the body of its production. -/
theorem ruleBody_of_nonterminal {gc : GrammarContext} (hE : gc.EpsilonAlone) {p : Production}
    (hp : p ∈ gc.pl) {X : SymbolPtr} (hX : X ∈ p.rhs.symbolList)
    (hnt : (gc.st.mem X).isNonterminal = true) : ruleBody gc.st p = p.rhs.symbolList := by
  rcases ruleBody_cases hE hp with ⟨hb, -⟩ | ⟨-, Y, hrhs, hYe⟩
  · exact hb
  · exfalso
    rw [hrhs] at hX
    have hXY : X = Y := by simpa using hX
    subst hXY
    have := isTerminal_of_epsilon hYe
    simp only [Symbol.isNonterminal, this] at hnt
    cases hnt

/-- Every left-hand side occurs in a sentential form derived from `start`. -/
def GrammarContext.Reachable (gc : GrammarContext) (start : SymbolPtr) : Prop :=
  ∀ p ∈ gc.pl, ∃ α β, Derives gc [start] (α ++ p.lhs.symbol :: β)

theorem Trace.isNonterminal2 {gc g1 g2 g3 : GrammarContext} (h : Trace gc g1 g2 g3)
    (X : SymbolPtr) : (g2.st.mem X).isNonterminal = (gc.st.mem X).isNonterminal := by
  simp only [Symbol.isNonterminal, Symbol.isTerminal, h.only2.first_type, h.flags.flags_type]

theorem mem_lhs_of_nonterminal {gc : GrammarContext} (hC : gc.Classified) {X : SymbolPtr}
    (hX : X ∈ symbolOccurrences gc.pl) (hnt : (gc.st.mem X).isNonterminal = true) :
    X ∈ gc.pl.map (fun p => p.lhs.symbol) := by
  rcases hC.2.1 X hX with h1 | h1
  · exact h1
  · simp only [Symbol.isNonterminal, h1] at hnt
    cases hnt

/-- Soundness of FOLLOW: an element `t` of the FOLLOW set of a symbol `X` after
`buildFollowSet` is a symbol of the context, `X` is a left-hand side, and if `t` is not the
epsilon terminal then `X` immediately followed by `t` occurs in a sentential form derived
from `start`. -/
theorem Trace.follow_sound {gc g1 g2 g3 : GrammarContext} (h : Trace gc g1 g2 g3)
    (hI : gc.Interned) (hF : gc.FlagsClear) (hFo : gc.FollowClear) (hC : gc.Classified)
    (hE : gc.EpsilonAlone) {start : SymbolPtr} (hR : gc.Reachable start)
    {X t : SymbolPtr} (hX : X ∈ gc.symbols) (ht : t ∈ (g3.st.mem X).followSet) :
    X ∈ gc.pl.map (fun p => p.lhs.symbol) ∧ t ∈ gc.symbols ∧
    ((gc.st.mem t).isTerminalEpsilon = false →
      ∃ α β, Derives gc [start] (α ++ X :: t :: β)) := by
  refine h.inv3.least (fun X t => X ∈ gc.symbols →
    X ∈ gc.pl.map (fun p => p.lhs.symbol) ∧ t ∈ gc.symbols ∧
    ((gc.st.mem t).isTerminalEpsilon = false →
      ∃ α β, Derives gc [start] (α ++ X :: t :: β))) ?_ ?_ X t ht hX
  · intro p2 hp2
    rw [h.pl2] at hp2
    obtain ⟨p, hp, hstep, -⟩ := forall₂_mem_right h.pl1 p2 hp2
    obtain ⟨α, β, hαβ⟩ := hR p hp
    constructor
    · intro pre X suf hrhs hnt t hfirst _
      rw [hstep.2.2.1] at hrhs
      rw [h.isNonterminal2] at hnt
      have hXm : X ∈ p.rhs.symbolList := by rw [hrhs]; simp
      have hsuf : ∀ Y ∈ suf, Y ∈ gc.symbols :=
        fun Y hY => mem_symbols_of_rhs hp (by rw [hrhs]; simp [hY])
      refine ⟨mem_lhs_of_nonterminal hC (rhs_mem_symbolOccurrences hp hXm) hnt,
        h.inFirstOf_mem_symbols hI hsuf hfirst, fun hte => ?_⟩
      obtain ⟨γ, hγ⟩ := h.inFirstOf_derives hI hF hC hE hte hsuf hfirst
      have h1 := derives_rule hp α β
      rw [ruleBody_of_nonterminal hE hp hXm hnt, hrhs] at h1
      have h2 := derives_context hγ (α ++ pre ++ [X]) β
      refine ⟨α ++ pre, γ ++ β, derives_trans hαβ (derives_trans h1 ?_)⟩
      simpa using h2
    · intro rpre X rsuf hrev hnil hnt t hJ _
      rw [hstep.2.2.1] at hrev
      rw [h.isNonterminal2] at hnt
      have hrhs : p.rhs.symbolList = rsuf.reverse ++ X :: rpre.reverse := by
        have := congrArg List.reverse hrev
        simpa using this
      have hXm : X ∈ p.rhs.symbolList := by rw [hrhs]; simp
      rw [hstep.2.1] at hJ
      obtain ⟨-, hts, hder⟩ := hJ (mem_symbols_of_lhs hp)
      refine ⟨mem_lhs_of_nonterminal hC (rhs_mem_symbolOccurrences hp hXm) hnt, hts,
        fun hte => ?_⟩
      obtain ⟨α', β', hd⟩ := hder hte
      have h1 := derives_rule hp α' (t :: β')
      rw [ruleBody_of_nonterminal hE hp hXm hnt, hrhs] at h1
      have hpre : Derives gc rpre.reverse [] := by
        apply derives_nil_of_forall
        intro Z hZ
        apply h.nullable_derives hF (mem_symbols_of_rhs hp (by rw [hrhs]; simp [hZ]))
        rw [← h.only2.first_isNillable]
        exact hnil Z (List.mem_reverse.1 hZ)
      have h2 := derives_context hpre (α' ++ rsuf.reverse ++ [X]) (t :: β')
      refine ⟨α' ++ rsuf.reverse, β', derives_trans hd (derives_trans h1 ?_)⟩
      simpa using h2
  · intro X t ht hX
    rw [h.only2.first_followSet, h.flags.flags_followSet, hFo X hX] at ht
    exact absurd ht (SymbolSet.not_mem_empty t)

/-- Completeness of FOLLOW: in a sentential form derived from `start`, the FIRST set of what
comes after a nonterminal lies in the FOLLOW set of the nonterminal, and so does the FOLLOW
set of `start` if all that comes after has the nullable flag. -/
theorem Trace.follow_complete {gc g1 g2 g3 : GrammarContext} (h : Trace gc g1 g2 g3)
    (hC : gc.Classified) (hE : gc.EpsilonAlone) {start : SymbolPtr} {γ : List SymbolPtr}
    (hd : Derives gc [start] γ) :
    ∀ α A rest, γ = α ++ A :: rest → (gc.st.mem A).isNonterminal = true →
      (∀ t, InFirstOf g2.st t rest → t ∈ (g3.st.mem A).followSet) ∧
      ((∀ Z ∈ rest, (g1.st.mem Z).isNillable = true) →
        ∀ t, t ∈ (g3.st.mem start).followSet → t ∈ (g3.st.mem A).followSet) := by
  induction hd with
  | refl =>
    intro α A rest hγ _
    rcases α with _ | ⟨x, α⟩
    · simp only [List.nil_append, List.cons.injEq] at hγ
      obtain ⟨rfl, rfl⟩ := hγ
      exact ⟨fun t ht => ht.elim, fun _ t ht => ht⟩
    · simp at hγ
  | tail _ hstep ih =>
    cases hstep with
    | rewrite p hp u v =>
      intro α A rest hγ hnt
      obtain ⟨p1, hp1, hstep1, -⟩ := forall₂_mem_left h.pl1 p hp
      have hB : (gc.st.mem p.lhs.symbol).isNonterminal = true := by
        simp only [Symbol.isNonterminal, not_isTerminal_of_nonterminal (hC.1 p hp)]
        rfl
      rcases append3_eq_cons hγ with ⟨u2, hu, hrest⟩ | ⟨b1, b2, hb, -, hrest⟩ | ⟨v1, hv, -⟩
      · obtain ⟨i1, i2⟩ := ih α A (u2 ++ p.lhs.symbol :: v) (by rw [hu]; simp) hnt
        rw [hrest, List.append_assoc]
        refine ⟨fun t ht => i1 t ?_, fun hn t ht => i2 ?_ t ht⟩
        · rw [inFirstOf_append] at ht ⊢
          exact ht.imp id (fun hh => ⟨hh.1, h.inFirstOf_rule hE hp hh.2⟩)
        · intro Z hZ
          rcases List.mem_append.1 hZ with hZ | hZ
          · exact hn Z (by simp [hZ])
          · rcases List.mem_cons.1 hZ with rfl | hZ
            · exact h.nil_rule hp (fun W hW => hn W (by simp [hW]))
            · exact hn Z (by simp [hZ])
      · obtain ⟨i1, i2⟩ := ih u p.lhs.symbol v rfl hB
        have hAm : A ∈ ruleBody gc.st p := by rw [hb]; simp
        have hAr : A ∈ p.rhs.symbolList := (List.mem_filter.1 hAm).1
        have hbody := ruleBody_of_nonterminal hE hp hAr hnt
        rw [hbody] at hb
        have hcl := h.closed3 p1 (by rw [h.pl2]; exact hp1)
        rw [hstep1.2.2.1, hstep1.2.1] at hcl
        have hnt3 : (g3.st.mem A).isNonterminal = true := by
          rw [h.isNonterminal3]; exact hnt
        have hfwd := hcl.1 b1 A b2 hb hnt3
        have hbwd := hcl.2 b2.reverse A b1.reverse (by rw [hb]; simp)
        rw [hrest]
        refine ⟨fun t ht => ?_, fun hn t ht => ?_⟩
        · rw [inFirstOf_append] at ht
          rcases ht with ht | ⟨hn, ht⟩
          · exact hfwd t ((h.inv3.only.inFirstOf t b2).2 ht)
          · refine hbwd ?_ hnt3 t (i1 t ht)
            intro Z hZ
            rw [h.inv3.only.follow_isNillable]
            exact hn Z (List.mem_reverse.1 hZ)
        · refine hbwd ?_ hnt3 t (i2 (fun Z hZ => hn Z (by simp [hZ])) t ht)
          intro Z hZ
          rw [h.isNillable3]
          exact hn Z (by simp [List.mem_reverse.1 hZ])
      · exact ih (u ++ p.lhs.symbol :: v1) A rest (by rw [hv]; simp) hnt

theorem derives_no_epsilon {gc : GrammarContext} {a b : List SymbolPtr} (h : Derives gc a b)
    (ha : ∀ X ∈ a, (gc.st.mem X).isTerminalEpsilon = false) :
    ∀ X ∈ b, (gc.st.mem X).isTerminalEpsilon = false := by
  induction h with
  | refl => exact ha
  | tail _ hstep ih =>
    cases hstep with
    | rewrite p hp u v =>
      intro X hX
      simp only [List.mem_append] at hX
      rcases hX with (hX | hX) | hX
      · exact ih X (by simp [hX])
      · simpa using (List.mem_filter.1 hX).2
      · exact ih X (by simp [hX])

/-- A grammar with a nonterminal that the start symbol does not reach: `S -> a`,
`B -> C b`, `C -> c`. -/
def grammarUnreachable : GrammarContext :=
  frontend.buildContext [("S", ["a"]), ("B", ["C", "b"]), ("C", ["c"])]

theorem grammarUnreachable_derives {w : List SymbolPtr}
    (h : Derives grammarUnreachable [1] w) : w = [1] ∨ w = [2] := by
  have hpl : ∀ p ∈ grammarUnreachable.pl,
      (p.lhs.symbol = 1 ∧ ruleBody grammarUnreachable.st p = [2]) ∨
        p.lhs.symbol = 3 ∨ p.lhs.symbol = 4 := by
    decide
  induction h with
  | refl => exact Or.inl rfl
  | tail _ hstep ih =>
    cases hstep with
    | rewrite p hp u v =>
      have hlen : (u ++ p.lhs.symbol :: v).length = 1 := by
        rcases ih with ih | ih <;> rw [ih] <;> rfl
      have hu : u = [] := by
        rcases u with _ | ⟨x, u⟩
        · rfl
        · simp at hlen
      have hv : v = [] := by
        rcases v with _ | ⟨x, v⟩
        · rfl
        · simp [hu] at hlen
      subst hu hv
      simp only [List.nil_append, List.append_nil] at ih ⊢
      rcases hpl p hp with ⟨-, hb⟩ | h3 | h4
      · exact Or.inr hb
      · rw [h3] at ih
        rcases ih with ih | ih <;> simp at ih
      · rw [h4] at ih
        rcases ih with ih | ih <;> simp at ih

/-- Counterexample to claim C9.  The grammar `S -> a`, `B -> C b`, `C -> c` is classified
and fresh and has no epsilon; `C` (address 4) is a nonterminal and `b` (address 5) a terminal other than `$`.
After `parse` the FOLLOW set of `C` holds `b`, but no sentential form derived from the start
symbol `S` (address 1) has `C` followed by `b`: the forms are `S` and `a` alone. -/
theorem follow_of_unreachable_nonterminal :
    grammarUnreachable.Allocated ∧ grammarUnreachable.Interned ∧
    grammarUnreachable.FlagsClear ∧ grammarUnreachable.FollowClear ∧
    grammarUnreachable.Classified ∧ grammarUnreachable.EpsilonAlone ∧
    grammarUnreachable.pl.head?.map (fun p => p.lhs.symbol) = some 1 ∧
    (grammarUnreachable.st.mem 4).isNonterminal = true ∧
    (grammarUnreachable.st.mem 5).isTerminal = true ∧
    grammarUnreachable.st.table_.lookup config.keyword.eof ≠ some 5 ∧
    (LL1Analyzer.new (some grammarUnreachable)).parse.map
        (fun r => r.2.gc_.map (fun g => (g.st.mem 4).followSet.elems)) = some (some [5]) ∧
    ¬ ∃ α β, Derives grammarUnreachable [1] (α ++ 4 :: 5 :: β) := by
  refine ⟨by decide, by decide, by decide, by decide, by decide, by decide, by decide,
    by decide, by decide, by decide, by decide, ?_⟩
  rintro ⟨α, β, hd⟩
  rcases grammarUnreachable_derives hd with h | h
  · have := congrArg List.length h
    simp at this
    omega
  · have := congrArg List.length h
    simp at this
    omega

/-- Claim C9, amended: after `parse` on a fresh classified grammar context in which the
epsilon terminal occurs only as the sole symbol of a right-hand side and every left-hand
side occurs in a sentential form derived from the start symbol (the left-hand side of the
first production), a terminal `t` other than `$` is in the FOLLOW set of a nonterminal `A`
exactly if some sentential form derived from the start symbol has `A` immediately followed
by `t`. -/
theorem follow_iff_derives (gc : GrammarContext) (hA : gc.Allocated) (hI : gc.Interned)
    (hF : gc.FlagsClear) (hFo : gc.FollowClear) (hC : gc.Classified) (hE : gc.EpsilonAlone)
    (start : SymbolPtr) (hstart : gc.pl.head?.map (fun p => p.lhs.symbol) = some start)
    (hR : gc.Reachable start) :
    ∃ g, Parsed gc g ∧ ∀ A ∈ gc.symbols, (gc.st.mem A).isNonterminal = true →
      ∀ t, (gc.st.mem t).isTerminal = true →
        gc.st.table_.lookup config.keyword.eof ≠ some t →
        (t ∈ (g.st.mem A).followSet ↔ ∃ α β, Derives gc [start] (α ++ A :: t :: β)) := by
  obtain ⟨g1, g2, g3, h⟩ := trace_exists gc
  refine ⟨_, h.parsed, ?_⟩
  obtain ⟨p0, hp0, hp0s⟩ : ∃ p0 ∈ gc.pl, p0.lhs.symbol = start := by
    cases hpl : gc.pl with
    | nil => rw [hpl] at hstart; simp at hstart
    | cons p ps =>
      rw [hpl] at hstart
      exact ⟨p, List.mem_cons_self _ _, by simpa using hstart⟩
  have hss : start ∈ gc.symbols := hp0s ▸ mem_symbols_of_lhs hp0
  have hse : (gc.st.mem start).isTerminalEpsilon = false := by
    rw [← hp0s]
    simp only [Symbol.isTerminalEpsilon, hC.1 p0 hp0]
    decide
  intro A hAs hnt t hterm _
  rw [h.final_follow (hA A hAs)]
  constructor
  · rintro ⟨h1, h2⟩
    obtain ⟨s1, s2, s3⟩ := h.follow_sound hI hF hFo hC hE hR hAs h1
    apply s3
    by_contra hte
    have hte' : (gc.st.mem t).isTerminalEpsilon = true := by simpa using hte
    have hl := (hC.2.2 t s2).1 hte'
    apply h2 s1
    unfold epsilonOf
    rw [findSymbol_of_lookup (by rw [h.table3]; exact hl)]
  · rintro ⟨α, β, hd⟩
    have hsym : ∀ X ∈ [start], X ∈ gc.symbols := by
      intro X hX
      rw [List.mem_singleton.1 hX]
      exact hss
    have hts : t ∈ gc.symbols := derives_symbols hd hsym t (by simp)
    have hte : (gc.st.mem t).isTerminalEpsilon = false := by
      refine derives_no_epsilon hd ?_ t (by simp)
      intro X hX
      rw [List.mem_singleton.1 hX]
      exact hse
    obtain ⟨c1, -⟩ := h.follow_complete hC hE hd α A (t :: β) rfl hnt
    refine ⟨c1 t (inFirstOf_head ?_), fun _ => h.ne_epsilonOf hA hC hts hte⟩
    exact h.terminal_mem_first (mem_table_of_symbols hI hts) hterm

theorem follow_iff_derives_witness :
    grammarS1.Allocated ∧ grammarS1.Interned ∧ grammarS1.FlagsClear ∧ grammarS1.FollowClear ∧
    grammarS1.Classified ∧ grammarS1.EpsilonAlone ∧
    grammarS1.pl.head?.map (fun p => p.lhs.symbol) = some 1 ∧ grammarS1.Reachable 1 ∧
    ∃ g, Parsed grammarS1 g ∧ ∀ A ∈ grammarS1.symbols,
      (grammarS1.st.mem A).isNonterminal = true →
      ∀ t, (grammarS1.st.mem t).isTerminal = true →
        grammarS1.st.table_.lookup config.keyword.eof ≠ some t →
        (t ∈ (g.st.mem A).followSet ↔ ∃ α β, Derives grammarS1 [1] (α ++ A :: t :: β)) := by
  have hlhs : ∀ p ∈ grammarS1.pl, p.lhs.symbol = 1 := by decide
  have hR : grammarS1.Reachable 1 := by
    intro p hp
    refine ⟨[], [], ?_⟩
    rw [hlhs p hp]
    exact derives_refl _ _
  exact ⟨by decide, by decide, by decide, by decide, by decide, by decide, by decide, hR,
    follow_iff_derives grammarS1 (by decide) (by decide) (by decide) (by decide) (by decide)
      (by decide) 1 (by decide) hR⟩

/-! ## The LL(1) table -/

/-- Assignment `m[k] = v` to a `std::map`, whose entries are kept in the order `lt` of their
keys. -/
def mapAssign {K V : Type} (lt : K → K → Bool) (k : K) (v : V) : List (K × V) → List (K × V)
  | [] => [(k, v)]
  | e :: es =>
    if lt k e.1 then (k, v) :: e :: es
    else if lt e.1 k then e :: mapAssign lt k v es
    else (k, v) :: es

/-- The expression `m[k]` on a `std::map`: the value stored under `k` and the map after the
call, which has an entry with a value-initialised value if it had none for `k`. -/
def mapIndex {K V : Type} [DecidableEq K] [Inhabited V] (lt : K → K → Bool)
    (m : List (K × V)) (k : K) : V × List (K × V) :=
  match m.lookup k with
  | some v => (v, m)
  | none => (default, mapAssign lt k default m)

/-- The order of the keys of a map from symbols or from ids. -/
def idLt (a b : Nat) : Bool := decide (a < b)

/-- The type `std::map<SymbolPtr, std::size_t>`. -/
abbrev SymbolMappingId := List (SymbolPtr × Nat)

/-- The type `std::map<std::size_t, SymbolPtr>`. -/
abbrev IdMappingSymbol := List (Nat × SymbolPtr)

/-- The type `std::pair<std::size_t, std::size_t>`. -/
abbrev CellId := Nat × Nat

/-- The order of `std::pair`: by the first member, then by the second. -/
def cellLt (a b : CellId) : Bool := decide (a.1 < b.1) || (decide (a.1 = b.1) && decide (a.2 < b.2))

/-- The type `std::set<std::size_t>`: its elements in increasing order, as for a set of
addresses. -/
abbrev ProductionIdSet := SymbolSet

/-- The type `std::map<CellId, ProductionIdSet>`. -/
abbrev CellIdMappingProductionIdSet := List (CellId × ProductionIdSet)

/-- The locals of the lambda `buildTerminlMappingId`; `none` is the null pointer. -/
structure TerminalScan where
  terminalMappingId : SymbolMappingId
  id : Nat
  theLastSymbol : Option SymbolPtr
  theEofSymbol : Option SymbolPtr

/-- The body of the inner loop of `buildTerminlMappingId` for the symbol `t`. -/
def buildTerminlMappingIdVisit (st : SymbolTable) (s : TerminalScan) (t : SymbolPtr) :
    TerminalScan :=
  if (st.mem t).isNonterminal || (st.mem t).isTerminalEpsilon then s
  else
    let thisId := mapIndex idLt s.terminalMappingId t
    let s1 : TerminalScan :=
      if thisId.1 = 0 then
        { s with
          terminalMappingId := mapAssign idLt t s.id thisId.2
          id := s.id + 1
          theLastSymbol := some t }
      else { s with terminalMappingId := thisId.2 }
    if (st.mem t).isTerminalEof then { s1 with theEofSymbol := some t } else s1

/-- The two loops of `buildTerminlMappingId`. -/
def buildTerminlMappingIdScan (st : SymbolTable) (pl : ProductionList) : TerminalScan :=
  pl.foldl (fun s p => p.rhs.symbolList.foldl (buildTerminlMappingIdVisit st) s)
    { terminalMappingId := [], id := 1, theLastSymbol := none, theEofSymbol := none }

/-- The call `std::swap(m[a], m[b])`. -/
def mapSwap (m : SymbolMappingId) (a b : SymbolPtr) : SymbolMappingId :=
  let x := mapIndex idLt m a
  let y := mapIndex idLt x.2 b
  mapAssign idLt b x.1 (mapAssign idLt a y.1 y.2)

/-- The lambda `buildTerminlMappingId` of `buildHtmlTableOfLL1Table`. -/
def buildTerminlMappingId (st : SymbolTable) (pl : ProductionList) : SymbolMappingId :=
  let s := buildTerminlMappingIdScan st pl
  match s.theLastSymbol, s.theEofSymbol with
  | some theLastSymbol, some theEofSymbol =>
    if theLastSymbol ≠ theEofSymbol then mapSwap s.terminalMappingId theLastSymbol theEofSymbol
    else s.terminalMappingId
  | _, _ => s.terminalMappingId

/-- The body of the loop of `buildNonterminalMappingId`: the map and `id`. -/
def buildNonterminalMappingIdVisit (s : SymbolMappingId × Nat) (p : Production) :
    SymbolMappingId × Nat :=
  let thisId := mapIndex idLt s.1 p.lhs.symbol
  if thisId.1 = 0 then (mapAssign idLt p.lhs.symbol s.2 thisId.2, s.2 + 1) else (thisId.2, s.2)

/-- The lambda `buildNonterminalMappingId` of `buildHtmlTableOfLL1Table`. -/
def buildNonterminalMappingId (pl : ProductionList) : SymbolMappingId :=
  (pl.foldl buildNonterminalMappingIdVisit ([], 1)).1

/-- The three maps that `buildCellIdMappingProductionIdSet` works on: the one it builds and
the two that it takes by reference. -/
structure CellBuild where
  cmp : CellIdMappingProductionIdSet
  terminalMappingId : SymbolMappingId
  nonterminalMappingId : SymbolMappingId

/-- The body of the inner loop of `buildCellIdMappingProductionIdSet` for the element `t` of
the PREDICT set of the production with left-hand side `nt`. -/
def buildCellVisit (nt : SymbolPtr) (productionId : Nat) (s : CellBuild) (t : SymbolPtr) :
    CellBuild :=
  let row := mapIndex idLt s.nonterminalMappingId nt
  let col := mapIndex idLt s.terminalMappingId t
  let cell := mapIndex cellLt s.cmp (row.1, col.1)
  { cmp := mapAssign cellLt (row.1, col.1) (cell.1.insert productionId).1 cell.2
    terminalMappingId := col.2
    nonterminalMappingId := row.2 }

/-- The lambda `buildCellIdMappingProductionIdSet` of `buildHtmlTableOfLL1Table`: the map it
returns, and the two maps of ids as it leaves them. -/
def buildCellIdMappingProductionIdSet (pl : ProductionList)
    (terminalMappingId nonterminalMappingId : SymbolMappingId) : CellBuild :=
  (pl.foldl
    (fun (s : CellBuild × Nat) p =>
      (p.rhs.predictSet.elems.foldl (buildCellVisit p.lhs.symbol s.2) s.1, s.2 + 1))
    ({ cmp := [], terminalMappingId := terminalMappingId,
       nonterminalMappingId := nonterminalMappingId }, 1)).1

/-- The lambda `toIdMappingSymbol` of `buildHtmlTableOfLL1Table`. -/
def toIdMappingSymbol (symbolMappingId : SymbolMappingId) : IdMappingSymbol :=
  symbolMappingId.foldl (fun ims item => mapAssign idLt item.2 item.1 ims) []

/-- The common data of `buildHtmlTableOfLL1Table`. -/
structure LL1Table where
  terminalMappingId : SymbolMappingId
  nonterminalMappingId : SymbolMappingId
  cellIdMappingProductionIdSet : CellIdMappingProductionIdSet
  idMappingTerminal : IdMappingSymbol
  idMappingNonterminal : IdMappingSymbol

/-- The common data that `buildHtmlTableOfLL1Table` computes for a grammar context. -/
def buildLL1Table (gc : GrammarContext) : LL1Table :=
  let terminalMappingId := buildTerminlMappingId gc.st gc.pl
  let nonterminalMappingId := buildNonterminalMappingId gc.pl
  let cells := buildCellIdMappingProductionIdSet gc.pl terminalMappingId nonterminalMappingId
  { terminalMappingId := cells.terminalMappingId
    nonterminalMappingId := cells.nonterminalMappingId
    cellIdMappingProductionIdSet := cells.cmp
    idMappingTerminal := toIdMappingSymbol cells.terminalMappingId
    idMappingNonterminal := toIdMappingSymbol cells.nonterminalMappingId }

/-- The lambda `getTerminalList`: the column headers of the table, from left to right. -/
def getTerminalList (gc : GrammarContext) : List String :=
  (buildLL1Table gc).idMappingTerminal.map (fun pair => (gc.st.mem pair.2).name)

/-- The rows that the lambda `addTableRecords` writes, from top to bottom: the name in the
first cell and the sets of production ids in the other cells, from left to right.  (The
lookups `cellIdMappingProductionIdSet[cellId]` add empty cells to the map, which changes no
lookup.) -/
def addTableRecords (gc : GrammarContext) : List (String × List ProductionIdSet) :=
  (buildLL1Table gc).idMappingNonterminal.map (fun ntItem =>
    ((gc.st.mem ntItem.2).name,
      (buildLL1Table gc).idMappingTerminal.map (fun tItem =>
        (mapIndex cellLt (buildLL1Table gc).cellIdMappingProductionIdSet
          (ntItem.1, tItem.1)).1)))

/-! ## Maps: lookups -/

theorem idLt_irrefl (a : Nat) : idLt a a = false := by simp [idLt]

theorem idLt_total (a b : Nat) (h1 : idLt a b = false) (h2 : idLt b a = false) : a = b := by
  simp only [idLt, decide_eq_false_iff_not, not_lt] at h1 h2
  exact le_antisymm h2 h1

theorem cellLt_irrefl (a : CellId) : cellLt a a = false := by simp [cellLt]

theorem cellLt_total (a b : CellId) (h1 : cellLt a b = false) (h2 : cellLt b a = false) :
    a = b := by
  simp only [cellLt, Bool.or_eq_false_iff, decide_eq_false_iff_not, not_lt,
    Bool.and_eq_false_imp, decide_eq_true_eq] at h1 h2
  have e1 : a.1 = b.1 := le_antisymm h2.1 h1.1
  have e2 : a.2 = b.2 := le_antisymm (h2.2 e1.symm) (h1.2 e1)
  exact Prod.ext e1 e2

theorem lookup_cons_if {K V : Type} [DecidableEq K] (e : K × V) (es : List (K × V)) (k : K) :
    (e :: es).lookup k = if k = e.1 then some e.2 else es.lookup k := by
  by_cases h : k = e.1
  · have hb : (k == e.1) = true := by simpa using h
    rw [if_pos h, List.lookup, hb]
  · have hb : (k == e.1) = false := by simpa using h
    rw [if_neg h, List.lookup, hb]

/-- What an assignment does to the lookups of a map. -/
theorem lookup_mapAssign {K V : Type} [DecidableEq K] (lt : K → K → Bool)
    (hirr : ∀ a, lt a a = false) (htot : ∀ a b, lt a b = false → lt b a = false → a = b)
    (k : K) (v : V) (m : List (K × V)) (k' : K) :
    (mapAssign lt k v m).lookup k' = if k' = k then some v else m.lookup k' := by
  induction m with
  | nil =>
    unfold mapAssign
    rw [lookup_cons_if]
  | cons e es ih =>
    unfold mapAssign
    by_cases h1 : lt k e.1 = true
    · rw [if_pos h1, lookup_cons_if]
    · rw [if_neg h1]
      by_cases h2 : lt e.1 k = true
      · rw [if_pos h2]
        have hne : e.1 ≠ k := by
          intro hc
          rw [hc, hirr] at h2
          cases h2
        rw [lookup_cons_if, lookup_cons_if, ih]
        by_cases h : k' = e.1
        · have hk : k' ≠ k := by rw [h]; exact hne
          rw [if_pos h, if_neg hk, if_pos h]
        · rw [if_neg h, if_neg h]
      · rw [if_neg h2]
        have he : k = e.1 := htot k e.1 (by simpa using h1) (by simpa using h2)
        rw [lookup_cons_if, lookup_cons_if]
        by_cases h : k' = k
        · simp [h]
        · have h' : k' ≠ e.1 := by rw [← he]; exact h
          simp [h, h']

/-- The value of `m[k]`, without the change to the map: 0 or the empty set for a key that
the map does not have. -/
def mapAt {K V : Type} [DecidableEq K] [Inhabited V] (m : List (K × V)) (k : K) : V :=
  (m.lookup k).getD default

theorem mapIndex_fst {K V : Type} [DecidableEq K] [Inhabited V] (lt : K → K → Bool)
    (m : List (K × V)) (k : K) : (mapIndex lt m k).1 = mapAt m k := by
  unfold mapIndex mapAt
  cases m.lookup k <;> rfl

theorem lookup_mapIndex {K V : Type} [DecidableEq K] [Inhabited V] (lt : K → K → Bool)
    (hirr : ∀ a, lt a a = false) (htot : ∀ a b, lt a b = false → lt b a = false → a = b)
    (m : List (K × V)) (k k' : K) :
    (mapIndex lt m k).2.lookup k' =
      if k' = k then some (mapAt m k) else m.lookup k' := by
  unfold mapIndex mapAt
  cases h : m.lookup k with
  | none =>
    simp only [Option.getD_none]
    exact lookup_mapAssign lt hirr htot k default m k'
  | some v =>
    by_cases hk : k' = k
    · simp [hk, h]
    · simp [hk]

theorem mapAt_mapIndex {K V : Type} [DecidableEq K] [Inhabited V] (lt : K → K → Bool)
    (hirr : ∀ a, lt a a = false) (htot : ∀ a b, lt a b = false → lt b a = false → a = b)
    (m : List (K × V)) (k k' : K) : mapAt (mapIndex lt m k).2 k' = mapAt m k' := by
  unfold mapAt
  rw [lookup_mapIndex lt hirr htot]
  by_cases hk : k' = k
  · simp [hk, mapAt]
  · simp [hk]

theorem mapAt_mapAssign {K V : Type} [DecidableEq K] [Inhabited V] (lt : K → K → Bool)
    (hirr : ∀ a, lt a a = false) (htot : ∀ a b, lt a b = false → lt b a = false → a = b)
    (k : K) (v : V) (m : List (K × V)) (k' : K) :
    mapAt (mapAssign lt k v m) k' = if k' = k then v else mapAt m k' := by
  unfold mapAt
  rw [lookup_mapAssign lt hirr htot]
  by_cases hk : k' = k <;> simp [hk]

/-! ## Maps from numbers: the order of the entries -/

/-- The entries are in strictly increasing order of their keys. -/
def KeySorted {V : Type} (m : List (Nat × V)) : Prop := m.Pairwise (fun a b => a.1 < b.1)

theorem mem_mapAssign {V : Type} (k : Nat) (v : V) {m : List (Nat × V)} (hm : KeySorted m)
    (e : Nat × V) : e ∈ mapAssign idLt k v m ↔ e = (k, v) ∨ (e ∈ m ∧ e.1 ≠ k) := by
  induction m with
  | nil => simp [mapAssign]
  | cons x xs ih =>
    have hx := List.pairwise_cons.1 hm
    unfold mapAssign
    by_cases h1 : k < x.1
    · simp only [idLt, h1, decide_True, if_true, List.mem_cons]
      constructor
      · rintro (h | h | h)
        · exact Or.inl h
        · exact Or.inr ⟨Or.inl h, by rw [h]; exact Nat.ne_of_gt h1⟩
        · exact Or.inr ⟨Or.inr h, Nat.ne_of_gt (lt_trans h1 (hx.1 e h))⟩
      · rintro (h | ⟨h | h, -⟩)
        · exact Or.inl h
        · exact Or.inr (Or.inl h)
        · exact Or.inr (Or.inr h)
    · by_cases h2 : x.1 < k
      · simp only [idLt, h1, h2, decide_True, decide_False, if_true, List.mem_cons,
          Bool.false_eq_true, if_false, ih hx.2]
        constructor
        · rintro (h | h | ⟨h, h'⟩)
          · exact Or.inr ⟨Or.inl h, by rw [h]; exact Nat.ne_of_lt h2⟩
          · exact Or.inl h
          · exact Or.inr ⟨Or.inr h, h'⟩
        · rintro (h | ⟨h | h, h'⟩)
          · exact Or.inr (Or.inl h)
          · exact Or.inl h
          · exact Or.inr (Or.inr ⟨h, h'⟩)
      · have he : k = x.1 := le_antisymm (not_lt.1 h2) (not_lt.1 h1)
        simp only [idLt, h1, h2, decide_False, Bool.false_eq_true, if_false, List.mem_cons]
        constructor
        · rintro (h | h)
          · exact Or.inl h
          · exact Or.inr ⟨Or.inr h, by rw [he]; exact Nat.ne_of_gt (hx.1 e h)⟩
        · rintro (h | ⟨h | h, h'⟩)
          · exact Or.inl h
          · exact absurd (by rw [h, he]) h'
          · exact Or.inr h

theorem keySorted_mapAssign {V : Type} (k : Nat) (v : V) {m : List (Nat × V)}
    (hm : KeySorted m) : KeySorted (mapAssign idLt k v m) := by
  induction m with
  | nil => simp [mapAssign, KeySorted]
  | cons x xs ih =>
    have hx := List.pairwise_cons.1 hm
    unfold mapAssign
    by_cases h1 : k < x.1
    · simp only [idLt, h1, decide_True, if_true]
      refine List.Pairwise.cons ?_ hm
      intro a ha
      rcases List.mem_cons.1 ha with rfl | ha
      · exact h1
      · exact lt_trans h1 (hx.1 a ha)
    · by_cases h2 : x.1 < k
      · simp only [idLt, h1, h2, decide_True, decide_False, if_true, Bool.false_eq_true,
          if_false]
        refine List.Pairwise.cons ?_ (ih hx.2)
        intro a ha
        rcases (mem_mapAssign k v hx.2 a).1 ha with rfl | ⟨ha, -⟩
        · exact h2
        · exact hx.1 a ha
      · have he : k = x.1 := le_antisymm (not_lt.1 h2) (not_lt.1 h1)
        simp only [idLt, h1, h2, decide_False, Bool.false_eq_true, if_false]
        refine List.Pairwise.cons ?_ hx.2
        intro a ha
        rw [he]
        exact hx.1 a ha

theorem keySorted_mapIndex {V : Type} [Inhabited V] {m : List (Nat × V)} (hm : KeySorted m)
    (k : Nat) : KeySorted (mapIndex idLt m k).2 := by
  unfold mapIndex
  cases m.lookup k with
  | none => exact keySorted_mapAssign k default hm
  | some v => exact hm

/-- In a map in key order an entry is what the lookup of its key finds. -/
theorem mem_iff_lookup {V : Type} {m : List (Nat × V)} (hm : KeySorted m) (k : Nat) (v : V) :
    (k, v) ∈ m ↔ m.lookup k = some v := by
  induction m with
  | nil => simp
  | cons x xs ih =>
    have hx := List.pairwise_cons.1 hm
    rw [lookup_cons_if, List.mem_cons]
    by_cases h : k = x.1
    · rw [if_pos h]
      constructor
      · rintro (h' | h')
        · rw [← h']
        · exact absurd (hx.1 _ h') (by rw [h]; exact lt_irrefl _)
      · intro h'
        left
        rw [h, ← Option.some.inj h']
    · rw [if_neg h, ← ih hx.2]
      constructor
      · rintro (h' | h')
        · exact absurd (by rw [← h']) h
        · exact h'
      · exact Or.inr

theorem lookup_cons_self {V : Type} (y : Nat × V) (ys : List (Nat × V)) :
    (y :: ys).lookup y.1 = some y.2 := by
  rw [lookup_cons_if, if_pos rfl]

theorem lookup_eq_none_of_lt {V : Type} {xs : List (Nat × V)} {k : Nat}
    (h : ∀ e ∈ xs, k < e.1) : xs.lookup k = none := by
  induction xs with
  | nil => rfl
  | cons x xs ih =>
    rw [lookup_cons_if, if_neg (Nat.ne_of_lt (h x (List.mem_cons_self _ _)))]
    exact ih (fun e he => h e (List.mem_cons_of_mem _ he))

/-- Two maps in key order with the same lookups are the same list. -/
theorem keySorted_ext {V : Type} {a b : List (Nat × V)} (ha : KeySorted a) (hb : KeySorted b)
    (h : ∀ k, a.lookup k = b.lookup k) : a = b := by
  induction a generalizing b with
  | nil =>
    cases b with
    | nil => rfl
    | cons y ys =>
      have := h y.1
      rw [lookup_cons_self] at this
      cases this
  | cons x xs ih =>
    cases b with
    | nil =>
      have := h x.1
      rw [lookup_cons_self] at this
      cases this
    | cons y ys =>
      have hx := List.pairwise_cons.1 ha
      have hy := List.pairwise_cons.1 hb
      have hxy : x = y := by
        have m1 : (x.1, x.2) ∈ y :: ys :=
          (mem_iff_lookup hb _ _).2 (by rw [← h, lookup_cons_self])
        have m2 : (y.1, y.2) ∈ x :: xs :=
          (mem_iff_lookup ha _ _).2 (by rw [h, lookup_cons_self])
        rcases List.mem_cons.1 m1 with e | e
        · exact e
        · rcases List.mem_cons.1 m2 with e' | e'
          · exact e'.symm
          · exact absurd (lt_trans (hx.1 _ e') (hy.1 _ e)) (lt_irrefl _)
      subst hxy
      congr 1
      apply ih hx.2 hy.2
      intro k
      by_cases hk : k = x.1
      · rw [lookup_eq_none_of_lt (fun e he => by rw [hk]; exact hx.1 e he),
          lookup_eq_none_of_lt (fun e he => by rw [hk]; exact hy.1 e he)]
      · have := h k
        rw [lookup_cons_if, lookup_cons_if, if_neg hk, if_neg hk] at this
        exact this

/-! ## First occurrences -/

/-- The distinct elements of a list in the order in which a scan from left to right meets
them for the first time. -/
def firstOccurrences (l : List SymbolPtr) : List SymbolPtr :=
  l.foldl (fun seen x => if x ∈ seen then seen else seen ++ [x]) []

theorem firstOccurrences_concat (l : List SymbolPtr) (x : SymbolPtr) :
    firstOccurrences (l ++ [x]) =
      if x ∈ firstOccurrences l then firstOccurrences l else firstOccurrences l ++ [x] := by
  unfold firstOccurrences
  rw [List.foldl_append]
  rfl

theorem mem_firstOccurrences (l : List SymbolPtr) :
    ∀ x, x ∈ firstOccurrences l ↔ x ∈ l := by
  induction l using List.reverseRecOn with
  | nil => simp [firstOccurrences]
  | append_singleton l y ih =>
    intro x
    rw [firstOccurrences_concat]
    split_ifs with h
    · rw [ih, List.mem_append, List.mem_singleton]
      constructor
      · exact Or.inl
      · rintro (h' | h')
        · exact h'
        · rw [h']
          exact (ih y).1 h
    · rw [List.mem_append, List.mem_append, ih]

theorem nodup_firstOccurrences (l : List SymbolPtr) : (firstOccurrences l).Nodup := by
  induction l using List.reverseRecOn with
  | nil => simp [firstOccurrences]
  | append_singleton l y ih =>
    rw [firstOccurrences_concat]
    split_ifs with h
    · exact ih
    · exact List.Nodup.append ih (List.nodup_singleton y) (by simpa using h)

/-- The elements of `firstOccurrences l` stand in the order of their first positions in
`l`. -/
theorem firstOccurrences_sorted (l : List SymbolPtr) :
    (firstOccurrences l).Pairwise (fun a b => l.indexOf a < l.indexOf b) := by
  induction l using List.reverseRecOn with
  | nil => simp [firstOccurrences]
  | append_singleton l y ih =>
    have hold : (firstOccurrences l).Pairwise
        (fun a b => (l ++ [y]).indexOf a < (l ++ [y]).indexOf b) := by
      refine ih.imp_of_mem ?_
      intro a b ha hb hab
      rw [List.indexOf_append_of_mem ((mem_firstOccurrences l a).1 ha),
        List.indexOf_append_of_mem ((mem_firstOccurrences l b).1 hb)]
      exact hab
    rw [firstOccurrences_concat]
    split_ifs with h
    · exact hold
    · rw [List.pairwise_append]
      refine ⟨hold, List.pairwise_singleton _ _, ?_⟩
      intro a ha b hb
      rw [List.mem_singleton] at hb
      subst hb
      have hb' : b ∉ l := fun hc => h ((mem_firstOccurrences l b).2 hc)
      rw [List.indexOf_append_of_mem ((mem_firstOccurrences l a).1 ha),
        List.indexOf_append_of_not_mem hb']
      exact lt_of_lt_of_le (List.indexOf_lt_length.2 ((mem_firstOccurrences l a).1 ha))
        (Nat.le_add_right _ _)

/-- A renaming that keeps the symbols of a list apart commutes with `firstOccurrences`. -/
theorem firstOccurrences_map (f : SymbolPtr → SymbolPtr) (l : List SymbolPtr)
    (hf : ∀ x ∈ l, ∀ y ∈ l, f x = f y → x = y) :
    firstOccurrences (l.map f) = (firstOccurrences l).map f := by
  induction l using List.reverseRecOn with
  | nil => rfl
  | append_singleton l y ih =>
    have ih' := ih (fun a ha b hb => hf a (by simp [ha]) b (by simp [hb]))
    rw [List.map_append, List.map_singleton, firstOccurrences_concat, firstOccurrences_concat,
      ih']
    have hiff : f y ∈ (firstOccurrences l).map f ↔ y ∈ firstOccurrences l := by
      constructor
      · intro h
        obtain ⟨a, ha, hfa⟩ := List.mem_map.1 h
        have hal : a ∈ l := (mem_firstOccurrences l a).1 ha
        rw [← hf a (by simp [hal]) y (by simp) hfa]
        exact ha
      · exact List.mem_map_of_mem f
    by_cases h : y ∈ firstOccurrences l
    · rw [if_pos h, if_pos (hiff.2 h)]
    · rw [if_neg h, if_neg (fun hc => h (hiff.1 hc)), List.map_append, List.map_singleton]

/-! ## Numbering a list of symbols -/

/-- The map `m` gives the symbols of the list `C`, and no other symbol, the ids 1, 2, ... in
the order of the list. -/
def Numbers (m : SymbolMappingId) (C : List SymbolPtr) : Prop :=
  KeySorted m ∧ ∀ x n, m.lookup x = some n ↔ ∃ i, n = i + 1 ∧ C[i]? = some x

theorem getElem?_concat_eq_some {C : List SymbolPtr} {A x : SymbolPtr} {i : Nat} :
    (C ++ [A])[i]? = some x ↔ C[i]? = some x ∨ (i = C.length ∧ x = A) := by
  rcases Nat.lt_trichotomy i C.length with h | h | h
  · rw [List.getElem?_append_left h]
    constructor
    · exact Or.inl
    · rintro (h' | ⟨h', -⟩)
      · exact h'
      · exact absurd h' (Nat.ne_of_lt h)
  · subst h
    rw [List.getElem?_concat_length, List.getElem?_eq_none (le_refl _)]
    simp [eq_comm]
  · rw [List.getElem?_eq_none (by simp; omega), List.getElem?_eq_none (le_of_lt h)]
    simp
    intro hc
    omega

theorem Numbers.lookup_none {m : SymbolMappingId} {C : List SymbolPtr} (h : Numbers m C)
    {x : SymbolPtr} (hx : x ∉ C) : m.lookup x = none := by
  cases hl : m.lookup x with
  | none => rfl
  | some n =>
    obtain ⟨i, -, hi⟩ := (h.2 x n).1 hl
    exact absurd (List.mem_iff_getElem?.2 ⟨i, hi⟩) hx

theorem Numbers.lookup_mem {m : SymbolMappingId} {C : List SymbolPtr} (h : Numbers m C)
    {x : SymbolPtr} (hx : x ∈ C) : ∃ i, m.lookup x = some (i + 1) ∧ C[i]? = some x := by
  obtain ⟨i, hi⟩ := List.mem_iff_getElem?.1 hx
  exact ⟨i, (h.2 x (i + 1)).2 ⟨i, rfl, hi⟩, hi⟩

theorem Numbers.nodup {m : SymbolMappingId} {C : List SymbolPtr} (h : Numbers m C) :
    C.Nodup := by
  rw [List.nodup_iff_getElem?_ne_getElem?]
  intro i j hij hj hc
  have hi : i < C.length := lt_trans hij hj
  have e1 : C[i]? = some C[i] := List.getElem?_eq_getElem hi
  have e2 : C[j]? = some C[i] := by rw [← hc, e1]
  have l1 := (h.2 C[i] (i + 1)).2 ⟨i, rfl, e1⟩
  have l2 := (h.2 C[i] (j + 1)).2 ⟨j, rfl, e2⟩
  rw [l1] at l2
  have : i + 1 = j + 1 := Option.some.inj l2
  omega

/-- The statements `auto &thisId = m[x]; if (thisId == 0) { thisId = id++; }` of the two
builders of id maps, on the map and `id`. -/
def numberVisit (s : SymbolMappingId × Nat) (x : SymbolPtr) : SymbolMappingId × Nat :=
  if (mapIndex idLt s.1 x).1 = 0 then (mapAssign idLt x s.2 (mapIndex idLt s.1 x).2, s.2 + 1)
  else ((mapIndex idLt s.1 x).2, s.2)

theorem numberVisit_of_mem {s : SymbolMappingId × Nat} {C : List SymbolPtr}
    (h : Numbers s.1 C) {x : SymbolPtr} (hx : x ∈ C) : numberVisit s x = s := by
  obtain ⟨i, hl, -⟩ := h.lookup_mem hx
  have e : mapIndex idLt s.1 x = (i + 1, s.1) := by
    unfold mapIndex
    rw [hl]
  unfold numberVisit
  rw [e, if_neg (Nat.succ_ne_zero i)]

theorem numberVisit_of_not_mem {s : SymbolMappingId × Nat} {C : List SymbolPtr}
    (h : Numbers s.1 C) {x : SymbolPtr} (hx : x ∉ C) :
    numberVisit s x = (mapAssign idLt x s.2 (mapAssign idLt x 0 s.1), s.2 + 1) := by
  have e : mapIndex idLt s.1 x = (0, mapAssign idLt x 0 s.1) := by
    unfold mapIndex
    rw [h.lookup_none hx]
    rfl
  unfold numberVisit
  rw [e, if_pos rfl]

theorem numberVisit_numbers {s : SymbolMappingId × Nat} {C : List SymbolPtr}
    (h : Numbers s.1 C) (hid : s.2 = C.length + 1) (x : SymbolPtr) :
    Numbers (numberVisit s x).1 (if x ∈ C then C else C ++ [x]) ∧
      (numberVisit s x).2 = (if x ∈ C then C else C ++ [x]).length + 1 := by
  by_cases hx : x ∈ C
  · rw [numberVisit_of_mem h hx, if_pos hx]
    exact ⟨h, hid⟩
  · rw [numberVisit_of_not_mem h hx, if_neg hx]
    refine ⟨⟨keySorted_mapAssign _ _ (keySorted_mapAssign _ _ h.1), ?_⟩, by simp [hid]⟩
    intro y n
    rw [lookup_mapAssign idLt idLt_irrefl idLt_total,
      lookup_mapAssign idLt idLt_irrefl idLt_total]
    by_cases hy : y = x
    · rw [if_pos hy, hid]
      constructor
      · intro hn
        exact ⟨C.length, (Option.some.inj hn).symm, by
          rw [hy]; exact List.getElem?_concat_length C x⟩
      · rintro ⟨i, hn, hi⟩
        rcases getElem?_concat_eq_some.1 hi with hi' | ⟨hi', -⟩
        · exact absurd (List.mem_iff_getElem?.2 ⟨i, hi'⟩) (by rw [hy]; exact hx)
        · rw [hn, hi']
    · rw [if_neg hy, if_neg hy, h.2 y n]
      constructor
      · rintro ⟨i, hn, hi⟩
        exact ⟨i, hn, getElem?_concat_eq_some.2 (Or.inl hi)⟩
      · rintro ⟨i, hn, hi⟩
        rcases getElem?_concat_eq_some.1 hi with hi' | ⟨-, hi'⟩
        · exact ⟨i, hn, hi'⟩
        · exact absurd hi' hy

theorem numbers_nil : Numbers [] [] := by
  refine ⟨List.Pairwise.nil, ?_⟩
  intro x n
  simp

/-- A scan that numbers the symbols of a list numbers its first occurrences. -/
theorem numberScan (l : List SymbolPtr) :
    Numbers (l.foldl numberVisit ([], 1)).1 (firstOccurrences l) ∧
      (l.foldl numberVisit ([], 1)).2 = (firstOccurrences l).length + 1 := by
  induction l using List.reverseRecOn with
  | nil => exact ⟨numbers_nil, rfl⟩
  | append_singleton l x ih =>
    rw [List.foldl_append, firstOccurrences_concat]
    exact numberVisit_numbers ih.1 ih.2 x

theorem buildNonterminalMappingId_eq (pl : ProductionList) :
    buildNonterminalMappingId pl =
      ((pl.map (fun p => p.lhs.symbol)).foldl numberVisit ([], 1)).1 := by
  unfold buildNonterminalMappingId
  rw [List.foldl_map]
  rfl

/-- The map of `buildNonterminalMappingId` numbers the left-hand sides in the order of their
first occurrence. -/
theorem buildNonterminalMappingId_numbers (pl : ProductionList) :
    Numbers (buildNonterminalMappingId pl)
      (firstOccurrences (pl.map (fun p => p.lhs.symbol))) := by
  rw [buildNonterminalMappingId_eq]
  exact (numberScan _).1

/-! ## The columns -/

/-- The symbols that `buildTerminlMappingId` does not skip: those that are neither
nonterminals nor the epsilon terminal. -/
def isColumn (st : SymbolTable) (t : SymbolPtr) : Bool :=
  !((st.mem t).isNonterminal || (st.mem t).isTerminalEpsilon)

/-- The symbols of the right-hand sides, in the order in which `buildTerminlMappingId`
visits them. -/
def rhsOccurrences (pl : ProductionList) : List SymbolPtr :=
  (pl.map (fun p => p.rhs.symbolList)).flatten

/-- The symbols of the right-hand sides that get a column, in the order of their first
occurrence. -/
def columnTerminals (st : SymbolTable) (pl : ProductionList) : List SymbolPtr :=
  firstOccurrences ((rhsOccurrences pl).filter (isColumn st))

/-- The EOF terminals of the right-hand sides, occurrence by occurrence. -/
def eofOccurrences (st : SymbolTable) (pl : ProductionList) : List SymbolPtr :=
  (rhsOccurrences pl).filter (fun t => (st.mem t).isTerminalEof)

theorem isColumn_of_eof {st : SymbolTable} {t : SymbolPtr}
    (h : (st.mem t).isTerminalEof = true) : isColumn st t = true := by
  have ht : (st.mem t).type = SymbolType.terminalIsEof := by
    simpa [Symbol.isTerminalEof] using h
  simp only [isColumn, Symbol.isNonterminal, Symbol.isTerminal, Symbol.isTerminalEpsilon, ht]
  decide

theorem buildTerminlMappingIdVisit_skip {st : SymbolTable} (s : TerminalScan) {t : SymbolPtr}
    (h : isColumn st t = false) : buildTerminlMappingIdVisit st s t = s := by
  unfold buildTerminlMappingIdVisit
  have : ((st.mem t).isNonterminal || (st.mem t).isTerminalEpsilon) = true := by
    rw [isColumn, Bool.not_eq_false'] at h
    exact h
  rw [if_pos this]

theorem buildTerminlMappingIdVisit_column {st : SymbolTable} (s : TerminalScan)
    {t : SymbolPtr} (h : isColumn st t = true) :
    (buildTerminlMappingIdVisit st s t).terminalMappingId
        = (numberVisit (s.terminalMappingId, s.id) t).1 ∧
    (buildTerminlMappingIdVisit st s t).id = (numberVisit (s.terminalMappingId, s.id) t).2 ∧
    (buildTerminlMappingIdVisit st s t).theLastSymbol
        = (if mapAt s.terminalMappingId t = 0 then some t else s.theLastSymbol) ∧
    (buildTerminlMappingIdVisit st s t).theEofSymbol
        = (if (st.mem t).isTerminalEof then some t else s.theEofSymbol) := by
  have hc : ¬ ((st.mem t).isNonterminal || (st.mem t).isTerminalEpsilon) = true := by
    rw [isColumn, Bool.not_eq_true'] at h
    rw [h]
    simp
  unfold buildTerminlMappingIdVisit numberVisit
  rw [if_neg hc]
  simp only [mapIndex_fst]
  by_cases h0 : mapAt s.terminalMappingId t = 0 <;>
    by_cases he : (st.mem t).isTerminalEof = true <;> simp [h0, he]

/-- What the loops of `buildTerminlMappingId` have computed after the occurrences `l`. -/
structure TerminalScanned (st : SymbolTable) (s : TerminalScan) (l : List SymbolPtr) :
    Prop where
  numbers : Numbers s.terminalMappingId (firstOccurrences (l.filter (isColumn st)))
  next : s.id = (firstOccurrences (l.filter (isColumn st))).length + 1
  last : s.theLastSymbol = (firstOccurrences (l.filter (isColumn st))).getLast?
  eof : s.theEofSymbol = (l.filter (fun t => (st.mem t).isTerminalEof)).getLast?

theorem Numbers.mapAt_eq_zero {m : SymbolMappingId} {C : List SymbolPtr} (h : Numbers m C)
    (x : SymbolPtr) : mapAt m x = 0 ↔ x ∉ C := by
  constructor
  · intro h0 hx
    obtain ⟨i, hl, -⟩ := h.lookup_mem hx
    rw [mapAt, hl] at h0
    simp at h0
  · intro hx
    rw [mapAt, h.lookup_none hx]
    rfl

theorem filter_concat {α : Type} (p : α → Bool) (l : List α) (t : α) :
    (l ++ [t]).filter p = if p t = true then l.filter p ++ [t] else l.filter p := by
  rw [List.filter_append]
  by_cases h : p t = true
  · rw [if_pos h, List.filter_cons_of_pos h, List.filter_nil]
  · rw [if_neg h, List.filter_cons_of_neg h, List.filter_nil, List.append_nil]

theorem TerminalScanned.visit {st : SymbolTable} {s : TerminalScan} {l : List SymbolPtr}
    (h : TerminalScanned st s l) (t : SymbolPtr) :
    TerminalScanned st (buildTerminlMappingIdVisit st s t) (l ++ [t]) := by
  by_cases hc : isColumn st t = true
  · obtain ⟨e1, e2, e3, e4⟩ := buildTerminlMappingIdVisit_column s hc
    have hf : (l ++ [t]).filter (isColumn st) = l.filter (isColumn st) ++ [t] := by
      rw [filter_concat, if_pos hc]
    have hn := numberVisit_numbers (s := (s.terminalMappingId, s.id)) h.numbers h.next t
    refine ⟨?_, ?_, ?_, ?_⟩
    · rw [e1, hf, firstOccurrences_concat]
      exact hn.1
    · rw [e2, hf, firstOccurrences_concat]
      exact hn.2
    · rw [e3, hf, firstOccurrences_concat]
      by_cases hm : t ∈ firstOccurrences (l.filter (isColumn st))
      · rw [if_pos hm, if_neg (fun h0 => (h.numbers.mapAt_eq_zero t).1 h0 hm)]
        exact h.last
      · rw [if_neg hm, if_pos ((h.numbers.mapAt_eq_zero t).2 hm), List.getLast?_concat]
    · rw [e4]
      by_cases he : (st.mem t).isTerminalEof = true
      · have hg : (l ++ [t]).filter (fun t => (st.mem t).isTerminalEof)
            = l.filter (fun t => (st.mem t).isTerminalEof) ++ [t] := by
          rw [filter_concat]
          exact if_pos he
        rw [if_pos he, hg, List.getLast?_concat]
      · have hg : (l ++ [t]).filter (fun t => (st.mem t).isTerminalEof)
            = l.filter (fun t => (st.mem t).isTerminalEof) := by
          rw [filter_concat]
          exact if_neg he
        rw [if_neg he, hg]
        exact h.eof
  · have hc' : isColumn st t = false := by simpa using hc
    rw [buildTerminlMappingIdVisit_skip s hc']
    have hf : (l ++ [t]).filter (isColumn st) = l.filter (isColumn st) := by
      rw [filter_concat, if_neg hc]
    have he : ¬ (st.mem t).isTerminalEof = true := fun he => hc (isColumn_of_eof he)
    have hg : (l ++ [t]).filter (fun t => (st.mem t).isTerminalEof)
        = l.filter (fun t => (st.mem t).isTerminalEof) := by
      rw [filter_concat]
      exact if_neg he
    exact ⟨by rw [hf]; exact h.numbers, by rw [hf]; exact h.next, by rw [hf]; exact h.last,
      by rw [hg]; exact h.eof⟩

theorem terminalScanned_foldl (st : SymbolTable) (l : List SymbolPtr) :
    TerminalScanned st
      (l.foldl (buildTerminlMappingIdVisit st)
        { terminalMappingId := [], id := 1, theLastSymbol := none, theEofSymbol := none }) l := by
  induction l using List.reverseRecOn with
  | nil => exact ⟨numbers_nil, rfl, rfl, rfl⟩
  | append_singleton l t ih =>
    rw [List.foldl_append]
    exact ih.visit t

theorem buildTerminlMappingIdScan_eq (st : SymbolTable) (pl : ProductionList) :
    buildTerminlMappingIdScan st pl =
      (rhsOccurrences pl).foldl (buildTerminlMappingIdVisit st)
        { terminalMappingId := [], id := 1, theLastSymbol := none, theEofSymbol := none } := by
  unfold buildTerminlMappingIdScan rhsOccurrences
  rw [List.foldl_flatten, List.foldl_map]

/-- What the loops of `buildTerminlMappingId` have computed when they end. -/
theorem buildTerminlMappingIdScan_spec (st : SymbolTable) (pl : ProductionList) :
    Numbers (buildTerminlMappingIdScan st pl).terminalMappingId (columnTerminals st pl) ∧
    (buildTerminlMappingIdScan st pl).theLastSymbol = (columnTerminals st pl).getLast? ∧
    (buildTerminlMappingIdScan st pl).theEofSymbol = (eofOccurrences st pl).getLast? := by
  rw [buildTerminlMappingIdScan_eq]
  have h := terminalScanned_foldl st (rhsOccurrences pl)
  exact ⟨h.numbers, h.last, h.eof⟩

/-! ### The exchange of two ids -/

/-- The symbol whose place `x` takes when `a` and `b` change places. -/
def exchange (a b x : SymbolPtr) : SymbolPtr := if x = a then b else if x = b then a else x

theorem exchange_exchange (a b x : SymbolPtr) : exchange a b (exchange a b x) = x := by
  unfold exchange
  by_cases h1 : x = a
  · by_cases h2 : b = a
    · simp [h1, h2]
    · simp [h1, h2]
  · by_cases h2 : x = b
    · simp [h1, h2]
    · simp [h1, h2]

theorem lookup_mapSwap {m : SymbolMappingId} {a b : SymbolPtr} (x : SymbolPtr) :
    (mapSwap m a b).lookup x =
      if x = b then some (mapAt m a) else if x = a then some (mapAt m b) else m.lookup x := by
  unfold mapSwap
  simp only [mapIndex_fst]
  rw [lookup_mapAssign idLt idLt_irrefl idLt_total,
    lookup_mapAssign idLt idLt_irrefl idLt_total,
    lookup_mapIndex idLt idLt_irrefl idLt_total, lookup_mapIndex idLt idLt_irrefl idLt_total,
    mapAt_mapIndex idLt idLt_irrefl idLt_total]
  by_cases h1 : x = b
  · simp [h1]
  · by_cases h2 : x = a
    · simp [h1, h2]
    · simp [h1, h2]

theorem keySorted_mapSwap {m : SymbolMappingId} (hm : KeySorted m) (a b : SymbolPtr) :
    KeySorted (mapSwap m a b) := by
  unfold mapSwap
  exact keySorted_mapAssign _ _ (keySorted_mapAssign _ _
    (keySorted_mapIndex (keySorted_mapIndex hm a) b))

theorem Numbers.lookup_eq_mapAt {m : SymbolMappingId} {C : List SymbolPtr} (h : Numbers m C)
    {x : SymbolPtr} (hx : x ∈ C) : m.lookup x = some (mapAt m x) := by
  obtain ⟨i, hl, -⟩ := h.lookup_mem hx
  rw [mapAt, hl]
  rfl

/-- After `std::swap(m[a], m[b])` the map numbers the list in which `a` and `b` have changed
places. -/
theorem Numbers.mapSwap {m : SymbolMappingId} {C : List SymbolPtr} (h : Numbers m C)
    {a b : SymbolPtr} (ha : a ∈ C) (hb : b ∈ C) :
    Numbers (mapSwap m a b) (C.map (exchange a b)) := by
  refine ⟨keySorted_mapSwap h.1 a b, ?_⟩
  intro x n
  have key : (csa.mapSwap m a b).lookup x = m.lookup (exchange a b x) := by
    rw [lookup_mapSwap]
    unfold exchange
    by_cases h1 : x = b
    · by_cases h2 : x = a
      · rw [if_pos h1, if_pos h2, ← h1, h2, h.lookup_eq_mapAt ha]
      · rw [if_pos h1, if_neg h2, if_pos h1, h.lookup_eq_mapAt ha]
    · by_cases h2 : x = a
      · rw [if_neg h1, if_pos h2, if_pos h2, h.lookup_eq_mapAt hb]
      · rw [if_neg h1, if_neg h2, if_neg h2, if_neg h1]
  rw [key, h.2]
  refine exists_congr fun i => and_congr_right fun _ => ?_
  rw [List.getElem?_map]
  constructor
  · intro hi
    rw [hi]
    simp [exchange_exchange]
  · intro hi
    rcases hc : C[i]? with _ | y
    · rw [hc] at hi
      cases hi
    · rw [hc] at hi
      have hy : exchange a b y = x := by simpa using hi
      rw [← hy, exchange_exchange]

/-- The symbols with a column in the order of their ids: the order of first occurrence, in
which the last symbol and the EOF terminal that the scan met last have changed places. -/
def columnOrder (st : SymbolTable) (pl : ProductionList) : List SymbolPtr :=
  match (columnTerminals st pl).getLast?, (eofOccurrences st pl).getLast? with
  | some theLastSymbol, some theEofSymbol =>
    if theLastSymbol ≠ theEofSymbol then
      (columnTerminals st pl).map (exchange theLastSymbol theEofSymbol)
    else columnTerminals st pl
  | _, _ => columnTerminals st pl

theorem mem_columnTerminals {st : SymbolTable} {pl : ProductionList} {t : SymbolPtr} :
    t ∈ columnTerminals st pl ↔ t ∈ rhsOccurrences pl ∧ isColumn st t = true := by
  unfold columnTerminals
  rw [mem_firstOccurrences, List.mem_filter]

theorem eof_mem_columnTerminals {st : SymbolTable} {pl : ProductionList} {e : SymbolPtr}
    (h : (eofOccurrences st pl).getLast? = some e) : e ∈ columnTerminals st pl := by
  have hm : e ∈ eofOccurrences st pl := List.mem_of_getLast?_eq_some h
  unfold eofOccurrences at hm
  rw [List.mem_filter] at hm
  exact mem_columnTerminals.2 ⟨hm.1, isColumn_of_eof hm.2⟩

/-- The map of `buildTerminlMappingId` numbers the symbols of `columnOrder`. -/
theorem buildTerminlMappingId_numbers (st : SymbolTable) (pl : ProductionList) :
    Numbers (buildTerminlMappingId st pl) (columnOrder st pl) := by
  obtain ⟨h1, h2, h3⟩ := buildTerminlMappingIdScan_spec st pl
  unfold buildTerminlMappingId columnOrder
  simp only [h2, h3]
  cases hl : (columnTerminals st pl).getLast? with
  | none => exact h1
  | some a =>
    cases he : (eofOccurrences st pl).getLast? with
    | none => exact h1
    | some b =>
      simp only
      by_cases hab : a = b
      · simp only [hab, ne_eq, not_true_eq_false, if_false]
        exact h1
      · simp only [ne_eq, hab, not_false_eq_true, if_true]
        exact h1.mapSwap (List.mem_of_getLast?_eq_some hl) (eof_mem_columnTerminals he)

/-! ## From ids to symbols -/

theorem toIdMappingSymbol_concat (m : SymbolMappingId) (e : SymbolPtr × Nat) :
    toIdMappingSymbol (m ++ [e]) = mapAssign idLt e.2 e.1 (toIdMappingSymbol m) := by
  unfold toIdMappingSymbol
  rw [List.foldl_append]
  rfl

theorem keySorted_toIdMappingSymbol (m : SymbolMappingId) :
    KeySorted (toIdMappingSymbol m) := by
  induction m using List.reverseRecOn with
  | nil => exact List.Pairwise.nil
  | append_singleton m e ih =>
    rw [toIdMappingSymbol_concat]
    exact keySorted_mapAssign _ _ ih

/-- Under an id `toIdMappingSymbol` stores the symbol of the last entry that has the id. -/
theorem lookup_toIdMappingSymbol (m : SymbolMappingId) (n : Nat) :
    (toIdMappingSymbol m).lookup n =
      ((m.filter (fun e => decide (e.2 = n))).getLast?).map Prod.fst := by
  induction m using List.reverseRecOn with
  | nil => rfl
  | append_singleton m e ih =>
    rw [toIdMappingSymbol_concat, lookup_mapAssign idLt idLt_irrefl idLt_total, filter_concat]
    by_cases h : n = e.2
    · have hd : decide (e.2 = n) = true := by simpa using h.symm
      rw [if_pos h, if_pos hd, List.getLast?_concat]
      rfl
    · have hd : ¬ decide (e.2 = n) = true := by simpa using Ne.symm h
      rw [if_neg h, if_neg hd, ih]

/-- The map gives the symbols of the list `C` the ids 1, 2, ... in the order of the list,
and every other symbol that it has the id 0. -/
def NumbersPositive (m : SymbolMappingId) (C : List SymbolPtr) : Prop :=
  KeySorted m ∧ ∀ x i, m.lookup x = some (i + 1) ↔ C[i]? = some x

theorem Numbers.positive {m : SymbolMappingId} {C : List SymbolPtr} (h : Numbers m C) :
    NumbersPositive m C := by
  refine ⟨h.1, fun x i => ?_⟩
  rw [h.2]
  constructor
  · rintro ⟨j, hj, hx⟩
    have : i = j := by omega
    rw [this]
    exact hx
  · intro hx
    exact ⟨i, rfl, hx⟩

/-- The column with the id 0, if the map has a symbol with that id: the last of them. -/
def zeroColumn (m : SymbolMappingId) : IdMappingSymbol :=
  ((m.filter (fun e => decide (e.2 = 0))).getLast?).toList.map (fun e => (0, e.1))

theorem lookup_zeroColumn (m : SymbolMappingId) (n : Nat) :
    (zeroColumn m).lookup n =
      if n = 0 then ((m.filter (fun e => decide (e.2 = 0))).getLast?).map Prod.fst
      else none := by
  unfold zeroColumn
  cases (m.filter (fun e => decide (e.2 = 0))).getLast? with
  | none => simp
  | some e =>
    simp only [Option.toList_some, List.map_cons, List.map_nil, Option.map_some']
    rw [lookup_cons_if]
    rfl

theorem keySorted_enumFrom (C : List SymbolPtr) (n : Nat) : KeySorted (C.enumFrom n) := by
  induction C generalizing n with
  | nil => exact List.Pairwise.nil
  | cons x xs ih =>
    rw [List.enumFrom_cons]
    refine List.Pairwise.cons ?_ (ih (n + 1))
    intro e he
    have := (List.mk_mem_enumFrom_iff_le_and_getElem?_sub (x := e.2) (i := e.1)).1 he
    exact this.1

theorem lookup_enumFrom (C : List SymbolPtr) (n : Nat) (x : SymbolPtr) :
    (C.enumFrom 1).lookup n = some x ↔ ∃ i, n = i + 1 ∧ C[i]? = some x := by
  rw [← mem_iff_lookup (keySorted_enumFrom C 1), List.mk_mem_enumFrom_iff_le_and_getElem?_sub]
  constructor
  · rintro ⟨h1, h2⟩
    exact ⟨n - 1, by omega, h2⟩
  · rintro ⟨i, hn, hi⟩
    refine ⟨by omega, ?_⟩
    have : n - 1 = i := by omega
    rw [this]
    exact hi

theorem lookup_toIdMappingSymbol_succ {m : SymbolMappingId} {C : List SymbolPtr}
    (h : NumbersPositive m C) (i : Nat) (x : SymbolPtr) :
    (toIdMappingSymbol m).lookup (i + 1) = some x ↔ C[i]? = some x := by
  rw [lookup_toIdMappingSymbol, ← h.2]
  constructor
  · intro hl
    obtain ⟨e, he, hx⟩ := Option.map_eq_some'.1 hl
    have hm := List.mem_of_getLast?_eq_some he
    rw [List.mem_filter] at hm
    have h2 : e.2 = i + 1 := by simpa using hm.2
    rw [← hx, ← mem_iff_lookup h.1, ← h2]
    exact hm.1
  · intro hl
    have hmem : (x, i + 1) ∈ m.filter (fun e => decide (e.2 = i + 1)) := by
      rw [List.mem_filter]
      exact ⟨(mem_iff_lookup h.1 _ _).2 hl, by simp⟩
    cases hg : (m.filter (fun e => decide (e.2 = i + 1))).getLast? with
    | none =>
      rw [List.getLast?_eq_none_iff] at hg
      rw [hg] at hmem
      cases hmem
    | some e =>
      have hm := List.mem_of_getLast?_eq_some hg
      rw [List.mem_filter] at hm
      have h2 : e.2 = i + 1 := by simpa using hm.2
      have hl' : m.lookup e.1 = some (i + 1) := by
        rw [← mem_iff_lookup h.1, ← h2]
        exact hm.1
      have e1 := (h.2 _ _).1 hl
      have e2 := (h.2 _ _).1 hl'
      rw [e1] at e2
      rw [Option.map_some', Option.some.inj e2]

/-- The map from ids to symbols that `toIdMappingSymbol` makes of a map that numbers `C`. -/
theorem toIdMappingSymbol_eq {m : SymbolMappingId} {C : List SymbolPtr}
    (h : NumbersPositive m C) : toIdMappingSymbol m = zeroColumn m ++ C.enumFrom 1 := by
  have hz : KeySorted (zeroColumn m ++ C.enumFrom 1) := by
    unfold KeySorted
    rw [List.pairwise_append]
    refine ⟨?_, keySorted_enumFrom C 1, ?_⟩
    · unfold zeroColumn
      cases (m.filter (fun e => decide (e.2 = 0))).getLast? with
      | none => exact List.Pairwise.nil
      | some e => exact List.pairwise_singleton _ _
    · intro a ha b hb
      have h1 : a.1 = 0 := by
        unfold zeroColumn at ha
        obtain ⟨e, -, he⟩ := List.mem_map.1 ha
        rw [← he]
      have h2 := (List.mk_mem_enumFrom_iff_le_and_getElem?_sub (x := b.2) (i := b.1)).1 hb
      omega
  apply keySorted_ext (keySorted_toIdMappingSymbol m) hz
  intro n
  rw [List.lookup_append, lookup_zeroColumn]
  rcases n with _ | i
  · rw [if_pos rfl, lookup_toIdMappingSymbol]
    cases hg : ((m.filter (fun e => decide (e.2 = 0))).getLast?).map Prod.fst with
    | some x => rfl
    | none =>
      rw [Option.none_or]
      symm
      rw [List.lookup_eq_none_iff]
      intro e he
      have h2 := (List.mk_mem_enumFrom_iff_le_and_getElem?_sub (x := e.2) (i := e.1)).1 he
      have hne : ¬ (0 : Nat) = e.1 := by omega
      simpa using hne
  · rw [if_neg (Nat.succ_ne_zero i), Option.none_or]
    apply Option.ext
    intro x
    rw [Option.mem_def, Option.mem_def, lookup_toIdMappingSymbol_succ h, lookup_enumFrom]
    constructor
    · intro hx
      exact ⟨i, rfl, hx⟩
    · rintro ⟨j, hj, hx⟩
      have : i = j := by omega
      rw [this]
      exact hx

theorem Numbers.zeroColumn_eq {m : SymbolMappingId} {C : List SymbolPtr} (h : Numbers m C) :
    zeroColumn m = [] := by
  unfold zeroColumn
  have : m.filter (fun e => decide (e.2 = 0)) = [] := by
    rw [List.filter_eq_nil_iff]
    intro e he h0
    have h0' : e.2 = 0 := by simpa using h0
    have hl : m.lookup e.1 = some 0 := by
      rw [← mem_iff_lookup h.1, ← h0']
      exact he
    obtain ⟨i, hi, -⟩ := (h.2 _ _).1 hl
    omega
  rw [this]
  rfl

/-- The map from ids to symbols of a map that numbers `C` and has no id 0. -/
theorem Numbers.toIdMappingSymbol_enum {m : SymbolMappingId} {C : List SymbolPtr}
    (h : Numbers m C) : toIdMappingSymbol m = C.enumFrom 1 := by
  rw [csa.toIdMappingSymbol_eq h.positive, h.zeroColumn_eq, List.nil_append]

/-! ## The cells -/

/-- The map `m'` is the map `m` after expressions `m[x]` for symbols `x` of `V`. -/
def Touched (V : List SymbolPtr) (m m' : SymbolMappingId) : Prop :=
  (KeySorted m → KeySorted m') ∧
    ∀ x, m'.lookup x = m.lookup x ∨ (x ∈ V ∧ m'.lookup x = some (mapAt m x))

theorem Touched.touched_refl (V : List SymbolPtr) (m : SymbolMappingId) : Touched V m m :=
  ⟨id, fun _ => Or.inl rfl⟩

theorem Touched.mapAt_eq {V : List SymbolPtr} {m m' : SymbolMappingId} (h : Touched V m m')
    (x : SymbolPtr) : mapAt m' x = mapAt m x := by
  rcases h.2 x with e | ⟨-, e⟩
  · rw [mapAt, e, mapAt]
  · rw [mapAt, e]
    rfl

theorem Touched.touched_trans {V W : List SymbolPtr} {a b c : SymbolMappingId}
    (h1 : Touched V a b) (h2 : Touched W b c) : Touched (V ++ W) a c := by
  refine ⟨fun h => h2.1 (h1.1 h), fun x => ?_⟩
  rcases h2.2 x with e | ⟨hx, e⟩
  · rcases h1.2 x with e' | ⟨hx', e'⟩
    · exact Or.inl (e.trans e')
    · exact Or.inr ⟨List.mem_append_left _ hx', e.trans e'⟩
  · exact Or.inr ⟨List.mem_append_right _ hx, by rw [e, h1.mapAt_eq]⟩

theorem Touched.touched_mono {V W : List SymbolPtr} {a b : SymbolMappingId}
    (h : Touched V a b) (hVW : ∀ x ∈ V, x ∈ W) : Touched W a b :=
  ⟨h.1, fun x => (h.2 x).imp id (fun hx => ⟨hVW x hx.1, hx.2⟩)⟩

theorem touched_mapIndex (m : SymbolMappingId) (k : SymbolPtr) :
    Touched [k] m (mapIndex idLt m k).2 := by
  refine ⟨fun h => keySorted_mapIndex h k, fun x => ?_⟩
  rw [lookup_mapIndex idLt idLt_irrefl idLt_total]
  by_cases hx : x = k
  · rw [if_pos hx]
    exact Or.inr ⟨by simp [hx], by rw [hx]⟩
  · rw [if_neg hx]
    exact Or.inl rfl

/-- A map that numbers `C` still gives `C` its ids after expressions `m[x]`. -/
theorem Touched.numbersPositive {V : List SymbolPtr} {m m' : SymbolMappingId}
    {C : List SymbolPtr} (h : Touched V m m') (hm : Numbers m C) : NumbersPositive m' C := by
  refine ⟨h.1 hm.1, fun x i => ?_⟩
  rw [← hm.positive.2]
  rcases h.2 x with e | ⟨-, e⟩
  · rw [e]
  · rw [e, mapAt]
    cases m.lookup x with
    | none =>
      simp only [Option.getD_none, Option.some.injEq, reduceCtorEq, iff_false]
    | some v => rfl

/-- A map that numbers `C` is left as it is by expressions `m[x]` for symbols of `C`. -/
theorem Touched.eq_of_numbers {V : List SymbolPtr} {m m' : SymbolMappingId}
    {C : List SymbolPtr} (h : Touched V m m') (hm : Numbers m C) (hV : ∀ x ∈ V, x ∈ C) :
    m' = m := by
  apply keySorted_ext (h.1 hm.1) hm.1
  intro x
  rcases h.2 x with e | ⟨hx, e⟩
  · exact e
  · rw [e, hm.lookup_eq_mapAt (hV x hx)]

theorem buildCellVisit_spec (nt : SymbolPtr) (productionId : Nat) (s : CellBuild)
    (t : SymbolPtr) :
    Touched [t] s.terminalMappingId (buildCellVisit nt productionId s t).terminalMappingId ∧
    Touched [nt] s.nonterminalMappingId
      (buildCellVisit nt productionId s t).nonterminalMappingId ∧
    ∀ c n, n ∈ mapAt (buildCellVisit nt productionId s t).cmp c ↔
      n ∈ mapAt s.cmp c ∨
        (n = productionId ∧ c = (mapAt s.nonterminalMappingId nt, mapAt s.terminalMappingId t)) := by
  refine ⟨touched_mapIndex _ _, touched_mapIndex _ _, fun c n => ?_⟩
  unfold buildCellVisit
  simp only [mapIndex_fst]
  rw [mapAt_mapAssign cellLt cellLt_irrefl cellLt_total,
    mapAt_mapIndex cellLt cellLt_irrefl cellLt_total]
  by_cases hc : c = (mapAt s.nonterminalMappingId nt, mapAt s.terminalMappingId t)
  · rw [if_pos hc, SymbolSet.mem_insert, hc]
    constructor
    · rintro (h | h)
      · exact Or.inr ⟨h, rfl⟩
      · exact Or.inl h
    · rintro (h | ⟨h, -⟩)
      · exact Or.inr h
      · exact Or.inl h
  · rw [if_neg hc]
    constructor
    · exact Or.inl
    · rintro (h | ⟨-, h⟩)
      · exact h
      · exact absurd h hc

theorem buildCellVisit_foldl (nt : SymbolPtr) (productionId : Nat) (elems : List SymbolPtr)
    (s : CellBuild) :
    Touched elems s.terminalMappingId
      (elems.foldl (buildCellVisit nt productionId) s).terminalMappingId ∧
    Touched [nt] s.nonterminalMappingId
      (elems.foldl (buildCellVisit nt productionId) s).nonterminalMappingId ∧
    ∀ c n, n ∈ mapAt (elems.foldl (buildCellVisit nt productionId) s).cmp c ↔
      n ∈ mapAt s.cmp c ∨
        (n = productionId ∧
          ∃ t ∈ elems, c = (mapAt s.nonterminalMappingId nt, mapAt s.terminalMappingId t)) := by
  induction elems generalizing s with
  | nil =>
    refine ⟨Touched.touched_refl _ _, Touched.touched_refl _ _, fun c n => ?_⟩
    simp
  | cons t rest ih =>
    obtain ⟨a1, a2, a3⟩ := buildCellVisit_spec nt productionId s t
    obtain ⟨b1, b2, b3⟩ := ih (buildCellVisit nt productionId s t)
    rw [List.foldl_cons]
    refine ⟨(a1.touched_trans b1).touched_mono (by simp),
      (a2.touched_trans b2).touched_mono (by simp), fun c n => ?_⟩
    rw [b3, a3]
    simp only [a1.mapAt_eq, a2.mapAt_eq]
    constructor
    · rintro ((h | ⟨h1, hc⟩) | ⟨h1, t', ht', hc⟩)
      · exact Or.inl h
      · exact Or.inr ⟨h1, t, List.mem_cons_self _ _, hc⟩
      · exact Or.inr ⟨h1, t', List.mem_cons_of_mem _ ht', hc⟩
    · rintro (h | ⟨h1, t', ht', hc⟩)
      · exact Or.inl (Or.inl h)
      · rcases List.mem_cons.1 ht' with rfl | ht'
        · exact Or.inl (Or.inr ⟨h1, hc⟩)
        · exact Or.inr ⟨h1, t', ht', hc⟩

/-- The symbols of the PREDICT sets of the productions. -/
def predictOccurrences (pl : ProductionList) : List SymbolPtr :=
  (pl.map (fun p => p.rhs.predictSet.elems)).flatten

theorem mem_predictOccurrences {pl : ProductionList} {t : SymbolPtr} :
    t ∈ predictOccurrences pl ↔ ∃ p ∈ pl, t ∈ p.rhs.predictSet := by
  unfold predictOccurrences
  rw [List.mem_flatten]
  constructor
  · rintro ⟨l, hl, ht⟩
    obtain ⟨p, hp, rfl⟩ := List.mem_map.1 hl
    exact ⟨p, hp, ht⟩
  · rintro ⟨p, hp, ht⟩
    exact ⟨_, List.mem_map_of_mem _ hp, ht⟩

theorem buildCell_foldl (ps : ProductionList) (s : CellBuild) (productionId : Nat) :
    Touched (predictOccurrences ps) s.terminalMappingId
      (ps.foldl
        (fun (s : CellBuild × Nat) p =>
          (p.rhs.predictSet.elems.foldl (buildCellVisit p.lhs.symbol s.2) s.1, s.2 + 1))
        (s, productionId)).1.terminalMappingId ∧
    Touched (ps.map (fun p => p.lhs.symbol)) s.nonterminalMappingId
      (ps.foldl
        (fun (s : CellBuild × Nat) p =>
          (p.rhs.predictSet.elems.foldl (buildCellVisit p.lhs.symbol s.2) s.1, s.2 + 1))
        (s, productionId)).1.nonterminalMappingId ∧
    ∀ c n, n ∈ mapAt
        (ps.foldl
          (fun (s : CellBuild × Nat) p =>
            (p.rhs.predictSet.elems.foldl (buildCellVisit p.lhs.symbol s.2) s.1, s.2 + 1))
          (s, productionId)).1.cmp c ↔
      n ∈ mapAt s.cmp c ∨
        ∃ e ∈ ps.enumFrom productionId, n = e.1 ∧ ∃ t ∈ e.2.rhs.predictSet,
          c = (mapAt s.nonterminalMappingId e.2.lhs.symbol, mapAt s.terminalMappingId t) := by
  induction ps generalizing s productionId with
  | nil =>
    refine ⟨Touched.touched_refl _ _, Touched.touched_refl _ _, fun c n => ?_⟩
    simp
  | cons p ps ih =>
    obtain ⟨a1, a2, a3⟩ :=
      buildCellVisit_foldl p.lhs.symbol productionId p.rhs.predictSet.elems s
    obtain ⟨b1, b2, b3⟩ :=
      ih (p.rhs.predictSet.elems.foldl (buildCellVisit p.lhs.symbol productionId) s)
        (productionId + 1)
    rw [List.foldl_cons]
    refine ⟨(a1.touched_trans b1).touched_mono ?_, (a2.touched_trans b2).touched_mono (by simp),
      fun c n => ?_⟩
    · intro x hx
      unfold predictOccurrences
      rw [List.map_cons, List.flatten_cons]
      exact hx
    · rw [b3, a3, List.enumFrom_cons]
      simp only [a1.mapAt_eq, a2.mapAt_eq]
      constructor
      · rintro ((h | ⟨h1, t, ht, hc⟩) | ⟨e, he, h⟩)
        · exact Or.inl h
        · exact Or.inr ⟨(productionId, p), List.mem_cons_self _ _, h1, t, ht, hc⟩
        · exact Or.inr ⟨e, List.mem_cons_of_mem _ he, h⟩
      · rintro (h | ⟨e, he, h1, t, ht, hc⟩)
        · exact Or.inl (Or.inl h)
        · rcases List.mem_cons.1 he with rfl | he
          · exact Or.inl (Or.inr ⟨h1, t, ht, hc⟩)
          · exact Or.inr ⟨e, he, h1, t, ht, hc⟩

/-- The cells that `buildCellIdMappingProductionIdSet` fills: the cell `c` holds the
position, counted from 1, of every production that has an element in its PREDICT set whose
row and column ids make up `c`. -/
theorem mem_buildCell (pl : ProductionList) (tm ntm : SymbolMappingId) (c : CellId)
    (n : Nat) :
    n ∈ mapAt (buildCellIdMappingProductionIdSet pl tm ntm).cmp c ↔
      ∃ e ∈ pl.enumFrom 1, n = e.1 ∧ ∃ t ∈ e.2.rhs.predictSet,
        c = (mapAt ntm e.2.lhs.symbol, mapAt tm t) := by
  unfold buildCellIdMappingProductionIdSet
  rw [(buildCell_foldl pl
    { cmp := [], terminalMappingId := tm, nonterminalMappingId := ntm } 1).2.2]
  constructor
  · rintro (h | h)
    · exact absurd h (SymbolSet.not_mem_empty n)
    · exact h
  · exact Or.inr

theorem touched_buildCell (pl : ProductionList) (tm ntm : SymbolMappingId) :
    Touched (predictOccurrences pl) tm
      (buildCellIdMappingProductionIdSet pl tm ntm).terminalMappingId ∧
    Touched (pl.map (fun p => p.lhs.symbol)) ntm
      (buildCellIdMappingProductionIdSet pl tm ntm).nonterminalMappingId := by
  unfold buildCellIdMappingProductionIdSet
  have h := buildCell_foldl pl
    { cmp := [], terminalMappingId := tm, nonterminalMappingId := ntm } 1
  exact ⟨h.1, h.2.1⟩

/-! ## The table as a whole -/

/-- The list of the left-hand sides of the productions. -/
def lhsOccurrences (pl : ProductionList) : List SymbolPtr := pl.map (fun p => p.lhs.symbol)

/-- The symbols with a row, in the order of their ids. -/
def rowOrder (pl : ProductionList) : List SymbolPtr := firstOccurrences (lhsOccurrences pl)

theorem buildLL1Table_nonterminalMappingId (gc : GrammarContext) :
    (buildLL1Table gc).nonterminalMappingId = buildNonterminalMappingId gc.pl := by
  have h := (touched_buildCell gc.pl (buildTerminlMappingId gc.st gc.pl)
    (buildNonterminalMappingId gc.pl)).2
  refine h.eq_of_numbers (buildNonterminalMappingId_numbers gc.pl) ?_
  intro x hx
  exact (mem_firstOccurrences _ x).2 hx

/-- The rows of the table: the left-hand sides in the order of their first occurrence, with
the ids 1, 2, ... -/
theorem buildLL1Table_rows (gc : GrammarContext) :
    (buildLL1Table gc).idMappingNonterminal = (rowOrder gc.pl).enumFrom 1 := by
  show toIdMappingSymbol (buildLL1Table gc).nonterminalMappingId = _
  rw [buildLL1Table_nonterminalMappingId]
  exact (buildNonterminalMappingId_numbers gc.pl).toIdMappingSymbol_enum

theorem buildLL1Table_terminalMappingId (gc : GrammarContext) :
    NumbersPositive (buildLL1Table gc).terminalMappingId (columnOrder gc.st gc.pl) ∧
    ∀ x, mapAt (buildLL1Table gc).terminalMappingId x
      = mapAt (buildTerminlMappingId gc.st gc.pl) x := by
  have h := (touched_buildCell gc.pl (buildTerminlMappingId gc.st gc.pl)
    (buildNonterminalMappingId gc.pl)).1
  exact ⟨h.numbersPositive (buildTerminlMappingId_numbers gc.st gc.pl), h.mapAt_eq⟩

/-- The columns of the table: the symbols of `columnOrder` with the ids 1, 2, ..., after a
column with the id 0 if a PREDICT set has a symbol that `buildTerminlMappingId` gave no
id. -/
theorem buildLL1Table_columns (gc : GrammarContext) :
    (buildLL1Table gc).idMappingTerminal =
      zeroColumn (buildLL1Table gc).terminalMappingId
        ++ (columnOrder gc.st gc.pl).enumFrom 1 :=
  toIdMappingSymbol_eq (buildLL1Table_terminalMappingId gc).1

theorem mem_columnOrder {st : SymbolTable} {pl : ProductionList} {t : SymbolPtr} :
    t ∈ columnOrder st pl ↔ t ∈ columnTerminals st pl := by
  unfold columnOrder
  cases hl : (columnTerminals st pl).getLast? with
  | none => rfl
  | some a =>
    cases he : (eofOccurrences st pl).getLast? with
    | none => rfl
    | some b =>
      simp only
      by_cases hab : a = b
      · simp only [hab, ne_eq, not_true_eq_false, if_false]
      · simp only [ne_eq, hab, not_false_eq_true, if_true]
        have ha : a ∈ columnTerminals st pl := List.mem_of_getLast?_eq_some hl
        have hb : b ∈ columnTerminals st pl := eof_mem_columnTerminals he
        rw [List.mem_map]
        constructor
        · rintro ⟨x, hx, rfl⟩
          unfold exchange
          split_ifs with h1 h2
          · exact hb
          · exact ha
          · exact hx
        · intro ht
          refine ⟨exchange a b t, ?_, exchange_exchange a b t⟩
          unfold exchange
          split_ifs with h1 h2
          · exact hb
          · exact ha
          · exact ht

/-- If every symbol of the PREDICT sets has a column, the table has no column with the
id 0. -/
theorem buildLL1Table_columns_of_predict (gc : GrammarContext)
    (h : ∀ t ∈ predictOccurrences gc.pl, t ∈ columnTerminals gc.st gc.pl) :
    (buildLL1Table gc).terminalMappingId = buildTerminlMappingId gc.st gc.pl ∧
    (buildLL1Table gc).idMappingTerminal = (columnOrder gc.st gc.pl).enumFrom 1 := by
  have ht := (touched_buildCell gc.pl (buildTerminlMappingId gc.st gc.pl)
    (buildNonterminalMappingId gc.pl)).1
  have e : (buildLL1Table gc).terminalMappingId = buildTerminlMappingId gc.st gc.pl :=
    ht.eq_of_numbers (buildTerminlMappingId_numbers gc.st gc.pl)
      (fun x hx => mem_columnOrder.2 (h x hx))
  refine ⟨e, ?_⟩
  show toIdMappingSymbol (buildLL1Table gc).terminalMappingId = _
  rw [e]
  exact (buildTerminlMappingId_numbers gc.st gc.pl).toIdMappingSymbol_enum

/-- The cell with the id `c` of the table. -/
def cellAt (gc : GrammarContext) (c : CellId) : ProductionIdSet :=
  (mapIndex cellLt (buildLL1Table gc).cellIdMappingProductionIdSet c).1

/-- The id of the row of a symbol, 0 if it has none. -/
def rowId (gc : GrammarContext) (A : SymbolPtr) : Nat :=
  (mapIndex idLt (buildLL1Table gc).nonterminalMappingId A).1

/-- The id of the column of a symbol, 0 if it has none. -/
def columnId (gc : GrammarContext) (t : SymbolPtr) : Nat :=
  (mapIndex idLt (buildLL1Table gc).terminalMappingId t).1

theorem rowId_eq (gc : GrammarContext) (A : SymbolPtr) :
    rowId gc A = mapAt (buildNonterminalMappingId gc.pl) A := by
  unfold rowId
  rw [mapIndex_fst, buildLL1Table_nonterminalMappingId]

theorem columnId_eq (gc : GrammarContext) (t : SymbolPtr) :
    columnId gc t = mapAt (buildTerminlMappingId gc.st gc.pl) t := by
  unfold columnId
  rw [mapIndex_fst, (buildLL1Table_terminalMappingId gc).2]

theorem Numbers.mapAt_eq_succ {m : SymbolMappingId} {C : List SymbolPtr} (h : Numbers m C)
    (x : SymbolPtr) (i : Nat) : mapAt m x = i + 1 ↔ C[i]? = some x := by
  rw [← h.positive.2, mapAt]
  cases m.lookup x with
  | none =>
    simp
  | some v => simp

theorem Numbers.mapAt_inj {m : SymbolMappingId} {C : List SymbolPtr} (h : Numbers m C)
    {x y : SymbolPtr} (hx : x ∈ C) (hxy : mapAt m x = mapAt m y) : x = y := by
  obtain ⟨i, hi⟩ := List.mem_iff_getElem?.1 hx
  have e1 := (h.mapAt_eq_succ x i).2 hi
  have e2 := (h.mapAt_eq_succ y i).1 (by rw [← hxy, e1])
  rw [hi] at e2
  exact Option.some.inj e2

theorem rowId_eq_succ (gc : GrammarContext) (A : SymbolPtr) (i : Nat) :
    rowId gc A = i + 1 ↔ (rowOrder gc.pl)[i]? = some A := by
  rw [rowId_eq]
  exact (buildNonterminalMappingId_numbers gc.pl).mapAt_eq_succ A i

theorem columnId_eq_succ (gc : GrammarContext) (t : SymbolPtr) (i : Nat) :
    columnId gc t = i + 1 ↔ (columnOrder gc.st gc.pl)[i]? = some t := by
  rw [columnId_eq]
  exact (buildTerminlMappingId_numbers gc.st gc.pl).mapAt_eq_succ t i

theorem rowId_inj (gc : GrammarContext) {A B : SymbolPtr} (hA : A ∈ lhsOccurrences gc.pl)
    (h : rowId gc A = rowId gc B) : A = B := by
  rw [rowId_eq, rowId_eq] at h
  exact (buildNonterminalMappingId_numbers gc.pl).mapAt_inj
    ((mem_firstOccurrences _ A).2 hA) h

theorem columnId_inj (gc : GrammarContext) {t u : SymbolPtr}
    (ht : t ∈ columnTerminals gc.st gc.pl) (h : columnId gc t = columnId gc u) : t = u := by
  rw [columnId_eq, columnId_eq] at h
  exact (buildTerminlMappingId_numbers gc.st gc.pl).mapAt_inj (mem_columnOrder.2 ht) h

/-- The cell `c` of the table holds the position, counted from 1, of every production that
has an element in its PREDICT set whose row and column ids make up `c`. -/
theorem mem_cellAt (gc : GrammarContext) (c : CellId) (n : Nat) :
    n ∈ cellAt gc c ↔
      ∃ e ∈ gc.pl.enumFrom 1, n = e.1 ∧ ∃ t ∈ e.2.rhs.predictSet,
        c = (rowId gc e.2.lhs.symbol, columnId gc t) := by
  unfold cellAt
  rw [mapIndex_fst]
  show n ∈ mapAt (buildCellIdMappingProductionIdSet gc.pl (buildTerminlMappingId gc.st gc.pl)
    (buildNonterminalMappingId gc.pl)).cmp c ↔ _
  rw [mem_buildCell]
  simp only [rowId_eq, columnId_eq]

/-! ## Rows and columns of the table -/

/-- Claim C16: the rows of the LL(1) table, from top to bottom, carry the ids 1, 2, ..., k;
each left-hand side of the production list has exactly one row and nothing else has one; and
the rows stand in the order in which their symbols first occur as a left-hand side.  The
first cells that `addTableRecords` writes are the names of these symbols in this order. -/
theorem rows_in_order_of_first_lhs (gc : GrammarContext) :
    (buildLL1Table gc).idMappingNonterminal.map Prod.fst
      = List.range' 1 (buildLL1Table gc).idMappingNonterminal.length ∧
    ((buildLL1Table gc).idMappingNonterminal.map Prod.snd).Nodup ∧
    (∀ A, A ∈ (buildLL1Table gc).idMappingNonterminal.map Prod.snd ↔
      A ∈ gc.pl.map (fun p => p.lhs.symbol)) ∧
    ((buildLL1Table gc).idMappingNonterminal.map Prod.snd).Pairwise
      (fun A B => (gc.pl.map (fun p => p.lhs.symbol)).indexOf A
        < (gc.pl.map (fun p => p.lhs.symbol)).indexOf B) ∧
    (∀ e ∈ (buildLL1Table gc).idMappingNonterminal,
      (buildLL1Table gc).nonterminalMappingId.lookup e.2 = some e.1) ∧
    (addTableRecords gc).map Prod.fst
      = (buildLL1Table gc).idMappingNonterminal.map (fun e => (gc.st.mem e.2).name) := by
  have hrows := buildLL1Table_rows gc
  have hnum := buildNonterminalMappingId_numbers gc.pl
  refine ⟨?_, ?_, ?_, ?_, ?_, ?_⟩
  · rw [hrows, List.enumFrom_map_fst, List.enumFrom_length]
  · rw [hrows, List.enumFrom_map_snd]
    exact nodup_firstOccurrences _
  · intro A
    rw [hrows, List.enumFrom_map_snd]
    exact mem_firstOccurrences _ A
  · rw [hrows, List.enumFrom_map_snd]
    exact firstOccurrences_sorted _
  · intro e he
    rw [hrows] at he
    have h2 := (List.mk_mem_enumFrom_iff_le_and_getElem?_sub (x := e.2) (i := e.1)).1 he
    rw [buildLL1Table_nonterminalMappingId, hnum.2]
    exact ⟨e.1 - 1, by omega, h2.2⟩
  · unfold addTableRecords
    rw [List.map_map]
    rfl

theorem columnOrder_getLast {st : SymbolTable} {pl : ProductionList} {e : SymbolPtr}
    (he : (st.mem e).isTerminalEof = true) (hocc : e ∈ rhsOccurrences pl)
    (huniq : ∀ t ∈ rhsOccurrences pl, (st.mem t).isTerminalEof = true → t = e) :
    (eofOccurrences st pl).getLast? = some e ∧ (columnOrder st pl).getLast? = some e := by
  have hmem : e ∈ eofOccurrences st pl := by
    unfold eofOccurrences
    rw [List.mem_filter]
    exact ⟨hocc, he⟩
  have h1 : (eofOccurrences st pl).getLast? = some e := by
    cases hg : (eofOccurrences st pl).getLast? with
    | none =>
      rw [List.getLast?_eq_none_iff] at hg
      rw [hg] at hmem
      cases hmem
    | some b =>
      have hb := List.mem_of_getLast?_eq_some hg
      unfold eofOccurrences at hb
      rw [List.mem_filter] at hb
      rw [huniq b hb.1 hb.2]
  refine ⟨h1, ?_⟩
  have hc : e ∈ columnTerminals st pl := eof_mem_columnTerminals h1
  unfold columnOrder
  rw [h1]
  cases hl : (columnTerminals st pl).getLast? with
  | none =>
    rw [List.getLast?_eq_none_iff] at hl
    rw [hl] at hc
    cases hc
  | some a =>
    simp only
    by_cases hab : a = e
    · simp only [hab, ne_eq, not_true_eq_false, if_false]
      rw [← hab]
      exact hl
    · simp only [ne_eq, hab, not_false_eq_true, if_true]
      rw [List.getLast?_map, hl]
      simp [exchange]

theorem isColumn_iff (st : SymbolTable) (t : SymbolPtr) :
    isColumn st t = true ↔
      (st.mem t).isTerminal = true ∧ (st.mem t).isTerminalEpsilon = false := by
  unfold isColumn Symbol.isNonterminal
  cases (st.mem t).isTerminal <;> cases (st.mem t).isTerminalEpsilon <;> simp

/-- Claim C14: if the EOF terminal occurs in a right-hand side of the production list, then
the ids that `buildTerminlMappingId` assigns are the numbers 1, ..., k, one for each symbol
of a right-hand side that is of terminal kind and not the epsilon terminal, and the EOF
terminal has the id k; the last column header that the table shows is the name of the EOF
terminal. -/
theorem eof_has_last_column (gc : GrammarContext) (e : SymbolPtr)
    (he : (gc.st.mem e).isTerminalEof = true) (hocc : e ∈ rhsOccurrences gc.pl)
    (huniq : ∀ t ∈ rhsOccurrences gc.pl, (gc.st.mem t).isTerminalEof = true → t = e) :
    (toIdMappingSymbol (buildTerminlMappingId gc.st gc.pl)).map Prod.fst
      = List.range' 1 (toIdMappingSymbol (buildTerminlMappingId gc.st gc.pl)).length ∧
    ((toIdMappingSymbol (buildTerminlMappingId gc.st gc.pl)).map Prod.snd).Nodup ∧
    (∀ t, t ∈ (toIdMappingSymbol (buildTerminlMappingId gc.st gc.pl)).map Prod.snd ↔
      t ∈ rhsOccurrences gc.pl ∧ (gc.st.mem t).isTerminal = true ∧
        (gc.st.mem t).isTerminalEpsilon = false) ∧
    (∀ c, c ∈ toIdMappingSymbol (buildTerminlMappingId gc.st gc.pl) ↔
      (buildTerminlMappingId gc.st gc.pl).lookup c.2 = some c.1) ∧
    (buildTerminlMappingId gc.st gc.pl).lookup e
      = some (toIdMappingSymbol (buildTerminlMappingId gc.st gc.pl)).length ∧
    (getTerminalList gc).getLast? = some (gc.st.mem e).name := by
  have hnum := buildTerminlMappingId_numbers gc.st gc.pl
  have hcols := hnum.toIdMappingSymbol_enum
  obtain ⟨-, hlast⟩ := columnOrder_getLast he hocc huniq
  refine ⟨?_, ?_, ?_, ?_, ?_, ?_⟩
  · rw [hcols, List.enumFrom_map_fst, List.enumFrom_length]
  · rw [hcols, List.enumFrom_map_snd]
    exact hnum.nodup
  · intro t
    rw [hcols, List.enumFrom_map_snd, mem_columnOrder, mem_columnTerminals, isColumn_iff]
  · intro c
    rw [hcols, hnum.2, List.mk_mem_enumFrom_iff_le_and_getElem?_sub]
    constructor
    · rintro ⟨h1, h2⟩
      exact ⟨c.1 - 1, by omega, h2⟩
    · rintro ⟨i, h1, h2⟩
      refine ⟨by omega, ?_⟩
      have : c.1 - 1 = i := by omega
      rw [this]
      exact h2
  · rw [hcols, List.enumFrom_length, hnum.2]
    have hne : columnOrder gc.st gc.pl ≠ [] := by
      intro hc
      rw [hc] at hlast
      cases hlast
    refine ⟨(columnOrder gc.st gc.pl).length - 1, ?_, ?_⟩
    · have := List.length_pos.2 hne
      omega
    · rw [← List.getLast?_eq_getElem?]
      exact hlast
  · unfold getTerminalList
    rw [List.getLast?_map, buildLL1Table_columns, List.getLast?_append, List.getLast?_enumFrom,
      hlast]
    rfl

/-- A grammar in which `$` is met before other terminals: `S -> A $`, `A -> a`, `A -> b`.
The symbols are `S` = 1, `A` = 2, `$` = 3, `a` = 4, `b` = 5. -/
def grammarEofEarly : GrammarContext :=
  frontend.buildContext [("S", ["A", "$"]), ("A", ["a"]), ("A", ["b"])]

theorem eof_has_last_column_witness :
    (grammarEofEarly.st.mem 3).isTerminalEof = true ∧ 3 ∈ rhsOccurrences grammarEofEarly.pl ∧
    (∀ t ∈ rhsOccurrences grammarEofEarly.pl,
      (grammarEofEarly.st.mem t).isTerminalEof = true → t = 3) ∧
    (buildTerminlMappingId grammarEofEarly.st grammarEofEarly.pl).lookup 3
      = some (toIdMappingSymbol
          (buildTerminlMappingId grammarEofEarly.st grammarEofEarly.pl)).length ∧
    (getTerminalList grammarEofEarly).getLast? = some (grammarEofEarly.st.mem 3).name :=
  ⟨by decide, by decide, by decide,
    (eof_has_last_column grammarEofEarly 3 (by decide) (by decide) (by decide)).2.2.2.2.1,
    (eof_has_last_column grammarEofEarly 3 (by decide) (by decide) (by decide)).2.2.2.2.2⟩

/-- The symbols of the columns of the table that have an id other than 0, from left to
right. -/
def numberedColumns (gc : GrammarContext) : List SymbolPtr :=
  ((buildLL1Table gc).idMappingTerminal.filter (fun c => decide (c.1 ≠ 0))).map Prod.snd

theorem numberedColumns_eq (gc : GrammarContext) :
    numberedColumns gc = columnOrder gc.st gc.pl := by
  unfold numberedColumns
  rw [buildLL1Table_columns, List.filter_append]
  have h1 : (zeroColumn (buildLL1Table gc).terminalMappingId).filter
      (fun c => decide (c.1 ≠ 0)) = [] := by
    rw [List.filter_eq_nil_iff]
    intro c hc
    unfold zeroColumn at hc
    obtain ⟨x, -, hx⟩ := List.mem_map.1 hc
    rw [← hx]
    simp
  have h2 : ((columnOrder gc.st gc.pl).enumFrom 1).filter (fun c => decide (c.1 ≠ 0))
      = (columnOrder gc.st gc.pl).enumFrom 1 := by
    rw [List.filter_eq_self]
    intro c hc
    have := (List.mk_mem_enumFrom_iff_le_and_getElem?_sub (x := c.2) (i := c.1)).1 hc
    have hne : c.1 ≠ 0 := by omega
    simpa using hne
  rw [h1, h2, List.nil_append, List.enumFrom_map_snd]

/-- Counterexample to claim C15.  In the grammar `S -> A $`, `A -> a`, `A -> b` the scan of
the right-hand sides meets `A`, `$`, `a`, `b`; the columns of the table after `parse` are
`b`, `a`, `$`: the terminals other than `$` do not stand in the order `a`, `b` of their
first occurrence. -/
theorem columns_not_in_first_occurrence_order :
    (rhsOccurrences grammarEofEarly.pl).map (fun t => (grammarEofEarly.st.mem t).name)
      = ["A", "$", "a", "b"] ∧
    (LL1Analyzer.new (some grammarEofEarly)).parse.map
        (fun r => r.2.gc_.map getTerminalList) = some (some ["b", "a", "$"]) ∧
    (LL1Analyzer.new (some grammarEofEarly)).parse.map
        (fun r => r.2.gc_.map (fun g =>
          (((buildLL1Table g).idMappingTerminal.map Prod.snd).filter
              (fun t => !(g.st.mem t).isTerminalEof),
            (columnTerminals g.st g.pl).filter (fun t => !(g.st.mem t).isTerminalEof))))
      = some (some ([5, 4], [4, 5])) := by
  refine ⟨by decide, by decide, by decide⟩

/-- Claim C15, amended: the columns of the LL(1) table that have an id from 1 on hold, from
left to right, the symbols of the right-hand sides that are of terminal kind and not the
epsilon terminal, in the order of their first occurrence, but with the EOF terminal and the
symbol that comes last in that order in each other's place.  So the columns are in the order
of first occurrence if no EOF terminal occurs; otherwise the EOF terminal has the last
column, the symbol that was last has the place of the EOF terminal, and every other symbol
keeps its place. -/
theorem columns_in_exchanged_order (gc : GrammarContext) :
    ((∀ t ∈ rhsOccurrences gc.pl, (gc.st.mem t).isTerminalEof = false) →
      numberedColumns gc
        = firstOccurrences ((rhsOccurrences gc.pl).filter (fun t =>
            !((gc.st.mem t).isNonterminal || (gc.st.mem t).isTerminalEpsilon)))) ∧
    (∀ e last, (gc.st.mem e).isTerminalEof = true → e ∈ rhsOccurrences gc.pl →
      (∀ t ∈ rhsOccurrences gc.pl, (gc.st.mem t).isTerminalEof = true → t = e) →
      (firstOccurrences ((rhsOccurrences gc.pl).filter (fun t =>
          !((gc.st.mem t).isNonterminal || (gc.st.mem t).isTerminalEpsilon)))).getLast?
        = some last →
      numberedColumns gc
        = (firstOccurrences ((rhsOccurrences gc.pl).filter (fun t =>
            !((gc.st.mem t).isNonterminal || (gc.st.mem t).isTerminalEpsilon)))).map
          (fun x => if x = last then e else if x = e then last else x)) := by
  rw [numberedColumns_eq]
  constructor
  · intro hno
    have : (eofOccurrences gc.st gc.pl).getLast? = none := by
      rw [List.getLast?_eq_none_iff]
      unfold eofOccurrences
      rw [List.filter_eq_nil_iff]
      intro t ht
      rw [hno t ht]
      simp
    unfold columnOrder
    rw [this]
    cases (columnTerminals gc.st gc.pl).getLast? <;> rfl
  · intro e last he hocc huniq hlast
    obtain ⟨h1, -⟩ := columnOrder_getLast he hocc huniq
    have hlast' : (columnTerminals gc.st gc.pl).getLast? = some last := hlast
    unfold columnOrder
    rw [h1, hlast']
    simp only
    by_cases hab : last = e
    · simp only [hab, ne_eq, not_true_eq_false, if_false]
      symm
      have : (fun x : SymbolPtr => if x = e then e else if x = e then e else x) = id := by
        funext x
        by_cases hx : x = e <;> simp [hx]
      rw [this, List.map_id]
      rfl
    · simp only [ne_eq, hab, not_false_eq_true, if_true]
      rfl

theorem columns_in_exchanged_order_witness :
    (grammarEofEarly.st.mem 3).isTerminalEof = true ∧ 3 ∈ rhsOccurrences grammarEofEarly.pl ∧
    (∀ t ∈ rhsOccurrences grammarEofEarly.pl,
      (grammarEofEarly.st.mem t).isTerminalEof = true → t = 3) ∧
    (firstOccurrences ((rhsOccurrences grammarEofEarly.pl).filter (fun t =>
        !((grammarEofEarly.st.mem t).isNonterminal
          || (grammarEofEarly.st.mem t).isTerminalEpsilon)))).getLast? = some 5 ∧
    numberedColumns grammarEofEarly
      = (firstOccurrences ((rhsOccurrences grammarEofEarly.pl).filter (fun t =>
          !((grammarEofEarly.st.mem t).isNonterminal
            || (grammarEofEarly.st.mem t).isTerminalEpsilon)))).map
        (fun x => if x = 5 then 3 else if x = 3 then 5 else x) :=
  ⟨by decide, by decide, by decide, by decide,
    (columns_in_exchanged_order grammarEofEarly).2 3 5 (by decide) (by decide) (by decide)
      (by decide)⟩

/-! ## The cells of the table -/

/-- Counterexample to claim C12.  After `parse` on the grammar `S -> ( S ) S`,
`S -> epsilon` the productions have the ids 0 and 1; the production with the left-hand side
`S` (symbol 1) and `(` (symbol 2) in its PREDICT set is the one with the id 0; the cell in
the row of `S` and the column of `(` holds 1. -/
theorem cell_does_not_hold_the_id :
    (LL1Analyzer.new (some grammarS1)).parse.map
        (fun r => r.2.gc_.map (fun g => g.pl.map (fun p => p.id))) = some (some [0, 1]) ∧
    (LL1Analyzer.new (some grammarS1)).parse.map
        (fun r => r.2.gc_.map (fun g =>
          (g.pl.filter (fun p => decide (p.lhs.symbol = 1 ∧ 2 ∈ p.rhs.predictSet))).map
            (fun p => p.id))) = some (some [0]) ∧
    (LL1Analyzer.new (some grammarS1)).parse.map
        (fun r => r.2.gc_.map (fun g =>
          (mapIndex cellLt (buildLL1Table g).cellIdMappingProductionIdSet
            ((mapIndex idLt (buildLL1Table g).nonterminalMappingId 1).1,
              (mapIndex idLt (buildLL1Table g).terminalMappingId 2).1)).1.elems))
      = some (some [1]) := by
  refine ⟨by decide, by decide, by decide⟩

/-- Claim C12, amended: for a production list whose ids are 0, ..., N-1 in the order of the
list, the cell of the LL(1) table in the row of a left-hand side `A` and the column of a
symbol `t` of a right-hand side that is of terminal kind and not the epsilon terminal holds
exactly the numbers `p.id + 1` of the productions `p` with left-hand side `A` and `t` in
their PREDICT set: the table counts the productions from 1. -/
theorem cell_holds_ids_plus_one (gc : GrammarContext)
    (hid : gc.pl.map (fun p => p.id) = (List.range gc.pl.length).map Int.ofNat)
    (A t : SymbolPtr) (hA : A ∈ gc.pl.map (fun p => p.lhs.symbol))
    (ht : t ∈ rhsOccurrences gc.pl) (hterm : (gc.st.mem t).isTerminal = true)
    (hne : (gc.st.mem t).isTerminalEpsilon = false) (n : Nat) :
    n ∈ (mapIndex cellLt (buildLL1Table gc).cellIdMappingProductionIdSet
          ((mapIndex idLt (buildLL1Table gc).nonterminalMappingId A).1,
            (mapIndex idLt (buildLL1Table gc).terminalMappingId t).1)).1 ↔
      ∃ p ∈ gc.pl, p.lhs.symbol = A ∧ t ∈ p.rhs.predictSet ∧ p.id + 1 = (n : Int) := by
  have hcol : t ∈ columnTerminals gc.st gc.pl :=
    mem_columnTerminals.2 ⟨ht, (isColumn_iff gc.st t).2 ⟨hterm, hne⟩⟩
  have hpid : ∀ (i : Nat) (p : Production), gc.pl[i]? = some p → p.id = (i : Int) := by
    intro i p hp
    have h1 : (gc.pl.map (fun p => p.id))[i]? = some p.id := by
      rw [List.getElem?_map, hp]
      rfl
    rw [hid, List.getElem?_map] at h1
    obtain ⟨hi, hpi⟩ := List.getElem?_eq_some_iff.1 hp
    rw [List.getElem?_range hi] at h1
    exact (Option.some.inj h1).symm
  have key := mem_cellAt gc (rowId gc A, columnId gc t) n
  unfold cellAt rowId columnId at key
  rw [key]
  constructor
  · rintro ⟨e, he, hn, t', ht', hc⟩
    have h2 := (List.mk_mem_enumFrom_iff_le_and_getElem?_sub (x := e.2) (i := e.1)).1 he
    have hrow : rowId gc A = rowId gc e.2.lhs.symbol := (Prod.mk.inj hc).1
    have hcl : columnId gc t = columnId gc t' := (Prod.mk.inj hc).2
    have eA : A = e.2.lhs.symbol := rowId_inj gc hA hrow
    have et : t = t' := columnId_inj gc hcol hcl
    refine ⟨e.2, List.mem_iff_getElem?.2 ⟨_, h2.2⟩, eA.symm, by rw [et]; exact ht', ?_⟩
    rw [hpid _ _ h2.2, hn]
    omega
  · rintro ⟨p, hp, hpA, hpt, hpn⟩
    obtain ⟨i, hi⟩ := List.mem_iff_getElem?.1 hp
    have hn : n = i + 1 := by
      rw [hpid i p hi] at hpn
      omega
    refine ⟨(i + 1, p), ?_, hn, t, hpt, by rw [hpA]⟩
    rw [List.mk_mem_enumFrom_iff_le_and_getElem?_sub]
    exact ⟨by omega, by simpa using hi⟩

/-- The theorem on the grammar context that `parse` leaves for scenario S1, where the
productions `S -> ( S ) S` and `S -> epsilon` have the ids 0 and 1 and the PREDICT sets
`{(}` and `{)}`: the cell of `S` and `(` holds 1, the id of the first production plus one,
and the cell of `S` and `)` holds 2. -/
theorem cell_holds_ids_plus_one_witness :
    Parsed grammarS1 (parsedContext grammarS1) ∧
    (parsedContext grammarS1).pl.map (fun p => p.id) = [0, 1] ∧
    (parsedContext grammarS1).pl.map (fun p => p.lhs.symbol) = [1, 1] ∧
    (parsedContext grammarS1).pl.map (fun p => p.rhs.predictSet.elems) = [[2], [3]] ∧
    (buildLL1Table (parsedContext grammarS1)).cellIdMappingProductionIdSet.map
        (fun cell => (cell.1, cell.2.elems)) = [((1, 1), [1]), ((1, 2), [2])] ∧
    1 ∈ (mapIndex cellLt (buildLL1Table (parsedContext grammarS1)).cellIdMappingProductionIdSet
          ((mapIndex idLt (buildLL1Table (parsedContext grammarS1)).nonterminalMappingId 1).1,
            (mapIndex idLt (buildLL1Table (parsedContext grammarS1)).terminalMappingId 2).1)).1 ∧
    (parsedContext grammarS1).pl.map (fun p => p.id)
      = (List.range (parsedContext grammarS1).pl.length).map Int.ofNat ∧
    1 ∈ (parsedContext grammarS1).pl.map (fun p => p.lhs.symbol) ∧
    2 ∈ rhsOccurrences (parsedContext grammarS1).pl ∧
    ((parsedContext grammarS1).st.mem 2).isTerminal = true ∧
    ((parsedContext grammarS1).st.mem 2).isTerminalEpsilon = false ∧
    (1 ∈ (mapIndex cellLt (buildLL1Table (parsedContext grammarS1)).cellIdMappingProductionIdSet
          ((mapIndex idLt (buildLL1Table (parsedContext grammarS1)).nonterminalMappingId 1).1,
            (mapIndex idLt (buildLL1Table (parsedContext grammarS1)).terminalMappingId 2).1)).1 ↔
      ∃ p ∈ (parsedContext grammarS1).pl,
        p.lhs.symbol = 1 ∧ 2 ∈ p.rhs.predictSet ∧ p.id + 1 = ((1 : Nat) : Int)) :=
  ⟨parsed_parsedContext grammarS1, by decide, by decide, by decide, by decide, by decide,
    by decide, by decide, by decide, by decide, by decide,
    cell_holds_ids_plus_one (parsedContext grammarS1) (by decide) 1 2 (by decide) (by decide)
      (by decide) (by decide) 1⟩

/-! ## What the sets hold after `parse` -/

theorem mem_rhsOccurrences {pl : ProductionList} {t : SymbolPtr} :
    t ∈ rhsOccurrences pl ↔ ∃ p ∈ pl, t ∈ p.rhs.symbolList := by
  unfold rhsOccurrences
  rw [List.mem_flatten]
  constructor
  · rintro ⟨l, hl, ht⟩
    obtain ⟨p, hp, rfl⟩ := List.mem_map.1 hl
    exact ⟨p, hp, ht⟩
  · rintro ⟨p, hp, ht⟩
    exact ⟨_, List.mem_map_of_mem _ hp, ht⟩

theorem mem_symbolOccurrences_cases {pl : ProductionList} {X : SymbolPtr}
    (h : X ∈ symbolOccurrences pl) :
    X ∈ pl.map (fun p => p.lhs.symbol) ∨ X ∈ rhsOccurrences pl := by
  unfold symbolOccurrences at h
  rw [List.mem_flatten] at h
  obtain ⟨l, hl, hX⟩ := h
  obtain ⟨p, hp, rfl⟩ := List.mem_map.1 hl
  rcases List.mem_cons.1 hX with h1 | h1
  · exact Or.inl (List.mem_map.2 ⟨p, hp, h1.symm⟩)
  · exact Or.inr (mem_rhsOccurrences.2 ⟨p, hp, h1⟩)

theorem rhsOccurrences_subset {pl : ProductionList} {t : SymbolPtr}
    (h : t ∈ rhsOccurrences pl) : t ∈ symbolOccurrences pl := by
  obtain ⟨p, hp, ht⟩ := mem_rhsOccurrences.1 h
  exact rhs_mem_symbolOccurrences hp ht

/-- A symbol of the productions that is of terminal kind occurs in a right-hand side, if
the left-hand sides are nonterminals. -/
theorem terminal_mem_rhsOccurrences {gc : GrammarContext} (hC : gc.Classified)
    {X : SymbolPtr} (hX : X ∈ symbolOccurrences gc.pl)
    (hterm : (gc.st.mem X).isTerminal = true) : X ∈ rhsOccurrences gc.pl := by
  rcases mem_symbolOccurrences_cases hX with h | h
  · obtain ⟨p, hp, rfl⟩ := List.mem_map.1 h
    rw [not_isTerminal_of_nonterminal (hC.1 p hp)] at hterm
    cases hterm
  · exact h

/-- After `buildFirstSet` the FIRST set of a symbol of the productions holds symbols of
terminal kind that occur in a right-hand side. -/
theorem Trace.first_rhs_terminal {gc g1 g2 g3 : GrammarContext} (h : Trace gc g1 g2 g3)
    (hI : gc.Interned) (hC : gc.Classified) {X t : SymbolPtr}
    (hX : X ∈ symbolOccurrences gc.pl) (ht : t ∈ (g2.st.mem X).firstSet) :
    (gc.st.mem t).isTerminal = true ∧ t ∈ rhsOccurrences gc.pl := by
  refine h.inv2.least (fun X t => X ∈ symbolOccurrences gc.pl →
    (gc.st.mem t).isTerminal = true ∧ t ∈ rhsOccurrences gc.pl) ?_ ?_ X t ht hX
  · intro p1 hp1 t hrule _
    obtain ⟨p, hp, hstep, -⟩ := forall₂_mem_right h.pl1 p1 hp1
    obtain ⟨Y, hY, hJ⟩ := hrule.exists_mem
    rw [hstep.2.2.1] at hY
    exact hJ (rhs_mem_symbolOccurrences hp hY)
  · intro X t ht hX
    rw [buildFirstSetInit_firstSet, h.flags.1, if_pos (hI X hX)] at ht
    unfold firstSeed at ht
    split_ifs at ht with hterm
    · rcases SymbolSet.mem_insert.1 ht with h1 | h1
      · have hterm' : (gc.st.mem X).isTerminal = true := by
          simp only [Symbol.isTerminal, h.flags.flags_type] at hterm ⊢
          exact hterm
        rw [h1]
        exact ⟨hterm', terminal_mem_rhsOccurrences hC hX hterm'⟩
      · exact absurd h1 (SymbolSet.not_mem_empty t)
    · exact absurd ht (SymbolSet.not_mem_empty t)

theorem Trace.inFirstOf_rhs_terminal {gc g1 g2 g3 : GrammarContext} (h : Trace gc g1 g2 g3)
    (hI : gc.Interned) (hC : gc.Classified) {t : SymbolPtr} {l : List SymbolPtr}
    (hl : ∀ Y ∈ l, Y ∈ symbolOccurrences gc.pl) (ht : InFirstOf g2.st t l) :
    (gc.st.mem t).isTerminal = true ∧ t ∈ rhsOccurrences gc.pl := by
  obtain ⟨Y, hY, hJ⟩ := RuleFirst.exists_mem ht
  exact h.first_rhs_terminal hI hC (hl Y hY) hJ

/-- After `buildFollowSet` the FOLLOW set of a symbol whose FOLLOW set was empty at entry
holds symbols of terminal kind that occur in a right-hand side. -/
theorem Trace.follow_rhs_terminal {gc g1 g2 g3 : GrammarContext} (h : Trace gc g1 g2 g3)
    (hI : gc.Interned) (hFo : gc.FollowClear) (hC : gc.Classified) {X t : SymbolPtr}
    (hX : X ∈ gc.symbols) (ht : t ∈ (g3.st.mem X).followSet) :
    (gc.st.mem t).isTerminal = true ∧ t ∈ rhsOccurrences gc.pl := by
  refine h.inv3.least (fun X t => X ∈ gc.symbols →
    (gc.st.mem t).isTerminal = true ∧ t ∈ rhsOccurrences gc.pl) ?_ ?_ X t ht hX
  · intro p2 hp2
    rw [h.pl2] at hp2
    obtain ⟨p, hp, hstep, -⟩ := forall₂_mem_right h.pl1 p2 hp2
    constructor
    · intro pre X suf hrhs _ t hfirst _
      rw [hstep.2.2.1] at hrhs
      refine h.inFirstOf_rhs_terminal hI hC ?_ hfirst
      intro Y hY
      exact rhs_mem_symbolOccurrences hp (by rw [hrhs]; simp [hY])
    · intro rpre X rsuf _ _ _ t hJ _
      rw [hstep.2.1] at hJ
      exact hJ (mem_symbols_of_lhs hp)
  · intro X t ht hX
    rw [h.only2.first_followSet, h.flags.flags_followSet, hFo X hX] at ht
    exact absurd ht (SymbolSet.not_mem_empty t)

theorem final_alien (g3 : GrammarContext) :
    (removeAllEpsilon (buildPredictSet g3)).st.alien_ = g3.st.alien_ := by
  by_cases hne : g3.pl = []
  · rw [final_of_nil g3 hne]
  · have hne4 : (buildPredictSet g3).pl ≠ [] := by
      simpa [buildPredictSet] using hne
    rw [(removeAllEpsilon_mem (buildPredictSet g3) hne4).2.1]
    show (g3.st.findSymbol config.keyword.epsilon).2.alien_ = g3.st.alien_
    unfold SymbolTable.findSymbol
    cases g3.st.table_.lookup config.keyword.epsilon <;> rfl

theorem Trace.alien3 {gc g1 g2 g3 : GrammarContext} (h : Trace gc g1 g2 g3) :
    g3.st.alien_ = gc.st.alien_ := by
  rw [h.inv3.only.2.1, h.only2.2.1, h.flags.2.1]

theorem Trace.final_rhsOccurrences {gc g1 g2 g3 : GrammarContext} (h : Trace gc g1 g2 g3) :
    rhsOccurrences (removeAllEpsilon (buildPredictSet g3)).pl = rhsOccurrences gc.pl := by
  unfold rhsOccurrences
  congr 1
  exact (forall₂_map_eq _ _ (fun _ _ hab => by rw [hab.2]) h.final_pl_entry)

/-- A symbol of terminal kind that `removeAllEpsilon` does not remove is not the epsilon
terminal. -/
theorem Trace.not_epsilon_of_ne {gc g1 g2 g3 : GrammarContext} (h : Trace gc g1 g2 g3)
    (hC : gc.Classified) {t : SymbolPtr} (ht : t ∈ gc.symbols) (hne : t ≠ epsilonOf g3.st) :
    (gc.st.mem t).isTerminalEpsilon = false := by
  cases he : (gc.st.mem t).isTerminalEpsilon with
  | false => rfl
  | true =>
    exfalso
    apply hne
    have hl := (hC.2.2 t ht).1 he
    unfold epsilonOf
    rw [findSymbol_of_lookup (by rw [h.table3]; exact hl)]

/-- What `parse` guarantees of an element `t` of one of its sets. -/
structure RhsTerminal (gc g3 : GrammarContext) (t : SymbolPtr) : Prop where
  kind : (gc.st.mem t).isTerminal = true
  occurs : t ∈ rhsOccurrences gc.pl
  kept : t ≠ epsilonOf g3.st

/-- After `parse` on a classified grammar context with empty FOLLOW sets, every element of
the four sets of a production is a symbol of terminal kind that occurs in a right-hand side
and is not the symbol that `removeAllEpsilon` removes. -/
theorem Trace.final_sets {gc g1 g2 g3 : GrammarContext} (h : Trace gc g1 g2 g3)
    (hA : gc.Allocated) (hI : gc.Interned) (hFo : gc.FollowClear) (hC : gc.Classified)
    {p : Production} (hp : p ∈ (removeAllEpsilon (buildPredictSet g3)).pl) {t : SymbolPtr}
    (ht : t ∈ ((removeAllEpsilon (buildPredictSet g3)).st.mem p.lhs.symbol).firstSet ∨
      t ∈ ((removeAllEpsilon (buildPredictSet g3)).st.mem p.lhs.symbol).followSet ∨
      t ∈ p.rhs.firstSet ∨ t ∈ p.rhs.predictSet) :
    RhsTerminal gc g3 t := by
  obtain ⟨p3, hp3, -, hl, hr, -, hf, hpr⟩ := final_pl g3 hp
  have hl' : p.lhs.symbol = p3.lhs.symbol := by rw [hl]; rfl
  have hocc3 : symbolOccurrences g3.pl = symbolOccurrences gc.pl := by
    rw [h.pl3_eq, h.occ1]
  have hlhsocc : p3.lhs.symbol ∈ symbolOccurrences gc.pl := by
    rw [← hocc3]
    exact lhs_mem_symbolOccurrences hp3
  have hlhs : p3.lhs.symbol ∈ gc.pl.map (fun p => p.lhs.symbol) := by
    rw [← h.lhs1, ← h.pl3_eq]
    exact List.mem_map.2 ⟨p3, hp3, rfl⟩
  have hlt : p3.lhs.symbol < gc.st.brk := hA _ (List.mem_append_right _ hlhsocc)
  have hrhs : ∀ Y ∈ p3.rhs.symbolList, Y ∈ symbolOccurrences gc.pl := by
    intro Y hY
    rw [← hocc3]
    exact rhs_mem_symbolOccurrences hp3 hY
  have first3 : ∀ t, t ∈ (buildPredictSetOne g3.st p3).rhs.firstSet →
      (gc.st.mem t).isTerminal = true ∧ t ∈ rhsOccurrences gc.pl := by
    intro t ht
    rw [mem_buildPredictSetOne_firstSet, h.inv3.only.inFirstOf] at ht
    exact h.inFirstOf_rhs_terminal hI hC hrhs ht
  rw [hl'] at ht
  rcases ht with ht | ht | ht | ht
  · obtain ⟨h1, h2⟩ := (h.final_first hlt t).1 ht
    obtain ⟨k1, k2⟩ := h.first_rhs_terminal hI hC hlhsocc h1
    exact ⟨k1, k2, h2 hlhs⟩
  · obtain ⟨h1, h2⟩ := (h.final_follow hlt t).1 ht
    obtain ⟨k1, k2⟩ := h.follow_rhs_terminal hI hFo hC (List.mem_append_right _ hlhsocc) h1
    exact ⟨k1, k2, h2 hlhs⟩
  · obtain ⟨h1, h2⟩ := (hf t).1 ht
    obtain ⟨k1, k2⟩ := first3 t h1
    exact ⟨k1, k2, h2⟩
  · obtain ⟨h1, h2⟩ := (hpr t).1 ht
    rcases (mem_buildPredictSetOne_predictSet g3.st p3 t).1 h1 with h3 | ⟨-, h3⟩
    · obtain ⟨k1, k2⟩ := first3 t h3
      exact ⟨k1, k2, h2⟩
    · obtain ⟨k1, k2⟩ :=
        h.follow_rhs_terminal hI hFo hC (List.mem_append_right _ hlhsocc) h3
      exact ⟨k1, k2, h2⟩

/-- In the state after `parse` such an element is of terminal kind, not the epsilon
terminal, and has a column. -/
theorem Trace.final_column {gc g1 g2 g3 : GrammarContext} (h : Trace gc g1 g2 g3)
    (hA : gc.Allocated) (hC : gc.Classified) {t : SymbolPtr} (ht : RhsTerminal gc g3 t) :
    ((removeAllEpsilon (buildPredictSet g3)).st.mem t).isTerminal = true ∧
    ((removeAllEpsilon (buildPredictSet g3)).st.mem t).isTerminalEpsilon = false ∧
    t ∈ columnTerminals (removeAllEpsilon (buildPredictSet g3)).st
      (removeAllEpsilon (buildPredictSet g3)).pl := by
  have hsym : t ∈ gc.symbols := List.mem_append_right _ (rhsOccurrences_subset ht.occurs)
  have hty := (h.final_kind_flag (hA t hsym)).2
  have h1 : ((removeAllEpsilon (buildPredictSet g3)).st.mem t).isTerminal = true := by
    simp only [Symbol.isTerminal, hty]
    exact ht.kind
  have h2 : ((removeAllEpsilon (buildPredictSet g3)).st.mem t).isTerminalEpsilon = false := by
    simp only [Symbol.isTerminalEpsilon, hty]
    exact h.not_epsilon_of_ne hC hsym ht.kept
  refine ⟨h1, h2, mem_columnTerminals.2 ⟨?_, (isColumn_iff _ t).2 ⟨h1, h2⟩⟩⟩
  rw [h.final_rhsOccurrences]
  exact ht.occurs

/-- Claim C11: after `parse` on a classified grammar context whose FOLLOW sets are empty at
entry and whose productions do not mention the alien symbol, every element of the FIRST set
and of the FOLLOW set of a left-hand side, and of the FIRST set and the PREDICT set of a
production, is of terminal kind, is not the epsilon terminal and occurs in a right-hand
side; it is not the alien symbol, and `buildTerminlMappingId` has given it an id that is
not 0. -/
theorem sets_hold_rhs_terminals (gc : GrammarContext) (hA : gc.Allocated) (hI : gc.Interned)
    (hFo : gc.FollowClear) (hC : gc.Classified)
    (hal : gc.st.alien_ ∉ symbolOccurrences gc.pl) :
    ∃ g, Parsed gc g ∧ ∀ p ∈ g.pl, ∀ t,
      (t ∈ (g.st.mem p.lhs.symbol).firstSet ∨ t ∈ (g.st.mem p.lhs.symbol).followSet ∨
        t ∈ p.rhs.firstSet ∨ t ∈ p.rhs.predictSet) →
      (g.st.mem t).isTerminal = true ∧ (g.st.mem t).isTerminalEpsilon = false ∧
      (∃ q ∈ g.pl, t ∈ q.rhs.symbolList) ∧ t ≠ g.st.alien_ ∧
      (mapIndex idLt (buildTerminlMappingId g.st g.pl) t).1 ≠ 0 := by
  obtain ⟨g1, g2, g3, h⟩ := trace_exists gc
  refine ⟨_, h.parsed, ?_⟩
  intro p hp t ht
  have hk := h.final_sets hA hI hFo hC hp ht
  obtain ⟨h1, h2, h3⟩ := h.final_column hA hC hk
  refine ⟨h1, h2, mem_rhsOccurrences.1 (mem_columnTerminals.1 h3).1, ?_, ?_⟩
  · rw [final_alien, h.alien3]
    intro hc
    exact hal (hc ▸ rhsOccurrences_subset hk.occurs)
  · rw [mapIndex_fst]
    intro hc
    exact ((buildTerminlMappingId_numbers _ _).mapAt_eq_zero t).1 hc (mem_columnOrder.2 h3)

theorem sets_hold_rhs_terminals_witness :
    grammarS1.Allocated ∧ grammarS1.Interned ∧ grammarS1.FollowClear ∧ grammarS1.Classified ∧
    grammarS1.st.alien_ ∉ symbolOccurrences grammarS1.pl ∧
    ∃ g, Parsed grammarS1 g ∧ ∀ p ∈ g.pl, ∀ t,
      (t ∈ (g.st.mem p.lhs.symbol).firstSet ∨ t ∈ (g.st.mem p.lhs.symbol).followSet ∨
        t ∈ p.rhs.firstSet ∨ t ∈ p.rhs.predictSet) →
      (g.st.mem t).isTerminal = true ∧ (g.st.mem t).isTerminalEpsilon = false ∧
      (∃ q ∈ g.pl, t ∈ q.rhs.symbolList) ∧ t ≠ g.st.alien_ ∧
      (mapIndex idLt (buildTerminlMappingId g.st g.pl) t).1 ≠ 0 :=
  ⟨by decide, by decide, by decide, by decide, by decide,
    sets_hold_rhs_terminals grammarS1 (by decide) (by decide) (by decide) (by decide)
      (by decide)⟩

/-! ## Conflicts and cells -/

theorem two_le_length_of_mem {s : SymbolSet} {a b : SymbolPtr} (ha : a ∈ s) (hb : b ∈ s)
    (hab : a ≠ b) : 2 ≤ s.elems.length := by
  have ha' : a ∈ s.elems := ha
  have hb' : b ∈ s.elems := hb
  rcases hs : s.elems with _ | ⟨x, _ | ⟨y, rest⟩⟩
  · rw [hs] at ha'
    cases ha'
  · rw [hs] at ha' hb'
    rw [List.mem_singleton] at ha' hb'
    exact absurd (ha'.trans hb'.symm) hab
  · simp

theorem exists_two_of_length {s : SymbolSet} (h : 2 ≤ s.elems.length) :
    ∃ a b, a ∈ s ∧ b ∈ s ∧ a ≠ b := by
  have hsorted := s.sorted
  rcases hs : s.elems with _ | ⟨x, _ | ⟨y, rest⟩⟩
  · rw [hs] at h
    simp at h
  · rw [hs] at h
    simp at h
  · rw [hs] at hsorted
    have hxy : x < y := List.rel_of_pairwise_cons hsorted (List.mem_cons_self _ _)
    refine ⟨x, y, ?_, ?_, Nat.ne_of_lt hxy⟩
    · show x ∈ s.elems
      rw [hs]
      simp
    · show y ∈ s.elems
      rw [hs]
      simp

theorem mem_enumFrom_one {pl : ProductionList} {e : Nat × Production}
    (he : e ∈ pl.enumFrom 1) :
    ∃ i, ∃ hi : i < pl.length, e.1 = i + 1 ∧ e.2 = pl[i] := by
  have h2 := (List.mk_mem_enumFrom_iff_le_and_getElem?_sub (x := e.2) (i := e.1)).1 he
  obtain ⟨hi, hp⟩ := List.getElem?_eq_some_iff.1 h2.2
  exact ⟨e.1 - 1, hi, by omega, hp.symm⟩

theorem enumFrom_one_mem {pl : ProductionList} {i : Nat} (hi : i < pl.length) :
    (i + 1, pl[i]) ∈ pl.enumFrom 1 := by
  rw [List.mk_mem_enumFrom_iff_le_and_getElem?_sub]
  refine ⟨by omega, ?_⟩
  rw [Nat.add_sub_cancel]
  exact List.getElem?_eq_getElem hi

/-- Two productions with the same left-hand side and a common PREDICT element put their
positions into one cell. -/
theorem cell_of_conflict (g : GrammarContext) {i j : Nat} (hi : i < g.pl.length)
    (hj : j < g.pl.length) (hij : i ≠ j) (hl : g.pl[i].lhs.symbol = g.pl[j].lhs.symbol)
    {t : SymbolPtr} (h1 : t ∈ g.pl[i].rhs.predictSet) (h2 : t ∈ g.pl[j].rhs.predictSet) :
    2 ≤ (cellAt g (rowId g g.pl[i].lhs.symbol, columnId g t)).elems.length := by
  refine two_le_length_of_mem (a := i + 1) (b := j + 1) ?_ ?_
    (fun hc => hij (Nat.succ_injective hc))
  · rw [mem_cellAt]
    exact ⟨_, enumFrom_one_mem hi, rfl, t, h1, rfl⟩
  · rw [mem_cellAt]
    exact ⟨_, enumFrom_one_mem hj, rfl, t, h2, by rw [hl]⟩

/-- A cell with two production ids comes from two productions with the same left-hand side
and a common PREDICT element, if every PREDICT element has a column. -/
theorem conflict_of_cell (g : GrammarContext)
    (hcol : ∀ t ∈ predictOccurrences g.pl, t ∈ columnTerminals g.st g.pl) {c : CellId}
    (hc : 2 ≤ (cellAt g c).elems.length) :
    ∃ (i j : Nat) (hi : i < g.pl.length) (hj : j < g.pl.length), i ≠ j ∧
      g.pl[i].lhs.symbol = g.pl[j].lhs.symbol ∧
      ∃ t, t ∈ g.pl[i].rhs.predictSet ∧ t ∈ g.pl[j].rhs.predictSet := by
  obtain ⟨a, b, ha, hb, hab⟩ := exists_two_of_length hc
  rw [mem_cellAt] at ha hb
  obtain ⟨e1, he1, hn1, t1, ht1, hc1⟩ := ha
  obtain ⟨e2, he2, hn2, t2, ht2, hc2⟩ := hb
  obtain ⟨i, hi, hi1, hi2⟩ := mem_enumFrom_one he1
  obtain ⟨j, hj, hj1, hj2⟩ := mem_enumFrom_one he2
  rw [hc1] at hc2
  have hrow : rowId g e1.2.lhs.symbol = rowId g e2.2.lhs.symbol := (Prod.mk.inj hc2).1
  have hcl : columnId g t1 = columnId g t2 := (Prod.mk.inj hc2).2
  have hmem1 : e1.2 ∈ g.pl := by rw [hi2]; exact List.getElem_mem _
  have el : e1.2.lhs.symbol = e2.2.lhs.symbol :=
    rowId_inj g (List.mem_map.2 ⟨e1.2, hmem1, rfl⟩) hrow
  have et : t1 = t2 :=
    columnId_inj g (hcol t1 (mem_predictOccurrences.2 ⟨e1.2, hmem1, ht1⟩)) hcl
  refine ⟨i, j, hi, hj, ?_, ?_, t1, ?_, ?_⟩
  · intro hc
    apply hab
    rw [hn1, hn2, hi1, hj1, hc]
  · rw [← hi2, ← hj2]
    exact el
  · rw [← hi2]
    exact ht1
  · rw [← hj2, et]
    exact ht2

/-- Claim C13: after `parse` on a classified grammar context whose FOLLOW sets are empty at
entry, `isValidLL1` returns false exactly if some cell of the LL(1) table holds two or more
production ids. -/
theorem isValidLL1_false_iff_crowded_cell (gc : GrammarContext) (hA : gc.Allocated)
    (hI : gc.Interned) (hFo : gc.FollowClear) (hC : gc.Classified) :
    ∃ g, Parsed gc g ∧
      ((LL1Analyzer.mk (some g) true).isValidLL1 = false ↔
        ∃ c, 2 ≤ (mapIndex cellLt (buildLL1Table g).cellIdMappingProductionIdSet
          c).1.elems.length) := by
  obtain ⟨g1, g2, g3, h⟩ := trace_exists gc
  refine ⟨_, h.parsed, ?_⟩
  have hcol : ∀ t ∈ predictOccurrences (removeAllEpsilon (buildPredictSet g3)).pl,
      t ∈ columnTerminals (removeAllEpsilon (buildPredictSet g3)).st
        (removeAllEpsilon (buildPredictSet g3)).pl := by
    intro t ht
    obtain ⟨p, hp, htp⟩ := mem_predictOccurrences.1 ht
    exact (h.final_column hA hC
      (h.final_sets hA hI hFo hC hp (Or.inr (Or.inr (Or.inr htp))))).2.2
  rw [← Bool.not_eq_true, isValidLL1_iff]
  constructor
  · intro hno
    by_contra hcell
    apply hno
    intro i j hi hj hij hl
    rw [Finset.disjoint_left]
    intro t h1 h2
    rw [SymbolSet.mem_toFinset] at h1 h2
    exact hcell ⟨_, cell_of_conflict _ hi hj hij hl h1 h2⟩
  · rintro ⟨c, hc⟩ hall
    obtain ⟨i, j, hi, hj, hij, hl, t, h1, h2⟩ := conflict_of_cell _ hcol hc
    have hd := hall i j hi hj hij hl
    rw [Finset.disjoint_left] at hd
    exact hd (SymbolSet.mem_toFinset.2 h1) (SymbolSet.mem_toFinset.2 h2)

theorem isValidLL1_false_iff_crowded_cell_witness :
    grammarS3.Allocated ∧ grammarS3.Interned ∧ grammarS3.FollowClear ∧ grammarS3.Classified ∧
    ∃ g, Parsed grammarS3 g ∧
      ((LL1Analyzer.mk (some g) true).isValidLL1 = false ↔
        ∃ c, 2 ≤ (mapIndex cellLt (buildLL1Table g).cellIdMappingProductionIdSet
          c).1.elems.length) :=
  ⟨by decide, by decide, by decide, by decide,
    isValidLL1_false_iff_crowded_cell grammarS3 (by decide) (by decide) (by decide)
      (by decide)⟩

/-! ## The column with the id 0 -/

theorem buildCellVisit_foldl_lookup (nt : SymbolPtr) (productionId : Nat)
    (elems : List SymbolPtr) (s : CellBuild) (x : SymbolPtr) :
    (elems.foldl (buildCellVisit nt productionId) s).terminalMappingId.lookup x =
      if x ∈ elems then some (mapAt s.terminalMappingId x)
      else s.terminalMappingId.lookup x := by
  induction elems generalizing s with
  | nil => simp
  | cons t rest ih =>
    rw [List.foldl_cons, ih, (buildCellVisit_spec nt productionId s t).1.mapAt_eq]
    have h1 : (buildCellVisit nt productionId s t).terminalMappingId.lookup x
        = if x = t then some (mapAt s.terminalMappingId t)
          else s.terminalMappingId.lookup x :=
      lookup_mapIndex idLt idLt_irrefl idLt_total _ _ _
    rw [h1]
    by_cases hr : x ∈ rest
    · simp [hr]
    · by_cases hx : x = t
      · simp [hx]
      · simp [hr, hx]

theorem buildCell_foldl_lookup (ps : ProductionList) (s : CellBuild) (productionId : Nat)
    (x : SymbolPtr) :
    (ps.foldl
        (fun (s : CellBuild × Nat) p =>
          (p.rhs.predictSet.elems.foldl (buildCellVisit p.lhs.symbol s.2) s.1, s.2 + 1))
        (s, productionId)).1.terminalMappingId.lookup x =
      if x ∈ predictOccurrences ps then some (mapAt s.terminalMappingId x)
      else s.terminalMappingId.lookup x := by
  induction ps generalizing s productionId with
  | nil => simp [predictOccurrences]
  | cons p ps ih =>
    rw [List.foldl_cons, ih,
      (buildCellVisit_foldl p.lhs.symbol productionId p.rhs.predictSet.elems s).1.mapAt_eq,
      buildCellVisit_foldl_lookup]
    have hmem : x ∈ predictOccurrences (p :: ps) ↔
        x ∈ p.rhs.predictSet.elems ∨ x ∈ predictOccurrences ps := by
      unfold predictOccurrences
      rw [List.map_cons, List.flatten_cons, List.mem_append]
    by_cases h1 : x ∈ predictOccurrences ps
    · rw [if_pos h1, if_pos (hmem.2 (Or.inr h1))]
    · by_cases h2 : x ∈ p.rhs.predictSet.elems
      · rw [if_neg h1, if_pos h2, if_pos (hmem.2 (Or.inl h2))]
      · rw [if_neg h1, if_neg h2, if_neg (fun hc => (hmem.1 hc).elim h2 h1)]

/-- The lookups of the map of column ids when the table has been built. -/
theorem lookup_terminalMappingId (gc : GrammarContext) (x : SymbolPtr) :
    (buildLL1Table gc).terminalMappingId.lookup x =
      if x ∈ predictOccurrences gc.pl then some (columnId gc x)
      else (buildTerminlMappingId gc.st gc.pl).lookup x := by
  rw [columnId_eq]
  exact buildCell_foldl_lookup gc.pl
    { cmp := [], terminalMappingId := buildTerminlMappingId gc.st gc.pl,
      nonterminalMappingId := buildNonterminalMappingId gc.pl } 1 x

theorem columnId_eq_zero (gc : GrammarContext) (t : SymbolPtr) :
    columnId gc t = 0 ↔ t ∉ columnTerminals gc.st gc.pl := by
  rw [columnId_eq, (buildTerminlMappingId_numbers gc.st gc.pl).mapAt_eq_zero, mem_columnOrder]

/-- If no PREDICT set has a symbol without a column, the table has no column with id 0. -/
theorem zeroColumn_eq_nil (gc : GrammarContext)
    (h : ∀ t ∈ predictOccurrences gc.pl, t ∈ columnTerminals gc.st gc.pl) :
    zeroColumn (buildLL1Table gc).terminalMappingId = [] := by
  rw [(buildLL1Table_columns_of_predict gc h).1]
  exact (buildTerminlMappingId_numbers gc.st gc.pl).zeroColumn_eq

/-- If the PREDICT sets have one symbol without a column, the column with the id 0 is its
column. -/
theorem zeroColumn_eq_singleton (gc : GrammarContext) {z : SymbolPtr}
    (hz : z ∈ predictOccurrences gc.pl) (hzc : z ∉ columnTerminals gc.st gc.pl)
    (huniq : ∀ t ∈ predictOccurrences gc.pl, t ∉ columnTerminals gc.st gc.pl → t = z) :
    zeroColumn (buildLL1Table gc).terminalMappingId = [(0, z)] := by
  have hsorted : KeySorted (buildLL1Table gc).terminalMappingId :=
    (buildLL1Table_terminalMappingId gc).1.1
  have hentry : (z, 0) ∈ (buildLL1Table gc).terminalMappingId := by
    rw [mem_iff_lookup hsorted, lookup_terminalMappingId, if_pos hz,
      (columnId_eq_zero gc z).2 hzc]
  have hall : ∀ e ∈ (buildLL1Table gc).terminalMappingId, e.2 = 0 → e.1 = z := by
    intro e he h0
    have hl : (buildLL1Table gc).terminalMappingId.lookup e.1 = some 0 := by
      rw [← mem_iff_lookup hsorted, ← h0]
      exact he
    rw [lookup_terminalMappingId] at hl
    by_cases hp : e.1 ∈ predictOccurrences gc.pl
    · rw [if_pos hp] at hl
      exact huniq e.1 hp ((columnId_eq_zero gc e.1).1 (Option.some.inj hl))
    · rw [if_neg hp] at hl
      obtain ⟨i, hi, -⟩ := ((buildTerminlMappingId_numbers gc.st gc.pl).2 _ _).1 hl
      omega
  unfold zeroColumn
  cases hg : ((buildLL1Table gc).terminalMappingId.filter
      (fun e => decide (e.2 = 0))).getLast? with
  | none =>
    rw [List.getLast?_eq_none_iff, List.filter_eq_nil_iff] at hg
    exact absurd (by simp) (hg _ hentry)
  | some e =>
    have hm := List.mem_of_getLast?_eq_some hg
    rw [List.mem_filter] at hm
    have h0 : e.2 = 0 := by simpa using hm.2
    simp only [Option.toList_some, List.map_cons, List.map_nil]
    rw [hall e hm.1 h0]

/-! ## The table does not depend on the addresses of the symbols -/

/-- The symbols that the LL(1) table of a production list depends on: those that the
productions mention and those of the PREDICT sets. -/
def tableSymbols (pl : ProductionList) : List SymbolPtr :=
  symbolOccurrences pl ++ predictOccurrences pl

/-- The grammar context `g2` is the grammar context `g1` with its symbols at other addresses:
`f` takes the address of a symbol of `g1` to the address of the symbol of `g2` with the same
name and kind, different symbols to different addresses, and the productions of `g2` are
those of `g1` with `f` applied to every symbol, also in the PREDICT sets. -/
structure Renames (f : SymbolPtr → SymbolPtr) (g1 g2 : GrammarContext) : Prop where
  injective : ∀ x ∈ tableSymbols g1.pl, ∀ y ∈ tableSymbols g1.pl, f x = f y → x = y
  productions : List.Forall₂
    (fun p q => q.lhs.symbol = f p.lhs.symbol ∧ q.rhs.symbolList = p.rhs.symbolList.map f ∧
      (∀ t ∈ p.rhs.predictSet.elems, f t ∈ q.rhs.predictSet) ∧
      (∀ u ∈ q.rhs.predictSet.elems, ∃ t ∈ p.rhs.predictSet.elems, f t = u)) g1.pl g2.pl
  names : ∀ x ∈ tableSymbols g1.pl, (g2.st.mem (f x)).name = (g1.st.mem x).name
  kinds : ∀ x ∈ tableSymbols g1.pl, (g2.st.mem (f x)).type = (g1.st.mem x).type

theorem Renames.productions_iff {f : SymbolPtr → SymbolPtr} {g1 g2 : GrammarContext}
    (h : Renames f g1 g2) :
    List.Forall₂
      (fun p q => q.lhs.symbol = f p.lhs.symbol ∧ q.rhs.symbolList = p.rhs.symbolList.map f ∧
        ∀ u, u ∈ q.rhs.predictSet ↔ ∃ t ∈ p.rhs.predictSet, f t = u) g1.pl g2.pl := by
  refine List.Forall₂.imp ?_ h.productions
  rintro p q ⟨h1, h2, h3, h4⟩
  refine ⟨h1, h2, fun u => ⟨fun hu => h4 u hu, ?_⟩⟩
  rintro ⟨t, ht, rfl⟩
  exact h3 t ht

theorem lhs_mem_tableSymbols {pl : ProductionList} {A : SymbolPtr}
    (h : A ∈ lhsOccurrences pl) : A ∈ tableSymbols pl := by
  obtain ⟨p, hp, rfl⟩ := List.mem_map.1 h
  exact List.mem_append_left _ (lhs_mem_symbolOccurrences hp)

theorem rhs_mem_tableSymbols {pl : ProductionList} {t : SymbolPtr}
    (h : t ∈ rhsOccurrences pl) : t ∈ tableSymbols pl :=
  List.mem_append_left _ (rhsOccurrences_subset h)

theorem predict_mem_tableSymbols {pl : ProductionList} {t : SymbolPtr}
    (h : t ∈ predictOccurrences pl) : t ∈ tableSymbols pl :=
  List.mem_append_right _ h

theorem column_mem_tableSymbols {st : SymbolTable} {pl : ProductionList} {t : SymbolPtr}
    (h : t ∈ columnTerminals st pl) : t ∈ tableSymbols pl :=
  rhs_mem_tableSymbols (mem_columnTerminals.1 h).1

theorem Renames.lhsOccurrences_eq {f : SymbolPtr → SymbolPtr} {g1 g2 : GrammarContext}
    (h : Renames f g1 g2) : lhsOccurrences g2.pl = (lhsOccurrences g1.pl).map f := by
  unfold lhsOccurrences
  rw [List.map_map]
  exact forall₂_map_eq _ _ (fun _ _ hab => hab.1) h.productions

theorem Renames.rhsOccurrences_eq {f : SymbolPtr → SymbolPtr} {g1 g2 : GrammarContext}
    (h : Renames f g1 g2) : rhsOccurrences g2.pl = (rhsOccurrences g1.pl).map f := by
  unfold rhsOccurrences
  rw [List.map_flatten, List.map_map]
  congr 1
  exact forall₂_map_eq _ _ (fun _ _ hab => hab.2.1) h.productions

theorem Renames.mem_predict_image {f : SymbolPtr → SymbolPtr} {g1 g2 : GrammarContext}
    (h : Renames f g1 g2) (u : SymbolPtr) :
    u ∈ predictOccurrences g2.pl ↔ ∃ t ∈ predictOccurrences g1.pl, f t = u := by
  rw [csa.mem_predictOccurrences]
  constructor
  · rintro ⟨q, hq, hu⟩
    obtain ⟨p, hp, -, -, hpq⟩ := forall₂_mem_right h.productions_iff q hq
    obtain ⟨t, ht, hft⟩ := (hpq u).1 hu
    exact ⟨t, csa.mem_predictOccurrences.2 ⟨p, hp, ht⟩, hft⟩
  · rintro ⟨t, ht, hft⟩
    obtain ⟨p, hp, htp⟩ := csa.mem_predictOccurrences.1 ht
    obtain ⟨q, hq, -, -, hpq⟩ := forall₂_mem_left h.productions_iff p hp
    exact ⟨q, hq, (hpq u).2 ⟨t, htp, hft⟩⟩

theorem Renames.isColumn_eq {f : SymbolPtr → SymbolPtr} {g1 g2 : GrammarContext}
    (h : Renames f g1 g2) {x : SymbolPtr} (hx : x ∈ tableSymbols g1.pl) :
    isColumn g2.st (f x) = isColumn g1.st x := by
  simp only [isColumn, Symbol.isNonterminal, Symbol.isTerminal, Symbol.isTerminalEpsilon,
    h.kinds x hx]

theorem Renames.isTerminalEof_eq {f : SymbolPtr → SymbolPtr} {g1 g2 : GrammarContext}
    (h : Renames f g1 g2) {x : SymbolPtr} (hx : x ∈ tableSymbols g1.pl) :
    (g2.st.mem (f x)).isTerminalEof = (g1.st.mem x).isTerminalEof := by
  simp only [Symbol.isTerminalEof, h.kinds x hx]

theorem filter_map_of_eq {f : SymbolPtr → SymbolPtr} {p q : SymbolPtr → Bool}
    (l : List SymbolPtr) (h : ∀ x ∈ l, q (f x) = p x) :
    (l.map f).filter q = (l.filter p).map f := by
  induction l with
  | nil => rfl
  | cons x xs ih =>
    have hx := h x (List.mem_cons_self _ _)
    have ih' := ih (fun y hy => h y (List.mem_cons_of_mem _ hy))
    rw [List.map_cons]
    by_cases hp : p x = true
    · rw [List.filter_cons_of_pos (by rw [hx]; exact hp), List.filter_cons_of_pos hp,
        List.map_cons, ih']
    · rw [List.filter_cons_of_neg (by rw [hx]; exact hp), List.filter_cons_of_neg hp, ih']

theorem Renames.columnTerminals_eq {f : SymbolPtr → SymbolPtr} {g1 g2 : GrammarContext}
    (h : Renames f g1 g2) :
    columnTerminals g2.st g2.pl = (columnTerminals g1.st g1.pl).map f := by
  unfold columnTerminals
  rw [h.rhsOccurrences_eq,
    filter_map_of_eq (p := isColumn g1.st) _
      (fun x hx => h.isColumn_eq (rhs_mem_tableSymbols hx))]
  apply firstOccurrences_map
  intro x hx y hy
  exact h.injective x (rhs_mem_tableSymbols (List.mem_filter.1 hx).1) y
    (rhs_mem_tableSymbols (List.mem_filter.1 hy).1)

theorem Renames.eofOccurrences_eq {f : SymbolPtr → SymbolPtr} {g1 g2 : GrammarContext}
    (h : Renames f g1 g2) :
    eofOccurrences g2.st g2.pl = (eofOccurrences g1.st g1.pl).map f := by
  unfold eofOccurrences
  rw [h.rhsOccurrences_eq]
  exact filter_map_of_eq (p := fun t => (g1.st.mem t).isTerminalEof) _
    (fun x hx => h.isTerminalEof_eq (rhs_mem_tableSymbols hx))

theorem Renames.rowOrder_eq {f : SymbolPtr → SymbolPtr} {g1 g2 : GrammarContext}
    (h : Renames f g1 g2) : rowOrder g2.pl = (rowOrder g1.pl).map f := by
  unfold rowOrder
  rw [h.lhsOccurrences_eq]
  apply firstOccurrences_map
  intro x hx y hy
  exact h.injective x (lhs_mem_tableSymbols hx) y (lhs_mem_tableSymbols hy)

theorem Renames.columnOrder_eq {f : SymbolPtr → SymbolPtr} {g1 g2 : GrammarContext}
    (h : Renames f g1 g2) :
    columnOrder g2.st g2.pl = (columnOrder g1.st g1.pl).map f := by
  unfold columnOrder
  rw [h.columnTerminals_eq, h.eofOccurrences_eq, List.getLast?_map, List.getLast?_map]
  cases hl : (columnTerminals g1.st g1.pl).getLast? with
  | none => rfl
  | some a =>
    cases he : (eofOccurrences g1.st g1.pl).getLast? with
    | none => rfl
    | some b =>
      have ha : a ∈ tableSymbols g1.pl :=
        column_mem_tableSymbols (List.mem_of_getLast?_eq_some hl)
      have hb : b ∈ tableSymbols g1.pl :=
        column_mem_tableSymbols (eof_mem_columnTerminals he)
      simp only [Option.map_some']
      by_cases hab : a = b
      · simp only [hab, ne_eq, not_true_eq_false, if_false]
      · have hfab : f a ≠ f b := fun hc => hab (h.injective a ha b hb hc)
        simp only [ne_eq, hab, hfab, not_false_eq_true, if_true, List.map_map]
        apply List.map_congr_left
        intro x hx
        have hxs : x ∈ tableSymbols g1.pl := column_mem_tableSymbols hx
        simp only [Function.comp, exchange]
        by_cases h1 : x = a
        · simp [h1]
        · have h1' : f x ≠ f a := fun hc => h1 (h.injective x hxs a ha hc)
          by_cases h2 : x = b
          · simp [h2, Ne.symm hfab, Ne.symm hab]
          · have h2' : f x ≠ f b := fun hc => h2 (h.injective x hxs b hb hc)
            simp [h1, h2, h1', h2']

/-- Two maps that number a list and its image under a renaming give a symbol and its image
the same id. -/
theorem Numbers.mapAt_map {m1 m2 : SymbolMappingId} {C : List SymbolPtr}
    {f : SymbolPtr → SymbolPtr} (h1 : Numbers m1 C) (h2 : Numbers m2 (C.map f))
    {x : SymbolPtr} (hinj : ∀ c ∈ C, f x = f c → x = c) : mapAt m2 (f x) = mapAt m1 x := by
  rcases hm : mapAt m1 x with _ | i
  · rw [h1.mapAt_eq_zero] at hm
    rw [h2.mapAt_eq_zero]
    intro hc
    obtain ⟨c, hcC, hfc⟩ := List.mem_map.1 hc
    exact hm (by rw [hinj c hcC hfc.symm]; exact hcC)
  · rw [h1.mapAt_eq_succ] at hm
    rw [h2.mapAt_eq_succ, List.getElem?_map, hm]
    rfl

theorem Renames.rowId_image {f : SymbolPtr → SymbolPtr} {g1 g2 : GrammarContext}
    (h : Renames f g1 g2) {A : SymbolPtr} (hA : A ∈ tableSymbols g1.pl) :
    rowId g2 (f A) = rowId g1 A := by
  rw [csa.rowId_eq, csa.rowId_eq]
  have h2 := buildNonterminalMappingId_numbers g2.pl
  have e : firstOccurrences (g2.pl.map (fun p => p.lhs.symbol)) = (rowOrder g1.pl).map f :=
    h.rowOrder_eq
  rw [e] at h2
  refine (buildNonterminalMappingId_numbers g1.pl).mapAt_map h2 ?_
  intro c hc
  exact h.injective A hA c (lhs_mem_tableSymbols ((mem_firstOccurrences _ c).1 hc))

theorem Renames.columnId_image {f : SymbolPtr → SymbolPtr} {g1 g2 : GrammarContext}
    (h : Renames f g1 g2) {t : SymbolPtr} (ht : t ∈ tableSymbols g1.pl) :
    columnId g2 (f t) = columnId g1 t := by
  rw [csa.columnId_eq, csa.columnId_eq]
  have h2 := buildTerminlMappingId_numbers g2.st g2.pl
  rw [h.columnOrder_eq] at h2
  refine (buildTerminlMappingId_numbers g1.st g1.pl).mapAt_map h2 ?_
  intro c hc
  exact h.injective t ht c (column_mem_tableSymbols (mem_columnOrder.1 hc))

theorem forall₂_enumFrom {α β : Type} {R : α → β → Prop} {l1 : List α} {l2 : List β}
    (h : List.Forall₂ R l1 l2) (n : Nat) :
    List.Forall₂ (fun a b => a.1 = b.1 ∧ R a.2 b.2) (l1.enumFrom n) (l2.enumFrom n) := by
  induction h generalizing n with
  | nil => exact List.Forall₂.nil
  | cons hab _ ih => exact List.Forall₂.cons ⟨rfl, hab⟩ (ih (n + 1))

/-- The cells of the two tables hold the same production ids. -/
theorem Renames.cellAt_eq {f : SymbolPtr → SymbolPtr} {g1 g2 : GrammarContext}
    (h : Renames f g1 g2) (c : CellId) : cellAt g2 c = cellAt g1 c := by
  apply SymbolSet.ext
  intro n
  rw [mem_cellAt, mem_cellAt]
  have hen := forall₂_enumFrom h.productions_iff 1
  constructor
  · rintro ⟨e2, he2, hn, u, hu, hc⟩
    obtain ⟨e1, he1, h1, hl, -, hpr⟩ := forall₂_mem_right hen e2 he2
    obtain ⟨t, ht, hft⟩ := (hpr u).1 hu
    have hp1 : e1.2 ∈ g1.pl := by
      obtain ⟨i, hi, -, hi2⟩ := mem_enumFrom_one he1
      rw [hi2]
      exact List.getElem_mem _
    refine ⟨e1, he1, by rw [h1]; exact hn, t, ht, ?_⟩
    rw [hc, hl, ← hft, h.rowId_image (List.mem_append_left _ (lhs_mem_symbolOccurrences hp1)),
      h.columnId_image (predict_mem_tableSymbols (csa.mem_predictOccurrences.2 ⟨e1.2, hp1, ht⟩))]
  · rintro ⟨e1, he1, hn, t, ht, hc⟩
    obtain ⟨e2, he2, h1, hl, -, hpr⟩ := forall₂_mem_left hen e1 he1
    have hp1 : e1.2 ∈ g1.pl := by
      obtain ⟨i, hi, -, hi2⟩ := mem_enumFrom_one he1
      rw [hi2]
      exact List.getElem_mem _
    refine ⟨e2, he2, by rw [← h1]; exact hn, f t, (hpr (f t)).2 ⟨t, ht, rfl⟩, ?_⟩
    rw [hc, hl, h.rowId_image (List.mem_append_left _ (lhs_mem_symbolOccurrences hp1)),
      h.columnId_image (predict_mem_tableSymbols (csa.mem_predictOccurrences.2 ⟨e1.2, hp1, ht⟩))]

theorem Renames.idMappingNonterminal_eq {f : SymbolPtr → SymbolPtr} {g1 g2 : GrammarContext}
    (h : Renames f g1 g2) :
    (buildLL1Table g2).idMappingNonterminal
      = (buildLL1Table g1).idMappingNonterminal.map (Prod.map id f) := by
  rw [buildLL1Table_rows, buildLL1Table_rows, h.rowOrder_eq, List.enumFrom_map]

theorem Renames.not_mem_columnTerminals {f : SymbolPtr → SymbolPtr} {g1 g2 : GrammarContext}
    (h : Renames f g1 g2) {t : SymbolPtr} (ht : t ∈ tableSymbols g1.pl) :
    f t ∈ columnTerminals g2.st g2.pl ↔ t ∈ columnTerminals g1.st g1.pl := by
  rw [h.columnTerminals_eq]
  constructor
  · intro hc
    obtain ⟨c, hcC, hfc⟩ := List.mem_map.1 hc
    rw [← h.injective c (column_mem_tableSymbols hcC) t ht hfc]
    exact hcC
  · exact List.mem_map_of_mem f

/-- The columns of the two tables correspond, if the PREDICT sets have at most one symbol
without a column. -/
theorem Renames.idMappingTerminal_eq {f : SymbolPtr → SymbolPtr} {g1 g2 : GrammarContext}
    (h : Renames f g1 g2)
    (hstray : ∀ t ∈ predictOccurrences g1.pl, ∀ u ∈ predictOccurrences g1.pl,
      t ∉ columnTerminals g1.st g1.pl → u ∉ columnTerminals g1.st g1.pl → t = u) :
    (buildLL1Table g2).idMappingTerminal
      = (buildLL1Table g1).idMappingTerminal.map (Prod.map id f) := by
  rw [buildLL1Table_columns, buildLL1Table_columns, h.columnOrder_eq, List.enumFrom_map,
    List.map_append]
  congr 1
  by_cases hall : ∀ t ∈ predictOccurrences g1.pl, t ∈ columnTerminals g1.st g1.pl
  · rw [zeroColumn_eq_nil g1 hall, zeroColumn_eq_nil g2]
    · rfl
    · intro u hu
      obtain ⟨t, ht, rfl⟩ := (h.mem_predict_image u).1 hu
      exact (h.not_mem_columnTerminals (predict_mem_tableSymbols ht)).2 (hall t ht)
  · simp only [not_forall] at hall
    obtain ⟨z, hz, hzc⟩ := hall
    rw [zeroColumn_eq_singleton g1 hz hzc (fun t ht htc => hstray t ht z hz htc hzc),
      zeroColumn_eq_singleton g2 (z := f z)]
    · rfl
    · exact (h.mem_predict_image _).2 ⟨z, hz, rfl⟩
    · exact fun hc => hzc ((h.not_mem_columnTerminals (predict_mem_tableSymbols hz)).1 hc)
    · intro u hu huc
      obtain ⟨t, ht, rfl⟩ := (h.mem_predict_image u).1 hu
      have htc : t ∉ columnTerminals g1.st g1.pl :=
        fun hc => huc ((h.not_mem_columnTerminals (predict_mem_tableSymbols ht)).2 hc)
      rw [hstray t ht z hz htc hzc]

/-- The symbols of the columns are symbols of the productions or of their PREDICT sets. -/
theorem idMappingTerminal_mem_tableSymbols (gc : GrammarContext) {c : Nat × SymbolPtr}
    (hc : c ∈ (buildLL1Table gc).idMappingTerminal) : c.2 ∈ tableSymbols gc.pl := by
  have hsorted : KeySorted (buildLL1Table gc).terminalMappingId :=
    (buildLL1Table_terminalMappingId gc).1.1
  rw [buildLL1Table_columns, List.mem_append] at hc
  rcases hc with hc | hc
  · unfold zeroColumn at hc
    obtain ⟨e, he, rfl⟩ := List.mem_map.1 hc
    have he' : e ∈ (buildLL1Table gc).terminalMappingId.filter (fun e => decide (e.2 = 0)) :=
      List.mem_of_getLast?_eq_some (by simpa using he)
    have hm := (List.mem_filter.1 he').1
    have hl : (buildLL1Table gc).terminalMappingId.lookup e.1 = some e.2 :=
      (mem_iff_lookup hsorted _ _).1 hm
    rw [lookup_terminalMappingId] at hl
    by_cases hp : e.1 ∈ predictOccurrences gc.pl
    · exact predict_mem_tableSymbols hp
    · rw [if_neg hp] at hl
      obtain ⟨i, -, hi⟩ := ((buildTerminlMappingId_numbers gc.st gc.pl).2 _ _).1 hl
      exact column_mem_tableSymbols (mem_columnOrder.1 (List.mem_iff_getElem?.2 ⟨i, hi⟩))
  · have h2 := (List.mk_mem_enumFrom_iff_le_and_getElem?_sub (x := c.2) (i := c.1)).1 hc
    exact column_mem_tableSymbols (mem_columnOrder.1 (List.mem_iff_getElem?.2 ⟨_, h2.2⟩))

theorem idMappingNonterminal_mem_tableSymbols (gc : GrammarContext) {c : Nat × SymbolPtr}
    (hc : c ∈ (buildLL1Table gc).idMappingNonterminal) : c.2 ∈ tableSymbols gc.pl := by
  rw [buildLL1Table_rows] at hc
  have h2 := (List.mk_mem_enumFrom_iff_le_and_getElem?_sub (x := c.2) (i := c.1)).1 hc
  exact lhs_mem_tableSymbols
    ((mem_firstOccurrences _ c.2).1 (List.mem_iff_getElem?.2 ⟨_, h2.2⟩))

/-- If two grammar contexts have the same productions up to the addresses of the symbols
(same names, kinds and PREDICT sets), and the PREDICT sets have at most one symbol that has
no column of its own, then the LL(1) tables of the two show the same column headers and the
same rows. -/
theorem table_of_renamed_context (f : SymbolPtr → SymbolPtr) (g1 g2 : GrammarContext)
    (h : Renames f g1 g2)
    (hstray : ∀ t ∈ predictOccurrences g1.pl, ∀ u ∈ predictOccurrences g1.pl,
      t ∉ columnTerminals g1.st g1.pl → u ∉ columnTerminals g1.st g1.pl → t = u) :
    getTerminalList g2 = getTerminalList g1 ∧ addTableRecords g2 = addTableRecords g1 := by
  have hT := h.idMappingTerminal_eq hstray
  have hN := h.idMappingNonterminal_eq
  constructor
  · unfold getTerminalList
    rw [hT, List.map_map]
    apply List.map_congr_left
    intro c hc
    exact h.names c.2 (idMappingTerminal_mem_tableSymbols g1 hc)
  · unfold addTableRecords
    rw [hT, hN, List.map_map]
    apply List.map_congr_left
    intro c hc
    simp only [Function.comp, Prod.map, id]
    rw [h.names c.2 (idMappingNonterminal_mem_tableSymbols g1 hc), List.map_map]
    congr 1
    apply List.map_congr_left
    intro d _
    exact h.cellAt_eq (c.1, d.1)

/-- After `parse` on a classified grammar context every symbol of a PREDICT set has a column
of its own in the LL(1) table. -/
theorem Trace.final_predict_column {gc g1 g2 g3 : GrammarContext} (h : Trace gc g1 g2 g3)
    (hA : gc.Allocated) (hI : gc.Interned) (hFo : gc.FollowClear) (hC : gc.Classified)
    {t : SymbolPtr} (ht : t ∈ predictOccurrences (removeAllEpsilon (buildPredictSet g3)).pl) :
    t ∈ columnTerminals (removeAllEpsilon (buildPredictSet g3)).st
      (removeAllEpsilon (buildPredictSet g3)).pl := by
  obtain ⟨p, hp, htp⟩ := csa.mem_predictOccurrences.1 ht
  exact (h.final_column hA hC
    (h.final_sets hA hI hFo hC hp (Or.inr (Or.inr (Or.inr htp))))).2.2

/-- The grammar `S -> A`, `A -> a`, `A -> b`; the symbols `S`, `A`, `a`, `b` lie at the
addresses 1, 2, 3, 4. -/
def grammarChoice : GrammarContext :=
  frontend.buildContext [("S", ["A"]), ("A", ["a"]), ("A", ["b"])]

/-- The grammar `S -> A`, `A -> a`, `A -> b` in a symbol table that has interned `b` and `a`
before the productions were read; the symbols `S`, `A`, `a`, `b` lie at the addresses 3, 4,
2, 1. -/
def grammarChoiceReordered : GrammarContext :=
  let st0 := (frontend.lexSymbol (frontend.lexSymbol SymbolTable.new "b").2 "a").2
  let r := frontend.ingest [("S", ["A"]), ("A", ["a"]), ("A", ["b"])] 0 st0
  { pl := r.1, st := frontend.classifyRest r.2.table_ r.2 }

/-- The address in `grammarChoiceReordered` of the symbol at the address `x` in
`grammarChoice`. -/
def choiceReordering (x : SymbolPtr) : SymbolPtr :=
  if x = 1 then 3 else if x = 2 then 4 else if x = 3 then 2 else if x = 4 then 1 else x

/-- Claim C17: let `g` be the grammar context that `parse` has left for a classified grammar
context with empty FOLLOW sets (the LL(1) table is built only of a context that `parse` has
left), and let `g'` have the same productions with the symbols at other addresses: same
names, kinds and PREDICT sets, the function `f` taking the address of a symbol of `g` to
that of its counterpart in `g'`.  Then the LL(1) tables of the two show the same column
headers and the same rows: the same names in the first cells and the same sets of
production ids in the other cells. -/
theorem table_independent_of_addresses (f : SymbolPtr → SymbolPtr)
    (gc g g' : GrammarContext) (hA : gc.Allocated) (hI : gc.Interned) (hFo : gc.FollowClear)
    (hC : gc.Classified) (hP : Parsed gc g) (h : Renames f g g') :
    getTerminalList g' = getTerminalList g ∧ addTableRecords g' = addTableRecords g := by
  obtain ⟨g1, g2, g3, ht⟩ := trace_exists gc
  have hg : g = removeAllEpsilon (buildPredictSet g3) := hP.unique ht.parsed
  subst hg
  apply table_of_renamed_context f _ _ h
  intro t htp u _ hn _
  exact absurd (ht.final_predict_column hA hI hFo hC htp) hn

set_option maxRecDepth 100000 in
/-- The theorem on the grammar `S -> A`, `A -> a`, `A -> b` read into two symbol tables
that hold the symbols in different orders, each analysed by `parse`: the PREDICT sets are
the same sets of names at different addresses, and the two tables have the same headers
and rows. -/
theorem table_independent_of_addresses_witness :
    grammarChoice.Allocated ∧ grammarChoice.Interned ∧ grammarChoice.FollowClear ∧
    grammarChoice.Classified ∧
    Parsed grammarChoice (parsedContext grammarChoice) ∧
    Parsed grammarChoiceReordered (parsedContext grammarChoiceReordered) ∧
    Renames choiceReordering (parsedContext grammarChoice)
      (parsedContext grammarChoiceReordered) ∧
    (parsedContext grammarChoice).pl.map (fun p => p.rhs.predictSet.elems)
      = [[3, 4], [3], [4]] ∧
    (parsedContext grammarChoiceReordered).pl.map (fun p => p.rhs.predictSet.elems)
      = [[1, 2], [2], [1]] ∧
    getTerminalList (parsedContext grammarChoice) = ["a", "b"] ∧
    getTerminalList (parsedContext grammarChoiceReordered)
      = getTerminalList (parsedContext grammarChoice) ∧
    addTableRecords (parsedContext grammarChoiceReordered)
      = addTableRecords (parsedContext grammarChoice) := by
  have hR : Renames choiceReordering (parsedContext grammarChoice)
      (parsedContext grammarChoiceReordered) :=
    ⟨by decide,
      List.Forall₂.cons (by decide)
        (List.Forall₂.cons (by decide) (List.Forall₂.cons (by decide) List.Forall₂.nil)),
      by decide, by decide⟩
  exact ⟨by decide, by decide, by decide, by decide, parsed_parsedContext _,
    parsed_parsedContext _, hR, by decide, by decide, by decide,
    table_independent_of_addresses choiceReordering grammarChoice _ _ (by decide) (by decide)
      (by decide) (by decide) (parsed_parsedContext _) hR⟩

/-! ## Right-hand sides without symbols

The functions `buildFollowSetChecked` and `parseChecked` are `buildFollowSet` and `parse`
on the grammar contexts each of whose productions has a right-hand symbol, and have no
result on the others. -/

/-- The grammar `S -> a`, `B ->`, built with `findSymbol` as a caller of the library builds
a grammar context: `S` and `B` are nonterminals, `a` is a terminal, and the second
production has no right-hand symbol. -/
def grammarEmptyRhs : GrammarContext :=
  let s := SymbolTable.new.findSymbol "S"
  let a := (s.2.setType s.1 .nonterminal).findSymbol "a"
  let b := (a.2.setType a.1 .terminal).findSymbol "B"
  { pl :=
      [{ id := 0, lhs := { symbol := s.1 },
         rhs := { symbolList := [a.1], firstSet := ∅, predictSet := ∅, isNillable := false } },
       { id := 1, lhs := { symbol := b.1 },
         rhs := { symbolList := [], firstSet := ∅, predictSet := ∅, isNillable := false } }]
    st := b.2.setType b.1 .nonterminal }

theorem buildFollowSetForChecked_some (ps : ProductionList) (acc : SymbolTable × Bool)
    (h : ∀ p ∈ ps, p.rhs.symbolList ≠ []) :
    buildFollowSetForChecked ps acc = some (buildFollowSetFor ps acc) := by
  induction ps generalizing acc with
  | nil => rfl
  | cons p ps ih =>
    rw [buildFollowSetForChecked, buildFollowSetFor]
    have hp := h p (List.mem_cons_self _ _)
    cases hl : p.rhs.symbolList with
    | nil => exact absurd hl hp
    | cons x xs =>
      simp only [buildFollowSetForwardChecked]
      exact ih _ (fun q hq => h q (List.mem_cons_of_mem _ hq))

theorem buildFollowSetForChecked_none (ps : ProductionList) (acc : SymbolTable × Bool)
    (h : ∃ p ∈ ps, p.rhs.symbolList = []) : buildFollowSetForChecked ps acc = none := by
  induction ps generalizing acc with
  | nil =>
    obtain ⟨p, hp, -⟩ := h
    cases hp
  | cons q qs ih =>
    rw [buildFollowSetForChecked]
    cases hl : q.rhs.symbolList with
    | nil => rfl
    | cons x xs =>
      simp only [buildFollowSetForwardChecked]
      apply ih
      obtain ⟨p, hp, he⟩ := h
      rcases List.mem_cons.1 hp with hpq | hpq
      · rw [hpq, hl] at he
        cases he
      · exact ⟨p, hpq, he⟩

theorem doWhileChecked_eq_doWhile {σ : Type} {bodyC : σ → Option (σ × Bool)}
    {body : σ → σ × Bool} (h : ∀ s, bodyC s = some (body s)) :
    ∀ (fuel : Nat) (s : σ), doWhileChecked bodyC fuel s = doWhile body fuel s := by
  intro fuel
  induction fuel with
  | zero => intro s; rfl
  | succ n ih =>
    intro s
    rw [doWhileChecked, doWhile, h s]
    simp only
    split_ifs
    · exact ih _
    · rfl

theorem doWhileChecked_none {σ : Type} {bodyC : σ → Option (σ × Bool)} {s : σ}
    (h : bodyC s = none) (fuel : Nat) : doWhileChecked bodyC fuel s = none := by
  cases fuel with
  | zero => rfl
  | succ n => rw [doWhileChecked, h]

theorem buildFollowSetChecked_eq (gc : GrammarContext) (h : gc.NonEmptyRhs) :
    buildFollowSetChecked gc = buildFollowSet gc := by
  unfold buildFollowSetChecked buildFollowSet
  rw [@doWhileChecked_eq_doWhile _ _ (buildFollowSetBody gc.pl)]
  intro s
  exact buildFollowSetForChecked_some gc.pl (s, false) h

theorem buildFollowSetChecked_none (gc : GrammarContext) (h : ¬ gc.NonEmptyRhs) :
    buildFollowSetChecked gc = none := by
  unfold buildFollowSetChecked
  rw [doWhileChecked_none]
  · rfl
  · apply buildFollowSetForChecked_none
    unfold GrammarContext.NonEmptyRhs at h
    push_neg at h
    exact h

theorem Trace.nonEmptyRhs2 {gc g1 g2 g3 : GrammarContext} (h : Trace gc g1 g2 g3) :
    g2.NonEmptyRhs ↔ gc.NonEmptyRhs := by
  have hmap : g2.pl.map (fun p => p.rhs.symbolList) = gc.pl.map (fun p => p.rhs.symbolList) := by
    rw [h.pl2, h.rhs1]
  have key : ∀ pl : ProductionList,
      (∀ p ∈ pl, p.rhs.symbolList ≠ []) ↔ ∀ l ∈ pl.map (fun p => p.rhs.symbolList), l ≠ [] := by
    intro pl
    simp
  unfold GrammarContext.NonEmptyRhs
  rw [key, key, hmap]

/-- On a grammar context whose productions all have a right-hand symbol, `parse` as the code
runs it is the function `parse`. -/
theorem parseChecked_eq_parse (a : LL1Analyzer)
    (h : ∀ gc, a.gc_ = some gc → a.isParsed_ = false → gc.NonEmptyRhs) :
    a.parseChecked = a.parse := by
  unfold LL1Analyzer.parseChecked LL1Analyzer.parse
  cases hgc : a.gc_ with
  | none => rfl
  | some gc =>
    simp only
    by_cases hp : a.isParsed_ = true
    · rw [if_pos hp, if_pos hp]
    · rw [if_neg hp, if_neg hp]
      have hne := h gc hgc (by simpa using hp)
      obtain ⟨g1, g2, g3, ht⟩ := trace_exists gc
      unfold LL1Analyzer.analyzeChecked LL1Analyzer.analyze
      rw [ht.run1]
      simp only [Option.some_bind]
      rw [ht.run2]
      simp only [Option.some_bind]
      rw [buildFollowSetChecked_eq g2 (ht.nonEmptyRhs2.2 hne)]

/-- On a grammar context with a production without right-hand symbols, the first two stages
of `parse` return, the first pass of the loop of `buildFollowSet` is undefined whatever the
memory, and so is the call of `parse` on a new analyzer. -/
theorem parseChecked_undefined (gc : GrammarContext) (h : ¬ gc.NonEmptyRhs) :
    ∃ g2, (initEPS gc).bind buildFirstSet = some g2 ∧
      (∀ st, buildFollowSetBodyChecked g2.pl st = none) ∧
      (LL1Analyzer.new (some gc)).parseChecked = none := by
  obtain ⟨g1, g2, g3, ht⟩ := trace_exists gc
  have h2 : ¬ g2.NonEmptyRhs := fun hc => h (ht.nonEmptyRhs2.1 hc)
  refine ⟨g2, by rw [ht.run1]; exact ht.run2, ?_, ?_⟩
  · intro st
    apply buildFollowSetForChecked_none
    unfold GrammarContext.NonEmptyRhs at h2
    push_neg at h2
    exact h2
  · unfold LL1Analyzer.parseChecked LL1Analyzer.new LL1Analyzer.analyzeChecked
    simp only [Bool.false_eq_true, if_false]
    rw [ht.run1]
    simp only [Option.some_bind]
    rw [ht.run2]
    simp only [Option.some_bind]
    rw [buildFollowSetChecked_none g2 h2]
    rfl

/-- A pass of the loop of `buildFollowSet` that the code completes is the pass
`buildFollowSetBody`. -/
theorem buildFollowSetForChecked_eq_some (ps : ProductionList) (acc r : SymbolTable × Bool)
    (h : buildFollowSetForChecked ps acc = some r) : r = buildFollowSetFor ps acc := by
  by_cases hne : ∀ p ∈ ps, p.rhs.symbolList ≠ []
  · rw [buildFollowSetForChecked_some ps acc hne] at h
    exact (Option.some.inj h).symm
  · push_neg at hne
    rw [buildFollowSetForChecked_none ps acc hne] at h
    cases h

/-! ## The status that `parse` returns -/

/-- Claim C18: if a call of `parse` returns 0, a second call on the analyzer as the first
call left it returns 0 and leaves the analyzer as it was, with it the grammar context: every
nullable flag, FIRST set and FOLLOW set and the `rhs.firstSet`, `rhs.predictSet` and
`rhs.isNillable` of every production. -/
theorem parse_twice_same (a a1 : LL1Analyzer) (r : Int) (h : a.parse = some (r, a1))
    (hr : r = 0) : a1.parse = some (0, a1) := by
  subst hr
  unfold LL1Analyzer.parse at h
  cases hgc : a.gc_ with
  | none =>
    rw [hgc] at h
    simp at h
  | some gc =>
    rw [hgc] at h
    by_cases hp : a.isParsed_ = true
    · simp only [hp, if_true, Option.some.injEq, Prod.mk.injEq, true_and] at h
      subst h
      simp [LL1Analyzer.parse, hgc, hp]
    · simp only [hp, Bool.false_eq_true, if_false, Option.map_eq_some'] at h
      obtain ⟨g, -, hg⟩ := h
      simp only [Prod.mk.injEq, true_and] at hg
      subst hg
      simp [LL1Analyzer.parse]

theorem parse_twice_same_witness :
    ∃ a1, (LL1Analyzer.new (some grammarS1)).parse = some (0, a1) ∧
      a1.parse = some (0, a1) := by
  obtain ⟨g, hg⟩ := parse_terminates grammarS1
  exact ⟨_, hg, parse_twice_same _ _ 0 hg rfl⟩

/-- Claim C19, as far as the code has it, and the input on which it fails.  The call of
`parse` as the code runs it returns 1 on an analyzer whose grammar context is null; it
returns 0 on an analyzer that is already parsed, and on one that is not for a grammar
context each of whose productions has a right-hand symbol; and whenever it returns, it
returns 0 for a grammar context that is not null, 1 exactly if the grammar context is null,
and nothing else.  For the grammar `S -> ( S ) S`, `S -> epsilon` it returns 0.

On an analyzer not yet parsed for a grammar context with a production without right-hand
symbols the call has no defined result: the first two stages return, and the first pass of
the loop of `buildFollowSet` forms `end() - 1` on an empty vector, whatever the memory.
The grammar `S -> a`, `B ->` is such a context. -/
theorem parse_status_where_defined :
    (∀ a : LL1Analyzer, a.gc_ = none → a.parseChecked = some (1, a)) ∧
    (∀ a : LL1Analyzer, a.gc_ ≠ none → a.isParsed_ = true → a.parseChecked = some (0, a)) ∧
    (∀ (a : LL1Analyzer) (gc : GrammarContext), a.gc_ = some gc → a.isParsed_ = false →
      gc.NonEmptyRhs →
      ∃ g, a.parseChecked = some (0, { gc_ := some g, isParsed_ := true })) ∧
    (∀ (a : LL1Analyzer) (r : Int) (a1 : LL1Analyzer), a.parseChecked = some (r, a1) →
      (a.gc_ ≠ none → r = 0) ∧ (r = 1 ↔ a.gc_ = none) ∧ (r = 0 ∨ r = 1)) ∧
    (LL1Analyzer.new (some grammarS1)).parseChecked.map Prod.fst = some 0 ∧
    (∀ (a : LL1Analyzer) (gc : GrammarContext), a.gc_ = some gc → a.isParsed_ = false →
      ¬ gc.NonEmptyRhs →
      (∃ g2, (initEPS gc).bind buildFirstSet = some g2 ∧
        ∀ st, buildFollowSetBodyChecked g2.pl st = none) ∧
      a.parseChecked = none) ∧
    grammarEmptyRhs.pl.map
      (fun p => ((grammarEmptyRhs.st.mem p.lhs.symbol).name,
        p.rhs.symbolList.map (fun x => (grammarEmptyRhs.st.mem x).name)))
      = [("S", ["a"]), ("B", [])] ∧
    ¬ grammarEmptyRhs.NonEmptyRhs ∧
    (LL1Analyzer.new (some grammarEmptyRhs)).parseChecked.map Prod.fst = none := by
  refine ⟨?_, ?_, ?_, ?_, by decide, ?_, by decide, by decide, by decide⟩
  · intro a h
    simp [LL1Analyzer.parseChecked, h]
  · intro a h hp
    cases hgc : a.gc_ with
    | none => exact absurd hgc h
    | some gc => simp [LL1Analyzer.parseChecked, hgc, hp]
  · intro a gc hgc hp hne
    have ha : a = LL1Analyzer.new (some gc) := by
      cases a
      simp only [LL1Analyzer.new, LL1Analyzer.mk.injEq]
      exact ⟨hgc, hp⟩
    obtain ⟨g, hg⟩ := parse_terminates gc
    refine ⟨g, ?_⟩
    rw [parseChecked_eq_parse a (fun gc1 h1 _ => by rw [hgc] at h1; cases h1; exact hne), ha]
    exact hg
  · intro a r a1 h
    unfold LL1Analyzer.parseChecked at h
    cases hgc : a.gc_ with
    | none =>
      rw [hgc] at h
      simp only [Option.some.injEq, Prod.mk.injEq] at h
      rw [← h.1]
      simp
    | some gc =>
      rw [hgc] at h
      simp only at h
      have hr : r = 0 := by
        by_cases hp : a.isParsed_ = true
        · rw [if_pos hp] at h
          simp only [Option.some.injEq, Prod.mk.injEq] at h
          exact h.1.symm
        · rw [if_neg hp] at h
          simp only [Option.map_eq_some', Prod.mk.injEq] at h
          obtain ⟨g, -, hg, -⟩ := h
          exact hg.symm
      subst hr
      simp
  · intro a gc hgc hp hne
    have ha : a = LL1Analyzer.new (some gc) := by
      cases a
      simp only [LL1Analyzer.new, LL1Analyzer.mk.injEq]
      exact ⟨hgc, hp⟩
    obtain ⟨g2, h1, h2, h3⟩ := parseChecked_undefined gc hne
    exact ⟨⟨g2, h1, h2⟩, by rw [ha]; exact h3⟩

/-- The grammar `S -> a` as `findSymbol` alone leaves it: `S` has been made a nonterminal,
and `a` (address 2) is of unknown kind. -/
def grammarUnknown : GrammarContext :=
  let s := SymbolTable.new.findSymbol "S"
  let a := (s.2.setType s.1 .nonterminal).findSymbol "a"
  { pl :=
      [{ id := 0, lhs := { symbol := s.1 },
         rhs := { symbolList := [a.1], firstSet := ∅, predictSet := ∅, isNillable := false } }]
    st := a.2 }

/-- Counterexample to claim C20.  In the grammar `S -> a` the symbol `a` (address 2) occurs
in a production and is of unknown kind when `parse` is entered; `parse` returns 0 and marks
the analyzer as parsed. -/
theorem parse_with_unknown_kind :
    2 ∈ symbolOccurrences grammarUnknown.pl ∧
    (grammarUnknown.st.mem 2).type = SymbolType.unknown ∧
    (LL1Analyzer.new (some grammarUnknown)).parse.map (fun r => (r.1, r.2.isParsed_))
      = some (0, true) ∧
    (LL1Analyzer.new (some grammarUnknown)).parseChecked.map (fun r => (r.1, r.2.isParsed_))
      = some (0, true) := by
  decide

/-- Claim C20, amended: `parse` does not look at the kinds of the symbols.  If a symbol that
occurs in a production is of unknown kind when `parse` is entered on a new analyzer for a
grammar context each of whose productions has a right-hand symbol, `parse` runs all its
stages, marks the analyzer as parsed and returns 0; the symbol counts as a nonterminal
during the analysis. -/
theorem parse_ignores_unknown_kind (gc : GrammarContext) (X : SymbolPtr)
    (hX : X ∈ symbolOccurrences gc.pl) (hk : (gc.st.mem X).type = SymbolType.unknown)
    (hne : gc.NonEmptyRhs) :
    (gc.st.mem X).isNonterminal = true ∧
    ∃ g, (LL1Analyzer.new (some gc)).parseChecked
        = some (0, { gc_ := some g, isParsed_ := true }) ∧
      LL1Analyzer.analyzeChecked gc = some g := by
  refine ⟨by simp only [Symbol.isNonterminal, Symbol.isTerminal, hk]; decide, ?_⟩
  obtain ⟨g, hg⟩ := parse_terminates gc
  unfold Parsed at hg
  rw [← parseChecked_eq_parse _ (fun gc1 h1 _ => by
    simp only [LL1Analyzer.new, Option.some.injEq] at h1; rw [← h1]; exact hne)] at hg
  refine ⟨g, hg, ?_⟩
  simp only [LL1Analyzer.parseChecked, LL1Analyzer.new, Bool.false_eq_true, if_false,
    Option.map_eq_some'] at hg
  obtain ⟨g1, h1, h2⟩ := hg
  simp only [Prod.mk.injEq, true_and, LL1Analyzer.mk.injEq, Option.some.injEq, and_true] at h2
  rw [← h2]
  exact h1

theorem parse_ignores_unknown_kind_witness :
    2 ∈ symbolOccurrences grammarUnknown.pl ∧
    (grammarUnknown.st.mem 2).type = SymbolType.unknown ∧
    grammarUnknown.NonEmptyRhs ∧
    (grammarUnknown.st.mem 2).isNonterminal = true ∧
    ∃ g, (LL1Analyzer.new (some grammarUnknown)).parseChecked
        = some (0, { gc_ := some g, isParsed_ := true }) ∧
      LL1Analyzer.analyzeChecked grammarUnknown = some g :=
  ⟨by decide, by decide, by decide,
    parse_ignores_unknown_kind grammarUnknown 2 (by decide) (by decide) (by decide)⟩

/-! ## The set union of the analyzer -/

/-- Claim C27: the call `setUnion(dst, src)` leaves in `dst` exactly the elements of the old
`dst` and those of `src`, and it returns true exactly when `src` is not a subset of the old
`dst`, which is exactly when `dst` has gained an element.  The function does not assign to
`src`, whose value is therefore the same after the call; when `dst` and `src` are the same
set, nothing is inserted, the set stays as it is and the result is false. -/
theorem setUnion_is_union (dst src : SymbolSet) :
    (setUnion dst src).1.toFinset = dst.toFinset ∪ src.toFinset ∧
    ((setUnion dst src).2 = true ↔ ¬ src.toFinset ⊆ dst.toFinset) ∧
    ((setUnion dst src).2 = true ↔
      dst.toFinset.card < (setUnion dst src).1.toFinset.card) ∧
    setUnion src src = (src, false) := by
  have hU : (setUnion dst src).1.toFinset = dst.toFinset ∪ src.toFinset := by
    ext x
    simp
  have hF : (setUnion dst src).2 = true ↔ ¬ src.toFinset ⊆ dst.toFinset := by
    rw [setUnion_snd, Finset.not_subset]
    simp
  refine ⟨hU, hF, ?_, ?_⟩
  · rw [hF, hU]
    constructor
    · intro h
      apply Finset.card_lt_card
      rw [Finset.ssubset_iff_subset_ne]
      refine ⟨Finset.subset_union_left, fun hc => h ?_⟩
      rw [hc]
      exact Finset.subset_union_right
    · intro h hc
      rw [Finset.union_eq_left.2 hc] at h
      exact lt_irrefl _ h
  · have h2 : (setUnion src src).2 = false := setUnion_snd_false.2 (fun x hx => hx)
    exact Prod.ext (setUnion_eq_self h2) h2

/-! ## The symbol table: one entry per name -/

theorem lookup_eq_none_iff_keys {table : List (String × SymbolPtr)} {name : String} :
    table.lookup name = none ↔ ¬ name ∈ table.map Prod.fst := by
  induction table with
  | nil => simp [List.lookup]
  | cons e es ih =>
    rw [lookup_cons_if, List.map_cons, List.mem_cons]
    by_cases h : name = e.1
    · simp [h]
    · rw [if_neg h, ih]
      tauto

theorem insertEntry_perm {table : List (String × SymbolPtr)} {name : String}
    (symbol : SymbolPtr) (h : table.lookup name = none) :
    (insertEntry name symbol table).Perm ((name, symbol) :: table) := by
  induction table with
  | nil => exact List.Perm.refl _
  | cons e es ih =>
    rw [lookup_cons_if] at h
    by_cases hne : name = e.1
    · rw [if_pos hne] at h
      cases h
    · rw [if_neg hne] at h
      rw [insertEntry]
      split_ifs with h1
      · exact List.Perm.refl _
      · exact ((ih h).cons e).trans (List.Perm.swap _ _ _)

/-- The invariant of the class `SymbolTable`: every entry is stored under the name of its
symbol, no name has two entries, and every symbol of the table lies at an address in use. -/
def SymbolTable.WellFormed (st : SymbolTable) : Prop :=
  (∀ entry ∈ st.table_, (st.mem entry.2).name = entry.1) ∧
    (st.table_.map Prod.fst).Nodup ∧ ∀ entry ∈ st.table_, entry.2 < st.brk

instance (st : SymbolTable) : Decidable st.WellFormed :=
  inferInstanceAs (Decidable ((∀ entry ∈ st.table_, (st.mem entry.2).name = entry.1) ∧
    (st.table_.map Prod.fst).Nodup ∧ ∀ entry ∈ st.table_, entry.2 < st.brk))

theorem findSymbol_table_perm {st : SymbolTable} {name : String}
    (h : st.table_.lookup name = none) :
    (st.findSymbol name).2.table_.Perm ((name, st.brk) :: st.table_) := by
  unfold SymbolTable.findSymbol
  rw [h]
  exact insertEntry_perm _ h

theorem findSymbol_fresh {st : SymbolTable} {name : String}
    (h : st.table_.lookup name = none) :
    (st.findSymbol name).1 = st.brk ∧ (st.findSymbol name).2.brk = st.brk + 1 ∧
      (st.findSymbol name).2.mem = Function.update st.mem st.brk (Symbol.new name) := by
  unfold SymbolTable.findSymbol
  rw [h]
  exact ⟨rfl, rfl, rfl⟩

theorem SymbolTable.WellFormed.after_findSymbol {st : SymbolTable} (h : st.WellFormed)
    (name : String) : (st.findSymbol name).2.WellFormed := by
  cases hl : st.table_.lookup name with
  | some X =>
    rw [findSymbol_of_lookup hl]
    exact h
  | none =>
    obtain ⟨hN, hK, hB⟩ := h
    have hperm := findSymbol_table_perm hl
    obtain ⟨-, hbrk, hmem⟩ := findSymbol_fresh hl
    refine ⟨?_, ?_, ?_⟩
    · intro entry he
      rw [hmem]
      rcases List.mem_cons.1 (hperm.mem_iff.1 he) with he | he
      · subst he
        simp [Symbol.new]
      · rw [Function.update_noteq (Nat.ne_of_lt (hB entry he))]
        exact hN entry he
    · rw [(hperm.map Prod.fst).nodup_iff, List.map_cons, List.nodup_cons]
      exact ⟨lookup_eq_none_iff_keys.1 hl, hK⟩
    · intro entry he
      rw [hbrk]
      rcases List.mem_cons.1 (hperm.mem_iff.1 he) with he | he
      · subst he
        exact Nat.lt_succ_self _
      · exact Nat.lt_succ_of_lt (hB entry he)

/-- Claim C28: on a symbol table that satisfies the invariant of the class, the call
`findSymbol(name)` with a name that is not empty returns a symbol whose name is `name`.  If
the table had an entry for the name, the call changes nothing; if it had none, the symbol
returned is a new one of kind unknown, not nullable, with empty FIRST and FOLLOW sets.  A
second call with the same name returns the same symbol and changes nothing; the table after
the call has exactly one entry for each of its names, that of `name` being the symbol
returned; and the entries stored under other names are those of before, their symbols
unchanged. -/
theorem findSymbol_interns (st : SymbolTable) (name : String) (_hname : name ≠ "")
    (hW : st.WellFormed) :
    ((st.findSymbol name).2.mem (st.findSymbol name).1).name = name ∧
    (∀ X, st.table_.lookup name = some X → st.findSymbol name = (X, st)) ∧
    (st.table_.lookup name = none →
      ((st.findSymbol name).2.mem (st.findSymbol name).1).type = .unknown ∧
      ((st.findSymbol name).2.mem (st.findSymbol name).1).isNillable = false ∧
      ((st.findSymbol name).2.mem (st.findSymbol name).1).firstSet = ∅ ∧
      ((st.findSymbol name).2.mem (st.findSymbol name).1).followSet = ∅ ∧
      ∀ entry ∈ st.table_, entry.2 ≠ (st.findSymbol name).1) ∧
    (st.findSymbol name).2.findSymbol name = ((st.findSymbol name).1, (st.findSymbol name).2) ∧
    ((st.findSymbol name).2.table_.map Prod.fst).Nodup ∧
    (∀ entry ∈ (st.findSymbol name).2.table_,
      entry.1 = name → entry.2 = (st.findSymbol name).1) ∧
    (name, (st.findSymbol name).1) ∈ (st.findSymbol name).2.table_ ∧
    (∀ entry : String × SymbolPtr, entry.1 ≠ name →
      (entry ∈ (st.findSymbol name).2.table_ ↔ entry ∈ st.table_)) ∧
    (∀ entry ∈ st.table_, entry.1 ≠ name →
      (st.findSymbol name).2.mem entry.2 = st.mem entry.2) ∧
    (st.findSymbol name).2.WellFormed := by
  have hW2 := hW.after_findSymbol name
  have hlook := findSymbol_lookup st name
  have hin := mem_of_lookup hlook
  have hone : ∀ entry ∈ (st.findSymbol name).2.table_,
      entry.1 = name → entry.2 = (st.findSymbol name).1 := by
    intro entry he hn
    have hnd := hW2.2.1
    by_contra hne
    have h2 : ∀ (l : List (String × SymbolPtr)), (l.map Prod.fst).Nodup →
        ∀ a ∈ l, ∀ b ∈ l, a.1 = b.1 → a = b := by
      intro l hl a ha b hb hab
      exact List.inj_on_of_nodup_map hl ha hb hab
    have := h2 _ hnd entry he _ hin hn
    exact hne (by rw [this])
  refine ⟨?_, fun X hX => findSymbol_of_lookup hX, ?_, findSymbol_of_lookup hlook, hW2.2.1,
    hone, hin, ?_, ?_, hW2⟩
  · exact hW2.1 _ hin
  · intro hl
    obtain ⟨h1, -, h3⟩ := findSymbol_fresh hl
    rw [h1, h3, Function.update_same]
    refine ⟨rfl, rfl, rfl, rfl, fun entry he => Nat.ne_of_lt (hW.2.2 entry he)⟩
  · intro entry hne
    cases hl : st.table_.lookup name with
    | some X => rw [findSymbol_of_lookup hl]
    | none =>
      rw [(findSymbol_table_perm hl).mem_iff, List.mem_cons]
      constructor
      · rintro (h | h)
        · exact absurd (by rw [h]) hne
        · exact h
      · exact Or.inr
  · intro entry he _
    exact findSymbol_mem_of_lt st name (hW.2.2 entry he)

theorem findSymbol_interns_witness :
    "T" ≠ "" ∧ grammarS1.st.WellFormed ∧
    grammarS1.st.table_.lookup "T" = none ∧
    ((grammarS1.st.findSymbol "T").2.mem (grammarS1.st.findSymbol "T").1).name = "T" ∧
    (grammarS1.st.findSymbol "T").2.findSymbol "T" =
      ((grammarS1.st.findSymbol "T").1, (grammarS1.st.findSymbol "T").2) :=
  ⟨by decide, by decide, by decide,
    (findSymbol_interns grammarS1.st "T" (by decide) (by decide)).1,
    (findSymbol_interns grammarS1.st "T" (by decide) (by decide)).2.2.2.1⟩

/-! ## The command-line tool: the name of the output file

The function `StreamToFile` of `src/tool/CppSyntaxAnalyzer.cpp`.  A `std::string` is the
string of its characters: `size` is its length, `substr(pos)` drops the first `pos`
characters, `+=` appends. -/

namespace tool

/-- The call `s.substr(pos)` of `std::string`, for a position up to the size of `s`. -/
def substr (s : String) (pos : Nat) : String := ⟨s.data.drop pos⟩

/-- The file name under which `StreamToFile` opens its output: the value of its variable
`filename` after the check of the suffix. -/
def StreamToFile.filename (filename : String) : String :=
  let suffix := ".html"
  let suffixSize := suffix.length
  let filenameSize := filename.length
  if filenameSize < suffixSize ∨ substr filename (filenameSize - suffixSize) ≠ suffix then
    filename ++ suffix
  else filename

/-- The function `StreamToFile`.  `opens name` tells whether the file `name` can be opened
for writing.  The result is the returned status and, if the function has written, the name
of the file together with what was written to it. -/
def StreamToFile (opens : String → Bool) (stream filename : String) :
    Int × Option (String × String) :=
  if stream.length = 0 ∨ filename.length = 0 then (1, none)
  else if opens (StreamToFile.filename filename) then
    (0, some (StreamToFile.filename filename, stream))
  else (1, none)

end tool

theorem string_ends_iff (s t : String) :
    (∃ front : String, s = front ++ t) ↔ t.data <:+ s.data := by
  constructor
  · rintro ⟨front, rfl⟩
    rw [String.data_append]
    exact List.suffix_append _ _
  · rintro ⟨l, hl⟩
    refine ⟨⟨l⟩, ?_⟩
    apply String.ext
    rw [String.data_append, hl]

theorem suffix_iff_substr (s t : String) :
    t.data <:+ s.data ↔ ¬ (s.length < t.length ∨ tool.substr s (s.length - t.length) ≠ t) := by
  rw [not_or, not_not, not_lt]
  constructor
  · intro h
    refine ⟨h.length_le, ?_⟩
    apply String.ext
    exact (List.suffix_iff_eq_drop.1 h).symm
  · rintro ⟨-, h⟩
    have h2 : (tool.substr s (s.length - t.length)).data = t.data := by rw [h]
    rw [← h2]
    exact List.drop_suffix _ _

theorem filename_of_ends {filename : String} (h : ∃ front : String, filename = front ++ ".html") :
    tool.StreamToFile.filename filename = filename := by
  rw [string_ends_iff, suffix_iff_substr] at h
  unfold tool.StreamToFile.filename
  exact if_neg h

theorem filename_of_not_ends {filename : String}
    (h : ¬ ∃ front : String, filename = front ++ ".html") :
    tool.StreamToFile.filename filename = filename ++ ".html" := by
  rw [string_ends_iff, suffix_iff_substr, not_not] at h
  unfold tool.StreamToFile.filename
  exact if_pos h

theorem filename_ends (filename : String) :
    ∃ front : String, tool.StreamToFile.filename filename = front ++ ".html" := by
  by_cases h : ∃ front : String, filename = front ++ ".html"
  · rw [filename_of_ends h]
    exact h
  · rw [filename_of_not_ends h]
    exact ⟨filename, rfl⟩

/-- Claim C29: the file name that `StreamToFile` uses is the given name itself if that ends
with `.html`, as the name `.html` does, and the given name followed by `.html` if it does
not.  So the name used always ends with `.html`, and it is the name that would be used for
itself.  When the stream or the file name is empty, `StreamToFile` returns 1 and writes
nothing; otherwise it writes the stream to the file of that name and returns 0, or returns 1
without writing when the file cannot be opened. -/
theorem streamToFile_appends_suffix (opens : String → Bool) (stream filename : String) :
    ((∃ front : String, filename = front ++ ".html") →
      tool.StreamToFile.filename filename = filename) ∧
    ((¬ ∃ front : String, filename = front ++ ".html") →
      tool.StreamToFile.filename filename = filename ++ ".html") ∧
    tool.StreamToFile.filename ".html" = ".html" ∧
    (∃ front : String, tool.StreamToFile.filename filename = front ++ ".html") ∧
    tool.StreamToFile.filename (tool.StreamToFile.filename filename) =
      tool.StreamToFile.filename filename ∧
    (stream = "" ∨ filename = "" → tool.StreamToFile opens stream filename = (1, none)) ∧
    (stream ≠ "" → filename ≠ "" →
      tool.StreamToFile opens stream filename =
        if opens (tool.StreamToFile.filename filename) then
          (0, some (tool.StreamToFile.filename filename, stream))
        else (1, none)) := by
  have hlen : ∀ s : String, s.length = 0 ↔ s = "" := by
    intro s
    constructor
    · intro h
      apply String.ext
      exact List.length_eq_zero.1 h
    · rintro rfl
      rfl
  refine ⟨filename_of_ends, filename_of_not_ends, filename_of_ends ⟨"", rfl⟩,
    filename_ends filename, filename_of_ends (filename_ends filename), ?_, ?_⟩
  · intro h
    unfold tool.StreamToFile
    rw [if_pos]
    rw [hlen, hlen]
    exact h
  · intro h1 h2
    unfold tool.StreamToFile
    rw [if_neg]
    rw [hlen, hlen]
    tauto

theorem streamToFile_appends_suffix_witness :
    tool.StreamToFile.filename "table.html" = "table.html" ∧
    tool.StreamToFile.filename "table" = "table.html" ∧
    tool.StreamToFile.filename "html" = "html.html" ∧
    tool.StreamToFile (fun _ => true) "" "table" = (1, none) ∧
    tool.StreamToFile (fun _ => true) "text" "table" = (0, some ("table.html", "text")) := by
  refine ⟨(streamToFile_appends_suffix (fun _ => true) "" "table.html").1 ⟨"table", by decide⟩,
    by decide, by decide, by decide, by decide⟩

/-! ## The scenarios S1 and S2 -/

/-- The names of the symbols of a set, in the order of the set. -/
def namesOf (st : SymbolTable) (set : SymbolSet) : List String :=
  set.elems.map (fun symbol => (st.mem symbol).name)

/-- What the accessors give for the symbol named `name` after `parse`: its nullable flag and
the names in its FIRST and FOLLOW sets. -/
def symbolReport (g : GrammarContext) (name : String) :
    Option (Bool × List String × List String) :=
  (g.st.table_.lookup name).map (fun symbol =>
    ((g.st.mem symbol).isNillable, namesOf g.st (g.st.mem symbol).firstSet,
      namesOf g.st (g.st.mem symbol).followSet))

/-- What the accessors give for the productions after `parse`: the id of each with its
nullable flag and the names in its FIRST and PREDICT sets. -/
def productionReport (g : GrammarContext) : List (Int × Bool × List String × List String) :=
  g.pl.map (fun p =>
    (p.id, p.rhs.isNillable, namesOf g.st p.rhs.firstSet, namesOf g.st p.rhs.predictSet))

/-- Scenario S2, the expression grammar. -/
def grammarS2 : GrammarContext :=
  frontend.buildContext
    [("E", ["T", "E\x27"]), ("E\x27", ["+", "T", "E\x27"]), ("E\x27", ["epsilon"]),
     ("T", ["F", "T\x27"]), ("T\x27", ["*", "F", "T\x27"]), ("T\x27", ["epsilon"]),
     ("F", ["(", "E", ")"]), ("F", ["id"])]

/-- Counterexample to claim C23.  For the grammar of scenario S1, `S -> ( S ) S` and
`S -> epsilon`, the FOLLOW set of `S` after `parse` is `)` alone, and so is the PREDICT set
of production 1; no symbol is named `$`. -/
theorem s1_follow_has_no_eof :
    grammarS1.st.table_.map (fun entry => (entry.1, (grammarS1.st.mem entry.2).type))
      = [("(", .terminal), (")", .terminal), ("S", .nonterminal),
         ("epsilon", .terminalIsEpsilon)] ∧
    grammarS1.pl.map (fun p => (p.id, (grammarS1.st.mem p.lhs.symbol).name,
        p.rhs.symbolList.map (fun x => (grammarS1.st.mem x).name)))
      = [(0, "S", ["(", "S", ")", "S"]), (1, "S", ["epsilon"])] ∧
    (LL1Analyzer.new (some grammarS1)).parse.map
        (fun r => r.2.gc_.map (fun g => (symbolReport g "S").map (fun s => s.2.2)))
      = some (some (some [")"])) ∧
    (LL1Analyzer.new (some grammarS1)).parse.map
        (fun r => r.2.gc_.map (fun g => g.pl.map (fun p => (p.id, namesOf g.st p.rhs.predictSet))))
      = some (some [(0, ["("]), (1, [")"])]) ∧
    (LL1Analyzer.new (some grammarS1)).parse.map
        (fun r => r.2.gc_.map (fun g => g.st.table_.lookup config.keyword.eof))
      = some (some none) := by
  refine ⟨by decide, by decide, by decide, by decide, by decide⟩

/-- Claim C23, amended: for the grammar of scenario S1 (the grammar of test04), productions
0: `S -> ( S ) S` and 1: `S -> epsilon`, with `S` a nonterminal, `(` and `)` terminals and
`epsilon` the epsilon terminal, `parse` returns 0 and afterwards `S` is nullable,
FIRST(S) is `(`, FOLLOW(S) is `)`, PREDICT of production 0 is `(`, PREDICT of production 1
is `)`, and `isValidLL1` answers true. -/
theorem scenario_s1 :
    grammarS1.st.table_.map (fun entry => (entry.1, (grammarS1.st.mem entry.2).type))
      = [("(", .terminal), (")", .terminal), ("S", .nonterminal),
         ("epsilon", .terminalIsEpsilon)] ∧
    grammarS1.pl.map (fun p => (p.id, (grammarS1.st.mem p.lhs.symbol).name,
        p.rhs.symbolList.map (fun x => (grammarS1.st.mem x).name)))
      = [(0, "S", ["(", "S", ")", "S"]), (1, "S", ["epsilon"])] ∧
    (LL1Analyzer.new (some grammarS1)).parse.map (fun r => r.1) = some 0 ∧
    (LL1Analyzer.new (some grammarS1)).parse.map
        (fun r => r.2.gc_.map (fun g => (symbolReport g "S").map (fun s => s.1)))
      = some (some (some true)) ∧
    (LL1Analyzer.new (some grammarS1)).parse.map
        (fun r => r.2.gc_.map (fun g => (symbolReport g "S").map (fun s => s.2.1)))
      = some (some (some ["("])) ∧
    (LL1Analyzer.new (some grammarS1)).parse.map
        (fun r => r.2.gc_.map (fun g => (symbolReport g "S").map (fun s => s.2.2)))
      = some (some (some [")"])) ∧
    (LL1Analyzer.new (some grammarS1)).parse.map
        (fun r => r.2.gc_.map (fun g => g.pl.map (fun p => (p.id, namesOf g.st p.rhs.predictSet))))
      = some (some [(0, ["("]), (1, [")"])]) ∧
    (LL1Analyzer.new (some grammarS1)).parse.map (fun r => r.2.isValidLL1) = some true := by
  refine ⟨by decide, by decide, by decide, by decide, by decide, by decide, by decide,
    by decide⟩

set_option maxRecDepth 100000 in
/-- Claim C24: for the grammar of scenario S2, `E -> T E'`, `E' -> + T E'`, `E' -> epsilon`,
`T -> F T'`, `T' -> * F T'`, `T' -> epsilon`, `F -> ( E )`, `F -> id`, `parse` returns 0 and
afterwards the FIRST sets of `E`, `T` and `F` are `(` and `id`, the PREDICT set of
production 1, `E' -> + T E'`, is `+`, the nullable symbols are `E'` and `T'` and no others,
and `isValidLL1` answers true. -/
theorem scenario_s2 :
    grammarS2.st.table_.map (fun entry => (entry.1, (grammarS2.st.mem entry.2).type))
      = [("(", .terminal), (")", .terminal), ("*", .terminal), ("+", .terminal),
         ("E", .nonterminal), ("E\x27", .nonterminal), ("F", .nonterminal),
         ("T", .nonterminal), ("T\x27", .nonterminal), ("epsilon", .terminalIsEpsilon),
         ("id", .terminal)] ∧
    grammarS2.pl.map (fun p => (p.id, (grammarS2.st.mem p.lhs.symbol).name,
        p.rhs.symbolList.map (fun x => (grammarS2.st.mem x).name)))
      = [(0, "E", ["T", "E\x27"]), (1, "E\x27", ["+", "T", "E\x27"]), (2, "E\x27", ["epsilon"]),
         (3, "T", ["F", "T\x27"]), (4, "T\x27", ["*", "F", "T\x27"]), (5, "T\x27", ["epsilon"]),
         (6, "F", ["(", "E", ")"]), (7, "F", ["id"])] ∧
    (LL1Analyzer.new (some grammarS2)).parse.map (fun r => r.1) = some 0 ∧
    (LL1Analyzer.new (some grammarS2)).parse.map
        (fun r => r.2.gc_.map (fun g =>
          ["E", "T", "F"].map (fun name => (symbolReport g name).map (fun s => s.2.1))))
      = some (some [some ["(", "id"], some ["(", "id"], some ["(", "id"]]) ∧
    (LL1Analyzer.new (some grammarS2)).parse.map
        (fun r => r.2.gc_.map (fun g =>
          (g.pl.filter (fun p => p.id = 1)).map (fun p => namesOf g.st p.rhs.predictSet)))
      = some (some [["+"]]) ∧
    (LL1Analyzer.new (some grammarS2)).parse.map
        (fun r => r.2.gc_.map (fun g =>
          (g.st.table_.filter (fun entry => (g.st.mem entry.2).isNillable)).map Prod.fst))
      = some (some ["E\x27", "T\x27"]) ∧
    (LL1Analyzer.new (some grammarS2)).parse.map (fun r => r.2.isValidLL1) = some true := by
  refine ⟨by decide, by decide, by decide, by decide, by decide, by decide, by decide⟩

/-! ## The epsilon terminal inside a right-hand side -/

/-- The grammar `A -> epsilon a`. -/
def grammarEpsilonFirst : GrammarContext :=
  frontend.buildContext [("A", ["epsilon", "a"])]

/-- The grammar `A -> a`. -/
def grammarEpsilonFirstDeleted : GrammarContext :=
  frontend.buildContext [("A", ["a"])]

/-- The grammar `T -> S b`, `S -> A epsilon`, `A -> a`. -/
def grammarEpsilonLast : GrammarContext :=
  frontend.buildContext [("T", ["S", "b"]), ("S", ["A", "epsilon"]), ("A", ["a"])]

/-- The grammar `T -> S b`, `S -> A`, `A -> a`. -/
def grammarEpsilonLastDeleted : GrammarContext :=
  frontend.buildContext [("T", ["S", "b"]), ("S", ["A"]), ("A", ["a"])]

/-- The grammar `A -> epsilon B`, `B -> epsilon`. -/
def grammarEpsilonNullable : GrammarContext :=
  frontend.buildContext [("A", ["epsilon", "B"]), ("B", ["epsilon"])]

/-- Claim C25, the code at the failing inputs.  For `A -> epsilon a` the sets `rhs.firstSet`
and `rhs.predictSet` of the production and FIRST(A) are empty after `parse`, while for
`A -> a` they hold `a`: `calculateFirstSet` stops at the epsilon terminal, whose nullable
flag is not set.  For `T -> S b`, `S -> A epsilon`, `A -> a` the set FOLLOW(A) is empty,
while for `T -> S b`, `S -> A`, `A -> a` it holds `b`: the walk of `buildFollowSet` from the
right stops at the epsilon terminal.  The nullable flags do ignore the epsilon terminal: for
`A -> epsilon B`, `B -> epsilon` both `A` and `B` are nullable, since `isEPS` counts the
epsilon terminal as empty. -/
theorem epsilon_inside_rhs_stops_first :
    grammarEpsilonFirst.pl.map (fun p => p.rhs.symbolList.map
        (fun x => ((grammarEpsilonFirst.st.mem x).name, (grammarEpsilonFirst.st.mem x).type)))
      = [[("epsilon", .terminalIsEpsilon), ("a", .terminal)]] ∧
    (LL1Analyzer.new (some grammarEpsilonFirst)).parse.map
        (fun r => r.2.gc_.map (fun g => g.pl.map (fun p =>
          (namesOf g.st p.rhs.firstSet, namesOf g.st p.rhs.predictSet))))
      = some (some [([], [])]) ∧
    (LL1Analyzer.new (some grammarEpsilonFirst)).parse.map
        (fun r => r.2.gc_.map (fun g => (symbolReport g "A").map (fun s => s.2.1)))
      = some (some (some [])) ∧
    (LL1Analyzer.new (some grammarEpsilonFirstDeleted)).parse.map
        (fun r => r.2.gc_.map (fun g => g.pl.map (fun p =>
          (namesOf g.st p.rhs.firstSet, namesOf g.st p.rhs.predictSet))))
      = some (some [(["a"], ["a"])]) ∧
    (LL1Analyzer.new (some grammarEpsilonFirstDeleted)).parse.map
        (fun r => r.2.gc_.map (fun g => (symbolReport g "A").map (fun s => s.2.1)))
      = some (some (some ["a"])) ∧
    (LL1Analyzer.new (some grammarEpsilonLast)).parse.map
        (fun r => r.2.gc_.map (fun g =>
          ["S", "A"].map (fun name => (symbolReport g name).map (fun s => s.2.2))))
      = some (some [some ["b"], some []]) ∧
    (LL1Analyzer.new (some grammarEpsilonLastDeleted)).parse.map
        (fun r => r.2.gc_.map (fun g =>
          ["S", "A"].map (fun name => (symbolReport g name).map (fun s => s.2.2))))
      = some (some [some ["b"], some ["b"]]) ∧
    (LL1Analyzer.new (some grammarEpsilonNullable)).parse.map
        (fun r => r.2.gc_.map (fun g =>
          ["A", "B"].map (fun name => (symbolReport g name).map (fun s => s.1))))
      = some (some [some true, some true]) := by
  refine ⟨by decide, by decide, by decide, by decide, by decide, by decide, by decide,
    by decide⟩

/-! ## What `parse` leaves as it is -/

/-- Counterexample to claim C26.  The symbol table of scenario S3 (`S -> a B`, `B -> b`,
`B -> b c`) has five names; after `parse` it has a sixth, `epsilon`, whose symbol is of kind
unknown: `removeAllEpsilon` looks the name up with `findSymbol`, which creates it. -/
theorem parse_interns_epsilon :
    grammarS3.st.table_.map Prod.fst = ["B", "S", "a", "b", "c"] ∧
    (LL1Analyzer.new (some grammarS3)).parse.map
        (fun r => r.2.gc_.map (fun g => g.st.table_.map (fun entry => entry.1)))
      = some (some ["B", "S", "a", "b", "c", "epsilon"]) ∧
    (LL1Analyzer.new (some grammarS3)).parse.map
        (fun r => r.2.gc_.map (fun g =>
          (g.st.table_.lookup "epsilon").map (fun symbol => (g.st.mem symbol).type)))
      = some (some (some .unknown)) := by
  refine ⟨by decide, by decide, by decide⟩

/-- The production `q` has the id, the left-hand side and the right-hand symbols of `p`. -/
def SameProduction (p q : Production) : Prop :=
  q.id = p.id ∧ q.lhs = p.lhs ∧ q.rhs.symbolList = p.rhs.symbolList

theorem Trace.final_pl_same {gc g1 g2 g3 : GrammarContext} (h : Trace gc g1 g2 g3) :
    List.Forall₂ SameProduction gc.pl (removeAllEpsilon (buildPredictSet g3)).pl := by
  have h1 : List.Forall₂ SameProduction gc.pl g3.pl := by
    rw [h.pl3_eq]
    exact List.Forall₂.imp (fun _ _ hab => ⟨hab.1.1, hab.1.2.1, hab.1.2.2.1⟩) h.pl1
  have h2 : List.Forall₂ SameProduction g3.pl (buildPredictSet g3).pl := by
    unfold buildPredictSet
    simp only
    rw [List.forall₂_map_right_iff]
    exact List.forall₂_same.2 (fun _ _ => ⟨rfl, rfl, rfl⟩)
  have h3 : List.Forall₂ SameProduction (buildPredictSet g3).pl
      (removeAllEpsilon (buildPredictSet g3)).pl :=
    List.Forall₂.imp (fun _ _ hab => ⟨hab.1, hab.2.1, hab.2.2.1⟩)
      (removeAllEpsilon_pl (buildPredictSet g3))
  have hc : ∀ {l1 l2 l3 : ProductionList}, List.Forall₂ SameProduction l1 l2 →
      List.Forall₂ SameProduction l2 l3 → List.Forall₂ SameProduction l1 l3 :=
    fun a b => forall₂_compose (R := SameProduction) (S := SameProduction) (T := SameProduction)
      (fun _ _ _ hab hbc =>
        ⟨hbc.1.trans hab.1, hbc.2.1.trans hab.2.1, hbc.2.2.trans hab.2.2⟩) a b
  exact hc (hc h1 h2) h3

/-- Claim C26, amended: `parse` returns, and it makes one structural change at most: when
the grammar has a production and the name `epsilon` is not interned, `removeAllEpsilon`
interns it, as a new symbol of kind unknown at the next free address; otherwise the symbol
table has the entries of before.  Every symbol object of before keeps its name and its kind,
the alien symbol is the same, and the productions are as many as before, in the same order,
each with its id, its left-hand side and its right-hand symbols. -/
theorem parse_keeps_structure (gc : GrammarContext) :
    ∃ g, Parsed gc g ∧
      (g.st.table_ = gc.st.table_ ∨
        (gc.pl ≠ [] ∧ gc.st.table_.lookup config.keyword.epsilon = none ∧
          g.st.table_ = insertEntry config.keyword.epsilon gc.st.brk gc.st.table_ ∧
          (g.st.mem gc.st.brk).name = config.keyword.epsilon ∧
          (g.st.mem gc.st.brk).type = .unknown)) ∧
      (gc.pl = [] ∨ gc.st.table_.lookup config.keyword.epsilon ≠ none →
        g.st.table_ = gc.st.table_) ∧
      (∀ X, X ≠ gc.st.brk →
        (g.st.mem X).name = (gc.st.mem X).name ∧ (g.st.mem X).type = (gc.st.mem X).type) ∧
      g.st.alien_ = gc.st.alien_ ∧
      g.pl.length = gc.pl.length ∧
      List.Forall₂ SameProduction gc.pl g.pl := by
  obtain ⟨g1, g2, g3, h⟩ := trace_exists gc
  have hpl := h.final_pl_same
  have halien : g3.st.alien_ = gc.st.alien_ := by
    rw [h.inv3.only.2.1, h.only2.2.1, h.flags.2.1]
  refine ⟨_, h.parsed, ?_, ?_, ?_, ?_, hpl.length_eq.symm, hpl⟩
  · by_cases hne : g3.pl = []
    · rw [final_of_nil g3 hne]
      exact Or.inl h.table3
    · have hgc : gc.pl ≠ [] := by
        intro hc
        apply hne
        have := h.lhs1
        rw [hc, ← h.pl3_eq] at this
        simpa using this
      obtain ⟨-, -, -, hm⟩ := removeAllEpsilon_mem (buildPredictSet g3)
        (by simpa [buildPredictSet] using hne)
      rw [final_table g3 hne]
      cases hl : g3.st.table_.lookup config.keyword.epsilon with
      | some e =>
        rw [findSymbol_of_lookup hl]
        exact Or.inl h.table3
      | none =>
        right
        obtain ⟨-, -, f3⟩ := findSymbol_fresh hl
        have hmem : (buildPredictSet g3).st = g3.st := rfl
        refine ⟨hgc, by rw [← h.table3]; exact hl, ?_, ?_, ?_⟩
        · unfold SymbolTable.findSymbol
          rw [hl, h.table3, h.brk3]
        · rw [(hm gc.st.brk).1, hmem, f3, ← h.brk3, Function.update_same]
          rfl
        · rw [(hm gc.st.brk).2.1, hmem, f3, ← h.brk3, Function.update_same]
          rfl
  · intro hc
    by_cases hne : g3.pl = []
    · rw [final_of_nil g3 hne]
      exact h.table3
    · rw [final_table g3 hne]
      rcases hc with hc | hc
      · exfalso
        apply hne
        have := h.lhs1
        rw [hc, ← h.pl3_eq] at this
        simpa using this
      · cases hl : g3.st.table_.lookup config.keyword.epsilon with
        | some e =>
          rw [findSymbol_of_lookup hl]
          exact h.table3
        | none =>
          rw [h.table3] at hl
          exact absurd hl hc
  · intro X hX
    by_cases hne : g3.pl = []
    · rw [final_of_nil g3 hne]
      exact ⟨h.name3 X, h.type3 X⟩
    · obtain ⟨-, -, -, hm⟩ := removeAllEpsilon_mem (buildPredictSet g3)
        (by simpa [buildPredictSet] using hne)
      have hmem : (buildPredictSet g3).st = g3.st := rfl
      rw [(hm X).1, (hm X).2.1, hmem]
      rcases findSymbol_mem_cases g3.st config.keyword.epsilon X with hc | ⟨-, hc, -⟩
      · rw [hc]
        exact ⟨h.name3 X, h.type3 X⟩
      · rw [h.brk3] at hc
        exact absurd hc hX
  · by_cases hne : g3.pl = []
    · rw [final_of_nil g3 hne]
      exact halien
    · obtain ⟨-, ha, -, -⟩ := removeAllEpsilon_mem (buildPredictSet g3)
        (by simpa [buildPredictSet] using hne)
      rw [ha]
      have hmem : (buildPredictSet g3).st = g3.st := rfl
      rw [hmem, ← halien]
      unfold SymbolTable.findSymbol
      cases g3.st.table_.lookup config.keyword.epsilon <;> rfl

/-! ## The FIRST sets at the fixpoint -/

/-- When `buildFirstSet` has ended, the FIRST set of a left-hand side that is interned and
not of terminal kind holds what the right-hand sides of its productions give, and nothing
else. -/
theorem Trace.first_exact {gc g1 g2 g3 : GrammarContext} (h : Trace gc g1 g2 g3)
    (hI : gc.Interned) (hlhs : ∀ p ∈ gc.pl, (gc.st.mem p.lhs.symbol).isTerminal = false)
    {A : SymbolPtr} (hA : A ∈ gc.pl.map (fun p => p.lhs.symbol)) (t : SymbolPtr) :
    t ∈ (g2.st.mem A).firstSet ↔
      ∃ p ∈ g1.pl, p.lhs.symbol = A ∧ InFirstOf g2.st t p.rhs.symbolList := by
  constructor
  · intro ht
    have key := h.inv2.least
      (fun X x => x ∈ (g2.st.mem X).firstSet ∧
        (X ∈ gc.pl.map (fun p => p.lhs.symbol) →
          ∃ p ∈ g1.pl, p.lhs.symbol = X ∧ InFirstOf g2.st x p.rhs.symbolList)) ?_ ?_ A t ht
    · exact key.2 hA
    · intro p hp x hx
      have hin : InFirstOf g2.st x p.rhs.symbolList := by
        unfold InFirstOf
        rw [h.inv2.only.ruleFirst]
        exact RuleFirst.rule_mono (fun _ _ hJ => hJ.1) hx
      exact ⟨h.closed2 p hp x hin, fun _ => ⟨p, hp, rfl, hin⟩⟩
    · intro X x hx
      refine ⟨h.inv2.mono X x hx, ?_⟩
      intro hX
      exfalso
      obtain ⟨p, hp, rfl⟩ := List.mem_map.1 hX
      have hmem : p.lhs.symbol ∈ gc.st.table_.map Prod.snd :=
        hI _ (lhs_mem_symbolOccurrences hp)
      rw [buildFirstSetInit_firstSet, h.flags.1, if_pos hmem] at hx
      unfold firstSeed at hx
      have hty : (g1.st.mem p.lhs.symbol).isTerminal = false := by
        simp only [Symbol.isTerminal, h.flags.flags_type]
        exact hlhs p hp
      rw [hty] at hx
      exact absurd hx (SymbolSet.not_mem_empty x)
  · rintro ⟨p, hp, rfl, hin⟩
    exact h.closed2 p hp t hin

/-- Claim C30: after `parse` on a grammar context whose symbols are interned and whose
left-hand sides are not of terminal kind, the FIRST set of every left-hand side `A` is the
union of the sets `rhs.firstSet` of the productions of `A`: a symbol is in FIRST(A) exactly
if it is in `rhs.firstSet` of some production with left-hand side `A`.  So the set
`rhs.firstSet` of every production is included in the FIRST set of its left-hand side. -/
theorem first_is_union_of_rhs_first (gc : GrammarContext) (hA : gc.Allocated)
    (hI : gc.Interned) (hlhs : ∀ p ∈ gc.pl, (gc.st.mem p.lhs.symbol).isTerminal = false) :
    ∃ g, Parsed gc g ∧
      (∀ A ∈ g.pl.map (fun p => p.lhs.symbol), ∀ t,
        t ∈ (g.st.mem A).firstSet ↔ ∃ p ∈ g.pl, p.lhs.symbol = A ∧ t ∈ p.rhs.firstSet) ∧
      (∀ p ∈ g.pl, p.rhs.firstSet.toFinset ⊆ (g.st.mem p.lhs.symbol).firstSet.toFinset) := by
  obtain ⟨g1, g2, g3, h⟩ := trace_exists gc
  have hmap : (removeAllEpsilon (buildPredictSet g3)).pl.map (fun p => p.lhs.symbol)
      = gc.pl.map (fun p => p.lhs.symbol) :=
    forall₂_map_eq (fun q => q.lhs.symbol) (fun p => p.lhs.symbol)
      (fun p q (hab : SameRule p q) => by show q.lhs.symbol = p.lhs.symbol; rw [hab.1])
      h.final_pl_entry
  have main : ∀ A ∈ (removeAllEpsilon (buildPredictSet g3)).pl.map (fun p => p.lhs.symbol),
      ∀ t, t ∈ ((removeAllEpsilon (buildPredictSet g3)).st.mem A).firstSet ↔
        ∃ p ∈ (removeAllEpsilon (buildPredictSet g3)).pl, p.lhs.symbol = A ∧
          t ∈ p.rhs.firstSet := by
    intro A hAl t
    rw [hmap] at hAl
    have hlt : A < gc.st.brk := by
      obtain ⟨p, hp, rfl⟩ := List.mem_map.1 hAl
      exact hA _ (mem_symbols_of_lhs hp)
    rw [h.final_first hlt t, h.first_exact hI hlhs hAl t]
    constructor
    · rintro ⟨⟨p1, hp1, rfl, hin⟩, hne⟩
      rw [← h.pl3_eq] at hp1
      obtain ⟨p, hp, -, hl, -, -, hf, -⟩ := final_pl_left g3 hp1
      refine ⟨p, hp, by rw [hl]; rfl, ?_⟩
      rw [hf, mem_buildPredictSetOne_firstSet, h.inv3.only.inFirstOf]
      exact ⟨hin, hne hAl⟩
    · rintro ⟨p, hp, rfl, ht⟩
      obtain ⟨p3, hp3, -, hl, -, -, hf, -⟩ := final_pl g3 hp
      rw [hf, mem_buildPredictSetOne_firstSet, h.inv3.only.inFirstOf] at ht
      rw [h.pl3_eq] at hp3
      exact ⟨⟨p3, hp3, by rw [hl]; rfl, ht.1⟩, fun _ => ht.2⟩
  refine ⟨_, h.parsed, main, ?_⟩
  intro p hp t ht
  rw [SymbolSet.mem_toFinset] at ht ⊢
  exact (main _ (List.mem_map.2 ⟨p, hp, rfl⟩) t).2 ⟨p, hp, rfl, ht⟩

theorem first_is_union_of_rhs_first_witness :
    grammarS1.Allocated ∧ grammarS1.Interned ∧
    (∀ p ∈ grammarS1.pl, (grammarS1.st.mem p.lhs.symbol).isTerminal = false) ∧
    ∃ g, Parsed grammarS1 g ∧
      (∀ A ∈ g.pl.map (fun p => p.lhs.symbol), ∀ t,
        t ∈ (g.st.mem A).firstSet ↔ ∃ p ∈ g.pl, p.lhs.symbol = A ∧ t ∈ p.rhs.firstSet) ∧
      (∀ p ∈ g.pl, p.rhs.firstSet.toFinset ⊆ (g.st.mem p.lhs.symbol).firstSet.toFinset) :=
  ⟨by decide, by decide, by decide,
    first_is_union_of_rhs_first grammarS1 (by decide) (by decide) (by decide)⟩

/-! ## The order of the productions -/

theorem SymbolTable.ext_mem {a b : SymbolTable} (h1 : a.table_ = b.table_)
    (h2 : a.alien_ = b.alien_) (h3 : a.brk = b.brk) (h4 : ∀ X, a.mem X = b.mem X) : a = b := by
  cases a with
  | mk t1 a1 m1 b1 =>
  cases b with
  | mk t2 a2 m2 b2 =>
  simp only at h1 h2 h3 h4
  subst h1 h2 h3
  have : m1 = m2 := funext h4
  subst this
  rfl

theorem Symbol.ext_fields {a b : Symbol} (h1 : a.name = b.name) (h2 : a.type = b.type)
    (h3 : a.isNillable = b.isNillable) (h4 : a.firstSet = b.firstSet)
    (h5 : a.followSet = b.followSet) : a = b := by
  cases a
  cases b
  simp only at h1 h2 h3 h4 h5
  subst h1 h2 h3 h4 h5
  rfl

/-- Every production of `ps` has its left-hand side and its right-hand symbols in common with
a production of `qs`. -/
def RulesOf (ps qs : ProductionList) : Prop :=
  ∀ p ∈ ps, ∃ q ∈ qs, SameRule p q

theorem RulesOf.of_perm {ps qs : ProductionList} (h : ps.Perm qs) : RulesOf ps qs :=
  fun p hp => ⟨p, h.mem_iff.1 hp, rfl, rfl⟩

theorem RulesOf.of_same {ps qs : ProductionList} (h : List.Forall₂ SameRule ps qs) :
    RulesOf ps qs ∧ RulesOf qs ps :=
  ⟨fun p hp => forall₂_mem_left h p hp,
    fun q hq => by
      obtain ⟨p, hp, hpq⟩ := forall₂_mem_right h q hq
      exact ⟨p, hp, hpq.1.symm, hpq.2.symm⟩⟩

theorem RulesOf.rules_trans {ps qs rs : ProductionList} (h1 : RulesOf ps qs)
    (h2 : RulesOf qs rs) : RulesOf ps rs := by
  intro p hp
  obtain ⟨q, hq, hpq⟩ := h1 p hp
  obtain ⟨r, hr, hqr⟩ := h2 q hq
  exact ⟨r, hr, hqr.1.trans hpq.1, hqr.2.trans hpq.2⟩

theorem RulesOf.lhs_mem {ps qs : ProductionList} (h : RulesOf ps qs) {X : SymbolPtr}
    (hX : X ∈ ps.map (fun p => p.lhs.symbol)) : X ∈ qs.map (fun p => p.lhs.symbol) := by
  obtain ⟨p, hp, rfl⟩ := List.mem_map.1 hX
  obtain ⟨q, hq, hpq⟩ := h p hp
  exact List.mem_map.2 ⟨q, hq, by rw [hpq.1]⟩

theorem Trace.same1 {gc g1 g2 g3 : GrammarContext} (h : Trace gc g1 g2 g3) :
    List.Forall₂ SameRule gc.pl g1.pl :=
  List.Forall₂.imp (fun _ _ hab => ⟨hab.1.2.1, hab.1.2.2.1⟩) h.pl1

theorem FollowOnly.follow_symm {st st' : SymbolTable} (h : FollowOnly st st') :
    FollowOnly st' st := by
  refine ⟨h.1.symm, h.2.1.symm, h.2.2.1.symm, fun X => ?_⟩
  obtain ⟨s, hs⟩ := h.2.2.2 X
  exact ⟨(st.mem X).followSet, by rw [hs]⟩

/-- The nullable flags that `initEPS` leaves for the productions of `gc` are among those it
leaves for a grammar context with the same memory whose productions include those of
`gc`. -/
theorem Trace.flags_le {gc g1 g2 g3 gc' g1' g2' g3' : GrammarContext}
    (h : Trace gc g1 g2 g3) (h' : Trace gc' g1' g2' g3') (hst : gc'.st = gc.st)
    (hr : RulesOf gc.pl gc'.pl) (X : SymbolPtr)
    (hX : (g1.st.mem X).isNillable = true) : (g1'.st.mem X).isNillable = true := by
  refine h.least1 (fun X => (g1'.st.mem X).isNillable = true) ?_ ?_ X hX
  · intro p hp hY
    obtain ⟨q, hq, hl, hs⟩ := hr p hp
    have := h'.closed1 q hq
    rw [hl, hs] at this
    apply this
    rw [isEPS_iff]
    intro x hx
    simp only [countsAsEmpty, Bool.or_eq_true, Symbol.isTerminalEpsilon]
    rw [h'.flags.flags_type, hst]
    exact hY x hx
  · intro X hX
    apply h'.flags.flags_mono
    rw [hst]
    exact hX

theorem Trace.st1_eq {gc g1 g2 g3 gc' g1' g2' g3' : GrammarContext}
    (h : Trace gc g1 g2 g3) (h' : Trace gc' g1' g2' g3') (hst : gc'.st = gc.st)
    (hr : RulesOf gc.pl gc'.pl) (hr' : RulesOf gc'.pl gc.pl) : g1'.st = g1.st := by
  apply SymbolTable.ext_mem
  · rw [h'.flags.1, h.flags.1, hst]
  · rw [h'.flags.2.1, h.flags.2.1, hst]
  · rw [h'.flags.2.2.1, h.flags.2.2.1, hst]
  · intro X
    have hflag : (g1'.st.mem X).isNillable = (g1.st.mem X).isNillable := by
      apply Bool.eq_iff_iff.2
      exact ⟨h'.flags_le h hst.symm hr' X, h.flags_le h' hst hr X⟩
    apply Symbol.ext_fields
    · rw [h'.flags.flags_name, h.flags.flags_name, hst]
    · rw [h'.flags.flags_type, h.flags.flags_type, hst]
    · exact hflag
    · rw [h'.flags.flags_firstSet, h.flags.flags_firstSet, hst]
    · rw [h'.flags.flags_followSet, h.flags.flags_followSet, hst]

theorem Trace.first_le {gc g1 g2 g3 gc' g1' g2' g3' : GrammarContext}
    (h : Trace gc g1 g2 g3) (h' : Trace gc' g1' g2' g3') (hst : g1'.st = g1.st)
    (hr : RulesOf g1.pl g1'.pl) (X t : SymbolPtr)
    (ht : t ∈ (g2.st.mem X).firstSet) : t ∈ (g2'.st.mem X).firstSet := by
  have hinv' := h'.inv2
  rw [hst] at hinv'
  refine h.inv2.least (fun X t => t ∈ (g2'.st.mem X).firstSet) ?_ ?_ X t ht
  · intro p hp t hrule
    obtain ⟨q, hq, hl, hs⟩ := hr p hp
    have := h'.closed2 q hq t
    rw [hl, hs] at this
    apply this
    unfold InFirstOf
    rw [hinv'.only.ruleFirst]
    exact hrule
  · intro X t hX
    exact hinv'.mono X t hX

theorem Trace.st2_eq {gc g1 g2 g3 gc' g1' g2' g3' : GrammarContext}
    (h : Trace gc g1 g2 g3) (h' : Trace gc' g1' g2' g3') (hst : g1'.st = g1.st)
    (hr : RulesOf g1.pl g1'.pl) (hr' : RulesOf g1'.pl g1.pl) : g2'.st = g2.st := by
  apply SymbolTable.ext_mem
  · rw [h'.only2.1, h.only2.1, hst]
  · rw [h'.only2.2.1, h.only2.2.1, hst]
  · rw [h'.only2.2.2.1, h.only2.2.2.1, hst]
  · intro X
    apply Symbol.ext_fields
    · rw [h'.only2.first_name, h.only2.first_name, hst]
    · rw [h'.only2.first_type, h.only2.first_type, hst]
    · rw [h'.only2.first_isNillable, h.only2.first_isNillable, hst]
    · apply SymbolSet.ext
      intro t
      exact ⟨h'.first_le h hst.symm hr' X t, h.first_le h' hst hr X t⟩
    · rw [h'.only2.first_followSet, h.only2.first_followSet, hst]

theorem Trace.follow_le {gc g1 g2 g3 gc' g1' g2' g3' : GrammarContext}
    (h : Trace gc g1 g2 g3) (h' : Trace gc' g1' g2' g3') (hst : g2'.st = g2.st)
    (hr : RulesOf g2.pl g2'.pl) (X t : SymbolPtr)
    (ht : t ∈ (g3.st.mem X).followSet) : t ∈ (g3'.st.mem X).followSet := by
  have hinv' := h'.inv3
  rw [hst] at hinv'
  refine h.inv3.least (fun X t => t ∈ (g3'.st.mem X).followSet) ?_ ?_ X t ht
  · intro p hp
    obtain ⟨q, hq, hl, hs⟩ := hr p hp
    have := (h'.closed3.closed_of_only hinv'.only.follow_symm) q hq
    rw [hl, hs] at this
    exact this
  · intro X t hX
    exact hinv'.mono X t hX

theorem Trace.st3_eq {gc g1 g2 g3 gc' g1' g2' g3' : GrammarContext}
    (h : Trace gc g1 g2 g3) (h' : Trace gc' g1' g2' g3') (hst : g2'.st = g2.st)
    (hr : RulesOf g2.pl g2'.pl) (hr' : RulesOf g2'.pl g2.pl) : g3'.st = g3.st := by
  apply SymbolTable.ext_mem
  · rw [h'.inv3.only.1, h.inv3.only.1, hst]
  · rw [h'.inv3.only.2.1, h.inv3.only.2.1, hst]
  · rw [h'.inv3.only.2.2.1, h.inv3.only.2.2.1, hst]
  · intro X
    apply Symbol.ext_fields
    · rw [h'.inv3.only.follow_name, h.inv3.only.follow_name, hst]
    · rw [h'.inv3.only.follow_type, h.inv3.only.follow_type, hst]
    · rw [h'.inv3.only.follow_isNillable, h.inv3.only.follow_isNillable, hst]
    · rw [h'.inv3.only.follow_firstSet, h.inv3.only.follow_firstSet, hst]
    · apply SymbolSet.ext
      intro t
      exact ⟨h'.follow_le h hst.symm hr' X t, h.follow_le h' hst hr X t⟩

/-- The memory after the last two stages of `parse` depends on the productions only through
the set of their left-hand sides. -/
theorem final_st_eq {g3 g3' : GrammarContext} (hst : g3'.st = g3.st)
    (hl : ∀ X, X ∈ g3'.pl.map (fun p => p.lhs.symbol) ↔ X ∈ g3.pl.map (fun p => p.lhs.symbol)) :
    (removeAllEpsilon (buildPredictSet g3')).st = (removeAllEpsilon (buildPredictSet g3)).st := by
  by_cases hne : g3.pl = []
  · have hne' : g3'.pl = [] := by
      cases hpl : g3'.pl with
      | nil => rfl
      | cons q qs =>
        have := (hl q.lhs.symbol).1 (by rw [hpl]; simp)
        rw [hne] at this
        simp at this
    rw [final_of_nil g3 hne, final_of_nil g3' hne', hst]
  · have hne' : g3'.pl ≠ [] := by
      intro hc
      cases hpl : g3.pl with
      | nil => exact hne hpl
      | cons q qs =>
        have := (hl q.lhs.symbol).2 (by rw [hpl]; simp)
        rw [hc] at this
        simp at this
    obtain ⟨t1, a1, b1, m1⟩ := removeAllEpsilon_mem (buildPredictSet g3)
      (by simpa [buildPredictSet] using hne)
    obtain ⟨t2, a2, b2, m2⟩ := removeAllEpsilon_mem (buildPredictSet g3')
      (by simpa [buildPredictSet] using hne')
    have e1 : (buildPredictSet g3).st = g3.st := rfl
    have e2 : (buildPredictSet g3').st = g3.st := hst
    have l1 : (buildPredictSet g3).pl.map (fun p => p.lhs.symbol)
        = g3.pl.map (fun p => p.lhs.symbol) := by
      simp only [buildPredictSet, List.map_map]
      rfl
    have l2 : (buildPredictSet g3').pl.map (fun p => p.lhs.symbol)
        = g3'.pl.map (fun p => p.lhs.symbol) := by
      simp only [buildPredictSet, List.map_map]
      rfl
    rw [e1] at t1 a1 b1 m1
    rw [e2] at t2 a2 b2 m2
    apply SymbolTable.ext_mem
    · rw [t1, t2]
    · rw [a1, a2]
    · rw [b1, b2]
    · intro X
      obtain ⟨n1, ty1, nl1, f1, fo1⟩ := m1 X
      obtain ⟨n2, ty2, nl2, f2, fo2⟩ := m2 X
      rw [l1] at f1 fo1
      rw [l2] at f2 fo2
      apply Symbol.ext_fields
      · rw [n1, n2]
      · rw [ty1, ty2]
      · rw [nl1, nl2]
      · apply SymbolSet.ext
        intro t
        rw [f1, f2, hl X]
      · apply SymbolSet.ext
        intro t
        rw [fo1, fo2, hl X]

/-- Claim C22: for every grammar context and every permutation of its production list,
`parse` returns on both, and it leaves every symbol with the same nullable flag, the same
FIRST set and the same FOLLOW set for the permuted list as for the original one. -/
theorem parse_independent_of_order (gc : GrammarContext) (pl' : ProductionList)
    (hperm : pl'.Perm gc.pl) :
    ∃ g g', Parsed gc g ∧ Parsed { pl := pl', st := gc.st } g' ∧
      ∀ X, (g'.st.mem X).isNillable = (g.st.mem X).isNillable ∧
        (g'.st.mem X).firstSet = (g.st.mem X).firstSet ∧
        (g'.st.mem X).followSet = (g.st.mem X).followSet := by
  obtain ⟨g1, g2, g3, h⟩ := trace_exists gc
  obtain ⟨g1', g2', g3', h'⟩ := trace_exists { pl := pl', st := gc.st }
  have r0 : RulesOf gc.pl pl' := RulesOf.of_perm hperm.symm
  have r0' : RulesOf pl' gc.pl := RulesOf.of_perm hperm
  have s1 : g1'.st = g1.st := h.st1_eq h' rfl r0 r0'
  have r1 : RulesOf g1.pl g1'.pl :=
    ((RulesOf.of_same h.same1).2.rules_trans r0).rules_trans (RulesOf.of_same h'.same1).1
  have r1' : RulesOf g1'.pl g1.pl :=
    ((RulesOf.of_same h'.same1).2.rules_trans r0').rules_trans (RulesOf.of_same h.same1).1
  have s2 : g2'.st = g2.st := h.st2_eq h' s1 r1 r1'
  have r2 : RulesOf g2.pl g2'.pl := by rw [h.pl2, h'.pl2]; exact r1
  have r2' : RulesOf g2'.pl g2.pl := by rw [h.pl2, h'.pl2]; exact r1'
  have s3 : g3'.st = g3.st := h.st3_eq h' s2 r2 r2'
  have r3 : RulesOf g3.pl g3'.pl := by rw [h.pl3, h'.pl3]; exact r2
  have r3' : RulesOf g3'.pl g3.pl := by rw [h.pl3, h'.pl3]; exact r2'
  have s4 := final_st_eq s3 (fun X => ⟨r3'.lhs_mem, r3.lhs_mem⟩)
  refine ⟨_, _, h.parsed, h'.parsed, fun X => ?_⟩
  rw [s4]
  exact ⟨rfl, rfl, rfl⟩

theorem parse_independent_of_order_witness :
    grammarS1.pl.reverse.Perm grammarS1.pl ∧
    ∃ g g', Parsed grammarS1 g ∧ Parsed { pl := grammarS1.pl.reverse, st := grammarS1.st } g' ∧
      ∀ X, (g'.st.mem X).isNillable = (g.st.mem X).isNillable ∧
        (g'.st.mem X).firstSet = (g.st.mem X).firstSet ∧
        (g'.st.mem X).followSet = (g.st.mem X).followSet :=
  ⟨List.reverse_perm _,
    parse_independent_of_order grammarS1 grammarS1.pl.reverse (List.reverse_perm _)⟩

/-! ## The passes of the three loops -/

/-- The state of a loop `do { body } while (hasChange)` after `n` passes from the state
`s`. -/
def passes {σ : Type} (body : σ → σ × Bool) (s : σ) : Nat → σ
  | 0 => s
  | n + 1 => passes body (body s).1 n

/-- From the state `s` the loop makes `n` passes that report a change and then a pass that
reports none, after which it exits. -/
def ExitsAfter {σ : Type} (body : σ → σ × Bool) (s : σ) (n : Nat) : Prop :=
  (∀ k < n, (body (passes body s k)).2 = true) ∧ (body (passes body s n)).2 = false

theorem passes_succ {σ : Type} (body : σ → σ × Bool) (s : σ) (n : Nat) :
    passes body s (n + 1) = (body (passes body s n)).1 := by
  induction n generalizing s with
  | zero => rfl
  | succ n ih =>
    rw [passes, ih]
    rfl

theorem passes_inv {σ : Type} {body : σ → σ × Bool} {I : σ → Prop}
    (hI : ∀ s, I s → I (body s).1) {s : σ} (hs : I s) (n : Nat) : I (passes body s n) := by
  induction n with
  | zero => exact hs
  | succ n ih =>
    rw [passes_succ]
    exact hI _ ih

theorem ExitsAfter.of_tail {σ : Type} {body : σ → σ × Bool} {s : σ} {n : Nat}
    (hc : (body s).2 = true) (h : ExitsAfter body (body s).1 n) : ExitsAfter body s (n + 1) := by
  refine ⟨fun k hk => ?_, h.2⟩
  cases k with
  | zero => exact hc
  | succ k => exact h.1 k (Nat.lt_of_succ_lt_succ hk)

theorem ExitsAfter.tail {σ : Type} {body : σ → σ × Bool} {s : σ} {n : Nat}
    (h : ExitsAfter body s (n + 1)) : ExitsAfter body (body s).1 n :=
  ⟨fun k hk => h.1 (k + 1) (Nat.succ_lt_succ hk), h.2⟩

/-- A loop that makes `n` passes with a change and then one without returns the state after
these `n + 1` passes, if it is allowed more than `n` passes. -/
theorem doWhile_of_exits {σ : Type} {body : σ → σ × Bool} :
    ∀ (n fuel : Nat) (s : σ), ExitsAfter body s n → n < fuel →
      doWhile body fuel s = some (passes body s (n + 1)) := by
  intro n
  induction n with
  | zero =>
    intro fuel s h hf
    cases fuel with
    | zero => omega
    | succ f =>
      have h2 : (body s).2 = false := h.2
      rw [doWhile, h2]
      rfl
  | succ n ih =>
    intro fuel s h hf
    cases fuel with
    | zero => omega
    | succ f =>
      have h1 : (body s).2 = true := h.1 0 (Nat.succ_pos n)
      rw [doWhile, h1]
      exact ih f _ h.tail (Nat.lt_of_succ_lt_succ hf)

/-- A loop whose passes with a change decrease a measure exits, after at most as many
passes with a change as the measure counts at the start. -/
theorem exits_of_measure {σ : Type} {body : σ → σ × Bool} {I : σ → Prop} (μ : σ → Nat)
    (hI : ∀ s, I s → I (body s).1)
    (hμ : ∀ s, I s → (body s).2 = true → μ (body s).1 < μ s) :
    ∀ (m : Nat) (s : σ), I s → μ s ≤ m → ∃ n, n ≤ μ s ∧ ExitsAfter body s n := by
  intro m
  induction m with
  | zero =>
    intro s hs hm
    refine ⟨0, Nat.zero_le _, fun k hk => absurd hk (Nat.not_lt_zero k), ?_⟩
    by_contra hc
    have := hμ s hs (by simpa using hc)
    omega
  | succ m ih =>
    intro s hs hm
    by_cases hc : (body s).2 = true
    · have hlt := hμ s hs hc
      obtain ⟨n, hn, hex⟩ := ih (body s).1 (hI s hs) (by omega)
      exact ⟨n + 1, by omega, ExitsAfter.of_tail hc hex⟩
    · exact ⟨0, Nat.zero_le _, fun k hk => absurd hk (Nat.not_lt_zero k), by simpa using hc⟩

theorem initEPSFor_flag_cases (ps : ProductionList) (st : SymbolTable) (eps : SymbolSet)
    (X : SymbolPtr) (h : ((initEPSFor ps st eps).2.1.mem X).isNillable = true) :
    (st.mem X).isNillable = true ∨ X ∈ (initEPSFor ps st eps).2.2.1 := by
  induction ps generalizing st eps with
  | nil => exact Or.inl h
  | cons p ps ih =>
    rw [initEPSFor] at h ⊢
    split_ifs at h ⊢ with hp
    · rcases ih _ _ h with h1 | h1
      · simp only [SymbolTable.setNillable, SymbolTable.modify_mem] at h1
        split_ifs at h1 with hX
        · right
          exact (initEPSFor_eps _ _ _ X).1 (SymbolSet.mem_insert.2 (Or.inl hX))
        · exact Or.inl h1
      · exact Or.inr h1
    · exact ih _ _ h

theorem initEPS_passes_flag (gc : GrammarContext) (X : SymbolPtr) (k : Nat)
    (h : ((passes initEPSBody (gc, ∅) k).1.st.mem X).isNillable = true) :
    (gc.st.mem X).isNillable = true ∨ X ∈ (passes initEPSBody (gc, ∅) k).2 := by
  induction k with
  | zero => exact Or.inl h
  | succ k ih =>
    rw [passes_succ] at h ⊢
    rcases initEPSFor_flag_cases _ _ _ X h with h1 | h1
    · exact (ih h1).imp id (fun h2 => (initEPSFor_eps _ _ _ X).1 h2)
    · exact Or.inr h1

/-- Claim C21, as far as the code has it, and the input on which it fails.

* `initEPS` makes some number `n` of passes that report a change and then one that reports
  none, and returns the state after these passes; `n` is at most the number of distinct
  left-hand sides.  A pass that reports a change strictly enlarges the set `eps` of the
  left-hand sides found nullable, which stays among the left-hand sides; when no symbol of
  the context has the nullable flag at entry, `eps` holds exactly the symbols of the context
  whose flag is set.
* `buildFirstSet` does the same: a pass that reports a change shrinks no FIRST set and
  strictly enlarges that of some symbol of the productions, and the sets of the symbols of
  the productions stay within the finite set of what the FIRST sets of these symbols hold
  when the loop starts; on a context whose symbols are interned that finite set lies within
  the symbols of the productions.
* `buildFollowSet` does the same on a grammar context each of whose productions has a
  right-hand symbol: every pass is completed, the loop makes some number of passes that
  report a change and then one that reports none, and returns the state after these
  passes.  A pass that is completed and reports a change shrinks no FOLLOW set and strictly
  enlarges that of some symbol of the productions, and the sets stay within the finite set
  of what the FIRST and FOLLOW sets of the symbols of the productions hold when the loop
  starts, which lies within every set that holds these.  On such a grammar context `parse`
  returns.
* On a grammar context with a production without right-hand symbols no pass of the loop of
  `buildFollowSet` is completed, whatever the memory: the first inner loop forms `end() - 1`
  on an empty vector.  Neither `buildFollowSet` nor `parse` on a new analyzer has a result.
  The grammar `S -> a`, `B ->` is such a context; scenario S1 is one of the others. -/
theorem fixpoint_loops_terminate_unless_rhs_empty (gc : GrammarContext) :
    (∃ n, n ≤ (gc.pl.map (fun p => p.lhs.symbol)).toFinset.card ∧
      ExitsAfter initEPSBody (gc, ∅) n ∧
      initEPS gc = some (passes initEPSBody (gc, ∅) (n + 1)).1) ∧
    (∀ s, (initEPSBody s).2 = true → s.2.toFinset ⊂ (initEPSBody s).1.2.toFinset) ∧
    (∀ k, (passes initEPSBody (gc, ∅) k).2.toFinset ⊆
      (gc.pl.map (fun p => p.lhs.symbol)).toFinset) ∧
    (gc.FlagsClear → ∀ k, ∀ X ∈ gc.symbols,
      (((passes initEPSBody (gc, ∅) k).1.st.mem X).isNillable = true ↔
        X ∈ (passes initEPSBody (gc, ∅) k).2)) ∧
    (∃ n, ExitsAfter (buildFirstSetFor gc.pl) (buildFirstSetInit gc.st.table_ gc.st) n ∧
      buildFirstSet gc = some
        { gc with
          st := passes (buildFirstSetFor gc.pl) (buildFirstSetInit gc.st.table_ gc.st)
            (n + 1) }) ∧
    (∀ st, (buildFirstSetFor gc.pl st).2 = true →
      (∀ X, (st.mem X).firstSet.toFinset ⊆
        ((buildFirstSetFor gc.pl st).1.mem X).firstSet.toFinset) ∧
      ∃ X ∈ gc.pl.map (fun p => p.lhs.symbol), (st.mem X).firstSet.toFinset ⊂
        ((buildFirstSetFor gc.pl st).1.mem X).firstSet.toFinset) ∧
    (∀ k, ∀ X ∈ symbolOccurrences gc.pl,
      ((passes (buildFirstSetFor gc.pl) (buildFirstSetInit gc.st.table_ gc.st) k).mem X
        ).firstSet.toFinset ⊆
        unionOver (fun Y => ((buildFirstSetInit gc.st.table_ gc.st).mem Y).firstSet)
          (symbolOccurrences gc.pl)) ∧
    (gc.Interned →
      unionOver (fun Y => ((buildFirstSetInit gc.st.table_ gc.st).mem Y).firstSet)
        (symbolOccurrences gc.pl) ⊆ (symbolOccurrences gc.pl).toFinset) ∧
    (gc.NonEmptyRhs →
      (∀ st, buildFollowSetBodyChecked gc.pl st = some (buildFollowSetBody gc.pl st)) ∧
      ∃ n, ExitsAfter (buildFollowSetBody gc.pl) gc.st n ∧
        buildFollowSetChecked gc = some
          { gc with st := passes (buildFollowSetBody gc.pl) gc.st (n + 1) }) ∧
    (∀ st r, buildFollowSetBodyChecked gc.pl st = some r → r.2 = true →
      (∀ X, (st.mem X).followSet.toFinset ⊆ (r.1.mem X).followSet.toFinset) ∧
      ∃ X ∈ symbolOccurrences gc.pl, (st.mem X).followSet.toFinset ⊂
        (r.1.mem X).followSet.toFinset) ∧
    (gc.NonEmptyRhs → ∀ k, ∀ X ∈ symbolOccurrences gc.pl,
      ((passes (buildFollowSetBody gc.pl) gc.st k).mem X).followSet.toFinset ⊆
        followUniverse gc.pl gc.st) ∧
    (∀ U : Finset SymbolPtr,
      (∀ X ∈ symbolOccurrences gc.pl,
        (gc.st.mem X).firstSet.toFinset ⊆ U ∧ (gc.st.mem X).followSet.toFinset ⊆ U) →
      followUniverse gc.pl gc.st ⊆ U) ∧
    (gc.NonEmptyRhs →
      ∃ g, (LL1Analyzer.new (some gc)).parseChecked
        = some (0, { gc_ := some g, isParsed_ := true })) ∧
    (¬ gc.NonEmptyRhs →
      (∀ st, buildFollowSetBodyChecked gc.pl st = none) ∧
      buildFollowSetChecked gc = none ∧
      (LL1Analyzer.new (some gc)).parseChecked = none) ∧
    (grammarS1.NonEmptyRhs ∧ (buildFollowSetChecked grammarS1).isSome = true) ∧
    ¬ grammarEmptyRhs.NonEmptyRhs ∧
    (buildFollowSetBodyChecked grammarEmptyRhs.pl grammarEmptyRhs.st).isNone = true ∧
    (buildFollowSetChecked grammarEmptyRhs).isNone = true := by
  have hI1 : ∀ s, InitEPSInv gc s → InitEPSInv gc (initEPSBody s).1 := fun s h => h.eps_step
  have hI2 : ∀ s, FirstInv gc.pl (buildFirstSetInit gc.st.table_ gc.st) s →
      FirstInv gc.pl (buildFirstSetInit gc.st.table_ gc.st) (buildFirstSetFor gc.pl s).1 :=
    fun s h => h.first_step
  have hI3 : ∀ s, FollowInv gc.pl gc.st s → FollowInv gc.pl gc.st (buildFollowSetBody gc.pl s).1 :=
    fun s h => h.follow_step
  refine ⟨?_, ?_, ?_, ?_, ?_, ?_, ?_, ?_, ?_, ?_, ?_, ?_, ?_, ?_, ⟨by decide, by decide⟩,
    by decide, by decide, by decide⟩
  · obtain ⟨n, hn, hex⟩ := exits_of_measure (initEPSMeasure gc) hI1
      (fun s h hc => h.eps_decreases hc) _ (gc, ∅) (InitEPSInv.eps_init gc) (le_refl _)
    have hcard : initEPSMeasure gc (gc, ∅) = (gc.pl.map (fun p => p.lhs.symbol)).toFinset.card := by
      unfold initEPSMeasure
      simp [SymbolSet.toFinset]
      rfl
    rw [hcard] at hn
    refine ⟨n, hn, hex, ?_⟩
    have hlen := List.toFinset_card_le (gc.pl.map (fun p => p.lhs.symbol))
    rw [List.length_map] at hlen
    unfold initEPS
    rw [doWhile_of_exits n _ _ hex (by omega)]
    rfl
  · intro s hc
    obtain ⟨X, hX, hn⟩ := initEPSFor_change s.1.pl s.1.st s.2 hc
    refine (Finset.ssubset_iff_of_subset ?_).2
      ⟨X, SymbolSet.mem_toFinset.2 hX, fun hc => hn (SymbolSet.mem_toFinset.1 hc)⟩
    intro Y hY
    exact SymbolSet.mem_toFinset.2
      ((initEPSFor_eps s.1.pl s.1.st s.2 Y).1 (SymbolSet.mem_toFinset.1 hY))
  · intro k
    exact (passes_inv hI1 (InitEPSInv.eps_init gc) k).eps_subset
  · intro hF k X hX
    constructor
    · intro h
      rcases initEPS_passes_flag gc X k h with h1 | h1
      · have := hF X hX
        rw [this] at h1
        cases h1
      · exact h1
    · exact (passes_inv hI1 (InitEPSInv.eps_init gc) k).eps_flag X
  · obtain ⟨m, hm, hex'⟩ := exits_of_measure
      (firstMeasure gc.pl (buildFirstSetInit gc.st.table_ gc.st)) hI2
      (fun s h hc => h.first_decreases hc) _ _ (FirstInv.first_init gc.pl _) (le_refl _)
    refine ⟨m, hex', ?_⟩
    unfold buildFirstSet
    simp only
    rw [doWhile_of_exits m _ _ hex'
      (Nat.lt_of_le_of_lt hm (firstMeasure_lt_fuel gc.pl _))]
    rfl
  · intro st hc
    refine ⟨fun X t ht => SymbolSet.mem_toFinset.2
      (buildFirstSetFor_mono gc.pl st X t (SymbolSet.mem_toFinset.1 ht)), ?_⟩
    obtain ⟨X, hX, t, ht, hn⟩ := buildFirstSetFor_change gc.pl st hc
    refine ⟨X, hX, (Finset.ssubset_iff_of_subset ?_).2
      ⟨t, SymbolSet.mem_toFinset.2 ht, fun hc => hn (SymbolSet.mem_toFinset.1 hc)⟩⟩
    intro u hu
    exact SymbolSet.mem_toFinset.2
      (buildFirstSetFor_mono gc.pl st X u (SymbolSet.mem_toFinset.1 hu))
  · intro k X hX
    exact (passes_inv hI2 (FirstInv.first_init gc.pl _) k).first_bounded hX
  · intro hI t ht
    obtain ⟨Y, hY, hJ⟩ := mem_unionOver.1 ht
    rw [buildFirstSetInit_firstSet, if_pos (hI Y hY)] at hJ
    unfold firstSeed at hJ
    split_ifs at hJ
    · rcases SymbolSet.mem_insert.1 hJ with h1 | h1
      · rw [h1]
        exact List.mem_toFinset.2 hY
      · exact absurd h1 (SymbolSet.not_mem_empty t)
    · exact absurd hJ (SymbolSet.not_mem_empty t)
  · intro hne
    refine ⟨fun st => buildFollowSetForChecked_some gc.pl (st, false) hne, ?_⟩
    obtain ⟨m, hm, hex'⟩ := exits_of_measure (followMeasure gc.pl gc.st) hI3
      (fun s h hc => h.follow_decreases hc) _ _ (FollowInv.follow_init gc.pl _) (le_refl _)
    refine ⟨m, hex', ?_⟩
    rw [buildFollowSetChecked_eq gc hne]
    unfold buildFollowSet
    rw [doWhile_of_exits m _ _ hex'
      (Nat.lt_of_le_of_lt hm (followMeasure_lt_fuel gc.pl _))]
    rfl
  · intro st r hr hc
    have hr1 := buildFollowSetForChecked_eq_some gc.pl (st, false) r hr
    subst hr1
    refine ⟨fun X t ht => SymbolSet.mem_toFinset.2
      (buildFollowSetFor_mono gc.pl (st, false) X t (SymbolSet.mem_toFinset.1 ht)), ?_⟩
    rcases buildFollowSetFor_change gc.pl (st, false) hc with h1 | ⟨X, hX, t, ht, hn⟩
    · cases h1
    · refine ⟨X, hX, (Finset.ssubset_iff_of_subset ?_).2
        ⟨t, SymbolSet.mem_toFinset.2 ht, fun hc => hn (SymbolSet.mem_toFinset.1 hc)⟩⟩
      intro u hu
      exact SymbolSet.mem_toFinset.2
        (buildFollowSetFor_mono gc.pl (st, false) X u (SymbolSet.mem_toFinset.1 hu))
  · intro _ k X hX
    exact (passes_inv hI3 (FollowInv.follow_init gc.pl _) k).follow_bounded hX
  · intro U hU t ht
    unfold followUniverse at ht
    rcases Finset.mem_union.1 ht with h1 | h1
    · obtain ⟨Y, hY, hJ⟩ := mem_unionOver.1 h1
      exact (hU Y hY).1 (SymbolSet.mem_toFinset.2 hJ)
    · obtain ⟨Y, hY, hJ⟩ := mem_unionOver.1 h1
      exact (hU Y hY).2 (SymbolSet.mem_toFinset.2 hJ)
  · intro hne
    obtain ⟨g, hg⟩ := parse_terminates gc
    refine ⟨g, ?_⟩
    rw [parseChecked_eq_parse _ (fun gc1 h1 _ => by
      simp only [LL1Analyzer.new, Option.some.injEq] at h1
      rw [← h1]
      exact hne)]
    exact hg
  · intro hne
    obtain ⟨g2, -, -, h3⟩ := parseChecked_undefined gc hne
    refine ⟨fun st => buildFollowSetForChecked_none gc.pl (st, false) ?_,
      buildFollowSetChecked_none gc hne, h3⟩
    unfold GrammarContext.NonEmptyRhs at hne
    push_neg at hne
    exact hne

/-! ## The FIRST set and the nullable flag of a right-hand side -/

namespace LRxTable

/-- Address of a `State` object (`using StatePtr = LRxStateFamily::StatePtr`). -/
abbrev StatePtr := Nat

/-- The struct `LRxTable::Cell`. -/
structure Cell where
  state : StatePtr
  symbol : SymbolPtr
deriving DecidableEq

namespace Cell

/-- The operator `Cell::operator<`. -/
def lt (this other : Cell) : Bool :=
  if this.state < other.state then true
  else
    if this.symbol < other.symbol then true
    else false

/-- The operator `Cell::operator==`. -/
def eq (this other : Cell) : Bool :=
  if this.state = other.state ∧ this.symbol = other.symbol then true
  else false

end Cell

/-- The enum `LRxTable::Action::Type`. -/
inductive ActionType where
  | Error
  | Goto
  | Reduce
  | Accept
deriving DecidableEq

/-- The value of an `Action::Type` as an `int`. -/
def ActionType.toInt : ActionType → Int
  | .Error => 0
  | .Goto => 1
  | .Reduce => 2
  | .Accept => 3

/-- The struct `LRxTable::Action`. -/
structure Action where
  type : ActionType
  gotoState : StatePtr
  reducePid : Int
deriving DecidableEq

namespace Action

/-- The operator `Action::operator<`. -/
def lt (this other : Action) : Bool :=
  if this.type.toInt < other.type.toInt then true
  else
    if this.gotoState < other.gotoState then true
    else
      if this.reducePid < other.reducePid then true
      else false

/-- The operator `Action::operator==`. -/
def eq (this other : Action) : Bool :=
  decide (this.type = other.type) && decide (this.gotoState = other.gotoState) &&
    decide (this.reducePid = other.reducePid)

end Action

end LRxTable

/-- Claim C33, the code at the failing inputs.  Both operators are irreflexive, and `==` is
equality of all fields.  But `Cell::operator<` answers true when the state is smaller or
the symbol is smaller: for the cells (state 1, symbol 2) and (state 2, symbol 1) it answers
true in both directions, though the cells are not equal.  So it is not asymmetric, two of
`a < b`, `a == b`, `b < a` hold at once, and it is not transitive either, since (2, 1) is
below (1, 2), which is below (2, 1), and (2, 1) is not below itself.  `Action::operator<`
does the same with its three fields: the actions (Error, state 1, pid 0) and
(Goto, state 0, pid 0) are each below the other. -/
theorem lr_table_keys_are_not_ordered :
    (∀ a : LRxTable.Cell, LRxTable.Cell.lt a a = false) ∧
    (∀ a b : LRxTable.Cell, LRxTable.Cell.eq a b = true ↔ a = b) ∧
    (∀ a : LRxTable.Action, LRxTable.Action.lt a a = false) ∧
    (∀ a b : LRxTable.Action, LRxTable.Action.eq a b = true ↔ a = b) ∧
    LRxTable.Cell.lt ⟨1, 2⟩ ⟨2, 1⟩ = true ∧
    LRxTable.Cell.lt ⟨2, 1⟩ ⟨1, 2⟩ = true ∧
    LRxTable.Cell.eq ⟨1, 2⟩ ⟨2, 1⟩ = false ∧
    LRxTable.Cell.lt ⟨2, 1⟩ ⟨2, 1⟩ = false ∧
    LRxTable.Action.lt ⟨.Error, 1, 0⟩ ⟨.Goto, 0, 0⟩ = true ∧
    LRxTable.Action.lt ⟨.Goto, 0, 0⟩ ⟨.Error, 1, 0⟩ = true ∧
    LRxTable.Action.eq ⟨.Error, 1, 0⟩ ⟨.Goto, 0, 0⟩ = false ∧
    LRxTable.Action.lt ⟨.Goto, 0, 0⟩ ⟨.Goto, 0, 0⟩ = false := by
  refine ⟨?_, ?_, ?_, ?_, by decide, by decide, by decide, by decide, by decide, by decide,
    by decide, by decide⟩
  · intro a
    simp [LRxTable.Cell.lt]
  · intro a b
    cases a
    cases b
    simp [LRxTable.Cell.eq]
  · intro a
    simp [LRxTable.Action.lt]
  · intro a b
    cases a
    cases b
    simp [LRxTable.Action.eq, and_assoc]

/-! ## The width of the left-hand sides -/

namespace ProductionTable

/-- The function `ProductionTable::getMaxWidthOfNt` on the productions `pl_`.  `max` is the
value that the static local variable of the function has when the call begins; the result
is the value returned, which is also the value that the variable keeps.  The `size()` of a
name is the number of its bytes. -/
def getMaxWidthOfNt (st : SymbolTable) (pl_ : ProductionList) (max : Nat) : Nat :=
  if max = 0 then
    pl_.foldl
      (fun max p =>
        let size := (st.mem p.lhs.symbol).name.utf8ByteSize
        if max < size then size else max)
      max
  else max

/-- The number of spaces that `toString` asks for when `alignPointer` is set, the value of
`max - p.lhs.symbol->name().size()` in `std::size_t`, where `max` is what
`getMaxWidthOfNt` returns. -/
def padding (st : SymbolTable) (pl_ : ProductionList) (max : Nat) (p : Production) : Nat :=
  (getMaxWidthOfNt st pl_ max + 2 ^ 64 - (st.mem p.lhs.symbol).name.utf8ByteSize % 2 ^ 64) % 2 ^ 64

/-- The function `ProductionTable::toString`, with `max` as in `getMaxWidthOfNt`. -/
def toString (st : SymbolTable) (pl_ : ProductionList) (max : Nat) (p : Production)
    (alignPointer : Bool) : String :=
  let str := (st.mem p.lhs.symbol).name
  let str := if alignPointer then str ++ String.mk (List.replicate (padding st pl_ max p) ' ')
    else str
  let str := str ++ " ->"
  p.rhs.symbolList.foldl (fun str symbol => str ++ " " ++ (st.mem symbol).name) str

end ProductionTable

/-- The grammar `S -> a`. -/
def grammarShortName : GrammarContext :=
  frontend.buildContext [("S", ["a"])]

/-- The grammar `Expr -> a`. -/
def grammarLongName : GrammarContext :=
  frontend.buildContext [("Expr", ["a"])]

theorem getMaxWidthOfNt_foldl (st : SymbolTable) (pl : ProductionList) (m : Nat) :
    pl.foldl
      (fun max p =>
        let size := (st.mem p.lhs.symbol).name.utf8ByteSize
        if max < size then size else max) m
      = max m ((pl.map (fun p => (st.mem p.lhs.symbol).name.utf8ByteSize)).foldr max 0) := by
  induction pl generalizing m with
  | nil => simp
  | cons p ps ih =>
    rw [List.foldl_cons, ih, List.map_cons, List.foldr_cons]
    simp only
    have hstep : (if m < (st.mem p.lhs.symbol).name.utf8ByteSize then (st.mem p.lhs.symbol).name.utf8ByteSize
        else m) = max m (st.mem p.lhs.symbol).name.utf8ByteSize := by
      split_ifs with hlt
      · exact (max_eq_right (Nat.le_of_lt hlt)).symm
      · exact (max_eq_left (Nat.le_of_not_lt hlt)).symm
    rw [hstep, max_assoc]

/-- Claim C34, the code at the failing input.  On the first call in a program, when the
static variable is 0, `getMaxWidthOfNt` returns the greatest length, in bytes, of a left-hand
name of its own table, and no padding is negative.  But the variable is shared by all tables: after
a call on the table of `S -> a`, which leaves 1 in it, the call on the table of `Expr -> a`
returns 1, not 4, and `toString` asks for 1 - 4 spaces, which is 18446744073709551613 in
`std::size_t`. -/
theorem max_width_is_shared_by_all_tables :
    (∀ (st : SymbolTable) (pl : ProductionList),
      ProductionTable.getMaxWidthOfNt st pl 0
        = (pl.map (fun p => (st.mem p.lhs.symbol).name.utf8ByteSize)).foldr max 0) ∧
    (∀ (st : SymbolTable) (pl : ProductionList), ∀ p ∈ pl,
      (st.mem p.lhs.symbol).name.utf8ByteSize ≤ ProductionTable.getMaxWidthOfNt st pl 0) ∧
    grammarShortName.pl.map (fun p => (grammarShortName.st.mem p.lhs.symbol).name) = ["S"] ∧
    grammarLongName.pl.map (fun p => (grammarLongName.st.mem p.lhs.symbol).name) = ["Expr"] ∧
    ProductionTable.getMaxWidthOfNt grammarShortName.st grammarShortName.pl 0 = 1 ∧
    ProductionTable.getMaxWidthOfNt grammarLongName.st grammarLongName.pl 1 = 1 ∧
    ProductionTable.getMaxWidthOfNt grammarLongName.st grammarLongName.pl 0 = 4 ∧
    grammarLongName.pl.map (ProductionTable.padding grammarLongName.st grammarLongName.pl 1)
      = [18446744073709551613] ∧
    grammarLongName.pl.map (ProductionTable.padding grammarLongName.st grammarLongName.pl 0)
      = [0] := by
  have h1 : ∀ (st : SymbolTable) (pl : ProductionList),
      ProductionTable.getMaxWidthOfNt st pl 0
        = (pl.map (fun p => (st.mem p.lhs.symbol).name.utf8ByteSize)).foldr max 0 := by
    intro st pl
    unfold ProductionTable.getMaxWidthOfNt
    rw [if_pos rfl, getMaxWidthOfNt_foldl]
    exact Nat.zero_max _
  refine ⟨h1, ?_, by decide, by decide, by decide, by decide, by decide, by decide,
    by decide⟩
  intro st pl p hp
  rw [h1]
  have : ∀ (l : List Nat) (x : Nat), x ∈ l → x ≤ l.foldr max 0 := by
    intro l x hx
    induction l with
    | nil => cases hx
    | cons y ys ih =>
      rw [List.foldr_cons]
      rcases List.mem_cons.1 hx with h | h
      · rw [h]
        exact le_max_left _ _
      · exact (ih h).trans (le_max_right _ _)
  exact this _ _ (List.mem_map.2 ⟨p, hp, rfl⟩)

/-! ## The text of a table cell

The function `html::formatCell` of `src/src/BaseType.h`; a `std::string` is the string of
its characters. -/

namespace html

/-- The function `html::formatCell`. -/
def formatCell (text : String) : String :=
  text.data.foldl
    (fun str c =>
      if c = ' ' then str ++ "&nbsp;"
      else if c = '<' then str ++ "&lt;"
      else if c = '>' then str ++ "&gt;"
      else if c = '&' then str ++ "&amp;"
      else if c = '"' then str ++ "&quot;"
      else if c = '\'' then str ++ "&apos;"
      else str.push c)
    ""

/-- The six entities that `formatCell` writes, each without its first character `&`, and the
character that each stands for. -/
def entities : List (List Char × Char) :=
  [("nbsp;".data, ' '), ("lt;".data, '<'), ("gt;".data, '>'), ("amp;".data, '&'),
    ("quot;".data, '"'), ("apos;".data, '\'')]

/-- Decoding of the six entities in a text, read from the left: an entity becomes the
character it stands for, every other character stays.  `skip` is the number of characters
still to pass over, those of the entity just decoded. -/
def decodeFrom : Nat → List Char → List Char
  | _, [] => []
  | skip + 1, _ :: rest => decodeFrom skip rest
  | 0, c :: rest =>
    if c = '&' then
      match entities.find? (fun entity => entity.1.isPrefixOf rest) with
      | some entity => entity.2 :: decodeFrom entity.1.length rest
      | none => c :: decodeFrom 0 rest
    else c :: decodeFrom 0 rest

/-- Decoding of the six entities in a text. -/
def decode (text : String) : String := ⟨decodeFrom 0 text.data⟩

end html

/-- What `formatCell` writes for one character. -/
def html.escape (c : Char) : List Char :=
  if c = ' ' then "&nbsp;".data
  else if c = '<' then "&lt;".data
  else if c = '>' then "&gt;".data
  else if c = '&' then "&amp;".data
  else if c = '"' then "&quot;".data
  else if c = '\'' then "&apos;".data
  else [c]

theorem formatCell_foldl (l : List Char) (acc : String) :
    (l.foldl
      (fun str c =>
        if c = ' ' then str ++ "&nbsp;"
        else if c = '<' then str ++ "&lt;"
        else if c = '>' then str ++ "&gt;"
        else if c = '&' then str ++ "&amp;"
        else if c = '"' then str ++ "&quot;"
        else if c = '\'' then str ++ "&apos;"
        else str.push c)
      acc).data = acc.data ++ l.flatMap html.escape := by
  induction l generalizing acc with
  | nil => simp
  | cons c rest ih =>
    rw [List.foldl_cons, ih, List.flatMap_cons]
    unfold html.escape
    split_ifs <;> simp [String.data_append, String.push]

theorem formatCell_data (text : String) :
    (html.formatCell text).data = text.data.flatMap html.escape := by
  unfold html.formatCell
  rw [formatCell_foldl]
  rfl

/-- What `formatCell` writes for a character: the character itself, which is none of the six
special ones, or `&` and then one of the six entities, which stands for the character. -/
theorem escape_cases (c : Char) :
    (html.escape c = [c] ∧ c ≠ ' ' ∧ c ≠ '<' ∧ c ≠ '>' ∧ c ≠ '&' ∧ c ≠ '"' ∧ c ≠ '\'') ∨
      ∃ entity ∈ html.entities, html.escape c = '&' :: entity.1 ∧ entity.2 = c ∧
        html.entities.find? (fun e => e.1.isPrefixOf entity.1) = some entity := by
  unfold html.escape
  split_ifs with h1 h2 h3 h4 h5 h6
  · right; exact ⟨("nbsp;".data, ' '), by decide, rfl, h1.symm, by decide⟩
  · right; exact ⟨("lt;".data, '<'), by decide, rfl, h2.symm, by decide⟩
  · right; exact ⟨("gt;".data, '>'), by decide, rfl, h3.symm, by decide⟩
  · right; exact ⟨("amp;".data, '&'), by decide, rfl, h4.symm, by decide⟩
  · right; exact ⟨("quot;".data, '"'), by decide, rfl, h5.symm, by decide⟩
  · right; exact ⟨("apos;".data, '\''), by decide, rfl, h6.symm, by decide⟩
  · left; exact ⟨rfl, h1, h2, h3, h4, h5, h6⟩

theorem find?_eq_of_unique {α : Type} (p : α → Bool) :
    ∀ (l : List α) (x : α), x ∈ l → p x = true → (∀ y ∈ l, p y = true → y = x) →
      l.find? p = some x := by
  intro l
  induction l with
  | nil => intro x hx; cases hx
  | cons a rest ih =>
    intro x hx hp huniq
    rw [List.find?_cons]
    by_cases ha : p a = true
    · rw [ha, huniq a (List.mem_cons_self _ _) ha]
    · have hax : a ≠ x := fun h => ha (h ▸ hp)
      have hx' : x ∈ rest := by
        rcases List.mem_cons.1 hx with h | h
        · exact absurd h.symm hax
        · exact h
      simp only [ha]
      exact ih x hx' hp (fun y hy => huniq y (List.mem_cons_of_mem _ hy))

theorem decodeFrom_skip (pre out : List Char) :
    html.decodeFrom pre.length (pre ++ out) = html.decodeFrom 0 out := by
  induction pre with
  | nil => rfl
  | cons a rest ih =>
    rw [List.length_cons, List.cons_append, html.decodeFrom]
    exact ih

theorem entities_prefix_free :
    ∀ e ∈ html.entities, ∀ e' ∈ html.entities, e.1 <+: e'.1 → e = e' := by
  decide

theorem entities_chars :
    ∀ e ∈ html.entities, ∀ c ∈ e.1,
      c ≠ ' ' ∧ c ≠ '<' ∧ c ≠ '>' ∧ c ≠ '&' ∧ c ≠ '"' ∧ c ≠ '\'' := by
  decide

theorem decodeFrom_escape (c : Char) (out : List Char) :
    html.decodeFrom 0 (html.escape c ++ out) = c :: html.decodeFrom 0 out := by
  rcases escape_cases c with ⟨h1, -, -, -, h5, -, -⟩ | ⟨entity, hmem, h1, h2, -⟩
  · rw [h1, List.singleton_append, html.decodeFrom, if_neg h5]
  · rw [h1, List.cons_append, html.decodeFrom, if_pos rfl]
    have hfind : html.entities.find? (fun e => e.1.isPrefixOf (entity.1 ++ out))
        = some entity := by
      apply find?_eq_of_unique _ _ _ hmem
      · simp
      · intro y hy hpre
        have hpre' : y.1 <+: entity.1 ++ out := by simpa using hpre
        rcases List.prefix_or_prefix_of_prefix hpre' (List.prefix_append entity.1 out) with h | h
        · exact entities_prefix_free y hy entity hmem h
        · exact (entities_prefix_free entity hmem y hy h).symm
    rw [hfind]
    simp only
    rw [decodeFrom_skip, h2]

theorem decodeFrom_flatMap (l : List Char) :
    html.decodeFrom 0 (l.flatMap html.escape) = l := by
  induction l with
  | nil => rfl
  | cons c rest ih => rw [List.flatMap_cons, decodeFrom_escape, ih]

theorem decode_formatCell (s : String) : html.decode (html.formatCell s) = s := by
  unfold html.decode
  rw [formatCell_data, decodeFrom_flatMap]

theorem append_eq_of_no_amp (name : List Char) (hname : ∀ c ∈ name, c ≠ '&') :
    ∀ (pre post r : List Char), name ++ r = pre ++ '&' :: post →
      ∃ pre2, pre = name ++ pre2 ∧ r = pre2 ++ '&' :: post := by
  induction name with
  | nil => intro pre post r h; exact ⟨pre, rfl, h⟩
  | cons a rest ih =>
    intro pre post r h
    cases pre with
    | nil =>
      rw [List.cons_append, List.nil_append] at h
      exact absurd (List.cons.inj h).1 (hname a (List.mem_cons_self _ _))
    | cons x pre1 =>
      rw [List.cons_append, List.cons_append] at h
      obtain ⟨hx, ht⟩ := List.cons.inj h
      obtain ⟨pre2, h1, h2⟩ := ih (fun c hc => hname c (List.mem_cons_of_mem _ hc)) pre1 post r ht
      exact ⟨pre2, by rw [hx, h1]; rfl, h2⟩

theorem amp_begins_entity (l : List Char) :
    ∀ (pre post : List Char), l.flatMap html.escape = pre ++ '&' :: post →
      ∃ entity ∈ html.entities, entity.1 <+: post := by
  induction l with
  | nil =>
    intro pre post h
    rw [List.flatMap_nil] at h
    exact absurd h (by simp)
  | cons c rest ih =>
    intro pre post h
    rw [List.flatMap_cons] at h
    rcases escape_cases c with ⟨h1, -, -, -, h5, -, -⟩ | ⟨entity, hmem, h1, -, -⟩
    · rw [h1] at h
      obtain ⟨pre2, -, h2⟩ := append_eq_of_no_amp [c]
        (fun x hx => by rw [List.mem_singleton.1 hx]; exact h5) pre post _ h
      exact ih pre2 post h2
    · rw [h1, List.cons_append] at h
      cases pre with
      | nil =>
        rw [List.nil_append] at h
        refine ⟨entity, hmem, ?_⟩
        rw [← (List.cons.inj h).2]
        exact List.prefix_append _ _
      | cons x pre1 =>
        rw [List.cons_append] at h
        obtain ⟨pre2, -, h2⟩ := append_eq_of_no_amp entity.1
          (fun x hx => (entities_chars entity hmem x hx).2.2.2.1) pre1 post _ (List.cons.inj h).2
        exact ih pre2 post h2

/-- Claim C35: for every string `s`, the text `formatCell(s)` has none of the characters
space, `<`, `>`, `"` and `'`; every `&` in it is followed by one of `nbsp;`, `lt;`, `gt;`,
`amp;`, `quot;`, `apos;`; and decoding the six entities in it gives `s` back.  So
`formatCell` gives different texts for different strings, and the text of two strings put
together is the two texts put together. -/
theorem formatCell_escapes (s : String) :
    (∀ c ∈ (html.formatCell s).data,
      c ≠ ' ' ∧ c ≠ '<' ∧ c ≠ '>' ∧ c ≠ '"' ∧ c ≠ '\'') ∧
    (∀ pre post : List Char, (html.formatCell s).data = pre ++ '&' :: post →
      ∃ entity ∈ html.entities, entity.1 <+: post) ∧
    html.decode (html.formatCell s) = s ∧
    (∀ t, html.formatCell s = html.formatCell t → s = t) ∧
    (∀ t, html.formatCell (s ++ t) = html.formatCell s ++ html.formatCell t) := by
  refine ⟨?_, ?_, decode_formatCell s, ?_, ?_⟩
  · intro c hc
    rw [formatCell_data, List.mem_flatMap] at hc
    obtain ⟨a, -, hca⟩ := hc
    rcases escape_cases a with ⟨h1, n1, n2, n3, -, n5, n6⟩ | ⟨entity, hmem, h1, -, -⟩
    · rw [h1, List.mem_singleton] at hca
      rw [hca]
      exact ⟨n1, n2, n3, n5, n6⟩
    · rw [h1] at hca
      rcases List.mem_cons.1 hca with h | h
      · rw [h]
        decide
      · obtain ⟨m1, m2, m3, -, m5, m6⟩ := entities_chars entity hmem c h
        exact ⟨m1, m2, m3, m5, m6⟩
  · intro pre post h
    rw [formatCell_data] at h
    exact amp_begins_entity _ pre post h
  · intro t h
    rw [← decode_formatCell s, h, decode_formatCell]
  · intro t
    apply String.ext
    rw [String.data_append, formatCell_data, formatCell_data, formatCell_data,
      String.data_append, List.flatMap_append]

theorem formatCell_escapes_witness :
    html.formatCell "a<b &c" = "a&lt;b&nbsp;&amp;c" ∧
    html.decode (html.formatCell "a<b &c") = "a<b &c" ∧
    html.decode "&lt;&amp;lt;" = "<&lt;" :=
  ⟨by decide, (formatCell_escapes "a<b &c").2.2.1, by decide⟩

end csa
